import Mathlib

/-!
# PowerDebug: the directory tree, the event loop and the panels

A shallow embedding of `tree.h` / `tree.c`, of `mainloop.c`, of the keyboard
handling and the row functions of `display.c`, and of the clock panel of
`clocks.c`.

* A C string is the list of its characters before the terminating NUL.
* A `struct tree *` is `Option Nat`: `none` is `NULL`, `some a` the node at
  address `a` of the heap.  `malloc` hands out the addresses `0, 1, 2, ...`
  in order; nothing is ever given back to it while a tree is built or read.
* The file system and the allocator are the environment `Sys`.
* Recursive C functions take a `fuel` argument bounding the depth of the
  call stack; the result `none` is "no result" (stack exhausted, or a step
  with undefined behaviour was reached).
* The event loop and the panels work on a `World`: the variables of
  `mainloop.c` and `display.c`, the interest list of the epoll instance, the
  heap blocks they allocate and the keystrokes to come; what the kernel, the
  allocator and curses decide is the environment `Env`.  Function pointers
  are addresses, resolved by tables.  The quantities of type `int` of
  `display.c` (row counts, cursor, scroll offset, panel index) are unbounded
  integers: they stay far from the limits of `int`.  The `unsigned short`
  `nrhandler` and the `char` made from a keystroke are cut to their width.
* The adapter `clocks.c` works on a `Clocks`: the heap with its tree, and the
  `struct clock_info` behind the field `private` of every node; what the allocator, the
  clock files and curses decide while a panel is rendered is the environment
  `Draw`.
-/

set_option maxRecDepth 100000

namespace PowerDebug

/-! ## Data model -/

/-- The `struct tree` of `tree.h`.  `depth` is an `unsigned char`: the value
stored is always below 256.  `nrchild` is an `int`; it counts the entries of
one directory and is kept unbounded here.  `priv` is the field `private`. -/
structure tree where
  tail : Option Nat
  next : Option Nat
  prev : Option Nat
  child : Option Nat
  parent : Option Nat
  path : List Char
  name : List Char
  priv : Option Nat
  nrchild : Int
  depth : Nat

/-- The heap of `struct tree` objects: `size` nodes have been allocated, at
the addresses below `size`; `cell a` is the content of the node at `a`. -/
structure Heap where
  size : Nat
  cell : Nat → tree

/-- Store `v` at address `a`. -/
def Heap.write (h : Heap) (a : Nat) (v : tree) : Heap :=
  { size := h.size, cell := fun b => if b = a then v else h.cell b }

/-- The file type bits of `st_mode` (`S_IFMT`). -/
inductive FileType where
  | S_IFDIR
  | S_IFLNK
  | S_IFREG
  | S_IFCHR
  | S_IFBLK
  | S_IFIFO
  | S_IFSOCK
  deriving DecidableEq

/-- The macro `S_ISDIR(m)`. -/
def S_ISDIR (m : FileType) : Bool := decide (m = FileType.S_IFDIR)

/-- The macro `S_ISLNK(m)`. -/
def S_ISLNK (m : FileType) : Bool := decide (m = FileType.S_IFLNK)

/-- The environment of `tree.c`.

* `opendir p` is `none` when `opendir(p)` fails, otherwise the names
  `readdir_r` delivers, in order, until it reports the end of the stream or
  an error (both leave the `while` loop of `tree_scan` the same way).
* `stat p` is `none` when `stat(p, &s)` fails (returns -1), otherwise the
  file type in `s.st_mode`.
* `lstat p` is the type of the object `p` names itself, without resolving a
  final symbolic link.  `tree.c` never asks for it.
* `malloc_ok p` tells whether the allocations of `tree_alloc(p, _)`
  (`malloc` and `strdup`) succeed; `asprintf_ok s` whether the `asprintf`
  producing the string `s` succeeds; `array_ok n` whether the `malloc` of
  an array of `n` node pointers succeeds, and `array_junk i` is what cell `i`
  of such a fresh array holds before it is written. -/
structure Sys where
  opendir : List Char → Option (List (List Char))
  stat : List Char → Option FileType
  lstat : List Char → Option FileType
  malloc_ok : List Char → Bool
  asprintf_ok : List Char → Bool
  array_ok : Nat → Bool
  array_junk : Nat → Option Nat

/-- The type `tree_filter_t`: a possibly `NULL` pointer to a function on names. -/
abbrev tree_filter_t := Option (List Char → Int)

/-- The type `tree_cb_t` with its `void *data`: the callback gets the address of a
node and the data, and returns its `int` and the data as it leaves them.  A
callback reads the tree; what it writes (the data, the payloads behind
`private`) is part of `σ`: the links of the tree are not changed by it. -/
abbrev tree_cb_t (σ : Type) := Nat → σ → Int × σ

/-! ## libc -/

/-- The function `strrchr(s, c)` for `c` other than NUL: the suffix of `s` starting at the
last occurrence of `c`, `none` (`NULL`) when `c` does not occur. -/
def strrchr : List Char → Char → Option (List Char)
  | [], _ => none
  | x :: xs, c =>
    match strrchr xs c with
    | some r => some r
    | none => if x = c then some (x :: xs) else none

/-- The function `strlen`. -/
def strlen (s : List Char) : Nat := s.length

/-- The function `strcmp(a, b)`.  The C standard fixes the sign of the result only: it is
-1, 0 or 1 here.  Bytes compare as `unsigned char`; a string that ends before
the other is the smaller one. -/
def strcmp : List Char → List Char → Int
  | [], [] => 0
  | [], _ :: _ => -1
  | _ :: _, [] => 1
  | x :: xs, y :: ys =>
    if x = y then strcmp xs ys else if x.toNat < y.toNat then -1 else 1

/-- The function `strncmp(a, b, n)`: as `strcmp`, over at most `n` bytes. -/
def strncmp : List Char → List Char → Nat → Int
  | _, _, 0 => 0
  | [], [], _ + 1 => 0
  | [], _ :: _, _ + 1 => -1
  | _ :: _, [], _ + 1 => 1
  | x :: xs, y :: ys, n + 1 =>
    if x = y then strncmp xs ys n else if x.toNat < y.toNat then -1 else 1

/-! ## Building the tree -/

/-- The function `tree_alloc(path, depth)`.  `some none` is the `NULL` of a failed
allocation.  `name` is `strrchr(path, '/') + 1`.  For a path without `'/'` the
function does not test the `NULL` of `strrchr`: it adds 1 to it and returns the node,
whose `name` is then no string.  C gives the sum `NULL + 1` no defined value, so
the model gives no result (`none`) for such a path; `tree_scan` calls `tree_alloc` with
paths of the form `dir/entry`, and the adapters call `tree_load` with absolute
paths.  The `int depth` is stored in an `unsigned char`. -/
def tree_alloc (sys : Sys) (h : Heap) (path : List Char) (depth : Nat) :
    Option (Option (Heap × Nat)) :=
  if sys.malloc_ok path = false then some none
  else
    match strrchr path '/' with
    | none => none
    | some r =>
      let t := h.size
      some (some ({ size := h.size + 1,
                    cell := fun b => if b = t then
                      { tail := some t, next := none, prev := none, child := none,
                        parent := none, path := path, name := r.drop 1, priv := none,
                        nrchild := 0, depth := depth % 256 }
                      else h.cell b }, t))

/-- The function `tree_add_tail(head, new)`.  No result when `head->tail` is `NULL`. -/
def tree_add_tail (h : Heap) (head new : Nat) : Option Heap :=
  match (h.cell head).tail with
  | none => none
  | some tl =>
    -- new->prev = head->tail;
    let h1 := h.write new { h.cell new with prev := some tl }
    -- head->tail->next = new;
    let h2 := h1.write tl { h1.cell tl with next := some new }
    -- head->tail = new;
    some (h2.write head { h2.cell head with tail := some new })

/-- The function `tree_add_child(parent, child)`. -/
def tree_add_child (h : Heap) (parent child : Nat) : Option Heap :=
  -- child->parent = parent;
  let h1 := h.write child { h.cell child with parent := some parent }
  match (h1.cell parent).child with
  | some head => tree_add_tail h1 head child
  | none => some (h1.write parent { h1.cell parent with child := some child })

/-- The test `filter && filter(d_name)` of `tree_scan`. -/
def filtered (filter : tree_filter_t) (d_name : List Char) : Bool :=
  match filter with
  | some f => decide (f d_name ≠ 0)
  | none => false

/-- The `while` loop of `tree_scan(tree, filter, follow)` over the entries
`readdir_r` still has to deliver, with the current value of `ret`; `scan`
stands for the recursive call `tree_scan(child, filter, follow)`.  The result
is what `tree_scan` returns once the loop is left. -/
def tree_scan_loop (scan : Heap → Nat → Option (Int × Heap)) (sys : Sys)
    (filter : tree_filter_t) (follow : Bool) (tree : Nat) :
    List (List Char) → Int → Heap → Option (Int × Heap)
  | [], ret, h => some (ret, h)
  | d_name :: rest, ret, h =>
    -- if (direntp->d_name[0] == '.') continue;
    if d_name.head? = some '.' then
      tree_scan_loop scan sys filter follow tree rest ret h
    -- if (filter && filter(direntp->d_name)) continue;
    else if filtered filter d_name = true then
      tree_scan_loop scan sys filter follow tree rest ret h
    -- ret = asprintf(&basedir, "%s", tree->path); if (ret < 0) return -1;
    else if sys.asprintf_ok (h.cell tree).path = false then some (-1, h)
    else
      -- basename(basedir) is never NULL: ret = 0
      let basedir := (h.cell tree).path
      -- ret = asprintf(&newpath, "%s/%s", basedir, direntp->d_name);
      let newpath := basedir ++ '/' :: d_name
      if sys.asprintf_ok newpath = false then some (-1, h)
      else
        -- ret = stat(newpath, &s); if (ret) goto out_free_newpath;
        match sys.stat newpath with
        | none => some (-1, h)
        | some st_mode =>
          if (S_ISDIR st_mode || (S_ISLNK st_mode && follow)) = true then
            -- child = tree_alloc(newpath, tree->depth + 1);
            match tree_alloc sys h newpath ((h.cell tree).depth + 1) with
            | none => none
            | some none => some (-1, h)
            | some (some (h1, child)) =>
              match tree_add_child h1 tree child with
              | none => none
              | some h2 =>
                -- tree->nrchild++;
                let h3 := h2.write tree
                  { h2.cell tree with nrchild := (h2.cell tree).nrchild + 1 }
                match scan h3 child with
                | none => none
                | some (r, h4) =>
                  -- if (ret) break;
                  if r ≠ 0 then some (r, h4)
                  else tree_scan_loop scan sys filter follow tree rest r h4
          else
            tree_scan_loop scan sys filter follow tree rest 0 h

/-- The function `tree_scan(tree, filter, follow)`. -/
def tree_scan (sys : Sys) (filter : tree_filter_t) (follow : Bool) :
    Nat → Heap → Nat → Option (Int × Heap)
  | 0, _, _ => none
  | fuel + 1, h, tree =>
    match sys.opendir (h.cell tree).path with
    | none => some (-1, h)
    | some entries =>
      tree_scan_loop (tree_scan sys filter follow fuel) sys filter follow tree entries 0 h

/-- The function `tree_load(path, filter, follow)` run on the heap `h`: the heap it leaves
and the pointer it returns.  (`tree_free` of the root on failure gives the
root back to the allocator; the nodes below it stay allocated.) -/
def tree_load (sys : Sys) (fuel : Nat) (h : Heap) (path : List Char)
    (filter : tree_filter_t) (follow : Bool) : Option (Heap × Option Nat) :=
  match tree_alloc sys h path 0 with
  | none => none
  | some none => some (h, none)
  | some (some (h1, tree)) =>
    match tree_scan sys filter follow fuel h1 tree with
    | none => none
    | some (r, h2) => if r ≠ 0 then some (h2, none) else some (h2, some tree)

/-! ## Traversals -/

/-- The function `tree_for_each(tree, cb, data)`. -/
def tree_for_each {σ : Type} (h : Heap) (cb : tree_cb_t σ) :
    Nat → Option Nat → σ → Option (Int × σ)
  | 0, _, _ => none
  | _ + 1, none, data => some (0, data)
  | fuel + 1, some tree, data =>
    match cb tree data with
    | (r, data1) =>
      if r ≠ 0 then some (-1, data1)
      else
        match tree_for_each h cb fuel (h.cell tree).child data1 with
        | none => none
        | some (r2, data2) =>
          if r2 ≠ 0 then some (-1, data2)
          else tree_for_each h cb fuel (h.cell tree).next data2

/-- The function `tree_for_each_reverse(tree, cb, data)`. -/
def tree_for_each_reverse {σ : Type} (h : Heap) (cb : tree_cb_t σ) :
    Nat → Option Nat → σ → Option (Int × σ)
  | 0, _, _ => none
  | _ + 1, none, data => some (0, data)
  | fuel + 1, some tree, data =>
    match cb tree data with
    | (r, data1) =>
      if r ≠ 0 then some (-1, data1)
      else
        match tree_for_each_reverse h cb fuel (h.cell tree).prev data1 with
        | none => none
        | some (r2, data2) =>
          if r2 ≠ 0 then some (-1, data2)
          else tree_for_each_reverse h cb fuel (h.cell tree).parent data2

/-- The function `tree_for_each_parent(tree, cb, data)`. -/
def tree_for_each_parent {σ : Type} (h : Heap) (cb : tree_cb_t σ) :
    Nat → Option Nat → σ → Option (Int × σ)
  | 0, _, _ => none
  | _ + 1, none, data => some (0, data)
  | fuel + 1, some tree, data =>
    match tree_for_each_parent h cb fuel (h.cell tree).parent data with
    | none => none
    | some (r, data1) =>
      if r ≠ 0 then some (-1, data1)
      else some (cb tree data1)

/-- The function `tree_find(tree, name)`: `some none` is the `NULL` result. -/
def tree_find (h : Heap) : Nat → Option Nat → List Char → Option (Option Nat)
  | 0, _, _ => none
  | _ + 1, none, _ => some none
  | fuel + 1, some tree, name =>
    if strcmp (h.cell tree).name name = 0 then some (some tree)
    else
      match tree_find h fuel (h.cell tree).child name with
      | none => none
      | some (some t) => some (some t)
      | some none => tree_find h fuel (h.cell tree).next name

/-- The `struct struct_find` of `tree.c`.  `ptree` is `none` for `NULL`;
otherwise it holds the cells of the array `*ptree` points to (`*ptree` is the
caller's variable, which `tree_finds` has set before the second pass). -/
structure struct_find where
  nr : Int
  name : List Char
  ptree : Option (List (Option Nat))

/-- The callback `tree_finds_cb(tree, data)`. -/
def tree_finds_cb (h : Heap) : tree_cb_t struct_find := fun tree sf =>
  if strlen sf.name = 0 then (0, sf)
  else if strncmp sf.name (h.cell tree).name (strlen sf.name) ≠ 0 then (0, sf)
  else
    -- if (sf->ptree) (*(sf->ptree))[sf->nr] = tree;
    let ptree := match sf.ptree with
      | some a => some (a.set sf.nr.toNat (some tree))
      | none => none
    -- sf->nr++;
    (0, { sf with ptree := ptree, nr := sf.nr + 1 })

/-- The function `tree_finds(tree, name, ptr)`: the `int` it returns and the value of the
caller's variable `*ptr` when it returns, `ptr0` being its value before the
call (`none` is `NULL`, `some a` a pointer to an array with cells `a`). -/
def tree_finds (sys : Sys) (h : Heap) (fuel : Nat) (tree : Option Nat) (name : List Char)
    (ptr0 : Option (List (Option Nat))) : Option (Int × Option (List (Option Nat))) :=
  -- first pass : count # of matching nodes
  match tree_for_each h (tree_finds_cb h) fuel tree { nr := 0, name := name, ptree := none } with
  | none => none
  | some (_, sf) =>
    if sf.nr = 0 then some (0, ptr0)
    -- *ptr = malloc(sizeof(struct tree *) * sf.nr); if (!*ptr) return -1;
    else if sys.array_ok sf.nr.toNat = false then some (-1, none)
    else
      let fresh := (List.range sf.nr.toNat).map sys.array_junk
      let nmatch := sf.nr
      -- second pass : fill with the matching nodes
      match tree_for_each h (tree_finds_cb h) fuel tree
              { sf with nr := 0, ptree := some fresh } with
      | none => none
      | some (_, sf2) => some (nmatch, sf2.ptree)

/-! ## Specification-level notions -/

/-- An entry passes the two `continue` tests of `tree_scan`: its name does
not start with `'.'` and the filter, when there is one, returns 0 for it. -/
def visible (filter : tree_filter_t) (d_name : List Char) : Bool :=
  !(decide (d_name.head? = some '.')) && !(filtered filter d_name)

/-- The path `tree_scan` builds for the entry `d_name` of the directory `dir`. -/
def entry_path (dir d_name : List Char) : List Char := dir ++ '/' :: d_name

/-- The entry `d_name` of `dir` is one `tree_scan` makes a child node for:
it is visible and `stat` reports a directory, or a symbolic link while
`follow` is set. -/
def wanted (sys : Sys) (filter : tree_filter_t) (follow : Bool) (dir d_name : List Char) :
    Bool :=
  visible filter d_name &&
    match sys.stat (entry_path dir d_name) with
    | some st_mode => S_ISDIR st_mode || (S_ISLNK st_mode && follow)
    | none => false

/-- The child list of a node: the nodes reached from `p` (the node's `child`)
by following `next`. -/
def child_list (h : Heap) : Nat → Option Nat → Option (List Nat)
  | 0, _ => none
  | _ + 1, none => some []
  | fuel + 1, some k => (child_list h fuel (h.cell k).next).map (fun ks => k :: ks)

/-- Pre-order of the tree below `n`: the node, then the pre-order of each of
its children, the children taken in the order of the child list. -/
def pre_order (h : Heap) : Nat → Nat → Option (List Nat)
  | 0, _ => none
  | fuel + 1, n =>
    match child_list h fuel (h.cell n).child with
    | none => none
    | some ks => (ks.mapM (pre_order h fuel)).map (fun ls => n :: ls.flatten)

/-- The chain of ancestors of a node, root first, the node itself last:
`parent` is followed until it is `NULL`. -/
def ancestors (h : Heap) : Nat → Option Nat → Option (List Nat)
  | 0, _ => none
  | _ + 1, none => some []
  | fuel + 1, some n => (ancestors h fuel (h.cell n).parent).map (fun l => l ++ [n])

/-- Call `cb` on the nodes of a list in order, up to and including the first
one for which it returns non-zero: the value of the last call (0 for the empty
list) and the data as the last call left it. -/
def visit {σ : Type} (cb : tree_cb_t σ) : List Nat → σ → Int × σ
  | [], data => (0, data)
  | t :: ts, data =>
    match cb t data with
    | (r, data1) => if r ≠ 0 then (r, data1) else visit cb ts data1

/-- What `tree_for_each_parent` does along the chain of ancestors `anc` of a
node: `cb` is called on the ancestors in order; when a call on a proper
ancestor returns non-zero the result is -1 and nothing more is called,
otherwise the result is what `cb` returns for the node itself. -/
def visit_parents {σ : Type} (cb : tree_cb_t σ) (anc : List Nat) (data : σ) : Int × σ :=
  match anc.getLast? with
  | none => (0, data)
  | some n =>
    if (visit cb anc.dropLast data).1 ≠ 0 then (-1, (visit cb anc.dropLast data).2)
    else cb n (visit cb anc.dropLast data).2

/-- The children of all the nodes of a list, in order. -/
def children_of (h : Heap) (fuel : Nat) : List Nat → Option (List Nat)
  | [] => some []
  | x :: xs =>
    match child_list h fuel (h.cell x).child, children_of h fuel xs with
    | some ks, some r => some (ks ++ r)
    | _, _ => none

/-- The nodes at depth `d` below `root`: the root for depth 0, the children
of the nodes at depth `d` for depth `d + 1`. -/
def at_depth (h : Heap) (fuel root : Nat) : Nat → Option (List Nat)
  | 0 => some [root]
  | d + 1 =>
    match at_depth h fuel root d with
    | some l => children_of h fuel l
    | none => none

/-- A callback that appends the address of the node to the data and returns 0. -/
def log_node : tree_cb_t (List Nat) := fun t visited => (0, visited ++ [t])

/-! ## The shape of a scanned tree -/

/-- A forest of addresses in first-child / next-sibling form: `cons a kids
rest` is the node `a` with the forest `kids` below it, followed by its later
siblings `rest`. -/
inductive Forest where
  | nil
  | cons (a : Nat) (kids rest : Forest)

namespace Forest

/-- Pre-order of a forest. -/
def pre : Forest → List Nat
  | nil => []
  | cons a kids rest => a :: (pre kids ++ pre rest)

/-- The top-level nodes of a forest. -/
def roots : Forest → List Nat
  | nil => []
  | cons a _ rest => a :: roots rest

/-- The forest followed by further siblings. -/
def append : Forest → Forest → Forest
  | nil, g => g
  | cons a kids rest, g => cons a kids (append rest g)

end Forest

/-- The nodes `ks` are linked as one sibling list: `first` points to the
first of them, each has the parent `par`, `prev` and `next` link neighbours,
and the last one has no `next`. -/
def IsChain (cell : Nat → tree) (par : Option Nat) : Option Nat → Option Nat → List Nat → Prop
  | first, _, [] => first = none
  | first, prev, k :: ks =>
    first = some k ∧ (cell k).parent = par ∧ (cell k).prev = prev ∧
      IsChain cell par (cell k).next (some k) ks

/-- The node `a` has the children `ks`, made from the entries `done` of its
directory. -/
def KidsOK (sys : Sys) (filter : tree_filter_t) (follow : Bool) (cell : Nat → tree) (a : Nat)
    (done : List (List Char)) (ks : List Nat) : Prop :=
  IsChain cell (some a) (cell a).child none ks ∧
  (cell a).nrchild = ks.length ∧
  (∀ k1, ks.head? = some k1 → (cell k1).tail = ks.getLast?) ∧
  (∀ k ∈ ks, (cell k).depth = ((cell a).depth + 1) % 256 ∧
    strrchr (cell k).path '/' = some ('/' :: (cell k).name)) ∧
  (∀ e ∈ done, visible filter e = true →
    (sys.stat (entry_path (cell a).path e)).isSome = true) ∧
  ks.map (fun k => (cell k).path) =
    (done.filter (wanted sys filter follow (cell a).path)).map (entry_path (cell a).path)

/-- The node `a` has been scanned completely and has the children `ks`. -/
def NodeOK (sys : Sys) (filter : tree_filter_t) (follow : Bool) (cell : Nat → tree) (a : Nat)
    (ks : List Nat) : Prop :=
  ∃ entries, sys.opendir (cell a).path = some entries ∧
    KidsOK sys filter follow cell a entries ks

/-- Every node of the forest has been scanned completely. -/
def Good (sys : Sys) (filter : tree_filter_t) (follow : Bool) (cell : Nat → tree) :
    Forest → Prop
  | Forest.nil => True
  | Forest.cons a kids rest =>
    NodeOK sys filter follow cell a kids.roots ∧ Good sys filter follow cell kids ∧
      Good sys filter follow cell rest

/-- The node `t2` is the node `t` up to its `next` and `tail` pointers. -/
def SameButLinks (t t2 : tree) : Prop :=
  t2.prev = t.prev ∧ t2.child = t.child ∧ t2.parent = t.parent ∧ t2.path = t.path ∧
    t2.name = t.name ∧ t2.priv = t.priv ∧ t2.nrchild = t.nrchild ∧ t2.depth = t.depth

/-- The node `t2` is the node `t` up to its `child` and `nrchild` fields. -/
def SameButKids (t t2 : tree) : Prop :=
  t2.tail = t.tail ∧ t2.next = t.next ∧ t2.prev = t.prev ∧ t2.parent = t.parent ∧
    t2.path = t.path ∧ t2.name = t.name ∧ t2.priv = t.priv ∧ t2.depth = t.depth

/-- What the scan of the node `a`, started when `base` nodes were allocated,
leaves untouched between the heaps `h` and `h2`: every other node that
existed then, and the fields of `a` other than `child` and `nrchild`. -/
def ScanFrame (base a : Nat) (h h2 : Heap) : Prop :=
  (∀ x, x < base → x ≠ a → h2.cell x = h.cell x) ∧ SameButKids (h.cell a) (h2.cell a)

/-- The state of the scan of the node `a`, started when `base` nodes were
allocated, after the entries `done` of its directory: the forest `f` below
`a` occupies the addresses from `base` on, in pre-order. -/
def ScanInv (sys : Sys) (filter : tree_filter_t) (follow : Bool) (base a : Nat) (h : Heap)
    (done : List (List Char)) (f : Forest) : Prop :=
  a < base ∧ base ≤ h.size ∧ f.pre = List.range' base (h.size - base) ∧
    KidsOK sys filter follow h.cell a done f.roots ∧ Good sys filter follow h.cell f

/-- What a successful `tree_scan` of a fresh node does. -/
def ScanSpec (sys : Sys) (filter : tree_filter_t) (follow : Bool)
    (scan : Heap → Nat → Option (Int × Heap)) : Prop :=
  ∀ h a h2, a < h.size → (h.cell a).child = none → (h.cell a).nrchild = 0 →
    scan h a = some (0, h2) →
    ∃ entries f, sys.opendir (h.cell a).path = some entries ∧
      ScanInv sys filter follow h.size a h2 entries f ∧ ScanFrame h.size a h h2

/-- The heap `h` holds at `root` a tree as `tree_load(path, filter, follow)`
returns it, the forest `f` being what lies below the root: the nodes of the
tree are the addresses from `root` up to `h.size`, in pre-order. -/
def Loaded (sys : Sys) (filter : tree_filter_t) (follow : Bool) (path : List Char) (h : Heap)
    (root : Nat) (f : Forest) : Prop :=
  root < h.size ∧
    (Forest.cons root f Forest.nil).pre = List.range' root (h.size - root) ∧
    Good sys filter follow h.cell (Forest.cons root f Forest.nil) ∧
    (h.cell root).parent = none ∧ (h.cell root).next = none ∧ (h.cell root).prev = none ∧
    (h.cell root).path = path ∧ (h.cell root).depth = 0 ∧
    strrchr path '/' = some ('/' :: (h.cell root).name)

namespace Forest

/-- The node `a` occurs in the forest, with the children `ks`. -/
def HasNode : Forest → Nat → List Nat → Prop
  | nil, _, _ => False
  | cons b kids rest, a, ks => (a = b ∧ ks = kids.roots) ∨ HasNode kids a ks ∨ HasNode rest a ks

end Forest

/-- The directories of the hierarchy below `top`, as `tree_scan` walks it:
`top` itself, and with a directory that can be opened every entry of it that
`tree_scan` selects. -/
inductive Reached (sys : Sys) (filter : tree_filter_t) (follow : Bool) (top : List Char) :
    List Char → Prop where
  | top : Reached sys filter follow top top
  | entry (dir : List Char) (entries : List (List Char)) (d_name : List Char) :
      Reached sys filter follow top dir → sys.opendir dir = some entries → d_name ∈ entries →
      wanted sys filter follow dir d_name = true →
      Reached sys filter follow top (entry_path dir d_name)

/-! ## Concrete inputs -/

/-- A heap on which nothing has been allocated. -/
def heap0 : Heap :=
  { size := 0,
    cell := fun _ =>
      { tail := none, next := none, prev := none, child := none, parent := none, path := [],
        name := [], priv := none, nrchild := 0, depth := 0 } }

/-- A file system in which `/a` holds `.`, `..`, `b` and `c`, every other
directory is empty, and every path is a directory; no allocation fails. -/
def sys_ab : Sys where
  opendir := fun p =>
    if p = "/a".toList then some [".".toList, "..".toList, "b".toList, "c".toList] else some []
  stat := fun _ => some FileType.S_IFDIR
  lstat := fun _ => some FileType.S_IFDIR
  malloc_ok := fun _ => true
  asprintf_ok := fun _ => true
  array_ok := fun _ => true
  array_junk := fun _ => none

/-- The heap `tree_load("/a", NULL, false)` leaves on `sys_ab`. -/
def tree_ab : Heap :=
  match tree_load sys_ab 2 heap0 "/a".toList none false with
  | some (h, _) => h
  | none => heap0

/-- A callback that appends the name of the node to the data and returns 0. -/
def log_name (h : Heap) : tree_cb_t (List (List Char)) :=
  fun t names => (0, names ++ [(h.cell t).name])

/-- A file system in which `/a` holds `.`, `..`, `b`, `.x`, `f` and `c`, and
`/a/b` holds `.`, `..` and `d`; `/a/f` is a regular file, every other path a
directory without further entries; no allocation fails. -/
def sys_abd : Sys where
  opendir := fun p =>
    if p = "/a".toList then
      some [".".toList, "..".toList, "b".toList, ".x".toList, "f".toList, "c".toList]
    else if p = "/a/b".toList then some [".".toList, "..".toList, "d".toList]
    else some [".".toList, "..".toList]
  stat := fun p => if p = "/a/f".toList then some FileType.S_IFREG else some FileType.S_IFDIR
  lstat := fun p => if p = "/a/f".toList then some FileType.S_IFREG else some FileType.S_IFDIR
  malloc_ok := fun _ => true
  asprintf_ok := fun _ => true
  array_ok := fun _ => true
  array_junk := fun _ => none

/-- The heap `tree_load("/a", NULL, false)` leaves on `sys_abd`: the nodes
0 (`/a`), 1 (`/a/b`), 2 (`/a/b/d`) and 3 (`/a/c`). -/
def tree_abd : Heap :=
  match tree_load sys_abd 3 heap0 "/a".toList none false with
  | some (h, _) => h
  | none => heap0

/-- The file system `sys_abd` at a moment when `malloc` cannot provide the
result array of `tree_finds`. -/
def sys_abd_nomem : Sys := { sys_abd with array_ok := fun _ => false }

/-- The file system `sys_abd` with the directory `/a/b` unreadable: `opendir`
fails on it. -/
def sys_abd_locked : Sys :=
  { sys_abd with
    opendir := fun p => if p = "/a/b".toList then none else sys_abd.opendir p }

/-- A callback that logs the node and fails (returns 1) on the node `bad`. -/
def log_fail_at (bad : Nat) : tree_cb_t (List Nat) :=
  fun t visited => (if t = bad then 1 else 0, visited ++ [t])

/-- A file system with a chain of directories 256 deep below `/r`: every
directory whose path is shorter than 514 characters holds `.`, `..` and the
one directory `d`.  The deepest path, `/r` followed by 256 times `/d`, has 514 characters. -/
def sys_deep : Sys where
  opendir := fun p =>
    if p.length < 514 then some [".".toList, "..".toList, "d".toList]
    else some [".".toList, "..".toList]
  stat := fun _ => some FileType.S_IFDIR
  lstat := fun _ => some FileType.S_IFDIR
  malloc_ok := fun _ => true
  asprintf_ok := fun _ => true
  array_ok := fun _ => true
  array_junk := fun _ => none

/-- The heap `tree_load("/r", NULL, false)` leaves on `sys_deep`. -/
def tree_deep : Heap :=
  match tree_load sys_deep 300 heap0 "/r".toList none false with
  | some (h, _) => h
  | none => heap0

/-- A file system in which `/a` holds `.`, `..` and `l`, where `l` is a
symbolic link to a directory: `lstat` of `/a/l` reports a link, and `stat`,
which resolves symbolic links, reports the directory the link leads to. -/
def sys_link : Sys where
  opendir := fun p =>
    if p = "/a".toList then some [".".toList, "..".toList, "l".toList] else some []
  stat := fun _ => some FileType.S_IFDIR
  lstat := fun p => if p = "/a/l".toList then some FileType.S_IFLNK else some FileType.S_IFDIR
  malloc_ok := fun _ => true
  asprintf_ok := fun _ => true
  array_ok := fun _ => true
  array_junk := fun _ => none

/-- The heap `tree_load("/a", NULL, false)` leaves on `sys_link`. -/
def tree_link : Heap :=
  match tree_load sys_link 2 heap0 "/a".toList none false with
  | some (h, _) => h
  | none => heap0


/-- A file system in which the directory `/a/` (the directory `/a`, named with
a trailing slash) holds `.`, `..` and `b`, every other directory only `.` and
`..`, and every path is a directory; no allocation fails. -/
def sys_slash : Sys where
  opendir := fun p =>
    if p = "/a/".toList then some [".".toList, "..".toList, "b".toList]
    else some [".".toList, "..".toList]
  stat := fun _ => some FileType.S_IFDIR
  lstat := fun _ => some FileType.S_IFDIR
  malloc_ok := fun _ => true
  asprintf_ok := fun _ => true
  array_ok := fun _ => true
  array_junk := fun _ => none

/-- The heap `tree_load("/a/", NULL, false)` leaves on `sys_slash`: the nodes
0 (`/a/`) and 1 (`/a//b`). -/
def tree_slash : Heap :=
  match tree_load sys_slash 2 heap0 "/a/".toList none false with
  | some (h, _) => h
  | none => heap0

/-- The directory entries are file names: `readdir` delivers no empty name and
no name with a `/` in it. -/
def entries_are_names (sys : Sys) : Prop :=
  ∀ dir entries, sys.opendir dir = some entries → ∀ e ∈ entries, e ≠ [] ∧ '/' ∉ e

/-! ## The event loop and the panels: state

The state of `mainloop.c` and of `display.c`, with the parts of the kernel, of
the heap and of the terminal they work on.  Function pointers are addresses of
functions: what a function does is given by a table from addresses to
functions (`callbacks_t`, `Code`).  The curses windows and pads, which take
the rendering, are not part of the state. -/

/-- The type `struct mainloop_data`; `cb` is the address of the callback. -/
structure mainloop_data where
  cb : Nat
  data : Option Nat
  fd : Int

/-- The type `struct rowdata`. -/
structure rowdata where
  attr : Int
  data : Option Nat

/-- The type `struct display_ops`: four function pointers, `none` for `NULL`. -/
structure display_ops where
  display : Option Nat
  select : Option Nat
  find : Option Nat
  selectf : Option Nat

/-- The type `struct windata` without its pad.  The field `rowdata` is the array the
pointer `rowdata` points to, empty for `NULL`. -/
structure windata where
  ops : Option display_ops
  rowdata : List rowdata
  name : List Char
  nrdata : Int
  scrolling : Int
  cursor : Int

/-- The type `regex_t`: a compiled regular expression of the form `[...]` or
`^[...]`, the bracket expression given by its ranges (a single character `a`
is the range from `a` to `a`). -/
structure regex_t where
  anchored : Bool
  items : List (Char × Char)
  icase : Bool
deriving DecidableEq

/-- The type `struct find_data`.  The field `string` is the buffer of `len` bytes the
pointer `string` points to, `reg` the compiled expression `reg` points to. -/
structure find_data where
  len : Nat
  string : List Char
  reg : regex_t
  ocursor : Int
  oscrolling : Int

/-- The state the event loop and the panels work on.

* `epfd`, `nrhandler` (an `unsigned short`), `mds`: the variables of
  `mainloop.c`; `mds` is `none` for `NULL`, else the array of pointers.
* `interest`: the interest list of the epoll instance in the kernel, from file
  descriptors to the `data.ptr` registered with them.
* `brk`, `mdh`, `findh`: the heap: the next fresh address, the live
  `mainloop_data` blocks and the live `find_data` blocks (`none` once freed).
* `current_win`, `windata`: the variables of `display.c`.
* `keys`: the keystrokes `getch` will deliver; `maxy`: the height of the terminal.
* `user`: the state of the adapters (their trees). -/
structure World (σ : Type) where
  epfd : Int
  nrhandler : Nat
  mds : Option (List (Option Nat))
  interest : Int → Option Nat
  brk : Nat
  mdh : Nat → Option mainloop_data
  findh : Nat → Option find_data
  current_win : Int
  windata : List windata
  keys : List Int
  maxy : Int
  user : σ

/-- What `epoll_wait` reports: interrupted (`-1`, `errno == EINTR`), failed
(`-1`, another `errno`), or the file descriptors that are ready, in the order
reported (none when the wait timed out). -/
inductive Wake where
  | eintr
  | error
  | ready (fds : List Int)

/-- What the code cannot control: whether an allocation succeeds (by the
address it would get, by the number of entries for `realloc`), the content of
fresh array entries, the results of `epoll_create`, `epoll_ctl(EPOLL_CTL_ADD)`
on a descriptor not registered yet (`false` for one that is closed, not
pollable, or out of memory) and `epoll_wait` (by time-out and by the number of
the wait), whether `regcomp` has the memory it needs, and what `werase` and
`wrefresh` return on the main window. -/
structure Env where
  malloc_ok : Nat → Bool
  realloc_ok : Nat → Bool
  junk : Nat → Option Nat
  epoll_create : Int
  epoll_add_ok : Int → Bool
  epoll_wait : Nat → Nat → Wake
  regcomp_ok : Bool
  werase : Int
  wrefresh : Int

/-- The callbacks of the event loop by address (`mainloop_callback_t` is
`int (*)(int fd, void *data)`): a callback works on the whole state; `none`
stands for undefined behaviour. -/
abbrev callbacks_t (σ : Type) := Nat → Int → Option Nat → World σ → Option (Int × World σ)

/-- What an adapter works on: the panel table, through the functions
`display.h` exports, and its own state. -/
structure Panels (σ : Type) where
  windata : List windata
  user : σ

/-- The operations of the adapters by address; `none` stands for undefined
behaviour. -/
structure Code (σ : Type) where
  display : Nat → Bool → Panels σ → Option (Int × Panels σ)
  select : Nat → Panels σ → Option (Int × Panels σ)
  find : Nat → List Char → Panels σ → Option (Int × Panels σ)
  selectf : Nat → Panels σ → Option (Int × Panels σ)

/-- The element `l[i]` of a C array for an `int` index, `none` out of bounds. -/
def index {α : Type} (l : List α) (i : Int) : Option α :=
  if i < 0 then none else l.get? i.toNat

/-- The function `malloc` for one block: the fresh address, or `none` for `NULL`. -/
def malloc {σ : Type} (env : Env) (w : World σ) : Option Nat × World σ :=
  if env.malloc_ok w.brk then (some w.brk, { w with brk := w.brk + 1 }) else (none, w)

/-- The array `realloc` returns for `n` entries: the old entries as far as
they go, then fresh ones. -/
def resize (junk : Nat → Option Nat) (old : List (Option Nat)) (n : Nat) : List (Option Nat) :=
  (List.range n).map (fun i => match old.get? i with | some x => x | none => junk i)

/-- The call `epoll_ctl(epfd, EPOLL_CTL_ADD, fd, &ev)` with `ev.data.ptr = ptr`; `none`
when it fails (returns -1): `epfd` or `fd` is no descriptor, `fd` is `epfd`,
`fd` is registered already (`EEXIST`), or the kernel cannot arm it. -/
def epoll_ctl_add {σ : Type} (env : Env) (fd : Int) (ptr : Nat) (w : World σ) :
    Option (World σ) :=
  if w.epfd < 0 ∨ fd < 0 ∨ fd = w.epfd ∨ (w.interest fd).isSome ∨ env.epoll_add_ok fd = false
  then none
  else some { w with interest := fun x => if x = fd then some ptr else w.interest x }

/-- The call `epoll_ctl(epfd, EPOLL_CTL_DEL, fd, NULL)`; `none` when it fails (returns
-1): `epfd` is no descriptor, or `fd` is not registered (`ENOENT`, `EBADF`). -/
def epoll_ctl_del {σ : Type} (fd : Int) (w : World σ) : Option (World σ) :=
  if w.epfd < 0 ∨ (w.interest fd).isNone
  then none
  else some { w with interest := fun x => if x = fd then none else w.interest x }

/-- The constant `MAX_EVENTS`. -/
def MAX_EVENTS : Nat := 10

/-- The result of the `i`-th call `epoll_wait(epfd, events, MAX_EVENTS, timeout)`:
interrupted, failed, or the `data.ptr` of at most `MAX_EVENTS` ready
descriptors of the interest list, in the order reported. -/
inductive Events where
  | eintr
  | error
  | events (ptrs : List Nat)

/-- The function `epoll_wait`. -/
def epoll_wait {σ : Type} (env : Env) (timeout i : Nat) (w : World σ) : Events :=
  match env.epoll_wait timeout i with
  | Wake.eintr => Events.eintr
  | Wake.error => Events.error
  | Wake.ready fds => Events.events ((fds.filterMap w.interest).take MAX_EVENTS)

/-! ## mainloop.c -/

/-- One call of a callback by `mainloop`: the `mainloop_data` it was made for and
what the callback returned. -/
structure Call where
  md : Nat
  ret : Int
deriving DecidableEq

/-- The loop `for (i = 0; i < nfds; i++)` of `mainloop` over the events of one
wake-up: whether `return 0` was reached, the state, and the calls made, in
order.  `none` when an event points to a block that is freed by then, or the
callback has no result. -/
def mainloop_events {σ : Type} (cbs : callbacks_t σ) :
    List Nat → World σ → Option (Bool × World σ × List Call)
  | [], w => some (false, w, [])
  | p :: evs, w =>
    match w.mdh p with
    | none => none
    | some md =>
      match cbs md.cb md.fd md.data w with
      | none => none
      | some (r, w1) =>
        if r > 0 then some (true, w1, [⟨p, r⟩])
        else
          match mainloop_events cbs evs w1 with
          | none => none
          | some (b, w2, l) => some (b, w2, ⟨p, r⟩ :: l)

/-- The loop `for (;;)` of `mainloop`, from the `i`-th wait on: what `mainloop`
returns, the state, and the calls made.  The fuel bounds the number of waits;
`none` when it is used up before the loop returns. -/
def mainloop_loop {σ : Type} (env : Env) (cbs : callbacks_t σ) (timeout : Nat) :
    Nat → Nat → World σ → Option (Int × World σ × List Call)
  | 0, _, _ => none
  | fuel + 1, i, w =>
    match epoll_wait env timeout i w with
    | Events.eintr => mainloop_loop env cbs timeout fuel (i + 1) w
    | Events.error => some (-1, w, [])
    | Events.events evs =>
      match mainloop_events cbs evs w with
      | none => none
      | some (true, w1, l) => some (0, w1, l)
      | some (false, w1, l) =>
        match mainloop_loop env cbs timeout fuel (i + 1) w1 with
        | none => none
        | some (r, w2, l2) => some (r, w2, l ++ l2)

/-- The function `mainloop`. -/
def mainloop {σ : Type} (env : Env) (cbs : callbacks_t σ) (timeout fuel : Nat) (w : World σ) :
    Option (Int × World σ × List Call) :=
  if w.epfd < 0 then some (-1, w, []) else mainloop_loop env cbs timeout fuel 0 w

/-- The function `mainloop_add`.  `none` (undefined behaviour) when `mds[fd]` is written
while `mds` is `NULL` or `fd` is out of its bounds. -/
def mainloop_add {σ : Type} (env : Env) (fd : Int) (cb : Nat) (data : Option Nat)
    (w : World σ) : Option (Int × World σ) :=
  let grown : Option (World σ) :=
    if fd ≥ w.nrhandler then
      if env.realloc_ok (fd + 1).toNat then
        some { w with
          mds := some (resize env.junk (w.mds.getD []) (fd + 1).toNat),
          nrhandler := (fd + 1).toNat % 65536 }
      else none
    else some w
  match grown with
  | none => some (-1, { w with mds := none })
  | some w1 =>
    match malloc env w1 with
    | (none, w2) => some (-1, w2)
    | (some md, w2) =>
      let w3 := { w2 with mdh := fun x => if x = md then some ⟨cb, data, fd⟩ else w2.mdh x }
      match w3.mds with
      | none => none
      | some arr =>
        if fd < 0 ∨ fd ≥ arr.length then none
        else
          let w4 := { w3 with mds := some (arr.set fd.toNat (some md)) }
          match epoll_ctl_add env fd md w4 with
          | none => some (-1, { w4 with mdh := fun x => if x = md then none else w4.mdh x })
          | some w5 => some (0, w5)

/-- The function `mainloop_del`.  `none` (undefined behaviour) when `mds[fd]` cannot be
read or is a block that is freed already. -/
def mainloop_del {σ : Type} (fd : Int) (w : World σ) : Option (Int × World σ) :=
  if fd ≥ w.nrhandler then some (-1, w)
  else
    match epoll_ctl_del fd w with
    | none => some (-1, w)
    | some w1 =>
      match w1.mds with
      | none => none
      | some arr =>
        match index arr fd with
        | none => none
        | some none => some (0, w1)
        | some (some md) =>
          if (w1.mdh md).isSome
          then some (0, { w1 with mdh := fun x => if x = md then none else w1.mdh x })
          else none

/-- The function `mainloop_init`: a new epoll instance has an empty interest list. -/
def mainloop_init {σ : Type} (env : Env) (w : World σ) : Int × World σ :=
  let w1 := { w with epfd := env.epoll_create }
  if w1.epfd < 0 then (-1, w1) else (0, { w1 with interest := fun _ => none })

/-! ## Concrete inputs for the event loop -/

/-- The panel table as `display.c` defines it: four panels, nothing registered,
no rows. -/
def windata0 : List windata :=
  ["Clocks", "Regulators", "Sensors", "Gpio"].map (fun s =>
    { ops := none, rowdata := [], name := s.toList, nrdata := 0, scrolling := 0, cursor := 0 })

/-- The state at the start of the program, on a terminal of 24 lines. -/
def world0 {σ : Type} (u : σ) : World σ :=
  { epfd := -1, nrhandler := 0, mds := none, interest := fun _ => none, brk := 0,
    mdh := fun _ => none, findh := fun _ => none, current_win := 0, windata := windata0,
    keys := [], maxy := 24, user := u }

/-- An environment in which nothing fails, `epoll_create` returns 3, and the
waits report what `wake` says. -/
def env_wake (wake : Nat → Wake) : Env :=
  { malloc_ok := fun _ => true, realloc_ok := fun _ => true, junk := fun _ => none,
    epoll_create := 3, epoll_add_ok := fun _ => true, epoll_wait := fun _ i => wake i,
    regcomp_ok := true, werase := 0, wrefresh := 0 }

/-- Every wait reports the descriptors 0 and 5 ready, in this order. -/
def env_two : Env := env_wake (fun _ => Wake.ready [0, 5])

/-- The first wait times out, the later ones report the descriptors 0 and 5. -/
def env_idle : Env := env_wake (fun i => if i = 0 then Wake.ready [] else Wake.ready [0, 5])

/-- Two callbacks that note the descriptor they are called for: the one at
address 1 fails (returns -1), the one at address 2 asks to stop (returns 1). -/
def cbs_demo : callbacks_t (List Int) := fun a fd _ w =>
  if a = 1 then some (-1, { w with user := w.user ++ [fd] })
  else if a = 2 then some (1, { w with user := w.user ++ [fd] })
  else none

/-- The state after `mainloop_init()`. -/
def world_init : World (List Int) := (mainloop_init env_two (world0 [])).2

/-- The state after `mainloop_init()`, `mainloop_add(0, ..)` with the callback at address
1 and `mainloop_add(5, ..)` with the callback at address 2: the blocks 0 and 1
are registered for the descriptors 0 and 5. -/
def world_two : World (List Int) :=
  match mainloop_add env_two 0 1 none world_init with
  | some (_, w1) =>
    match mainloop_add env_two 5 2 none w1 with
    | some (_, w2) => w2
    | none => w1
  | none => world_init

/-! ## libc and ncurses for the panels -/

/-- The character NUL, which ends a C string. -/
def NUL : Char := Char.ofNat 0

/-- The C string a buffer holds: its bytes before the first NUL. -/
def c_str (buf : List Char) : List Char := buf.takeWhile (fun c => c ≠ NUL)

/-- The function `strlen` on a buffer: the index of the first NUL; `none` (undefined
behaviour) when the buffer holds none. -/
def buf_strlen (buf : List Char) : Option Nat :=
  if (c_str buf).length < buf.length then some (c_str buf).length else none

/-- The difference `a - b` in `size_t`, for `a` and `b` below `2 ^ 64`: it wraps
around when `b` is above `a`. -/
def size_sub (a b : Nat) : Nat := if b ≤ a then a - b else a + 2 ^ 64 - b

/-- The conversion `(char)keystroke`: the low eight bits of the `int`. -/
def to_char (keystroke : Int) : Char := Char.ofNat (keystroke % 256).toNat

/-- The key code `KEY_DOWN` of ncurses (`curses.h`: 0402). -/
def KEY_DOWN : Int := 258

/-- The key code `KEY_UP` (0403). -/
def KEY_UP : Int := 259

/-- The key code `KEY_LEFT` (0404). -/
def KEY_LEFT : Int := 260

/-- The key code `KEY_RIGHT` (0405). -/
def KEY_RIGHT : Int := 261

/-- The key code `KEY_HOME` (0406). -/
def KEY_HOME : Int := 262

/-- The key code `KEY_BACKSPACE` (0407). -/
def KEY_BACKSPACE : Int := 263

/-- The key code `KEY_F(n)` of the function key `n` (`KEY_F0`, 0410, plus `n`). -/
def KEY_F (n : Int) : Int := 264 + n

/-- The key code `KEY_DC` of the delete key (0512). -/
def KEY_DC : Int := 330

/-- The key code `KEY_NPAGE` of the page-down key (0522). -/
def KEY_NPAGE : Int := 338

/-- The key code `KEY_PPAGE` of the page-up key (0523). -/
def KEY_PPAGE : Int := 339

/-- The key code `KEY_BTAB` of the back-tab key, Shift-Tab (0541). -/
def KEY_BTAB : Int := 353

/-- The key code `KEY_END` (0550). -/
def KEY_END : Int := 360

/-- The value `EOF`, which is also `ERR` of ncurses. -/
def EOF : Int := -1

/-- The function `getch`: the next keystroke, `ERR` when there is none. -/
def getch {σ : Type} (w : World σ) : Int × World σ :=
  match w.keys with
  | [] => (-1, w)
  | k :: ks => (k, { w with keys := ks })

/-- The ranges of a POSIX bracket expression, read from the text after the
`[` up to the `]` that ends the pattern: `a-b` is the range from `a` to `b`
(an error when `b` is below `a`), a `-` right before the closing `]` stands
for itself, any other character is the range from itself to itself.  `none`
for an error and for what is not covered here: a `]` or `^` in first place, a
`[` (character classes and collating elements), or text after the closing
`]`. -/
def bracket_items : List Char → Option (List (Char × Char))
  | [] => none
  | ']' :: rest => if rest = [] then some [] else none
  | '[' :: _ => none
  | a :: '-' :: ']' :: rest => if rest = [] then some [(a, a), ('-', '-')] else none
  | a :: '-' :: b :: rest =>
    if b = '[' ∨ b.toNat < a.toNat then none
    else (bracket_items rest).map (fun l => (a, b) :: l)
  | a :: rest => (bracket_items rest).map (fun l => (a, a) :: l)

/-- The function `regcomp` for a basic regular expression that is one bracket
expression, anchored with `^` or not; `none` for a pattern it rejects or that
is not covered. -/
def regcomp (regex : List Char) (icase : Bool) : Option regex_t :=
  match regex with
  | '^' :: '[' :: c :: rest =>
    if c = ']' ∨ c = '^' then none
    else (bracket_items (c :: rest)).map (fun l => ⟨true, l, icase⟩)
  | '[' :: c :: rest =>
    if c = ']' ∨ c = '^' then none
    else (bracket_items (c :: rest)).map (fun l => ⟨false, l, icase⟩)
  | _ => none

/-- The character is in one of the ranges. -/
def in_ranges (items : List (Char × Char)) (c : Char) : Bool :=
  items.any (fun r => decide (r.1.toNat ≤ c.toNat ∧ c.toNat ≤ r.2.toNat))

/-- The character matches the bracket expression of `reg`: it is in one of the
ranges, or, with `REG_ICASE`, its lower-case or upper-case counterpart is. -/
def bracket_match (reg : regex_t) (c : Char) : Bool :=
  in_ranges reg.items c ||
    (reg.icase && (in_ranges reg.items c.toLower || in_ranges reg.items c.toUpper))

/-- The function `regexec(reg, s, ..)`: 0 when `s` matches, `REG_NOMATCH` (1) when it
does not.  An anchored bracket expression matches a string whose first
character matches, one that is not anchored a string with a character that
matches. -/
def regexec (reg : regex_t) (s : List Char) : Int :=
  if reg.anchored then
    match s with
    | [] => 1
    | c :: _ => if bracket_match reg c then 0 else 1
  else if s.any (bracket_match reg) then 0 else 1

/-! ## display.c -/

/-- The number of entries of the panel table, `sizeof(windata) / sizeof(windata[0])`. -/
def array_size {σ : Type} (w : World σ) : Nat := w.windata.length

/-- The function `display_show_header`: it draws the header and returns 0. -/
def display_show_header {σ : Type} (_win : Int) (w : World σ) : Int × World σ := (0, w)

/-- The function `display_show_footer`: it draws the footer and returns 0. -/
def display_show_footer {σ : Type} (_win : Int) (_string : Option (List Char)) (w : World σ) :
    Int × World σ := (0, w)

/-- A call of an operation of an adapter: it works on the panel table and on
the state of the adapters. -/
def call_op {σ : Type} (f : Panels σ → Option (Int × Panels σ)) (w : World σ) :
    Option (Int × World σ) :=
  match f ⟨w.windata, w.user⟩ with
  | none => none
  | some r => some (r.1, { w with windata := r.2.windata, user := r.2.user })

/-- The function `display_refresh`. -/
def display_refresh {σ : Type} (env : Env) (code : Code σ) (win : Int) (read : Bool)
    (w : World σ) : Option (Int × World σ) :=
  if win ≠ w.current_win then some (0, w)
  else
    match index w.windata win with
    | none => none
    | some wd =>
      match wd.ops.bind (fun ops => ops.display) with
      | some f => call_op (code.display f read) w
      | none => if env.werase ≠ 0 then some (-1, w) else some (env.wrefresh, w)

/-- The function `display_select`. -/
def display_select {σ : Type} (code : Code σ) (w : World σ) : Option (Int × World σ) :=
  match index w.windata w.current_win with
  | none => none
  | some wd =>
    match wd.ops.bind (fun ops => ops.select) with
    | some f => call_op (code.select f) w
    | none => some (0, w)

/-- The function `display_next_panel`.  The remainder is taken in `size_t`: the `int` is
converted to 64 bits without sign first. -/
def display_next_panel {σ : Type} (w : World σ) : Int × World σ :=
  let current_win := w.current_win + 1
  let current_win := (current_win % 2 ^ 64) % (array_size w : Int)
  (current_win, { w with current_win := current_win })

/-- The function `display_prev_panel`. -/
def display_prev_panel {σ : Type} (w : World σ) : Int × World σ :=
  let current_win := w.current_win - 1
  let current_win := if current_win < 0 then (array_size w : Int) - 1 else current_win
  (current_win, { w with current_win := current_win })

/-- The assignment `windata[current_win] = wd`. -/
def set_current {σ : Type} (w : World σ) (wd : windata) : World σ :=
  { w with windata := w.windata.set w.current_win.toNat wd }

/-- The function `display_next_line`; `maxy` is what `getmaxyx` reports.  `none` (undefined
behaviour) when `windata[current_win]` or `rowdata[cursor]` is out of bounds. -/
def display_next_line {σ : Type} (w : World σ) : Option (Int × World σ) :=
  match index w.windata w.current_win with
  | none => none
  | some wd =>
    let cursor := wd.cursor
    let nrdata := wd.nrdata
    let scrolling := wd.scrolling
    let maxy := w.maxy
    if cursor ≥ nrdata then some (cursor, w)
    else
      match index wd.rowdata cursor with
      | none => none
      | some _ =>
        let scrolling :=
          if cursor < nrdata - 1 then
            if cursor ≥ maxy - 4 + scrolling then scrolling + 1 else scrolling
          else scrolling
        let cursor := if cursor < nrdata - 1 then cursor + 1 else cursor
        some (cursor, set_current w { wd with scrolling := scrolling, cursor := cursor })

/-- The function `display_prev_line`. -/
def display_prev_line {σ : Type} (w : World σ) : Option (Int × World σ) :=
  match index w.windata w.current_win with
  | none => none
  | some wd =>
    let cursor := wd.cursor
    let nrdata := wd.nrdata
    let scrolling := wd.scrolling
    if cursor ≥ nrdata then some (cursor, w)
    else
      match index wd.rowdata cursor with
      | none => none
      | some _ =>
        let scrolling :=
          if cursor > 0 then
            if cursor ≤ scrolling then scrolling - 1 else scrolling
          else scrolling
        let cursor := if cursor > 0 then cursor - 1 else cursor
        some (cursor, set_current w { wd with scrolling := scrolling, cursor := cursor })

/-- The address of the function `display_keystroke`. -/
def display_keystroke_addr : Nat := 100

/-- The address of the function `display_find_keystroke`. -/
def display_find_keystroke_addr : Nat := 101

/-- The regular expression of `display_find_init`. -/
def regexp : List Char := "^[a-z|0-9|_|-|.]".toList

/-- The function `display_find_init`: the pointer it returns (`none` for `NULL`) and the
state.  No result (`none`) where the function returns its variable `findd`
before anything was assigned to it, which is after a failure of `regcomp` or
of the second `malloc`.  The blocks of `reg` and of the buffer take an address
each; their content is held in the `find_data` block. -/
def display_find_init {σ : Type} (env : Env) (w : World σ) : Option (Option Nat × World σ) :=
  let len : Nat := 64
  match malloc env w with
  | (none, w) => some (none, w)
  | (some _, w) =>
    match (if env.regcomp_ok then regcomp regexp true else none) with
    | none => none
    | some reg =>
      match malloc env w with
      | (none, _) => none
      | (some _, w) =>
        let search4 := List.replicate len NUL
        match malloc env w with
        | (none, w) => some (none, w)
        | (some findd, w) =>
          match index w.windata w.current_win with
          | none => none
          | some wd =>
            let block : find_data :=
              { string := search4, reg := reg, len := len, ocursor := wd.cursor,
                oscrolling := wd.scrolling }
            let w := { w with findh := fun x => if x = findd then some block else w.findh x }
            some (some findd, set_current w { wd with cursor := 0, scrolling := 0 })

/-- The function `display_find_fini`; `none` when `findd` is not a live block. -/
def display_find_fini {σ : Type} (findd : Nat) (w : World σ) : Option (World σ) :=
  match w.findh findd with
  | none => none
  | some block =>
    match index w.windata w.current_win with
    | none => none
    | some wd =>
      let w := set_current w { wd with cursor := block.ocursor, scrolling := block.oscrolling }
      some { w with findh := fun x => if x = findd then none else w.findh x }

/-- The function `display_switch_to_find`. -/
def display_switch_to_find {σ : Type} (env : Env) (fd : Int) (w : World σ) :
    Option (Int × World σ) :=
  match display_find_init env w with
  | none => none
  | some (none, w) => some (-1, w)
  | some (some findd, w) =>
    match mainloop_del fd w with
    | none => none
    | some (r, w) =>
      if r ≠ 0 then some (-1, w)
      else
        match mainloop_add env fd display_find_keystroke_addr (some findd) w with
        | none => none
        | some (r, w) =>
          if r ≠ 0 then some (-1, w)
          else
            let (r, w) := display_show_footer w.current_win (some "find (esc to exit)?".toList) w
            if r ≠ 0 then some (-1, w) else some (0, w)

/-- The function `display_keystroke`. -/
def display_keystroke {σ : Type} (env : Env) (code : Code σ) (fd : Int) (_data : Option Nat)
    (w : World σ) : Option (Int × World σ) :=
  let (keystroke, w) := getch w
  let refresh := fun (w : World σ) =>
    (display_refresh env code w.current_win false w).map (fun r => ((0 : Int), r.2))
  if keystroke = KEY_RIGHT ∨ keystroke = 9 then
    let (win, w) := display_next_panel w
    refresh (display_show_header win w).2
  else if keystroke = KEY_LEFT ∨ keystroke = KEY_BTAB then
    let (win, w) := display_prev_panel w
    refresh (display_show_header win w).2
  else if keystroke = KEY_DOWN then
    match display_next_line w with
    | none => none
    | some (_, w) => refresh w
  else if keystroke = KEY_UP then
    match display_prev_line w with
    | none => none
    | some (_, w) => refresh w
  else if keystroke = 13 then
    match display_select code w with
    | none => none
    | some (_, w) => refresh w
  else if keystroke = EOF ∨ keystroke = 113 ∨ keystroke = 81 then some (1, w)
  else if keystroke = 47 then display_switch_to_find env fd w
  else if keystroke = 114 ∨ keystroke = 82 then display_refresh env code w.current_win true w
  else some (0, w)

/-- The function `display_switch_to_main`. -/
def display_switch_to_main {σ : Type} (env : Env) (code : Code σ) (fd : Int) (w : World σ) :
    Option (Int × World σ) :=
  match mainloop_del fd w with
  | none => none
  | some (r, w) =>
    if r ≠ 0 then some (-1, w)
    else
      match mainloop_add env fd display_keystroke_addr none w with
      | none => none
      | some (r, w) =>
        if r ≠ 0 then some (-1, w)
        else
          let (r, w) := display_show_header w.current_win w
          if r ≠ 0 then some (-1, w)
          else
            let (r, w) := display_show_footer w.current_win none w
            if r ≠ 0 then some (-1, w) else display_refresh env code w.current_win false w

/-- The two assignments `windata[current_win].cursor = 0;` and
`windata[current_win].scrolling = 0;` of `display_find_keystroke`. -/
def cursor_to_top {σ : Type} (w : World σ) : Option (World σ) :=
  match index w.windata w.current_win with
  | none => none
  | some wd => some (set_current w { wd with cursor := 0, scrolling := 0 })

/-- The statements of `display_find_keystroke` after its `switch`, with the query in the
block `findd`. -/
def display_find_show {σ : Type} (code : Code σ) (findd : Nat) (w : World σ) :
    Option (Int × World σ) :=
  match index w.windata w.current_win with
  | none => none
  | some wd =>
    match wd.ops.bind (fun ops => ops.find) with
    | none => some (0, w)
    | some f =>
      match w.findh findd with
      | none => none
      | some block =>
        let string := c_str block.string
        match call_op (code.find f string) w with
        | none => none
        | some (r, w) =>
          if r ≠ 0 then some (-1, w)
          else
            let (r, w) := display_show_header w.current_win w
            if r ≠ 0 then some (-1, w)
            else
              let (r, w) := display_show_footer w.current_win
                (some (if strlen string ≠ 0 then string else "find (esc to exit)?".toList)) w
              if r ≠ 0 then some (-1, w) else some (0, w)

/-- The assignment to the buffer `findd->string`. -/
def set_string {σ : Type} (w : World σ) (findd : Nat) (block : find_data)
    (string : List Char) : World σ :=
  { w with findh := fun x => if x = findd then some { block with string := string } else w.findh x }

/-- The function `display_find_keystroke`; `data` is the pointer to the `find_data`.  `none`
(undefined behaviour) when the block is not live, the buffer holds no NUL, or
a panel or row is read out of bounds. -/
def display_find_keystroke {σ : Type} (env : Env) (code : Code σ) (fd : Int)
    (data : Option Nat) (w : World σ) : Option (Int × World σ) :=
  match data with
  | none => none
  | some findd =>
    match w.findh findd with
    | none => none
    | some block =>
      let reg := block.reg
      let string := block.string
      let (keystroke, w) := getch w
      let match_ := c_str [to_char keystroke, NUL]
      if keystroke = 27 then
        match display_find_fini findd w with
        | none => none
        | some w => display_switch_to_main env code fd w
      else if keystroke = KEY_DOWN then
        match display_next_line w with
        | none => none
        | some (_, w) => display_find_show code findd w
      else if keystroke = KEY_UP then
        match display_prev_line w with
        | none => none
        | some (_, w) => display_find_show code findd w
      else if keystroke = KEY_BACKSPACE then
        match buf_strlen string with
        | none => none
        | some n =>
          let w := if n ≠ 0 then set_string w findd block (string.set (n - 1) NUL) else w
          match cursor_to_top w with
          | none => none
          | some w => display_find_show code findd w
      else if keystroke = 13 then
        match index w.windata w.current_win with
        | none => none
        | some wd =>
          match wd.ops.bind (fun ops => ops.selectf) with
          | none => some (0, w)
          | some f =>
            match call_op (code.selectf f) w with
            | none => none
            | some (r, w) =>
              if r ≠ 0 then some (-1, w)
              else
                match cursor_to_top w with
                | none => none
                | some w => some (0, w)
      else if regexec reg match_ ≠ 0 then some (0, w)
      else
        match buf_strlen string with
        | none => none
        | some n =>
          let w :=
            if n < size_sub block.len 1
            then set_string w findd block (string.set n (to_char keystroke))
            else w
          match cursor_to_top w with
          | none => none
          | some w => display_find_show code findd w

/-- The callbacks of the program by address. -/
def callbacks {σ : Type} (env : Env) (code : Code σ) : callbacks_t σ := fun a =>
  if a = display_keystroke_addr then display_keystroke env code
  else if a = display_find_keystroke_addr then display_find_keystroke env code
  else fun _ _ _ => none

/-- The query of Find mode: the C string in the buffer of the block `findd`. -/
def query {σ : Type} (w : World σ) (findd : Nat) : Option (List Char) :=
  (w.findh findd).map (fun block => c_str block.string)

/-- The focused panel, `windata[current_win]`. -/
def focused {σ : Type} (w : World σ) : Option windata := index w.windata w.current_win

/-- The state `display_next_panel` leaves. -/
def next_panel {σ : Type} (w : World σ) : World σ := (display_next_panel w).2

/-- The state `display_prev_panel` leaves. -/
def prev_panel {σ : Type} (w : World σ) : World σ := (display_prev_panel w).2

/-- A panel with `n` rows, the cursor on row `c` and the scroll offset `s`. -/
def panel_rows (n c s : Int) : windata :=
  { ops := none, rowdata := List.replicate n.toNat ⟨0, none⟩, name := "Clocks".toList,
    nrdata := n, scrolling := s, cursor := c }

/-- The state at the start of the program with the first panel, which is
focused, replaced by `wd`; the terminal has 24 lines. -/
def world_panel (wd : windata) : World (List Int) :=
  { world0 [] with windata := windata0.set 0 wd }

/-- The assignment `current_win = c`. -/
def set_win {σ : Type} (w : World σ) (c : Int) : World σ := { w with current_win := c }

/-- Adapters whose operations do nothing and return 0. -/
def code_idle : Code (List Int) :=
  { display := fun _ _ p => some (0, p), select := fun _ p => some (0, p),
    find := fun _ _ p => some (0, p), selectf := fun _ p => some (0, p) }

/-- The state after `mainloop_init()` and `mainloop_add(0, display_keystroke, NULL)`: Normal
mode, the keyboard (descriptor 0) registered with the block 0. -/
def world_main : World (List Int) :=
  match mainloop_add env_two 0 display_keystroke_addr none world_init with
  | some (_, w) => w
  | none => world_init

/-- The state after the key `/` is handled in the state `world_main`: Find mode,
the `find_data` in the block 3, the query empty, the keyboard registered with
the block 4. -/
def world_find : World (List Int) :=
  match display_keystroke env_two code_idle 0 none { world_main with keys := [47] } with
  | some (_, w) => w
  | none => world_main

/-- The query after `display_find_keystroke` has handled the keystroke `k` in the state
`w`, whose `find_data` is the block `findd`; `none` when the block is gone. -/
def query_after (w : World (List Int)) (findd : Nat) (k : Int) : Option (List Char) :=
  (display_find_keystroke env_two code_idle 0 (some findd) { w with keys := [k] }).bind
    (fun r => query r.2 findd)

/-- The character with the code `n` is an ASCII letter of either case. -/
def is_letter (n : Nat) : Prop := (65 ≤ n ∧ n ≤ 90) ∨ (97 ≤ n ∧ n ≤ 122)

/-- The character with the code `n` is a digit. -/
def is_digit (n : Nat) : Prop := 48 ≤ n ∧ n ≤ 57

instance (n : Nat) : Decidable (is_letter n) := by unfold is_letter; infer_instance

instance (n : Nat) : Decidable (is_digit n) := by unfold is_digit; infer_instance

/-- The compiled form of `regexp` with `REG_ICASE`: anchored, the ranges `a-z`, `|`,
`0-9`, `|`, `_`, `|-|` and `.`. -/
def find_reg : regex_t :=
  { anchored := true,
    items := [('a', 'z'), ('|', '|'), ('0', '9'), ('|', '|'), ('_', '_'), ('|', '|'),
      ('.', '.')],
    icase := true }

/-! ## Specification-level notions for Find mode -/

/-- The buffer `buf` of Find mode holds the query `q`: 64 bytes, the
characters of `q`, none of them NUL and at most 63, followed by NULs. -/
def holds_query (buf q : List Char) : Prop :=
  NUL ∉ q ∧ q.length ≤ 63 ∧ buf = q ++ List.replicate (64 - q.length) NUL

/-- The state after `display_find_keystroke`, called for the descriptor `fd` with the
`find_data` block `findd`, has handled `n` keystrokes in turn; `none` when one
of the calls has no result. -/
def find_steps {σ : Type} (env : Env) (code : Code σ) (fd : Int) (findd : Nat) :
    Nat → World σ → Option (World σ)
  | 0, w => some w
  | n + 1, w =>
    match display_find_keystroke env code fd (some findd) w with
    | none => none
    | some (_, w1) => find_steps env code fd findd n w1

/-- Everything but the panel table, the state of the adapters and the pending
keystrokes is the same in the two states. -/
def PanelFrame {σ : Type} (w w2 : World σ) : Prop :=
  w2.findh = w.findh ∧ w2.mdh = w.mdh ∧ w2.interest = w.interest ∧
    w2.current_win = w.current_win ∧ w2.nrhandler = w.nrhandler ∧ w2.mds = w.mds ∧
    w2.epfd = w.epfd ∧ w2.brk = w.brk ∧ w2.maxy = w.maxy

/-- Everything `mainloop.c` does not work on is the same in the two states. -/
def LoopFrame {σ : Type} (w w2 : World σ) : Prop :=
  w2.findh = w.findh ∧ w2.current_win = w.current_win ∧ w2.windata = w.windata ∧
    w2.keys = w.keys ∧ w2.maxy = w.maxy ∧ w2.user = w.user ∧ w2.epfd = w.epfd

/-- The callback registered for the descriptor `fd`: the address of the
function and its `data`, when `fd` is in the interest list and the block
registered with it is live. -/
def handler {σ : Type} (w : World σ) (fd : Int) : Option (Nat × Option Nat) :=
  (w.interest fd).bind (fun md => (w.mdh md).map (fun b => (b.cb, b.data)))

/-- What a keystroke other than Escape does to the query `q` of Find mode,
`reg` being the compiled expression: Backspace takes the last character off;
the arrows and Enter leave the query; any other keystroke appends
`(char)keystroke` when `regexec` accepts it and the query has less than 63
characters, and leaves the query otherwise. -/
def query_step (reg : regex_t) (q : List Char) (k : Int) : List Char :=
  if k = KEY_BACKSPACE then q.dropLast
  else if k = KEY_DOWN ∨ k = KEY_UP ∨ k = 13 then q
  else if regexec reg (c_str [to_char k, NUL]) = 0 ∧ q.length < 63 then q ++ [to_char k]
  else q

/-- Cursor and scroll offset of every panel, in the order of the table. -/
def cursors (ws : List windata) : List (Int × Int) := ws.map (fun wd => (wd.cursor, wd.scrolling))

/-- The operation of an adapter leaves cursor and scroll offset of every panel
as they are (the adapters write rows, not cursors). -/
def keeps_cursor {σ : Type} (f : Panels σ → Option (Int × Panels σ)) : Prop :=
  ∀ p r p2, f p = some (r, p2) → cursors p2.windata = cursors p.windata

/-- The `find_data` block `display_find_init` makes when cursor and scroll offset of the
focused panel are 0. -/
def block_empty : find_data :=
  { len := 64, string := List.replicate 64 NUL, reg := find_reg, ocursor := 0, oscrolling := 0 }

/-- The state `world_find` with the keystrokes `ks` to come. -/
def world_find_keys (ks : List Int) : World (List Int) := { world_find with keys := ks }

/-- The first panel of `windata0`. -/
def panel_clocks : windata :=
  { ops := none, rowdata := [], name := "Clocks".toList, nrdata := 0, scrolling := 0, cursor := 0 }

/-- The `find_data` block of Find mode when the query is `b` and the snapshot is
cursor 0 and scroll offset 0. -/
def block_b : find_data := { block_empty with string := 'b' :: List.replicate 63 NUL }

/-- The state in which `display_find_keystroke` reaches the statements after its
`switch` when it has edited the query `q` for the keystroke `k`, Backspace or
a keystroke that `regexec` accepts: `w1` is the state after `getch`, `wd` its
focused panel. -/
def edited {σ : Type} (w1 : World σ) (findd : Nat) (block : find_data) (q : List Char)
    (wd : windata) (k : Int) : World σ :=
  set_current
    (if k = KEY_BACKSPACE then
      if q.length ≠ 0 then set_string w1 findd block (block.string.set (q.length - 1) NUL)
      else w1
    else
      if q.length < 63 then set_string w1 findd block (block.string.set q.length (to_char k))
      else w1)
    { wd with cursor := 0, scrolling := 0 }

/-- Normal mode with the keyboard registered, the first panel with 30 rows, the
cursor on row 20 and the scroll offset 5, and the keystrokes `/`, `b`,
arrow-down and Escape to come. -/
def world_main_at : World (List Int) :=
  { world_main with windata := windata0.set 0 (panel_rows 30 20 5), keys := [47, 98, 258, 27] }

/-- The state after the `/` is handled in the state `world_main_at`. -/
def world_find_at : World (List Int) :=
  match display_keystroke env_two code_idle 0 none world_main_at with
  | some (_, w) => w
  | none => world_main_at

/-! ## display.c: the rows of a panel

The functions `display.h` exports to the adapters.  They work on the panel
table; what curses draws is not part of the state. -/

/-- The constant `CLOCK` of the `enum` of `display.h`. -/
def CLOCK : Int := 0

/-- The attribute `WA_BOLD` of curses. -/
def WA_BOLD : Nat := 2097152

/-- The attribute `WA_STANDOUT` of curses. -/
def WA_STANDOUT : Nat := 65536

/-- What the rendering of a panel cannot control: whether the `realloc` of the
row array to `n` entries succeeds, what fresh entries of it hold, what
`wmove` and `prefresh` return, whether the `malloc` of a `struct clock_info` succeeds
(by the address it would get), whether the three `asprintf` of `clock_line(t)`
succeed (by the node), and the number `file_read_value(path, name, ..)` stores, `none`
when it stores nothing (the file cannot be opened or holds no number). -/
structure Draw where
  rows_ok : Nat → Bool
  rows_junk : Nat → rowdata
  wmove : Int
  prefresh : Int
  clock_ok : Nat → Bool
  line_ok : Nat → Bool
  value : List Char → List Char → Option Int

/-- The array `realloc` returns for `n` rows: the old rows as far as they go,
then fresh ones. -/
def rows_resize (junk : Nat → rowdata) (old : List rowdata) (n : Nat) : List rowdata :=
  (List.range n).map (fun i => match old.get? i with | some x => x | none => junk i)

/-- The function `display_set_row_data(win, line, data, attr)`.  `none` (undefined behaviour) when
`windata[win]` or `rowdata[line]` is out of bounds. -/
def display_set_row_data (dr : Draw) (win line : Int) (data : Option Nat) (attr : Int)
    (ws : List windata) : Option (Int × List windata) :=
  match index ws win with
  | none => none
  | some wd =>
    if line < 0 then none
    else
      let grown : Option windata :=
        if line ≥ wd.nrdata then
          if dr.rows_ok (line + 1).toNat then
            some { wd with
              rowdata := rows_resize dr.rows_junk wd.rowdata (line + 1).toNat,
              nrdata := line + 1 }
          else none
        else some wd
      match grown with
      | none => some (-1, ws)
      | some wd1 =>
        if line.toNat < wd1.rowdata.length then
          some (0, ws.set win.toNat
            { wd1 with rowdata := wd1.rowdata.set line.toNat ⟨attr, data⟩ })
        else none

/-- The function `display_reset_cursor(win)`: the row count is set to 0, the row array stays
as it is. -/
def display_reset_cursor (dr : Draw) (win : Int) (ws : List windata) :
    Option (Int × List windata) :=
  match index ws win with
  | none => none
  | some wd => some (dr.wmove, ws.set win.toNat { wd with nrdata := 0 })

/-- The function `display_print_line(win, line, str, bold, data)`. -/
def display_print_line (dr : Draw) (win line : Int) (bold : Int) (data : Option Nat)
    (ws : List windata) : Option (Int × List windata) :=
  match index ws win with
  | none => none
  | some wd =>
    let attr : Nat := 0
    let attr := if bold ≠ 0 then attr ||| WA_BOLD else attr
    let attr := if line = wd.cursor then attr ||| WA_STANDOUT else attr
    match display_set_row_data dr win line data attr ws with
    | none => none
    | some (r, ws1) => if r ≠ 0 then some (-1, ws1) else some (0, ws1)

/-- The function `display_refresh_pad(win)`. -/
def display_refresh_pad (dr : Draw) (win : Int) (ws : List windata) : Option Int :=
  (index ws win).map (fun _ => dr.prefresh)

/-- The function `display_get_row_data(win)`: `windata[win].rowdata[windata[win].cursor].data`.  `none` (undefined
behaviour) when the cursor is outside the row array; `some none` is a `NULL`
that was read. -/
def display_get_row_data (win : Int) (ws : List windata) : Option (Option Nat) :=
  (index ws win).bind (fun wd => (index wd.rowdata wd.cursor).map (fun r => r.data))

/-- The function `display_register(win, ops)`. -/
def display_register (win : Int) (ops : display_ops) (ws : List windata) :
    Int × List windata :=
  match index ws win with
  | none => (-1, ws)
  | some wd => (0, ws.set win.toNat { wd with ops := some ops })

/-- The row list of a panel: the nodes bound to the rows 0 to `nrdata - 1`. -/
def rows (wd : windata) : List (Option Nat) :=
  (wd.rowdata.take wd.nrdata.toNat).map (fun r => r.data)

/-! ## clocks.c -/

/-- The type `struct clock_info`, without the fields `rate` and `prefix`, which only
shape the text of a line. -/
structure clock_info where
  flags : Int
  usecount : Int
  expanded : Bool
deriving DecidableEq

/-- The state of `clocks.c`: the heap with the nodes of the tree, the variable
`clock_tree`, the field `private` of every node (`priv t` for the node `t`; the
heap holds the other fields), the live `struct clock_info` blocks and the next
fresh address for one. -/
structure Clocks where
  heap : Heap
  clock_tree : Option Nat
  priv : Nat → Option Nat
  clk : Nat → Option clock_info
  nclk : Nat

/-- The object `*(struct clock_info *)t->private`, `none` when `t` is no node or the
pointer is `NULL`. -/
def Clocks.info (c : Clocks) (t : Nat) : Option clock_info :=
  if t < c.heap.size then (c.priv t).bind c.clk else none

/-- A callback that can reach undefined behaviour, as a `tree_cb_t`: the data
`none` says that it has, and stops the traversal. -/
def cb_of {σ : Type} (f : Nat → σ → Option (Int × σ)) : tree_cb_t (Option σ) := fun t d =>
  match d.bind (f t) with
  | none => (-1, none)
  | some (r, d1) => (r, some d1)

/-- The result of a traversal with such a callback. -/
def cb_result {σ : Type} : Option (Int × Option σ) → Option (Int × σ)
  | some (r, some d) => some (r, d)
  | _ => none

/-- The assignment `*clk = v` for `clk = t->private`. -/
def Clocks.store (c : Clocks) (a : Nat) (v : clock_info) : Clocks :=
  { c with clk := fun x => if x = a then some v else c.clk x }

/-- The callback `read_clock_cb(t, data)`. -/
def read_clock_cb (dr : Draw) (t : Nat) (c : Clocks) : Option (Int × Clocks) :=
  match c.priv t with
  | none => none
  | some a =>
    match c.clk a with
    | none => none
    | some clk =>
      let path := (c.heap.cell t).path
      let clk := match dr.value path "flags".toList with
        | some v => { clk with flags := v }
        | none => clk
      let clk := match dr.value path "usecount".toList with
        | some v => { clk with usecount := v }
        | none => clk
      some (0, c.store a clk)

/-- The function `read_clock_info(tree)`. -/
def read_clock_info (dr : Draw) (fuel : Nat) (tree : Option Nat) (c : Clocks) :
    Option (Int × Clocks) :=
  cb_result (tree_for_each c.heap (cb_of (read_clock_cb dr)) fuel tree (some c))

/-- The callback `fill_clock_cb(t, data)`. -/
def fill_clock_cb (dr : Draw) (t : Nat) (c : Clocks) : Option (Int × Clocks) :=
  -- clk = clock_alloc(); if (!clk) return -1;
  if dr.clock_ok c.nclk = false then some (-1, c)
  else
    let a := c.nclk
    let c1 : Clocks :=
      { c with
        clk := fun x => if x = a then some ⟨0, 0, false⟩ else c.clk x,
        nclk := a + 1,
        priv := fun x => if x = t then some a else c.priv x }
    if (c1.heap.cell t).parent = none then some (0, c1.store a ⟨0, 0, true⟩)
    else read_clock_cb dr t c1

/-- The function `fill_clock_tree()`. -/
def fill_clock_tree (dr : Draw) (fuel : Nat) (c : Clocks) : Option (Int × Clocks) :=
  cb_result (tree_for_each c.heap (cb_of (fill_clock_cb dr)) fuel c.clock_tree (some c))

/-- The callback `is_collapsed(t, data)`; the data is not used. -/
def is_collapsed (c : Clocks) (t : Nat) (_data : Unit) : Option (Int × Unit) :=
  match c.info t with
  | none => none
  | some clk => if clk.expanded = false then some (1, ()) else some (0, ())

/-- The callback `_clock_print_info_cb(t, data)`; the data is the line number `*line` with the panel
table, which `display_print_line` writes.  The result of `display_print_line` is not looked at. -/
def _clock_print_info_cb (dr : Draw) (c : Clocks) (t : Nat) (d : Int × List windata) :
    Option (Int × (Int × List windata)) :=
  if t ≥ c.heap.size then none
  else if (c.heap.cell t).parent = none then some (0, d)
  else
    match c.info t with
    | none => none
    | some clock =>
      -- buffer = clock_line(t); if (!buffer) return -1;
      if dr.line_ok t = false then some (-1, d)
      else
        match display_print_line dr CLOCK d.1 clock.usecount (some t) d.2 with
        | none => none
        | some (_, ws) => some (0, (d.1 + 1, ws))

/-- The callback `clock_print_info_cb(t, data)`. -/
def clock_print_info_cb (dr : Draw) (c : Clocks) (fuel : Nat) (t : Nat)
    (d : Int × List windata) : Option (Int × (Int × List windata)) :=
  if t ≥ c.heap.size then none
  else if (c.heap.cell t).parent = none then some (0, d)
  else
    match cb_result
      (tree_for_each_parent c.heap (cb_of (is_collapsed c)) fuel (c.heap.cell t).parent
        (some ())) with
    | none => none
    | some (r, _) => if r ≠ 0 then some (0, d) else _clock_print_info_cb dr c t d

/-- The function `clock_print_info(tree)`. -/
def clock_print_info (dr : Draw) (c : Clocks) (fuel : Nat) (tree : Option Nat)
    (ws : List windata) : Option (Int × List windata) :=
  match display_reset_cursor dr CLOCK ws with
  | none => none
  | some (_, ws1) =>
    match cb_result
      (tree_for_each c.heap (cb_of (clock_print_info_cb dr c fuel)) fuel tree
        (some (0, ws1))) with
    | none => none
    | some (ret, (_, ws2)) =>
      match display_refresh_pad dr CLOCK ws2 with
      | none => none
      | some _ => some (ret, ws2)

/-- The function `clock_select()`. -/
def clock_select (p : Panels Clocks) : Option (Int × Panels Clocks) :=
  match display_get_row_data CLOCK p.windata with
  | none => none
  | some none => none
  | some (some t) =>
    if t ≥ p.user.heap.size then none
    else
      match p.user.priv t with
      | none => none
      | some a =>
        match p.user.clk a with
        | none => none
        | some clk =>
          some (0, { p with user := p.user.store a { clk with expanded := !clk.expanded } })

/-- The function `clock_display(refresh)`. -/
def clock_display (dr : Draw) (fuel : Nat) (refresh : Bool) (p : Panels Clocks) :
    Option (Int × Panels Clocks) :=
  let read : Option (Int × Clocks) :=
    if refresh then read_clock_info dr fuel p.user.clock_tree p.user else some (0, p.user)
  match read with
  | none => none
  | some (r, c) =>
    if r ≠ 0 then some (-1, { p with user := c })
    else
      (clock_print_info dr c fuel c.clock_tree p.windata).map
        (fun x => (x.1, { windata := x.2, user := c }))

/-- The loop `for (i = 0; i < nr; i++)` of `clock_find` over the cells `ptree[0]`, ...,
`ptree[nr - 1]`. -/
def clock_find_loop (dr : Draw) (c : Clocks) :
    List (Option Nat) → Int × List windata → Option (Int × (Int × List windata))
  | [], d => some (0, d)
  | none :: _, _ => none
  | some t :: ts, d =>
    match _clock_print_info_cb dr c t d with
    | none => none
    | some (ret, d1) => if ret ≠ 0 then some (ret, d1) else clock_find_loop dr c ts d1

/-- The function `clock_find(name)`. -/
def clock_find (sys : Sys) (dr : Draw) (fuel : Nat) (name : List Char) (p : Panels Clocks) :
    Option (Int × Panels Clocks) :=
  match tree_finds sys p.user.heap fuel p.user.clock_tree name none with
  | none => none
  | some (nr, ptree) =>
    match display_reset_cursor dr CLOCK p.windata with
    | none => none
    | some (_, ws1) =>
      let cells : Option (List (Option Nat)) :=
        if nr ≤ 0 then some []
        else
          match ptree with
          | none => none
          | some arr => if nr.toNat ≤ arr.length then some (arr.take nr.toNat) else none
      match cells with
      | none => none
      | some l =>
        match clock_find_loop dr p.user l (0, ws1) with
        | none => none
        | some (ret, (_, ws2)) =>
          match display_refresh_pad dr CLOCK ws2 with
          | none => none
          | some _ => some (ret, { p with windata := ws2 })

/-- The function `clock_selectf()`. -/
def clock_selectf (dr : Draw) (fuel : Nat) (p : Panels Clocks) : Option (Int × Panels Clocks) :=
  match display_get_row_data CLOCK p.windata with
  | none => none
  | some t =>
    match display_reset_cursor dr CLOCK p.windata with
    | none => none
    | some (_, ws1) =>
      match cb_result
        (tree_for_each_parent p.user.heap (cb_of (_clock_print_info_cb dr p.user)) fuel t
          (some (0, ws1))) with
      | none => none
      | some (r, (_, ws2)) =>
        if r ≠ 0 then some (-1, { p with windata := ws2 })
        else (display_refresh_pad dr CLOCK ws2).map (fun x => (x, { p with windata := ws2 }))

/-- The addresses of the four operations of `clocks.c`. -/
def clock_display_addr : Nat := 200

/-- The address of `clock_select`. -/
def clock_select_addr : Nat := 201

/-- The address of `clock_find`. -/
def clock_find_addr : Nat := 202

/-- The address of `clock_selectf`. -/
def clock_selectf_addr : Nat := 203

/-- The variable `clock_ops`. -/
def clock_ops : display_ops :=
  { display := some clock_display_addr, select := some clock_select_addr,
    find := some clock_find_addr, selectf := some clock_selectf_addr }

/-- The operations of the adapters by address, `clocks.c` being the only one. -/
def clock_code (sys : Sys) (dr : Draw) (fuel : Nat) : Code Clocks :=
  { display := fun a refresh p =>
      if a = clock_display_addr then clock_display dr fuel refresh p else none,
    select := fun a p => if a = clock_select_addr then clock_select p else none,
    find := fun a name p => if a = clock_find_addr then clock_find sys dr fuel name p else none,
    selectf := fun a p => if a = clock_selectf_addr then clock_selectf dr fuel p else none }

/-- The function `clock_init()`.  The `sprintf` whose source and destination overlap is
taken to append `/clock`; `access(path, F_OK)` succeeds when `stat(path)` does. -/
def clock_init (sys : Sys) (dr : Draw) (fuel : Nat) (p : Panels Clocks) :
    Option (Int × Panels Clocks) :=
  let clk_dir_path := "/sys/kernel/debug".toList ++ "/clock".toList
  if (sys.stat clk_dir_path).isNone then some (-1, p)
  else
    match tree_load sys fuel p.user.heap clk_dir_path none false with
    | none => none
    | some (h, clock_tree) =>
      let c : Clocks := { p.user with heap := h, clock_tree := clock_tree }
      if clock_tree.isNone then some (-1, { p with user := c })
      else
        match fill_clock_tree dr fuel c with
        | none => none
        | some (r, c1) =>
          if r ≠ 0 then some (-1, { p with user := c1 })
          else
            match display_register CLOCK clock_ops p.windata with
            | (r2, ws) => some (r2, { windata := ws, user := c1 })

/-! ## Concrete inputs for the clock panel -/

/-- A file system in which `/sys/kernel/debug/clock` holds the directories `a`, `b`, `bb`
and `c`, and `a` holds the directory `bx`; no allocation fails. -/
def sys_clock : Sys where
  opendir := fun p =>
    if p = "/sys/kernel/debug/clock".toList then
      some [".".toList, "..".toList, "a".toList, "b".toList, "bb".toList, "c".toList]
    else if p = "/sys/kernel/debug/clock/a".toList then
      some [".".toList, "..".toList, "bx".toList]
    else some [".".toList, "..".toList]
  stat := fun _ => some FileType.S_IFDIR
  lstat := fun _ => some FileType.S_IFDIR
  malloc_ok := fun _ => true
  asprintf_ok := fun _ => true
  array_ok := fun _ => true
  array_junk := fun _ => none

/-- A file system in which `/sys/kernel/debug/clock` is an empty directory. -/
def sys_empty : Sys :=
  { sys_clock with opendir := fun _ => some [".".toList, "..".toList] }

/-- Nothing fails while a panel is rendered, and no clock file can be read. -/
def draw_ok : Draw :=
  { rows_ok := fun _ => true, rows_junk := fun _ => ⟨0, none⟩, wmove := 0, prefresh := 0,
    clock_ok := fun _ => true, line_ok := fun _ => true, value := fun _ _ => none }

/-- The state of `clocks.c` at the start of the program. -/
def clocks0 : Clocks :=
  { heap := heap0, clock_tree := none, priv := fun _ => none, clk := fun _ => none, nclk := 0 }

/-- The panels and the clocks after `clock_init()` on the file system `sys`. -/
def panels_init (sys : Sys) : Panels Clocks :=
  match clock_init sys draw_ok 8 ⟨windata0, clocks0⟩ with
  | some (_, p) => p
  | none => ⟨windata0, clocks0⟩

/-- The state of the program on the file system `sys` after `clock_init()`, `mainloop_init()`,
the registration of the keyboard with `display_keystroke` and the first
`display_refresh(CLOCK, true)`, with the keystrokes `keys` to come. -/
def world_clock (sys : Sys) (keys : List Int) : World Clocks :=
  let w : World Clocks :=
    { epfd := world_main.epfd, nrhandler := world_main.nrhandler, mds := world_main.mds,
      interest := world_main.interest, brk := world_main.brk, mdh := world_main.mdh,
      findh := world_main.findh, current_win := 0, windata := (panels_init sys).windata,
      keys := keys, maxy := world_main.maxy, user := (panels_init sys).user }
  match display_refresh env_two (clock_code sys draw_ok 8) 0 true w with
  | some (_, w1) => w1
  | none => w

/-- The state after the event loop has called the handler of the keyboard `n`
times, `none` when a call has no result. -/
def after_keys (sys : Sys) : Nat → World Clocks → Option (World Clocks)
  | 0, w => some w
  | n + 1, w =>
    match handler w 0 with
    | none => none
    | some (cb, data) =>
      match callbacks env_two (clock_code sys draw_ok 8) cb 0 data w with
      | none => none
      | some (_, w1) => after_keys sys n w1

/-- The row list of the clock panel. -/
def clock_rows (w : World Clocks) : Option (List (Option Nat)) :=
  (index w.windata CLOCK).map rows

/-- Every node of the tree at `root` has a `struct clock_info` of its own. -/
def Filled (c : Clocks) (root : Nat) : Prop :=
  (∀ t, root ≤ t → t < c.heap.size → ∃ a clk, c.priv t = some a ∧ c.clk a = some clk) ∧
  ∀ t u a, root ≤ t → t < c.heap.size → root ≤ u → u < c.heap.size →
    c.priv t = some a → c.priv u = some a → t = u

/-- The flag `expanded` of the node `t`, `false` when it has no `struct clock_info`. -/
def Clocks.flag (c : Clocks) (t : Nat) : Bool :=
  match c.info t with
  | some clk => clk.expanded
  | none => false

/-- The flag `expanded` is set in every proper ancestor of the node `t`. -/
def all_expanded (c : Clocks) (t : Nat) : Bool :=
  match ancestors c.heap (c.heap.size + 1) (c.heap.cell t).parent with
  | some anc => anc.all c.flag
  | none => false

/-- The nodes of `order` other than `root` in whose proper ancestors the flag
`expanded` is set. -/
def shown (c : Clocks) (root : Nat) (order : List Nat) : List Nat :=
  order.filter (fun t => decide (t ≠ root) && all_expanded c t)

/-- The panel table `ws` is the table `ws0` with the clock panel rendered anew
with a row for each node of `l`, in order. -/
def Printed (ws0 ws : List windata) (l : List Nat) : Prop :=
  ∃ wd0 wd, index ws0 CLOCK = some wd0 ∧ ws = ws0.set 0 wd ∧ wd.ops = wd0.ops ∧
    wd.name = wd0.name ∧ wd.scrolling = wd0.scrolling ∧ wd.cursor = wd0.cursor ∧
    wd.nrdata = l.length ∧ l.length ≤ wd.rowdata.length ∧
    (wd.rowdata.take l.length).map (fun r => r.data) = l.map some

/-- The state of `clocks.c` after `clock_init()` on the file system `sys_clock`: the nodes 0
(`clock`), 1 (`a`), 2 (`a/bx`), 3 (`b`), 4 (`bb`) and 5 (`c`), the root expanded,
the other nodes collapsed. -/
def clocks_abc : Clocks := (panels_init sys_clock).user

/-- The clocks with the flag `expanded` of the node `t` inverted. -/
def Clocks.toggle (c : Clocks) (t : Nat) : Clocks :=
  match c.priv t with
  | none => c
  | some a =>
    match c.clk a with
    | none => c
    | some clk => c.store a { clk with expanded := !clk.expanded }

/-- What Enter in Normal mode calls on the clock panel: `clock_select()`, then
`clock_display(false)` through `display_refresh`. -/
def clock_enter (dr : Draw) (fuel : Nat) (p : Panels Clocks) : Option (Int × Panels Clocks) :=
  match clock_select p with
  | none => none
  | some (_, p1) => clock_display dr fuel false p1

/-- The panels and the clocks after `clock_init()` on `sys_clock` and the first
`clock_display(false)`: the clock panel shows the rows of `a`, `b`, `bb` and `c`, the cursor
is on the row of `a`. -/
def panels_abc : Panels Clocks :=
  match clock_display draw_ok 8 false (panels_init sys_clock) with
  | some (_, p) => p
  | none => panels_init sys_clock

/-- The clock panel of `panels_abc`. -/
def panel_abc : windata := (index panels_abc.windata CLOCK).getD panel_clocks

/-- The nodes of `order` other than `root` whose name begins with the query
`q`; none for the empty query. -/
def found (c : Clocks) (root : Nat) (q : List Char) (order : List Nat) : List Nat :=
  if q = [] then []
  else order.filter (fun t => decide (t ≠ root) && decide ((c.heap.cell t).name.take q.length = q))

/-- The state of the program on `sys_clock` after the keystrokes `/` and `b`, with
Backspace to come: Find mode, the query `b`, the clock panel showing the rows
of `bx`, `b` and `bb`. -/
def world_clock_b : World Clocks :=
  (after_keys sys_clock 2 (world_clock sys_clock [47, 98, 263])).getD (world_clock sys_clock [])

/-- The clock panel of `world_clock_b`. -/
def panel_b : windata := (focused world_clock_b).getD panel_clocks

/-- The operations of an adapter that has `display` alone, at the address 1, as
`regulator.c`, `sensor.c` and `gpio.c` register them. -/
def ops_display : display_ops := { display := some 1, select := none, find := none, selectf := none }

/-- The first panel of `windata0` with the adapter `ops_display` registered. -/
def panel_display : windata := { panel_clocks with ops := some ops_display }

/-- Adapters whose `display` appends 7 to the state of the adapters and returns 0;
a call of another operation has no result. -/
def code_mark : Code (List Int) :=
  { display := fun _ _ p => some (0, { p with user := p.user ++ [7] }),
    select := fun _ _ => none, find := fun _ _ _ => none, selectf := fun _ _ => none }

/-- The state `world_main` with the panel `panel_display` focused and the keystrokes `ks`
to come. -/
def world_display (ks : List Int) : World (List Int) :=
  { world_main with windata := windata0.set 0 panel_display, keys := ks }

/-- The state `world_find` with the panel `panel_display` focused and the keystrokes `ks`
to come. -/
def world_display_find (ks : List Int) : World (List Int) :=
  { world_find with windata := windata0.set 0 panel_display, keys := ks }

/-! ## Basic facts -/

@[simp] theorem Heap.write_size (h : Heap) (a : Nat) (v : tree) : (h.write a v).size = h.size :=
  rfl

@[simp] theorem Heap.write_cell (h : Heap) (a : Nat) (v : tree) (b : Nat) :
    (h.write a v).cell b = if b = a then v else h.cell b :=
  rfl

namespace Forest

@[simp] theorem pre_append (f g : Forest) : (f.append g).pre = f.pre ++ g.pre := by
  induction f with
  | nil => rfl
  | cons a kids rest _ ih => simp [append, pre, ih]

@[simp] theorem roots_append (f g : Forest) : (f.append g).roots = f.roots ++ g.roots := by
  induction f with
  | nil => rfl
  | cons a kids rest _ ih => simp [append, roots, ih]

theorem roots_sublist_pre (f : Forest) : f.roots.Sublist f.pre := by
  induction f with
  | nil => exact List.Sublist.slnil
  | cons a kids rest _ ih =>
    simp only [roots, pre]
    exact List.Sublist.cons₂ a (ih.trans (List.sublist_append_right _ _))

theorem roots_subset_pre (f : Forest) : ∀ x ∈ f.roots, x ∈ f.pre :=
  fun _ hx => (roots_sublist_pre f).subset hx

end Forest

theorem Good_append (sys : Sys) (filter : tree_filter_t) (follow : Bool) (cell : Nat → tree)
    (f g : Forest) :
    Good sys filter follow cell (f.append g) ↔
      Good sys filter follow cell f ∧ Good sys filter follow cell g := by
  induction f with
  | nil => simp [Forest.append, Good]
  | cons a kids rest _ ih => simp [Forest.append, Good, ih, and_assoc]

theorem IsChain_congr (cell cell2 : Nat → tree) (par : Option Nat) :
    ∀ (ks : List Nat) (first prev : Option Nat),
      (∀ k ∈ ks, (cell2 k).parent = (cell k).parent ∧ (cell2 k).prev = (cell k).prev ∧
        (cell2 k).next = (cell k).next) →
      IsChain cell par first prev ks → IsChain cell2 par first prev ks := by
  intro ks
  induction ks with
  | nil => intro first prev _ h; exact h
  | cons k ks ih =>
    intro first prev hk h
    obtain ⟨h1, h2, h3, h4⟩ := h
    obtain ⟨e1, e2, e3⟩ := hk k (List.mem_cons_self _ _)
    refine ⟨h1, by rw [e1]; exact h2, by rw [e2]; exact h3, ?_⟩
    rw [e3]
    exact ih _ _ (fun x hx => hk x (List.mem_cons_of_mem _ hx)) h4

/-- Appending the node `c` after the last node of a sibling list gives a
sibling list again, when only the `next` of the last node and the links of `c`
are new. -/
theorem IsChain_snoc (cell cell2 : Nat → tree) (par : Option Nat) (c : Nat) :
    ∀ (ks : List Nat) (first prev : Option Nat),
      IsChain cell par first prev ks → ks ≠ [] → ks.Nodup →
      (∀ k ∈ ks, (cell2 k).parent = (cell k).parent ∧ (cell2 k).prev = (cell k).prev) →
      (∀ k ∈ ks, some k ≠ ks.getLast? → (cell2 k).next = (cell k).next) →
      (∀ l, ks.getLast? = some l → (cell2 l).next = some c) →
      (cell2 c).parent = par → (cell2 c).prev = ks.getLast? → (cell2 c).next = none →
      IsChain cell2 par first prev (ks ++ [c]) := by
  intro ks
  induction ks with
  | nil => intro first prev _ h; exact absurd rfl h
  | cons k ks ih =>
    intro first prev hch _ hnd hpp hnext hlast hcp hcprev hcn
    obtain ⟨h1, h2, h3, h4⟩ := hch
    obtain ⟨e1, e2⟩ := hpp k (List.mem_cons_self _ _)
    have hknd : k ∉ ks := (List.nodup_cons.1 hnd).1
    cases ks with
    | nil =>
      have hl : (cell2 k).next = some c := hlast k rfl
      refine ⟨h1, by rw [e1]; exact h2, by rw [e2]; exact h3, ?_⟩
      rw [hl]
      exact ⟨rfl, hcp, by simpa using hcprev, hcn⟩
    | cons k2 ks2 =>
      have hgl : (k :: k2 :: ks2).getLast? = (k2 :: ks2).getLast? := List.getLast?_cons_cons
      have hkl : some k ≠ (k :: k2 :: ks2).getLast? := by
        rw [hgl]
        intro hh
        exact hknd (List.mem_of_getLast?_eq_some hh.symm)
      have e3 : (cell2 k).next = (cell k).next := hnext k (List.mem_cons_self _ _) hkl
      refine ⟨h1, by rw [e1]; exact h2, by rw [e2]; exact h3, ?_⟩
      rw [e3]
      refine ih _ _ h4 (by simp) (List.nodup_cons.1 hnd).2
        (fun x hx => hpp x (List.mem_cons_of_mem _ hx)) ?_ ?_ hcp ?_ hcn
      · intro x hx hne
        exact hnext x (List.mem_cons_of_mem _ hx) (by rw [hgl]; exact hne)
      · intro l hl
        exact hlast l (by rw [hgl]; exact hl)
      · rw [hcprev, hgl]

theorem KidsOK_congr (sys : Sys) (filter : tree_filter_t) (follow : Bool)
    (cell cell2 : Nat → tree) (a : Nat) (done : List (List Char)) (ks : List Nat)
    (ha : (cell2 a).child = (cell a).child ∧ (cell2 a).nrchild = (cell a).nrchild ∧
      (cell2 a).depth = (cell a).depth ∧ (cell2 a).path = (cell a).path)
    (hk : ∀ k ∈ ks, cell2 k = cell k)
    (h : KidsOK sys filter follow cell a done ks) : KidsOK sys filter follow cell2 a done ks := by
  obtain ⟨a1, a2, a3, a4⟩ := ha
  obtain ⟨h1, h2, h3, h4, h5, h6⟩ := h
  refine ⟨?_, ?_, ?_, ?_, ?_, ?_⟩
  · rw [a1]
    exact IsChain_congr cell cell2 _ ks _ _ (fun k hkm => by rw [hk k hkm]; simp) h1
  · rw [a2]; exact h2
  · intro k1 hk1
    rw [hk k1 (List.mem_of_mem_head? hk1)]
    exact h3 k1 hk1
  · intro k hkm
    rw [hk k hkm, a3]
    exact h4 k hkm
  · rw [a4]; exact h5
  · rw [a4, ← h6]
    exact List.map_congr_left (fun k hkm => by rw [hk k hkm])

/-- A forest stays fully scanned when only the sibling links (`next`, `tail`,
...) of its top-level nodes are changed. -/
theorem Good_frame (sys : Sys) (filter : tree_filter_t) (follow : Bool)
    (cell cell2 : Nat → tree) :
    ∀ f : Forest, f.pre.Nodup →
      (∀ x ∈ f.pre, x ∉ f.roots → cell2 x = cell x) →
      (∀ x ∈ f.roots, (cell2 x).child = (cell x).child ∧ (cell2 x).nrchild = (cell x).nrchild ∧
        (cell2 x).depth = (cell x).depth ∧ (cell2 x).path = (cell x).path) →
      Good sys filter follow cell f → Good sys filter follow cell2 f := by
  intro f
  induction f with
  | nil => intro _ _ _ _; trivial
  | cons a kids rest ihk ihr =>
    intro hnd hdeep hroot hg
    obtain ⟨⟨ents, ho, hko⟩, hgk, hgr⟩ := hg
    simp only [Forest.pre, List.nodup_cons, List.mem_append, not_or, List.nodup_append] at hnd
    obtain ⟨⟨hak, har⟩, hndk, hndr, hdisj⟩ := hnd
    have hkids : ∀ x ∈ kids.pre, cell2 x = cell x := by
      intro x hx
      apply hdeep x (by simp [Forest.pre, hx])
      simp only [Forest.roots, List.mem_cons, not_or]
      refine ⟨fun e => hak (e ▸ hx), fun hxr => ?_⟩
      exact hdisj hx (Forest.roots_subset_pre _ _ hxr)
    have hra := hroot a (by simp [Forest.roots])
    refine ⟨⟨ents, by rw [hra.2.2.2]; exact ho, ?_⟩, ?_, ?_⟩
    · exact KidsOK_congr sys filter follow cell cell2 a ents _ hra
        (fun k hk => hkids k (Forest.roots_subset_pre _ _ hk)) hko
    · exact ihk hndk (fun x hx _ => hkids x hx)
        (fun x hx => by rw [hkids x (Forest.roots_subset_pre _ _ hx)]; simp) hgk
    · refine ihr hndr (fun x hx hxr => ?_) (fun x hx => hroot x (by simp [Forest.roots, hx])) hgr
      apply hdeep x (by simp [Forest.pre, hx])
      simp only [Forest.roots, List.mem_cons, not_or]
      exact ⟨fun e => har (e ▸ hx), hxr⟩

/-- What `tree_add_child(a, c)` does when `a` has the children `ks` and `c` is a
fresh node: `c` becomes the last child, and apart from `c`, the `child` of `a`
and the `next` / `tail` of nodes of `ks` nothing changes. -/
theorem tree_add_child_spec (h1 : Heap) (a c : Nat) (ks : List Nat)
    (hch : IsChain h1.cell (some a) (h1.cell a).child none ks)
    (htl : ∀ k1, ks.head? = some k1 → (h1.cell k1).tail = ks.getLast?)
    (hnd : ks.Nodup) (hc : c ∉ ks) (ha : a ∉ ks) (hac : a ≠ c)
    (hcn : (h1.cell c).next = none) (hcp : (h1.cell c).prev = none)
    (hct : (h1.cell c).tail = some c) :
    ∃ h2, tree_add_child h1 a c = some h2 ∧ h2.size = h1.size ∧
      (∀ x, x ≠ a → x ∉ ks → x ≠ c → h2.cell x = h1.cell x) ∧
      (∀ x ∈ ks, SameButLinks (h1.cell x) (h2.cell x)) ∧
      h2.cell a = { h1.cell a with child := (h2.cell a).child } ∧
      h2.cell c = { h1.cell c with parent := some a, prev := ks.getLast? } ∧
      IsChain h2.cell (some a) (h2.cell a).child none (ks ++ [c]) ∧
      (∀ k1, (ks ++ [c]).head? = some k1 → (h2.cell k1).tail = some c) := by
  cases ks with
  | nil =>
    have hchild : (h1.cell a).child = none := hch
    have e : tree_add_child h1 a c = some ((h1.write c
        { h1.cell c with parent := some a }).write a { h1.cell a with child := some c }) := by
      unfold tree_add_child
      simp only [Heap.write_cell, if_neg hac, hchild]
    refine ⟨_, e, ?_, ?_, ?_, ?_, ?_, ?_, ?_⟩
    · simp
    · intro x hxa _ hxc
      simp [hxa, hxc]
    · intro x hx
      exact absurd hx (List.not_mem_nil _)
    · simp
    · simp [hac.symm, hcp]
    · simp [IsChain, hac.symm, hcn, hcp]
    · intro k1 hk1
      simp at hk1
      subst hk1
      simp [hac.symm, hct]
  | cons k1 ks2 =>
    obtain ⟨hchild, hp1, hv1, hrest⟩ := hch
    have hne : (k1 :: ks2) ≠ [] := by simp
    obtain ⟨l, hl⟩ : ∃ l, (k1 :: ks2).getLast? = some l :=
      ⟨(k1 :: ks2).getLast hne, List.getLast?_eq_getLast _ hne⟩
    have hlm : l ∈ k1 :: ks2 := List.mem_of_getLast?_eq_some hl
    have htail : (h1.cell k1).tail = some l := by rw [htl k1 rfl, hl]
    have hk1c : k1 ≠ c := fun e => hc (e ▸ List.mem_cons_self _ _)
    have hk1a : k1 ≠ a := fun e => ha (e ▸ List.mem_cons_self _ _)
    have hlc : l ≠ c := fun e => hc (e ▸ hlm)
    have hla : l ≠ a := fun e => ha (e ▸ hlm)
    cases e : tree_add_child h1 a c with
    | none =>
      unfold tree_add_child tree_add_tail at e
      simp [hac, hchild, hk1c, htail] at e
    | some h2 =>
    unfold tree_add_child tree_add_tail at e
    simp only [Heap.write_cell, if_neg hac, hchild, if_neg hk1c, htail, if_true,
      Option.some.injEq] at e
    subst e
    refine ⟨_, rfl, ?_, ?_, ?_, ?_, ?_, ?_, ?_⟩
    · simp
    · intro x hxa hxk hxc
      have hx1 : x ≠ k1 := fun e => hxk (e ▸ List.mem_cons_self _ _)
      have hxl : x ≠ l := fun e => hxk (e ▸ hlm)
      simp [hxa, hxc, hx1, hxl]
    · intro x hx
      have hxc : x ≠ c := fun e => hc (e ▸ hx)
      by_cases hx1 : x = k1
      · subst hx1
        by_cases hxl : x = l
        · subst hxl; simp [hxc, SameButLinks]
        · simp [hxc, hxl, SameButLinks]
      · by_cases hxl : x = l
        · subst hxl; simp [hxc, hx1, SameButLinks]
        · simp [hxc, hx1, hxl, SameButLinks]
    · simp [hk1a.symm, hla.symm, hac]
    · simp [hk1c.symm, hlc.symm, hl]
    · simp only [Heap.write_cell, if_neg hk1a.symm, if_neg hla.symm, if_neg hac, hchild]
      refine IsChain_snoc h1.cell _ (some a) c (k1 :: ks2) (some k1) none
        ⟨rfl, hp1, hv1, hrest⟩ hne hnd ?_ ?_ ?_ ?_ ?_ ?_
      · intro x hx
        have hxc : x ≠ c := fun e => hc (e ▸ hx)
        by_cases hx1 : x = k1
        · subst hx1
          by_cases hxl : x = l
          · subst hxl; simp [hxc]
          · simp [hxc, hxl]
        · by_cases hxl : x = l
          · subst hxl; simp [hxc, hx1]
          · simp [hxc, hx1, hxl]
      · intro x hx hxl
        rw [hl] at hxl
        have hxl2 : x ≠ l := fun e => hxl (by rw [e])
        have hxc : x ≠ c := fun e => hc (e ▸ hx)
        by_cases hx1 : x = k1
        · subst hx1; simp [hxc, hxl2]
        · simp [hxc, hx1, hxl2]
      · intro l2 hl2
        rw [hl] at hl2
        have e2 : l = l2 := Option.some.inj hl2
        subst e2
        by_cases hx1 : l = k1
        · subst hx1; simp
        · simp [hx1]
      · simp [hk1c.symm, hlc.symm]
      · simp [hk1c.symm, hlc.symm, hl]
      · simp [hk1c.symm, hlc.symm, hcn]
    · intro k hk
      simp at hk
      subst hk
      simp

theorem strrchr_head (c : Char) : ∀ (s r : List Char), strrchr s c = some r →
    ∃ t, r = c :: t := by
  intro s
  induction s with
  | nil => intro r h; simp [strrchr] at h
  | cons x xs ih =>
    intro r h
    unfold strrchr at h
    cases hx : strrchr xs c with
    | some r2 =>
      rw [hx] at h
      simp only [Option.some.injEq] at h
      subst h
      exact ih _ hx
    | none =>
      rw [hx] at h
      by_cases hxc : x = c
      · simp only [hxc, if_true, Option.some.injEq] at h
        exact ⟨xs, h.symm⟩
      · simp [hxc] at h

/-- What a successful `tree_alloc` does: the new node is at address
`h.size`, initialised, and no other node changes. -/
theorem tree_alloc_spec (sys : Sys) (h h1 : Heap) (path : List Char) (d c : Nat)
    (e : tree_alloc sys h path d = some (some (h1, c))) :
    c = h.size ∧ h1.size = h.size + 1 ∧ (∀ x, x ≠ h.size → h1.cell x = h.cell x) ∧
      (h1.cell c).tail = some c ∧ (h1.cell c).next = none ∧ (h1.cell c).prev = none ∧
      (h1.cell c).child = none ∧ (h1.cell c).parent = none ∧ (h1.cell c).path = path ∧
      (h1.cell c).nrchild = 0 ∧ (h1.cell c).depth = d % 256 ∧
      strrchr path '/' = some ('/' :: (h1.cell c).name) := by
  unfold tree_alloc at e
  by_cases hm : sys.malloc_ok path = false
  · simp [hm] at e
  · rw [if_neg hm] at e
    cases hr : strrchr path '/' with
    | none => rw [hr] at e; simp at e
    | some r =>
      rw [hr] at e
      simp only [Option.some.injEq, Prod.mk.injEq] at e
      obtain ⟨e1, e2⟩ := e
      subst e1 e2
      obtain ⟨t, ht⟩ := strrchr_head '/' path r hr
      subst ht
      refine ⟨rfl, rfl, fun x hx => by simp [hx], ?_, ?_, ?_, ?_, ?_, ?_, ?_, ?_, ?_⟩ <;> simp

theorem range'_snoc_block (base n m : Nat) (h1 : base ≤ n) (h2 : n + 1 ≤ m) :
    List.range' base (n - base) ++ n :: (List.range' (n + 1) (m - (n + 1)) ++ []) =
      List.range' base (m - base) := by
  have e1 : n :: List.range' (n + 1) (m - (n + 1)) = List.range' n (m - n) := by
    have : m - n = (m - (n + 1)) + 1 := by omega
    rw [this, List.range'_succ]
  rw [List.append_nil, e1]
  have e2 : m - base = (m - n) + (n - base) := by omega
  have e3 : n = base + (n - base) := by omega
  rw [e2, ← List.range'_append_1 base (n - base) (m - n), ← e3]

/-- One iteration of the loop of `tree_scan` that makes the child `c` for the
entry `e` and scans it keeps the state of the scan. -/
theorem scan_step (sys : Sys) (filter : tree_filter_t) (follow : Bool)
    (scan : Heap → Nat → Option (Int × Heap)) (hspec : ScanSpec sys filter follow scan)
    (base a : Nat) (h h1 h2 h4 : Heap) (done : List (List Char)) (f : Forest) (e : List Char)
    (m : FileType) (c : Nat)
    (hinv : ScanInv sys filter follow base a h done f)
    (hvis : visible filter e = true)
    (hstat : sys.stat (entry_path (h.cell a).path e) = some m)
    (hdir : (S_ISDIR m || (S_ISLNK m && follow)) = true)
    (halloc : tree_alloc sys h (entry_path (h.cell a).path e) ((h.cell a).depth + 1) =
      some (some (h1, c)))
    (hadd : tree_add_child h1 a c = some h2)
    (hscan : scan (h2.write a { h2.cell a with nrchild := (h2.cell a).nrchild + 1 }) c =
      some (0, h4)) :
    ∃ f2, ScanInv sys filter follow base a h4 (done ++ [e]) f2 ∧ ScanFrame base a h h4 := by
  obtain ⟨hab, hbs, hpre, hkids, hgood⟩ := hinv
  obtain ⟨hc, hs1, hcell1, ht, hn, hp, hch, hpar, hpath, hnr, hdep, hname⟩ :=
    tree_alloc_spec sys h h1 _ _ c halloc
  subst hc
  have hks : ∀ k ∈ f.roots, base ≤ k ∧ k < h.size := by
    intro k hk
    have hm := Forest.roots_subset_pre f k hk
    rw [hpre, List.mem_range'_1] at hm
    omega
  have hnd : f.pre.Nodup := by rw [hpre]; exact List.nodup_range' _ _
  have hndr : f.roots.Nodup := (Forest.roots_sublist_pre f).nodup hnd
  have hcks : h.size ∉ f.roots := fun hk => by have := hks _ hk; omega
  have haks : a ∉ f.roots := fun hk => by have := hks _ hk; omega
  have hac : a ≠ h.size := by omega
  obtain ⟨k1, k2, k3, k4, k5, k6⟩ := hkids
  have hch1 : IsChain h1.cell (some a) (h1.cell a).child none f.roots := by
    rw [hcell1 a hac]
    refine IsChain_congr h.cell h1.cell _ _ _ _ (fun k hk => ?_) k1
    rw [hcell1 k (by have := hks k hk; omega)]
    simp
  have htl1 : ∀ k, f.roots.head? = some k → (h1.cell k).tail = f.roots.getLast? := by
    intro k hk
    rw [hcell1 k (by have := hks k (List.mem_of_mem_head? hk); omega)]
    exact k3 k hk
  obtain ⟨h2', hadd', hs2, hfr2, hlk2, ha2, hc2, hch2, htl2⟩ :=
    tree_add_child_spec h1 a h.size f.roots hch1 htl1 hndr hcks haks hac hn hp ht
  have e22 : h2' = h2 := by rw [hadd'] at hadd; exact Option.some.inj hadd
  subst e22
  have hpre3 : ((h2'.write a { h2'.cell a with nrchild := (h2'.cell a).nrchild + 1 }).cell
      h.size).child = none ∧
      ((h2'.write a { h2'.cell a with nrchild := (h2'.cell a).nrchild + 1 }).cell
      h.size).nrchild = 0 := by
    simp only [Heap.write_cell, if_neg hac.symm, hc2]
    exact ⟨hch, hnr⟩
  obtain ⟨ents, fc, hopen, ⟨_, hs34, hprec, hkc, hgc⟩, ⟨hfr4, hsame4⟩⟩ :=
    hspec _ h.size h4 (by simp [hs2, hs1]) hpre3.1 hpre3.2 hscan
  simp only [Heap.write_size, hs2, hs1] at hs34 hprec hfr4
  simp only [Heap.write_cell, if_neg hac.symm] at hsame4 hopen
  -- the cells of `h4`
  have hA : ∀ x, x < h.size → x ≠ a → x ∉ f.roots → h4.cell x = h.cell x := by
    intro x hx hxa hxk
    rw [hfr4 x (by omega) (by omega)]
    simp only [Heap.write_cell, if_neg hxa]
    rw [hfr2 x hxa hxk (by omega), hcell1 x (by omega)]
  have hB : ∀ x ∈ f.roots, h4.cell x = h2'.cell x := by
    intro x hx
    have := hks x hx
    rw [hfr4 x (by omega) (by omega)]
    simp only [Heap.write_cell, if_neg (show x ≠ a by omega)]
  have hB2 : ∀ x ∈ f.roots, SameButLinks (h.cell x) (h4.cell x) := by
    intro x hx
    have := hks x hx
    rw [hB x hx, ← hcell1 x (by omega)]
    exact hlk2 x hx
  have hC : h4.cell a = { h2'.cell a with nrchild := (h2'.cell a).nrchild + 1 } := by
    rw [hfr4 a (by omega) hac]
    simp
  have hC1 : h2'.cell a = { h.cell a with child := (h2'.cell a).child } := by
    rw [ha2, hcell1 a hac]
  have hC2 : (h4.cell a).depth = (h.cell a).depth ∧ (h4.cell a).path = (h.cell a).path := by
    rw [hC, hC1]
    exact ⟨rfl, rfl⟩
  obtain ⟨s1, s2, s3, s4, s5, s6, s7, s8⟩ := hsame4
  have hwant : wanted sys filter follow (h.cell a).path e = true := by
    unfold wanted
    rw [hvis, hstat]
    simpa using hdir
  refine ⟨f.append (Forest.cons h.size fc Forest.nil), ⟨hab, by omega, ?_, ?_, ?_⟩, ?_, ?_⟩
  · simp only [Forest.pre_append, Forest.pre, hpre, hprec]
    exact range'_snoc_block base h.size h4.size hbs hs34
  · simp only [Forest.roots_append, Forest.roots]
    refine ⟨?_, ?_, ?_, ?_, ?_, ?_⟩
    · have e1 : (h4.cell a).child = (h2'.cell a).child := by rw [hC]
      rw [e1]
      refine IsChain_congr h2'.cell h4.cell _ _ _ _ ?_ hch2
      intro k hk
      rcases List.mem_append.1 hk with hk | hk
      · rw [hB k hk]; simp
      · simp only [List.mem_singleton] at hk
        subst hk
        exact ⟨s4, s3, s2⟩
    · have e1 : (h4.cell a).nrchild = (h.cell a).nrchild + 1 := by
        rw [hC, hC1]
      rw [e1, k2]
      simp
    · intro k hk
      have hkm : k ∈ f.roots ++ [h.size] := List.mem_of_mem_head? hk
      have e1 : (f.roots ++ [h.size]).getLast? = some h.size := by simp
      rw [e1, ← htl2 k hk]
      rcases List.mem_append.1 hkm with hk2 | hk2
      · rw [hB k hk2]
      · simp only [List.mem_singleton] at hk2
        subst hk2
        exact s1
    · intro k hk
      rw [hC2.1]
      rcases List.mem_append.1 hk with hk2 | hk2
      · obtain ⟨_, _, _, b4, b5, _, _, b8⟩ := hB2 k hk2
        rw [b4, b5, b8]
        exact k4 k hk2
      · simp only [List.mem_singleton] at hk2
        subst hk2
        rw [s8, s5, s6, hc2]
        refine ⟨hdep, ?_⟩
        show strrchr (h1.cell h.size).path '/' = some ('/' :: (h1.cell h.size).name)
        rw [hpath]
        exact hname
    · intro e2 he2
      rw [hC2.2]
      rcases List.mem_append.1 he2 with he3 | he3
      · exact k5 e2 he3
      · simp only [List.mem_singleton] at he3
        subst he3
        intro _
        rw [hstat]
        rfl
    · rw [hC2.2, List.map_append, List.filter_append, List.map_append]
      congr 1
      · rw [← k6]
        exact List.map_congr_left (fun k hk => (hB2 k hk).2.2.2.1)
      · simp only [List.map_cons, List.map_nil, List.filter_cons, hwant, if_true, List.filter_nil]
        rw [s5, hc2]
        simp [hpath]
  · rw [Good_append]
    have hgc2 : Good sys filter follow h4.cell (Forest.cons h.size fc Forest.nil) := by
      simp only [Good, and_true]
      exact ⟨⟨ents, by rw [s5]; exact hopen, hkc⟩, hgc⟩
    refine ⟨Good_frame sys filter follow h.cell h4.cell f hnd ?_ ?_ hgood, hgc2⟩
    · intro x hx hxr
      have hm := hx
      rw [hpre, List.mem_range'_1] at hm
      exact hA x (by omega) (by omega) hxr
    · intro x hx
      obtain ⟨_, b2, _, b4, _, _, b7, b8⟩ := hB2 x hx
      exact ⟨b2, b7, b8, b4⟩
  · intro x hx hxa
    exact hA x (by omega) hxa (fun hk => by have := hks x hk; omega)
  · rw [hC, hC1]
    exact ⟨rfl, rfl, rfl, rfl, rfl, rfl, rfl, rfl⟩

theorem KidsOK_skip (sys : Sys) (filter : tree_filter_t) (follow : Bool) (cell : Nat → tree)
    (a : Nat) (done : List (List Char)) (ks : List Nat) (e : List Char)
    (hk : KidsOK sys filter follow cell a done ks)
    (hw : wanted sys filter follow (cell a).path e = false)
    (hs : visible filter e = true → (sys.stat (entry_path (cell a).path e)).isSome = true) :
    KidsOK sys filter follow cell a (done ++ [e]) ks := by
  obtain ⟨k1, k2, k3, k4, k5, k6⟩ := hk
  refine ⟨k1, k2, k3, k4, ?_, ?_⟩
  · intro e2 he2
    rcases List.mem_append.1 he2 with he3 | he3
    · exact k5 e2 he3
    · simp only [List.mem_singleton] at he3
      subst he3
      exact hs
  · rw [k6, List.filter_append]
    simp [List.filter_cons, hw]

theorem ScanFrame_trans (base a : Nat) (h h2 h3 : Heap) (h12 : ScanFrame base a h h2)
    (h23 : ScanFrame base a h2 h3) : ScanFrame base a h h3 := by
  obtain ⟨f1, a1, a2, a3, a4, a5, a6, a7, a8⟩ := h12
  obtain ⟨f2, b1, b2, b3, b4, b5, b6, b7, b8⟩ := h23
  refine ⟨fun x hx hxa => by rw [f2 x hx hxa, f1 x hx hxa], ?_⟩
  exact ⟨b1.trans a1, b2.trans a2, b3.trans a3, b4.trans a4, b5.trans a5, b6.trans a6,
    b7.trans a7, b8.trans a8⟩

theorem ScanFrame_refl (base a : Nat) (h : Heap) : ScanFrame base a h h :=
  ⟨fun _ _ _ => rfl, rfl, rfl, rfl, rfl, rfl, rfl, rfl, rfl⟩

theorem ScanInv_skip (sys : Sys) (filter : tree_filter_t) (follow : Bool) (base a : Nat)
    (h : Heap) (done : List (List Char)) (f : Forest) (e : List Char)
    (hinv : ScanInv sys filter follow base a h done f)
    (hw : wanted sys filter follow (h.cell a).path e = false)
    (hs : visible filter e = true → (sys.stat (entry_path (h.cell a).path e)).isSome = true) :
    ScanInv sys filter follow base a h (done ++ [e]) f := by
  obtain ⟨i1, i2, i3, i4, i5⟩ := hinv
  exact ⟨i1, i2, i3, KidsOK_skip sys filter follow h.cell a done _ e i4 hw hs, i5⟩

/-- A run of the loop of `tree_scan` that ends with 0 keeps the state of the
scan, now over all the entries. -/
theorem scan_loop_spec (sys : Sys) (filter : tree_filter_t) (follow : Bool)
    (scan : Heap → Nat → Option (Int × Heap)) (hspec : ScanSpec sys filter follow scan)
    (base a : Nat) :
    ∀ (rest : List (List Char)) (ret : Int) (h h2 : Heap) (done : List (List Char))
      (f : Forest), ret = 0 → ScanInv sys filter follow base a h done f →
      tree_scan_loop scan sys filter follow a rest ret h = some (0, h2) →
      ∃ f2, ScanInv sys filter follow base a h2 (done ++ rest) f2 ∧ ScanFrame base a h h2 := by
  intro rest
  induction rest with
  | nil =>
    intro ret h h2 done f _ hinv hres
    simp only [tree_scan_loop, Option.some.injEq, Prod.mk.injEq] at hres
    obtain ⟨_, rfl⟩ := hres
    exact ⟨f, by simpa using hinv, ScanFrame_refl base a h⟩
  | cons e rest ih =>
    intro ret h h2 done f hret hinv hres
    have hassoc : done ++ e :: rest = (done ++ [e]) ++ rest := by simp
    rw [hassoc]
    unfold tree_scan_loop at hres
    by_cases hdot : e.head? = some '.'
    · rw [if_pos hdot] at hres
      have hv : visible filter e = false := by simp [visible, hdot]
      have hw : wanted sys filter follow (h.cell a).path e = false := by simp [wanted, hv]
      exact ih ret h h2 (done ++ [e]) f hret
        (ScanInv_skip sys filter follow base a h done f e hinv hw (by simp [hv])) hres
    · rw [if_neg hdot] at hres
      by_cases hfil : filtered filter e = true
      · rw [if_pos hfil] at hres
        have hv : visible filter e = false := by simp [visible, hfil]
        have hw : wanted sys filter follow (h.cell a).path e = false := by simp [wanted, hv]
        exact ih ret h h2 (done ++ [e]) f hret
          (ScanInv_skip sys filter follow base a h done f e hinv hw (by simp [hv])) hres
      · rw [if_neg hfil] at hres
        have hv : visible filter e = true := by
          simp only [Bool.not_eq_true] at hfil
          simp [visible, hdot, hfil]
        by_cases has : sys.asprintf_ok (h.cell a).path = false
        · rw [if_pos has] at hres
          simp at hres
        · rw [if_neg has] at hres
          simp only [] at hres
          by_cases has2 : sys.asprintf_ok ((h.cell a).path ++ '/' :: e) = false
          · rw [if_pos has2] at hres
            simp at hres
          · rw [if_neg has2] at hres
            cases hst : sys.stat ((h.cell a).path ++ '/' :: e) with
            | none =>
              rw [hst] at hres
              simp at hres
            | some m =>
              rw [hst] at hres
              simp only [] at hres
              have hst2 : sys.stat (entry_path (h.cell a).path e) = some m := hst
              by_cases hdir : (S_ISDIR m || (S_ISLNK m && follow)) = true
              · rw [if_pos hdir] at hres
                cases halloc : tree_alloc sys h ((h.cell a).path ++ '/' :: e)
                    ((h.cell a).depth + 1) with
                | none => rw [halloc] at hres; simp at hres
                | some o =>
                  cases o with
                  | none => rw [halloc] at hres; simp at hres
                  | some p =>
                    obtain ⟨h1, c⟩ := p
                    rw [halloc] at hres
                    simp only [] at hres
                    cases hadd : tree_add_child h1 a c with
                    | none => rw [hadd] at hres; simp at hres
                    | some h3 =>
                      rw [hadd] at hres
                      simp only [] at hres
                      cases hsc : scan (h3.write a
                          { h3.cell a with nrchild := (h3.cell a).nrchild + 1 }) c with
                      | none => rw [hsc] at hres; simp at hres
                      | some q =>
                        obtain ⟨r, h4⟩ := q
                        rw [hsc] at hres
                        simp only [] at hres
                        by_cases hr : r ≠ 0
                        · rw [if_pos hr] at hres
                          simp only [Option.some.injEq, Prod.mk.injEq] at hres
                          exact absurd hres.1 hr
                        · rw [if_neg hr] at hres
                          have hr0 : r = 0 := not_not.1 hr
                          subst hr0
                          obtain ⟨f2, hinv2, hfr2⟩ := scan_step sys filter follow scan hspec base a
                            h h1 h3 h4 done f e m c hinv hv hst2 hdir halloc hadd hsc
                          obtain ⟨f3, hinv3, hfr3⟩ := ih 0 h4 h2 (done ++ [e]) f2 rfl hinv2 hres
                          exact ⟨f3, hinv3, ScanFrame_trans base a h h4 h2 hfr2 hfr3⟩
              · rw [if_neg hdir] at hres
                have hw : wanted sys filter follow (h.cell a).path e = false := by
                  unfold wanted
                  rw [hst2, hv]
                  simpa using hdir
                exact ih 0 h h2 (done ++ [e]) f rfl
                  (ScanInv_skip sys filter follow base a h done f e hinv hw
                    (fun _ => by rw [hst2]; rfl)) hres

/-- A successful `tree_scan` of a fresh node lays out the complete subtree of
the node's directory after the nodes that existed. -/
theorem tree_scan_spec (sys : Sys) (filter : tree_filter_t) (follow : Bool) :
    ∀ fuel, ScanSpec sys filter follow (tree_scan sys filter follow fuel) := by
  intro fuel
  induction fuel with
  | zero =>
    intro h a h2 _ _ _ hres
    simp [tree_scan] at hres
  | succ fuel ih =>
    intro h a h2 ha hchild hnr hres
    unfold tree_scan at hres
    cases hopen : sys.opendir (h.cell a).path with
    | none => rw [hopen] at hres; simp at hres
    | some entries =>
      rw [hopen] at hres
      simp only [] at hres
      have hinv : ScanInv sys filter follow h.size a h [] Forest.nil := by
        refine ⟨ha, le_refl _, by simp [Forest.pre], ⟨hchild, by simp [Forest.roots, hnr], ?_, ?_, ?_, ?_⟩,
          trivial⟩
        · intro k hk; simp [Forest.roots] at hk
        · intro k hk; simp [Forest.roots] at hk
        · intro e he; simp at he
        · simp [Forest.roots]
      obtain ⟨f, hinv2, hfr⟩ := scan_loop_spec sys filter follow _ ih h.size a entries 0 h h2 []
        Forest.nil rfl hinv hres
      exact ⟨entries, f, rfl, by simpa using hinv2, hfr⟩

/-- When `tree_load` returns a tree, it is at the first free address, the
nodes that existed are untouched, and the heap holds a loaded tree there. -/
theorem tree_load_spec (sys : Sys) (fuel : Nat) (h h2 : Heap) (path : List Char)
    (filter : tree_filter_t) (follow : Bool) (root : Nat)
    (hload : tree_load sys fuel h path filter follow = some (h2, some root)) :
    root = h.size ∧ (∀ x, x < h.size → h2.cell x = h.cell x) ∧
      ∃ f, Loaded sys filter follow path h2 root f := by
  unfold tree_load at hload
  cases halloc : tree_alloc sys h path 0 with
  | none => rw [halloc] at hload; simp at hload
  | some o =>
    cases o with
    | none => rw [halloc] at hload; simp at hload
    | some p =>
      obtain ⟨h1, c⟩ := p
      rw [halloc] at hload
      simp only [] at hload
      cases hsc : tree_scan sys filter follow fuel h1 c with
      | none => rw [hsc] at hload; simp at hload
      | some q =>
        obtain ⟨r, h4⟩ := q
        rw [hsc] at hload
        simp only [] at hload
        by_cases hr : r ≠ 0
        · rw [if_pos hr] at hload
          simp at hload
        · rw [if_neg hr] at hload
          have hr0 : r = 0 := not_not.1 hr
          subst hr0
          simp only [Option.some.injEq, Prod.mk.injEq] at hload
          obtain ⟨e1, e2⟩ := hload
          subst e1 e2
          obtain ⟨hc, hs1, hcell1, ht, hn, hp, hch, hpar, hpath, hnr, hdep, hname⟩ :=
            tree_alloc_spec sys h h1 _ _ c halloc
          subst hc
          obtain ⟨entries, f, hopen, ⟨_, hsz, hpre, hk, hg⟩, ⟨hfr, s1, s2, s3, s4, s5, s6, s7, s8⟩⟩ :=
            tree_scan_spec sys filter follow fuel h1 h.size h4 (by omega) hch hnr hsc
          rw [hs1] at hsz hpre hfr
          refine ⟨rfl, fun x hx => ?_, f, by omega, ?_, ?_, ?_, ?_, ?_, ?_, ?_, ?_⟩
          · rw [hfr x (by omega) (by omega), hcell1 x (by omega)]
          · simp only [Forest.pre, hpre, List.append_nil]
            have e : h4.size - h.size = (h4.size - (h.size + 1)) + 1 := by omega
            rw [e, List.range'_succ]
          · simp only [Good, and_true]
            exact ⟨⟨entries, by rw [s5]; exact hopen, hk⟩, hg⟩
          · rw [s4, hpar]
          · rw [s2, hn]
          · rw [s3, hp]
          · rw [s5, hpath]
          · rw [s8, hdep]
          · rw [s6]; exact hname

/-! ## Reading a scanned tree -/

theorem child_list_of_chain (h : Heap) (par : Option Nat) :
    ∀ (ks : List Nat) (first prev : Option Nat), IsChain h.cell par first prev ks →
      ∀ k, ks.length < k → child_list h k first = some ks := by
  intro ks
  induction ks with
  | nil =>
    intro first prev hc k hk
    have e : first = none := hc
    subst e
    cases k with
    | zero => omega
    | succ k => rfl
  | cons x ks ih =>
    intro first prev hc k hk
    obtain ⟨e, _, _, hrest⟩ := hc
    subst e
    cases k with
    | zero => omega
    | succ k =>
      simp only [child_list]
      rw [ih _ _ hrest k (by simpa using hk)]
      rfl

theorem visit_append {σ : Type} (cb : tree_cb_t σ) :
    ∀ (l1 l2 : List Nat) (data : σ),
      visit cb (l1 ++ l2) data =
        if (visit cb l1 data).1 ≠ 0 then visit cb l1 data
        else visit cb l2 (visit cb l1 data).2 := by
  intro l1
  induction l1 with
  | nil => intro l2 data; simp [visit]
  | cons t ts ih =>
    intro l2 data
    simp only [List.cons_append, visit]
    by_cases hr : (cb t data).1 ≠ 0
    · simp [hr]
    · simp only [hr, if_false]
      exact ih l2 _

theorem visit_zero {σ : Type} (cb : tree_cb_t σ) (hcb : ∀ t d, (cb t d).1 = 0) :
    ∀ (l : List Nat) (data : σ), visit cb l data = (0, l.foldl (fun d t => (cb t d).2) data) := by
  intro l
  induction l with
  | nil => intro data; rfl
  | cons t ts ih =>
    intro data
    simp only [visit, hcb, ne_eq, not_true_eq_false, if_false, List.foldl_cons]
    exact ih _

/-- On a fully scanned forest `tree_for_each` calls `cb` along the pre-order
until a call fails. -/
theorem tree_for_each_forest {σ : Type} (sys : Sys) (filter : tree_filter_t) (follow : Bool)
    (h : Heap) (cb : tree_cb_t σ) :
    ∀ (f : Forest) (par first prev : Option Nat), IsChain h.cell par first prev f.roots →
      Good sys filter follow h.cell f → ∀ (k : Nat), f.pre.length < k → ∀ data : σ,
      tree_for_each h cb k first data =
        some (if (visit cb f.pre data).1 ≠ 0 then -1 else 0, (visit cb f.pre data).2) := by
  intro f
  induction f with
  | nil =>
    intro par first prev hc _ k hk data
    have e : first = none := hc
    subst e
    cases k with
    | zero => simp [Forest.pre] at hk
    | succ k => simp [tree_for_each, Forest.pre, visit]
  | cons a kids rest ihk ihr =>
    intro par first prev hc hg k hk data
    obtain ⟨e, _, _, hrest⟩ := hc
    subst e
    obtain ⟨⟨_, _, hkc, _⟩, hgk, hgr⟩ := hg
    simp only [Forest.pre, List.length_cons, List.length_append] at hk
    cases k with
    | zero => omega
    | succ k =>
      simp only [tree_for_each, Forest.pre, visit]
      by_cases hr : (cb a data).1 ≠ 0
      · simp [hr]
      · simp only [hr, if_false]
        rw [ihk _ _ _ hkc hgk k (by omega), visit_append]
        by_cases hr2 : (visit cb kids.pre (cb a data).2).1 ≠ 0
        · simp [hr2]
        · simp only [hr2, if_false]
          simp only [ne_eq, Int.reduceNeg, not_true_eq_false, if_false]
          exact ihr _ _ _ hrest hgr k (by omega) _

theorem strcmp_eq_zero : ∀ (a b : List Char), strcmp a b = 0 ↔ a = b := by
  intro a
  induction a with
  | nil =>
    intro b
    cases b with
    | nil => simp [strcmp]
    | cons y ys => simp [strcmp]
  | cons x xs ih =>
    intro b
    cases b with
    | nil => simp [strcmp]
    | cons y ys =>
      simp only [strcmp]
      by_cases hxy : x = y
      · simp [hxy, ih]
      · by_cases hlt : x.toNat < y.toNat <;> simp [hxy, hlt]

theorem strncmp_eq_zero : ∀ (n : Nat) (a b : List Char),
    strncmp a b n = 0 ↔ a.take n = b.take n := by
  intro n
  induction n with
  | zero => intro a b; simp [strncmp]
  | succ n ih =>
    intro a b
    cases a with
    | nil =>
      cases b with
      | nil => simp [strncmp]
      | cons y ys => simp [strncmp]
    | cons x xs =>
      cases b with
      | nil => simp [strncmp]
      | cons y ys =>
        simp only [strncmp, List.take_succ_cons, List.cons.injEq]
        by_cases hxy : x = y
        · simp [hxy, ih]
        · by_cases hlt : x.toNat < y.toNat <;> simp [hxy, hlt]

theorem strncmp_prefix (q name : List Char) :
    strncmp q name (strlen q) = 0 ↔ name.take q.length = q := by
  unfold strlen
  rw [strncmp_eq_zero, List.take_length]
  exact eq_comm

/-- On a fully scanned forest `tree_find` returns the first node of the
pre-order with the name. -/
theorem tree_find_forest (sys : Sys) (filter : tree_filter_t) (follow : Bool)
    (h : Heap) (name : List Char) :
    ∀ (f : Forest) (par first prev : Option Nat), IsChain h.cell par first prev f.roots →
      Good sys filter follow h.cell f → ∀ (k : Nat), f.pre.length < k →
      tree_find h k first name =
        some (f.pre.find? (fun t => decide ((h.cell t).name = name))) := by
  intro f
  induction f with
  | nil =>
    intro par first prev hc _ k hk
    have e : first = none := hc
    subst e
    cases k with
    | zero => simp [Forest.pre] at hk
    | succ k => simp [tree_find, Forest.pre]
  | cons a kids rest ihk ihr =>
    intro par first prev hc hg k hk
    obtain ⟨e, _, _, hrest⟩ := hc
    subst e
    obtain ⟨⟨_, _, hkc, _⟩, hgk, hgr⟩ := hg
    simp only [Forest.pre, List.length_cons, List.length_append] at hk
    cases k with
    | zero => omega
    | succ k =>
      simp only [tree_find, Forest.pre, List.find?_cons, strcmp_eq_zero]
      by_cases hn : (h.cell a).name = name
      · simp [hn]
      · simp only [hn, if_false, decide_False]
        rw [ihk _ _ _ hkc hgk k (by omega), List.find?_append]
        cases hfk : kids.pre.find? (fun t => decide ((h.cell t).name = name)) with
        | some t => simp
        | none =>
          simp only [Option.none_or]
          exact ihr _ _ _ hrest hgr k (by omega)

/-- The pre-order read from the heap is the pre-order of the forest. -/
theorem pre_order_forest (sys : Sys) (filter : tree_filter_t) (follow : Bool) (h : Heap) :
    ∀ (f : Forest), Good sys filter follow h.cell f → ∀ (k : Nat), f.pre.length < k →
      ∃ ls, f.roots.mapM (pre_order h k) = some ls ∧ ls.flatten = f.pre := by
  intro f
  induction f with
  | nil =>
    intro _ k _
    exact ⟨[], rfl, rfl⟩
  | cons a kids rest ihk ihr =>
    intro hg k hk
    obtain ⟨⟨_, _, hkc, _⟩, hgk, hgr⟩ := hg
    simp only [Forest.pre, List.length_cons, List.length_append] at hk
    cases k with
    | zero => omega
    | succ k =>
      obtain ⟨lr, hlr, hlr2⟩ := ihr hgr (k + 1) (by omega)
      obtain ⟨lk, hlk, hlk2⟩ := ihk hgk k (by omega)
      have hlen : kids.roots.length ≤ kids.pre.length := (Forest.roots_sublist_pre kids).length_le
      have hcl := child_list_of_chain h (some a) kids.roots _ _ hkc k (by omega)
      refine ⟨(a :: kids.pre) :: lr, ?_, ?_⟩
      · simp only [Forest.roots, List.mapM_cons, hlr]
        simp only [pre_order, hcl, hlk]
        simp [hlk2]
      · simp [Forest.pre, hlr2]

namespace Forest

theorem hasNode_of_mem : ∀ (f : Forest) (x : Nat), x ∈ f.pre → ∃ ks, f.HasNode x ks := by
  intro f
  induction f with
  | nil => intro x hx; simp [pre] at hx
  | cons a kids rest ihk ihr =>
    intro x hx
    simp only [pre, List.mem_cons, List.mem_append] at hx
    rcases hx with hx | hx | hx
    · exact ⟨kids.roots, Or.inl ⟨hx, rfl⟩⟩
    · obtain ⟨ks, hks⟩ := ihk x hx
      exact ⟨ks, Or.inr (Or.inl hks)⟩
    · obtain ⟨ks, hks⟩ := ihr x hx
      exact ⟨ks, Or.inr (Or.inr hks)⟩

theorem hasNode_mem : ∀ (f : Forest) (a : Nat) (ks : List Nat), f.HasNode a ks →
    a ∈ f.pre ∧ ∀ k ∈ ks, k ∈ f.pre := by
  intro f
  induction f with
  | nil => intro a ks hn; exact absurd hn id
  | cons b kids rest ihk ihr =>
    intro a ks hn
    simp only [pre, List.mem_cons, List.mem_append]
    rcases hn with ⟨e1, e2⟩ | hn | hn
    · subst e1 e2
      exact ⟨Or.inl rfl, fun k hk => Or.inr (Or.inl (roots_subset_pre kids k hk))⟩
    · obtain ⟨h1, h2⟩ := ihk a ks hn
      exact ⟨Or.inr (Or.inl h1), fun k hk => Or.inr (Or.inl (h2 k hk))⟩
    · obtain ⟨h1, h2⟩ := ihr a ks hn
      exact ⟨Or.inr (Or.inr h1), fun k hk => Or.inr (Or.inr (h2 k hk))⟩

theorem hasNode_sublist : ∀ (f : Forest) (a : Nat) (ks : List Nat), f.HasNode a ks →
    ks.Sublist f.pre := by
  intro f
  induction f with
  | nil => intro a ks hn; exact absurd hn id
  | cons b kids rest ihk ihr =>
    intro a ks hn
    simp only [pre]
    rcases hn with ⟨_, e2⟩ | hn | hn
    · subst e2
      exact ((roots_sublist_pre kids).trans (List.sublist_append_left _ _)).trans
        (List.sublist_cons_self _ _)
    · exact ((ihk a ks hn).trans (List.sublist_append_left _ _)).trans
        (List.sublist_cons_self _ _)
    · exact ((ihr a ks hn).trans (List.sublist_append_right _ _)).trans
        (List.sublist_cons_self _ _)

theorem mem_cases : ∀ (f : Forest) (x : Nat), x ∈ f.pre →
    x ∈ f.roots ∨ ∃ a ks, f.HasNode a ks ∧ x ∈ ks := by
  intro f
  induction f with
  | nil => intro x hx; simp [pre] at hx
  | cons b kids rest ihk ihr =>
    intro x hx
    simp only [pre, List.mem_cons, List.mem_append] at hx
    rcases hx with hx | hx | hx
    · exact Or.inl (by simp [roots, hx])
    · rcases ihk x hx with h1 | ⟨a, ks, h1, h2⟩
      · exact Or.inr ⟨b, kids.roots, Or.inl ⟨rfl, rfl⟩, h1⟩
      · exact Or.inr ⟨a, ks, Or.inr (Or.inl h1), h2⟩
    · rcases ihr x hx with h1 | ⟨a, ks, h1, h2⟩
      · exact Or.inl (by simp [roots, h1])
      · exact Or.inr ⟨a, ks, Or.inr (Or.inr h1), h2⟩

theorem hasNode_unique : ∀ (f : Forest), f.pre.Nodup → ∀ (a : Nat) (ks ks2 : List Nat),
    f.HasNode a ks → f.HasNode a ks2 → ks = ks2 := by
  intro f
  induction f with
  | nil => intro _ a ks ks2 hn; exact absurd hn id
  | cons b kids rest ihk ihr =>
    intro hnd a ks ks2 h1 h2
    simp only [pre, List.nodup_cons, List.mem_append, not_or, List.nodup_append] at hnd
    obtain ⟨⟨hbk, hbr⟩, hndk, hndr, hdisj⟩ := hnd
    rcases h1 with ⟨e1, e2⟩ | h1 | h1
    · rcases h2 with ⟨_, e4⟩ | h2 | h2
      · rw [e2, e4]
      · exact absurd (e1 ▸ (hasNode_mem kids a ks2 h2).1) hbk
      · exact absurd (e1 ▸ (hasNode_mem rest a ks2 h2).1) hbr
    · rcases h2 with ⟨e3, _⟩ | h2 | h2
      · exact absurd (e3 ▸ (hasNode_mem kids a ks h1).1) hbk
      · exact ihk hndk a ks ks2 h1 h2
      · exact absurd (hasNode_mem rest a ks2 h2).1 (fun hr => hdisj (hasNode_mem kids a ks h1).1 hr)
    · rcases h2 with ⟨e3, _⟩ | h2 | h2
      · exact absurd (e3 ▸ (hasNode_mem rest a ks h1).1) hbr
      · exact absurd (hasNode_mem rest a ks h1).1 (fun hr => hdisj (hasNode_mem kids a ks2 h2).1 hr)
      · exact ihr hndr a ks ks2 h1 h2

end Forest

theorem Good_hasNode (sys : Sys) (filter : tree_filter_t) (follow : Bool) (cell : Nat → tree) :
    ∀ (f : Forest) (a : Nat) (ks : List Nat), Good sys filter follow cell f → f.HasNode a ks →
      NodeOK sys filter follow cell a ks := by
  intro f
  induction f with
  | nil => intro a ks _ hn; exact absurd hn id
  | cons b kids rest ihk ihr =>
    intro a ks hg hn
    obtain ⟨hnode, hgk, hgr⟩ := hg
    rcases hn with ⟨e1, e2⟩ | hn | hn
    · subst e1 e2; exact hnode
    · exact ihk a ks hgk hn
    · exact ihr a ks hgr hn

theorem IsChain_parent (cell : Nat → tree) (par : Option Nat) :
    ∀ (ks : List Nat) (first prev : Option Nat), IsChain cell par first prev ks →
      ∀ k ∈ ks, (cell k).parent = par := by
  intro ks
  induction ks with
  | nil => intro _ _ _ k hk; simp at hk
  | cons x ks ih =>
    intro first prev hc k hk
    obtain ⟨_, hp, _, hrest⟩ := hc
    rcases List.mem_cons.1 hk with e | hk2
    · subst e; exact hp
    · exact ih _ _ hrest k hk2

/-- Every node of a loaded tree has been scanned completely; its children
are distinct nodes of the tree, and they are the nodes whose `parent` it is. -/
theorem Loaded_node (sys : Sys) (filter : tree_filter_t) (follow : Bool) (path : List Char)
    (h : Heap) (root : Nat) (f : Forest) (hl : Loaded sys filter follow path h root f)
    (n : Nat) (hn1 : root ≤ n) (hn2 : n < h.size) :
    ∃ ks, NodeOK sys filter follow h.cell n ks ∧ ks.Nodup ∧
      (∀ k ∈ ks, root < k ∧ k < h.size) ∧
      (∀ x, root ≤ x → x < h.size → ((h.cell x).parent = some n ↔ x ∈ ks)) := by
  obtain ⟨hr, hpre, hg, hpar, _⟩ := hl
  have hmem : ∀ x, x ∈ (Forest.cons root f Forest.nil).pre ↔ root ≤ x ∧ x < h.size := by
    intro x
    rw [hpre, List.mem_range'_1]
    omega
  have hnd : (Forest.cons root f Forest.nil).pre.Nodup := by
    rw [hpre]; exact List.nodup_range' _ _
  obtain ⟨ks, hks⟩ := Forest.hasNode_of_mem _ n ((hmem n).2 ⟨hn1, hn2⟩)
  have hok := Good_hasNode sys filter follow h.cell _ n ks hg hks
  have hchild : ∀ (a : Nat) (l : List Nat), (Forest.cons root f Forest.nil).HasNode a l →
      ∀ k ∈ l, (h.cell k).parent = some a := by
    intro a l hal
    obtain ⟨_, _, hc, _⟩ := Good_hasNode sys filter follow h.cell _ a l hg hal
    exact IsChain_parent h.cell (some a) l _ _ hc
  have hsub : ∀ (a : Nat) (l : List Nat), (Forest.cons root f Forest.nil).HasNode a l →
      l.Nodup ∧ ∀ k ∈ l, root < k ∧ k < h.size := by
    intro a l hal
    have hin := (Forest.hasNode_mem _ a l hal).2
    refine ⟨(Forest.hasNode_sublist _ a l hal).nodup hnd, fun k hk => ?_⟩
    · have h1 := (hmem k).1 (hin k hk)
      have h2 := hchild a l hal k hk
      refine ⟨?_, h1.2⟩
      rcases Nat.lt_or_ge root k with h3 | h3
      · exact h3
      · have e : k = root := by omega
        rw [e, hpar] at h2
        exact absurd h2 (by simp)
  refine ⟨ks, hok, (hsub n ks hks).1, (hsub n ks hks).2, fun x hx1 hx2 => ⟨fun hp => ?_, hchild n ks hks x⟩⟩
  rcases Forest.mem_cases _ x ((hmem x).2 ⟨hx1, hx2⟩) with hroot | ⟨a, l, hal, hxl⟩
  · simp only [Forest.roots, List.mem_singleton] at hroot
    rw [hroot, hpar] at hp
    exact absurd hp (by simp)
  · have e := hchild a l hal x hxl
    rw [hp] at e
    have e2 : n = a := Option.some.inj e
    subst e2
    rw [Forest.hasNode_unique _ hnd n ks l hks hal]
    exact hxl

/-- The pre-order of a loaded tree is the list of its addresses. -/
theorem Loaded_pre_order (sys : Sys) (filter : tree_filter_t) (follow : Bool) (path : List Char)
    (h : Heap) (root : Nat) (f : Forest) (hl : Loaded sys filter follow path h root f)
    (k : Nat) (hk : h.size - root < k) :
    pre_order h k root = some (List.range' root (h.size - root)) := by
  obtain ⟨hr, hpre, hg, hpar, hnext, hprev, _⟩ := hl
  have hlen : (Forest.cons root f Forest.nil).pre.length < k := by
    rw [hpre, List.length_range']; exact hk
  obtain ⟨ls, hls, hfl⟩ := pre_order_forest sys filter follow h _ hg k hlen
  simp only [Forest.roots, List.mapM_cons, List.mapM_nil] at hls
  cases hpo : pre_order h k root with
  | none => rw [hpo] at hls; simp at hls
  | some l =>
    rw [hpo] at hls
    simp only [Option.pure_def, Option.bind_eq_bind, Option.some_bind, Option.some.injEq] at hls
    subst hls
    simp only [List.flatten_cons, List.flatten_nil, List.append_nil] at hfl
    rw [hfl, hpre]

/-- On a loaded tree `tree_for_each` calls `cb` on the nodes in pre-order
until a call fails; it returns -1 then, 0 otherwise. -/
theorem Loaded_for_each {σ : Type} (sys : Sys) (filter : tree_filter_t) (follow : Bool)
    (path : List Char) (h : Heap) (root : Nat) (f : Forest)
    (hl : Loaded sys filter follow path h root f) (cb : tree_cb_t σ) (data : σ)
    (k : Nat) (hk : h.size - root < k) :
    tree_for_each h cb k (some root) data =
      some (if (visit cb (List.range' root (h.size - root)) data).1 ≠ 0 then -1 else 0,
        (visit cb (List.range' root (h.size - root)) data).2) := by
  obtain ⟨hr, hpre, hg, hpar, hnext, hprev, _⟩ := hl
  have hlen : (Forest.cons root f Forest.nil).pre.length < k := by
    rw [hpre, List.length_range']; exact hk
  have hc : IsChain h.cell none (some root) none (Forest.cons root f Forest.nil).roots :=
    ⟨rfl, hpar, hprev, hnext⟩
  rw [tree_for_each_forest sys filter follow h cb _ none (some root) none hc hg k hlen data, hpre]

/-- On a loaded tree `tree_find` returns the first node in pre-order with the
name. -/
theorem Loaded_find (sys : Sys) (filter : tree_filter_t) (follow : Bool)
    (path : List Char) (h : Heap) (root : Nat) (f : Forest)
    (hl : Loaded sys filter follow path h root f) (name : List Char)
    (k : Nat) (hk : h.size - root < k) :
    tree_find h k (some root) name =
      some ((List.range' root (h.size - root)).find?
        (fun t => decide ((h.cell t).name = name))) := by
  obtain ⟨hr, hpre, hg, hpar, hnext, hprev, _⟩ := hl
  have hlen : (Forest.cons root f Forest.nil).pre.length < k := by
    rw [hpre, List.length_range']; exact hk
  have hc : IsChain h.cell none (some root) none (Forest.cons root f Forest.nil).roots :=
    ⟨rfl, hpar, hprev, hnext⟩
  rw [tree_find_forest sys filter follow h name _ none (some root) none hc hg k hlen, hpre]

theorem Forest.hasNode_before : ∀ (f : Forest) (a : Nat) (ks : List Nat), f.HasNode a ks →
    ∀ k ∈ ks, [a, k].Sublist f.pre := by
  intro f
  induction f with
  | nil => intro a ks hn; exact absurd hn id
  | cons b kids rest ihk ihr =>
    intro a ks hn k hk
    simp only [Forest.pre]
    rcases hn with ⟨e1, e2⟩ | hn | hn
    · subst e1 e2
      refine List.Sublist.cons₂ a ?_
      rw [List.singleton_sublist]
      exact List.mem_append_left _ (Forest.roots_subset_pre kids k hk)
    · exact ((ihk a ks hn k hk).trans (List.sublist_append_left _ _)).trans
        (List.sublist_cons_self _ _)
    · exact ((ihr a ks hn k hk).trans (List.sublist_append_right _ _)).trans
        (List.sublist_cons_self _ _)

/-- In a tree returned by `tree_load` the root has depth 0 and every other
node has a parent in the tree, with `depth` one more than the parent's modulo
256 (`depth` is an `unsigned char`). -/
theorem depth_parent_mod_256 (sys : Sys) (fuel : Nat) (h h2 : Heap) (path : List Char)
    (filter : tree_filter_t) (follow : Bool) (root : Nat)
    (hload : tree_load sys fuel h path filter follow = some (h2, some root)) :
    (h2.cell root).depth = 0 ∧ (h2.cell root).parent = none ∧
    ∀ n, root < n → n < h2.size →
      ∃ p, root ≤ p ∧ p < n ∧ (h2.cell n).parent = some p ∧
        (h2.cell n).depth = ((h2.cell p).depth + 1) % 256 := by
  obtain ⟨_, _, f, hl⟩ := tree_load_spec sys fuel h h2 path filter follow root hload
  refine ⟨hl.2.2.2.2.2.2.2.1, hl.2.2.2.1, fun n hn1 hn2 => ?_⟩
  have hmem : n ∈ (Forest.cons root f Forest.nil).pre := by
    rw [hl.2.1, List.mem_range'_1]; omega
  rcases Forest.mem_cases _ n hmem with hr | ⟨a, ks, hal, hnk⟩
  · simp only [Forest.roots, List.mem_singleton] at hr
    omega
  · obtain ⟨_, _, hc, _, _, hd, _⟩ := Good_hasNode sys filter follow h2.cell _ a ks hl.2.2.1 hal
    have ha := (Forest.hasNode_mem _ a ks hal).1
    rw [hl.2.1, List.mem_range'_1] at ha
    refine ⟨a, ha.1, ?_, IsChain_parent h2.cell (some a) ks _ _ hc n hnk, (hd n hnk).1⟩
    have hsub := Forest.hasNode_before _ a ks hal n hnk
    rw [hl.2.1] at hsub
    have hpw : List.Pairwise (fun x y => x < y) [a, n] :=
      List.Pairwise.sublist hsub (List.pairwise_lt_range' root (h2.size - root))
    simpa using hpw

theorem foldl_log_node : ∀ (l acc : List Nat),
    l.foldl (fun d t => (log_node t d).2) acc = acc ++ l := by
  intro l
  induction l with
  | nil => intro acc; simp
  | cons t ts ih =>
    intro acc
    rw [List.foldl_cons, ih]
    simp [log_node]

theorem visit_singleton {σ : Type} (cb : tree_cb_t σ) (n : Nat) (data : σ) :
    visit cb [n] data = cb n data := by
  simp only [visit]
  by_cases hr : (cb n data).1 ≠ 0
  · simp [hr]
  · have h0 : (cb n data).1 = 0 := not_not.1 hr
    simp only [hr, if_false]
    exact Prod.ext h0.symm rfl

theorem visit_parents_snoc {σ : Type} (cb : tree_cb_t σ) (l : List Nat) (n : Nat) (data : σ) :
    visit_parents cb (l ++ [n]) data =
      if (visit cb l data).1 ≠ 0 then (-1, (visit cb l data).2) else cb n (visit cb l data).2 := by
  simp [visit_parents]

theorem visit_parents_visit {σ : Type} (cb : tree_cb_t σ) (anc : List Nat) (data : σ) :
    ((visit_parents cb anc data).1 ≠ 0 ↔ (visit cb anc data).1 ≠ 0) ∧
      (visit_parents cb anc data).2 = (visit cb anc data).2 := by
  rcases List.eq_nil_or_concat anc with e | ⟨l, n, e⟩
  · subst e; simp [visit_parents, visit]
  · subst e
    rw [List.concat_eq_append, visit_parents_snoc, visit_append, visit_singleton]
    by_cases hr : (visit cb l data).1 ≠ 0
    · simp [hr]
    · simp [hr]

/-- When the chain of ancestors of a node is found with the fuel `k`,
`tree_for_each_parent` calls `cb` along it, root first. -/
theorem tree_for_each_parent_eq {σ : Type} (h : Heap) (cb : tree_cb_t σ) :
    ∀ (k : Nat) (p : Option Nat) (anc : List Nat) (data : σ), ancestors h k p = some anc →
      tree_for_each_parent h cb k p data = some (visit_parents cb anc data) := by
  intro k
  induction k with
  | zero => intro p anc data ha; simp [ancestors] at ha
  | succ k ih =>
    intro p anc data ha
    cases p with
    | none =>
      simp only [ancestors, Option.some.injEq] at ha
      subst ha
      simp [tree_for_each_parent, visit_parents]
    | some n =>
      simp only [ancestors] at ha
      cases hp : ancestors h k (h.cell n).parent with
      | none => rw [hp] at ha; simp at ha
      | some l =>
        rw [hp] at ha
        simp only [Option.map_some', Option.some.injEq] at ha
        subst ha
        simp only [tree_for_each_parent, ih _ l data hp, visit_parents_snoc]
        obtain ⟨h1, h2⟩ := visit_parents_visit cb l data
        by_cases hr : (visit cb l data).1 ≠ 0
        · simp [hr, h1.2 hr, h2]
        · have hr2 : ¬ (visit_parents cb l data).1 ≠ 0 := fun hh => hr (h1.1 hh)
          simp [hr, hr2, h2]

theorem ancestors_mono (h : Heap) : ∀ (k : Nat) (p : Option Nat) (anc : List Nat),
    ancestors h k p = some anc → ∀ k2, k ≤ k2 → ancestors h k2 p = some anc := by
  intro k
  induction k with
  | zero => intro p anc ha; simp [ancestors] at ha
  | succ k ih =>
    intro p anc ha k2 hk
    cases k2 with
    | zero => omega
    | succ k2 =>
      cases p with
      | none => simpa [ancestors] using ha
      | some n =>
        simp only [ancestors] at ha ⊢
        cases hp : ancestors h k (h.cell n).parent with
        | none => rw [hp] at ha; simp at ha
        | some l =>
          rw [hp] at ha
          rw [ih _ l hp k2 (by omega)]
          exact ha

theorem child_list_mono (h : Heap) : ∀ (k : Nat) (p : Option Nat) (l : List Nat),
    child_list h k p = some l → ∀ k2, k ≤ k2 → child_list h k2 p = some l := by
  intro k
  induction k with
  | zero => intro p l hc; simp [child_list] at hc
  | succ k ih =>
    intro p l hc k2 hk
    cases k2 with
    | zero => omega
    | succ k2 =>
      cases p with
      | none => simpa [child_list] using hc
      | some n =>
        simp only [child_list] at hc ⊢
        cases hp : child_list h k (h.cell n).next with
        | none => rw [hp] at hc; simp at hc
        | some l2 =>
          rw [hp] at hc
          rw [ih _ l2 hp k2 (by omega)]
          exact hc

theorem children_of_mem (h : Heap) (fuel : Nat) : ∀ (l r : List Nat),
    children_of h fuel l = some r → ∀ n ∈ r,
      ∃ x ∈ l, ∃ ks, child_list h fuel (h.cell x).child = some ks ∧ n ∈ ks := by
  intro l
  induction l with
  | nil =>
    intro r hr n hn
    simp only [children_of, Option.some.injEq] at hr
    subst hr
    simp at hn
  | cons x xs ih =>
    intro r hr n hn
    simp only [children_of] at hr
    cases hc : child_list h fuel (h.cell x).child with
    | none => rw [hc] at hr; simp at hr
    | some ks =>
      cases hx : children_of h fuel xs with
      | none => rw [hc, hx] at hr; simp at hr
      | some r2 =>
        rw [hc, hx] at hr
        simp only [Option.some.injEq] at hr
        subst hr
        rcases List.mem_append.1 hn with hn1 | hn2
        · exact ⟨x, List.mem_cons_self _ _, ks, hc, hn1⟩
        · obtain ⟨y, hy, ks2, hks2, hn3⟩ := ih r2 hx n hn2
          exact ⟨y, List.mem_cons_of_mem _ hy, ks2, hks2, hn3⟩

/-- The children a node of a loaded tree has in its child list are nodes of
the tree whose `parent` it is, one level deeper. -/
theorem Loaded_child (sys : Sys) (filter : tree_filter_t) (follow : Bool) (path : List Char)
    (h : Heap) (root : Nat) (f : Forest) (hl : Loaded sys filter follow path h root f)
    (x : Nat) (hx1 : root ≤ x) (hx2 : x < h.size) (fuel : Nat) (ks : List Nat)
    (hc : child_list h fuel (h.cell x).child = some ks) (n : Nat) (hn : n ∈ ks) :
    root < n ∧ n < h.size ∧ (h.cell n).parent = some x ∧
      (h.cell n).depth = ((h.cell x).depth + 1) % 256 := by
  obtain ⟨ks2, ⟨_, _, hch, _, _, hd, _⟩, _, hrange, hpar⟩ :=
    Loaded_node sys filter follow path h root f hl x hx1 hx2
  have e1 := child_list_of_chain h (some x) ks2 _ _ hch (max fuel (ks2.length + 1))
    (by omega)
  have e2 := child_list_mono h fuel _ ks hc (max fuel (ks2.length + 1)) (le_max_left _ _)
  rw [e1] at e2
  have e3 : ks2 = ks := Option.some.inj e2
  subst e3
  obtain ⟨h1, h2⟩ := hrange n hn
  exact ⟨h1, h2, (hpar n (by omega) h2).2 hn, (hd n hn).1⟩

theorem Loaded_at_depth (sys : Sys) (filter : tree_filter_t) (follow : Bool) (path : List Char)
    (h : Heap) (root : Nat) (f : Forest) (hl : Loaded sys filter follow path h root f)
    (fuel : Nat) :
    ∀ (d : Nat) (level : List Nat), at_depth h fuel root d = some level → ∀ n ∈ level,
      root ≤ n ∧ n < h.size ∧ (h.cell n).depth = d % 256 ∧
      ∃ anc, anc.length = d + 1 ∧ ancestors h (d + 2) (some n) = some anc ∧
        anc.head? = some root ∧ anc.getLast? = some n := by
  intro d
  induction d with
  | zero =>
    intro level hlev n hn
    simp only [at_depth, Option.some.injEq] at hlev
    subst hlev
    simp only [List.mem_singleton] at hn
    subst hn
    refine ⟨le_refl _, hl.1, by rw [hl.2.2.2.2.2.2.2.1], [n], rfl, ?_, rfl, rfl⟩
    simp [ancestors, hl.2.2.2.1]
  | succ d ih =>
    intro level hlev n hn
    simp only [at_depth] at hlev
    cases hd : at_depth h fuel root d with
    | none => rw [hd] at hlev; simp at hlev
    | some l =>
      rw [hd] at hlev
      simp only [] at hlev
      obtain ⟨x, hx, ks, hks, hnk⟩ := children_of_mem h fuel l level hlev n hn
      obtain ⟨hx1, hx2, hxd, anc, hlen, hanc, hhead, hlast⟩ := ih l hd x hx
      obtain ⟨h1, h2, h3, h4⟩ :=
        Loaded_child sys filter follow path h root f hl x hx1 hx2 fuel ks hks n hnk
      refine ⟨by omega, h2, by rw [h4, hxd]; omega, anc ++ [n], by simp [hlen], ?_, ?_, by simp⟩
      · have e : ancestors h (d + 1 + 2) (some n) =
            (ancestors h (d + 2) (h.cell n).parent).map (fun l => l ++ [n]) := rfl
        rw [e, h3, hanc]
        rfl
      · cases anc with
        | nil => simp at hlen
        | cons a t => simpa using hhead

theorem visit_parents_zero {σ : Type} (cb : tree_cb_t σ) (hcb : ∀ t d, (cb t d).1 = 0)
    (anc : List Nat) (data : σ) :
    visit_parents cb anc data = (0, anc.foldl (fun d t => (cb t d).2) data) := by
  obtain ⟨h1, h2⟩ := visit_parents_visit cb anc data
  rw [visit_zero cb hcb] at h1 h2
  refine Prod.ext ?_ h2
  by_contra hne
  exact (h1.1 hne) rfl

/-- In a loaded tree the chain of ancestors of every node is found by
following `parent`; it starts at the root and ends at the node. -/
theorem ancestors_exist (sys : Sys) (fuel : Nat) (h h2 : Heap) (path : List Char)
    (filter : tree_filter_t) (follow : Bool) (root : Nat)
    (hload : tree_load sys fuel h path filter follow = some (h2, some root)) :
    ∀ n, root ≤ n → n < h2.size →
      ∃ anc, anc.length ≤ n - root + 1 ∧ ancestors h2 (anc.length + 1) (some n) = some anc ∧
        anc.head? = some root ∧ anc.getLast? = some n := by
  obtain ⟨hd0, hp0, hpar⟩ := depth_parent_mod_256 sys fuel h h2 path filter follow root hload
  intro n
  induction n using Nat.strong_induction_on with
  | _ n ih =>
    intro hn1 hn2
    rcases Nat.eq_or_lt_of_le hn1 with e | hlt
    · subst e
      exact ⟨[root], by simp, by simp [ancestors, hp0], rfl, rfl⟩
    · obtain ⟨p, hp1, hp2, hp3, _⟩ := hpar n hlt hn2
      obtain ⟨anc, hlen, hanc, hhead, _⟩ := ih p hp2 hp1 (by omega)
      refine ⟨anc ++ [n], by simp; omega, ?_, ?_, by simp⟩
      · have e : ancestors h2 ((anc ++ [n]).length + 1) (some n) =
            (ancestors h2 (anc.length + 1) (h2.cell n).parent).map (fun l => l ++ [n]) := by
          simp [ancestors]
        rw [e, hp3, hanc]
        rfl
      · cases anc with
        | nil => simp [ancestors] at hanc
        | cons a t => simpa using hhead

theorem children_of_total (sys : Sys) (filter : tree_filter_t) (follow : Bool)
    (path : List Char) (h : Heap) (root : Nat) (f : Forest)
    (hl : Loaded sys filter follow path h root f) :
    ∀ l : List Nat, (∀ x ∈ l, root ≤ x ∧ x < h.size) →
      ∃ r, children_of h (h.size + 1) l = some r ∧
        ∀ x ∈ l, ∀ n, (h.cell n).parent = some x → root ≤ n → n < h.size → n ∈ r := by
  intro l
  induction l with
  | nil => intro _; exact ⟨[], rfl, fun x hx => absurd hx (List.not_mem_nil _)⟩
  | cons x xs ih =>
    intro hin
    obtain ⟨r, hr, hmem⟩ := ih (fun y hy => hin y (List.mem_cons_of_mem _ hy))
    obtain ⟨hx1, hx2⟩ := hin x (List.mem_cons_self _ _)
    obtain ⟨ks, ⟨_, _, hch, _⟩, hnd, hrange, hpar⟩ :=
      Loaded_node sys filter follow path h root f hl x hx1 hx2
    have hlen : ks.length ≤ h.size := by
      have hsub : ks ⊆ List.range h.size := by
        intro k hk
        rw [List.mem_range]
        exact (hrange k hk).2
      have := (List.subperm_of_subset hnd hsub).length_le
      simpa using this
    have hcl := child_list_of_chain h (some x) ks _ _ hch (h.size + 1) (by omega)
    refine ⟨ks ++ r, by simp [children_of, hcl, hr], ?_⟩
    intro y hy n hp hn1 hn2
    rcases List.mem_cons.1 hy with e | hy2
    · subst e
      exact List.mem_append_left _ ((hpar n hn1 hn2).1 hp)
    · exact List.mem_append_right _ (hmem y hy2 n hp hn1 hn2)

/-- Every node of a loaded tree lies at some depth below the root. -/
theorem every_node_at_depth (sys : Sys) (fuel : Nat) (h h2 : Heap) (path : List Char)
    (filter : tree_filter_t) (follow : Bool) (root : Nat)
    (hload : tree_load sys fuel h path filter follow = some (h2, some root)) :
    ∀ n, root ≤ n → n < h2.size →
      ∃ d level, at_depth h2 (h2.size + 1) root d = some level ∧ n ∈ level := by
  obtain ⟨_, _, hpar⟩ := depth_parent_mod_256 sys fuel h h2 path filter follow root hload
  obtain ⟨_, _, f, hl⟩ := tree_load_spec sys fuel h h2 path filter follow root hload
  intro n
  induction n using Nat.strong_induction_on with
  | _ n ih =>
    intro hn1 hn2
    rcases Nat.eq_or_lt_of_le hn1 with e | hlt
    · subst e
      exact ⟨0, [root], rfl, List.mem_singleton_self _⟩
    · obtain ⟨p, hp1, hp2, hp3, _⟩ := hpar n hlt hn2
      obtain ⟨d, level, hlev, hpl⟩ := ih p hp2 hp1 (by omega)
      have hin : ∀ x ∈ level, root ≤ x ∧ x < h2.size := by
        intro x hx
        obtain ⟨a1, a2, _⟩ :=
          Loaded_at_depth sys filter follow path h2 root f hl _ d level hlev x hx
        exact ⟨a1, a2⟩
      obtain ⟨r, hr, hmem⟩ := children_of_total sys filter follow path h2 root f hl level hin
      refine ⟨d + 1, r, ?_, hmem p hpl n hp3 hn1 hn2⟩
      simp only [at_depth, hlev, hr]

theorem visit_stop {σ : Type} (cb : tree_cb_t σ) (before after : List Nat) (t : Nat) (data : σ)
    (h0 : (visit cb before data).1 = 0) (h1 : (cb t (visit cb before data).2).1 ≠ 0) :
    visit cb (before ++ t :: after) data = cb t (visit cb before data).2 := by
  rw [visit_append]
  simp only [h0, ne_eq, not_true_eq_false, if_false, visit]
  simp [h1]

theorem set_append_length (pre suf : List (Option Nat)) (x v : Option Nat) :
    (pre ++ x :: suf).set pre.length v = pre ++ v :: suf := by
  induction pre with
  | nil => rfl
  | cons a pre ih => simp [List.set, ih]

/-- The data `tree_finds_cb` leaves after the nodes of a list, when the query
is not empty: `nr` has grown by the number of matches, and the matches have
been stored in the array from index `nr` on. -/
theorem finds_fold (h : Heap) (q : List Char) (hq : q ≠ []) :
    ∀ (l : List Nat) (sf : struct_find), sf.name = q →
      (l.foldl (fun d t => (tree_finds_cb h t d).2) sf).name = q ∧
      (l.foldl (fun d t => (tree_finds_cb h t d).2) sf).nr =
        sf.nr + ((l.filter (fun t => decide ((h.cell t).name.take q.length = q))).length : Int) ∧
      (sf.ptree = none → (l.foldl (fun d t => (tree_finds_cb h t d).2) sf).ptree = none) ∧
      (∀ pre suf : List (Option Nat), sf.ptree = some (pre ++ suf) → sf.nr = (pre.length : Int) →
        (l.filter (fun t => decide ((h.cell t).name.take q.length = q))).length ≤ suf.length →
        (l.foldl (fun d t => (tree_finds_cb h t d).2) sf).ptree =
          some (pre ++ (l.filter (fun t => decide ((h.cell t).name.take q.length = q))).map some
            ++ suf.drop (l.filter
              (fun t => decide ((h.cell t).name.take q.length = q))).length)) := by
  have hlen : strlen q ≠ 0 := by
    unfold strlen
    exact fun e => hq (List.length_eq_zero.1 e)
  intro l
  induction l with
  | nil =>
    intro sf hname
    simp only [List.foldl_nil, List.filter_nil, List.length_nil, List.map_nil, List.drop_zero,
      List.append_nil, Nat.cast_zero, add_zero]
    exact ⟨hname, trivial, fun e => e, fun pre suf hp _ _ => hp⟩
  | cons t ts ih =>
    intro sf hname
    by_cases hm : (h.cell t).name.take q.length = q
    · have hcb : (tree_finds_cb h t sf).2 =
          { sf with ptree := (match sf.ptree with
              | some a => some (a.set sf.nr.toNat (some t))
              | none => none), nr := sf.nr + 1 } := by
        unfold tree_finds_cb
        rw [hname, if_neg hlen, if_neg (by rw [ne_eq, not_not, strncmp_prefix]; exact hm)]
      obtain ⟨i1, i2, i3, i4⟩ := ih (tree_finds_cb h t sf).2 (by rw [hcb]; exact hname)
      simp only [List.foldl_cons, List.filter_cons, hm, decide_True, if_true, List.length_cons,
        List.map_cons]
      refine ⟨i1, ?_, ?_, ?_⟩
      · rw [i2, hcb]
        push_cast
        ring
      · intro hnone
        apply i3
        rw [hcb]
        simp [hnone]
      · intro pre suf hp hnr hle
        cases suf with
        | nil => simp at hle
        | cons x suf2 =>
          have hp2 : (tree_finds_cb h t sf).2.ptree = some ((pre ++ [some t]) ++ suf2) := by
            rw [hcb]
            simp only [hp, hnr, Int.toNat_ofNat, set_append_length]
            simp
          have hnr2 : (tree_finds_cb h t sf).2.nr = ((pre ++ [some t]).length : Int) := by
            rw [hcb]
            simp [hnr]
          rw [i4 (pre ++ [some t]) suf2 hp2 hnr2 (by simpa using hle)]
          simp
    · have hcb : (tree_finds_cb h t sf).2 = sf := by
        unfold tree_finds_cb
        rw [hname, if_neg hlen, if_pos (by rw [ne_eq, strncmp_prefix]; exact hm)]
      simp only [List.foldl_cons, List.filter_cons, hm, decide_False, hcb]
      exact ih sf hname

theorem tree_finds_cb_zero (h : Heap) (t : Nat) (sf : struct_find) :
    (tree_finds_cb h t sf).1 = 0 := by
  unfold tree_finds_cb
  split_ifs <;> rfl

/-- What `tree_finds` returns on a loaded tree for a query that is not empty,
`matches` being the nodes, in pre-order, whose name begins with the query. -/
theorem Loaded_finds (sys : Sys) (filter : tree_filter_t) (follow : Bool) (path : List Char)
    (h : Heap) (root : Nat) (f : Forest) (hl : Loaded sys filter follow path h root f)
    (sys2 : Sys) (q : List Char) (hq : q ≠ []) (ptr0 : Option (List (Option Nat)))
    (k : Nat) (hk : h.size - root < k) (ms : List Nat)
    (hms : ms = (List.range' root (h.size - root)).filter
      (fun t => decide ((h.cell t).name.take q.length = q))) :
    tree_finds sys2 h k (some root) q ptr0 =
      some (if ms = [] then (0, ptr0)
        else if sys2.array_ok ms.length = false then (-1, none)
        else ((ms.length : Int), some (ms.map some))) := by
  unfold tree_finds
  rw [Loaded_for_each sys filter follow path h root f hl _ _ k hk,
    visit_zero _ (tree_finds_cb_zero h)]
  obtain ⟨i1, i2, i3, _⟩ := finds_fold h q hq (List.range' root (h.size - root))
    { nr := 0, name := q, ptree := none } rfl
  have i3' := i3 rfl
  rw [← hms] at i2
  simp only [zero_add] at i2
  simp only [ne_eq, not_true_eq_false, if_false, i2]
  by_cases hnil : ms = []
  · simp [hnil]
  · have hpos : ¬ ((ms.length : Int) = 0) := by
      simpa using hnil
    simp only [hnil, hpos, if_false, Int.toNat_ofNat]
    by_cases hok : sys2.array_ok ms.length = false
    · simp [hok]
    · simp only [hok, if_false]
      rw [Loaded_for_each sys filter follow path h root f hl _ _ k hk,
        visit_zero _ (tree_finds_cb_zero h)]
      obtain ⟨_, _, _, j4⟩ := finds_fold h q hq (List.range' root (h.size - root))
        { (List.foldl (fun d t => (tree_finds_cb h t d).2) { nr := 0, name := q, ptree := none }
            (List.range' root (h.size - root))) with
          nr := 0, ptree := some ((List.range ms.length).map sys2.array_junk) } i1
      rw [← hms] at j4
      have j5 := j4 [] ((List.range ms.length).map sys2.array_junk) rfl rfl (by simp)
      simp only [ne_eq, not_true_eq_false, if_false, j5]
      simp

theorem tree_for_each_finds_empty (h : Heap) : ∀ (fuel : Nat) (p : Option Nat)
    (sf : struct_find), sf.name = [] →
    tree_for_each h (tree_finds_cb h) fuel p sf = none ∨
      tree_for_each h (tree_finds_cb h) fuel p sf = some (0, sf) := by
  intro fuel
  induction fuel with
  | zero => intro p sf _; exact Or.inl rfl
  | succ fuel ih =>
    intro p sf hname
    cases p with
    | none => exact Or.inr rfl
    | some t =>
      have hcb : tree_finds_cb h t sf = (0, sf) := by
        unfold tree_finds_cb
        simp [hname, strlen]
      simp only [tree_for_each, hcb, ne_eq, not_true_eq_false, if_false]
      rcases ih (h.cell t).child sf hname with e | e
      · rw [e]; exact Or.inl rfl
      · rw [e]
        simp only [ne_eq, not_true_eq_false, if_false]
        exact ih (h.cell t).next sf hname

theorem visit_finds_empty (h : Heap) : ∀ (l : List Nat) (sf : struct_find), sf.name = [] →
    visit (tree_finds_cb h) l sf = (0, sf) := by
  intro l
  induction l with
  | nil => intro sf _; rfl
  | cons t ts ih =>
    intro sf hname
    have hcb : tree_finds_cb h t sf = (0, sf) := by
      unfold tree_finds_cb
      simp [hname, strlen]
    simp only [visit, hcb, ne_eq, not_true_eq_false, if_false]
    exact ih sf hname

theorem tree_scan_loop_follow (sys : Sys) (hstat : ∀ p, sys.stat p ≠ some FileType.S_IFLNK)
    (scan : Heap → Nat → Option (Int × Heap)) (filter : tree_filter_t) (tree : Nat) :
    ∀ (entries : List (List Char)) (ret : Int) (h : Heap),
      tree_scan_loop scan sys filter true tree entries ret h =
        tree_scan_loop scan sys filter false tree entries ret h := by
  intro entries
  induction entries with
  | nil => intro ret h; rfl
  | cons e rest ih =>
    intro ret h
    unfold tree_scan_loop
    by_cases hdot : e.head? = some '.'
    · simp only [hdot, if_true]
      exact ih ret h
    · simp only [hdot, if_false, ih]
      cases hst : sys.stat ((h.cell tree).path ++ '/' :: e) with
      | none => rfl
      | some m =>
        have hm : S_ISLNK m = false := by
          unfold S_ISLNK
          simp only [decide_eq_false_iff_not]
          intro e2
          exact hstat _ (e2 ▸ hst)
        simp only [hm, Bool.false_and]

/-- When `stat` never reports a symbolic link, which is how `stat(2)` behaves,
the argument `follow` of `tree_load` has no effect. -/
theorem follow_is_ignored (sys : Sys) (hstat : ∀ p, sys.stat p ≠ some FileType.S_IFLNK)
    (fuel : Nat) (h : Heap) (path : List Char) (filter : tree_filter_t) :
    tree_load sys fuel h path filter true = tree_load sys fuel h path filter false := by
  have hscan : ∀ fuel, tree_scan sys filter true fuel = tree_scan sys filter false fuel := by
    intro fuel
    induction fuel with
    | zero => rfl
    | succ fuel ih =>
      funext h tree
      simp only [tree_scan, ih]
      cases sys.opendir (h.cell tree).path with
      | none => rfl
      | some entries => exact tree_scan_loop_follow sys hstat _ filter tree entries 0 h
  unfold tree_load
  rw [hscan]


/-! ## Names and paths -/

theorem strrchr_not_mem (c : Char) : ∀ s : List Char, c ∉ s → strrchr s c = none := by
  intro s
  induction s with
  | nil => intro _; rfl
  | cons x xs ih =>
    intro h
    simp only [List.mem_cons, not_or] at h
    unfold strrchr
    rw [ih h.2]
    simp only []
    rw [if_neg (fun e => h.1 e.symm)]

theorem strrchr_append (c : Char) (e : List Char) (he : c ∉ e) :
    ∀ p : List Char, strrchr (p ++ c :: e) c = some (c :: e) := by
  intro p
  induction p with
  | nil =>
    simp only [List.nil_append]
    unfold strrchr
    rw [strrchr_not_mem c e he]
    simp
  | cons x xs ih =>
    simp only [List.cons_append]
    unfold strrchr
    rw [ih]

theorem strrchr_none (c : Char) : ∀ s : List Char, strrchr s c = none → c ∉ s := by
  intro s
  induction s with
  | nil => intro _; simp
  | cons x xs ih =>
    intro h
    unfold strrchr at h
    cases hx : strrchr xs c with
    | some r => rw [hx] at h; simp at h
    | none =>
      rw [hx] at h
      simp only [] at h
      by_cases e : x = c
      · rw [if_pos e] at h; simp at h
      · simp only [List.mem_cons, not_or]
        exact ⟨fun e2 => e e2.symm, ih hx⟩

theorem strrchr_split (c : Char) :
    ∀ (s r : List Char), strrchr s c = some r →
      ∃ pre t, r = c :: t ∧ s = pre ++ c :: t ∧ c ∉ t := by
  intro s
  induction s with
  | nil => intro r h; simp [strrchr] at h
  | cons x xs ih =>
    intro r h
    unfold strrchr at h
    cases hx : strrchr xs c with
    | some r2 =>
      rw [hx] at h
      simp only [Option.some.injEq] at h
      subst h
      obtain ⟨pre, t, e1, e2, e3⟩ := ih r2 hx
      exact ⟨x :: pre, t, e1, by rw [e2]; rfl, e3⟩
    | none =>
      rw [hx] at h
      simp only [] at h
      by_cases e : x = c
      · rw [if_pos e] at h
        simp only [Option.some.injEq] at h
        subst h
        subst e
        exact ⟨[], xs, rfl, rfl, strrchr_none x xs hx⟩
      · rw [if_neg e] at h
        simp at h

theorem basename_empty_iff (pre name : List Char) (h : '/' ∉ name) :
    name = [] ↔ (pre ++ '/' :: name).getLast? = some '/' := by
  constructor
  · intro e; subst e; simp
  · intro hl
    rcases List.eq_nil_or_concat name with e | ⟨l, b, e⟩
    · exact e
    · exfalso
      subst e
      have e2 : pre ++ '/' :: l.concat b = (pre ++ '/' :: l) ++ [b] := by simp
      rw [e2, List.getLast?_append] at hl
      simp at hl
      subst hl
      simp at h

/-! ## The event loop -/

theorem mainloop_events_calls {σ : Type} (cbs : callbacks_t σ) :
    ∀ (evs : List Nat) (w : World σ) (b : Bool) (w2 : World σ) (l : List Call),
      mainloop_events cbs evs w = some (b, w2, l) →
      l.map Call.md <+: evs ∧ (∀ c ∈ l.dropLast, c.ret ≤ 0) ∧
      (b = true → ∃ c, l.getLast? = some c ∧ c.ret > 0) ∧
      (b = false → l.map Call.md = evs ∧ ∀ c ∈ l, c.ret ≤ 0) := by
  intro evs
  induction evs with
  | nil =>
    intro w b w2 l h
    simp only [mainloop_events, Option.some.injEq, Prod.mk.injEq] at h
    obtain ⟨e1, _, e3⟩ := h
    subst e1 e3
    simp
  | cons p evs ih =>
    intro w b w2 l h
    unfold mainloop_events at h
    cases hmd : w.mdh p with
    | none => rw [hmd] at h; simp at h
    | some md =>
      rw [hmd] at h
      simp only [] at h
      cases hcb : cbs md.cb md.fd md.data w with
      | none => rw [hcb] at h; simp at h
      | some q =>
        obtain ⟨r, w1⟩ := q
        rw [hcb] at h
        simp only [] at h
        by_cases hr : r > 0
        · rw [if_pos hr] at h
          simp only [Option.some.injEq, Prod.mk.injEq] at h
          obtain ⟨e1, _, e3⟩ := h
          subst e1 e3
          refine ⟨?_, ?_, fun _ => ⟨⟨p, r⟩, rfl, hr⟩, fun e => by simp at e⟩
          · simp only [List.map_cons, List.map_nil]
            exact (List.cons_prefix_cons).2 ⟨rfl, List.nil_prefix⟩
          · intro c hc; simp at hc
        · rw [if_neg hr] at h
          cases hrec : mainloop_events cbs evs w1 with
          | none => rw [hrec] at h; simp at h
          | some q2 =>
            obtain ⟨b2, w3, l2⟩ := q2
            rw [hrec] at h
            simp only [Option.some.injEq, Prod.mk.injEq] at h
            obtain ⟨e1, _, e3⟩ := h
            subst e1 e3
            obtain ⟨i1, i2, i3, i4⟩ := ih w1 b2 w3 l2 hrec
            refine ⟨?_, ?_, ?_, ?_⟩
            · simp only [List.map_cons]
              exact (List.cons_prefix_cons).2 ⟨rfl, i1⟩
            · intro c hc
              cases l2 with
              | nil => simp at hc
              | cons c2 l3 =>
                simp only [List.dropLast_cons₂, List.mem_cons] at hc
                rcases hc with hc | hc
                · subst hc; exact not_lt.1 hr
                · exact i2 c hc
            · intro hb
              obtain ⟨c, hc1, hc2⟩ := i3 hb
              cases l2 with
              | nil => simp at hc1
              | cons c2 l3 => exact ⟨c, by rw [List.getLast?_cons_cons]; exact hc1, hc2⟩
            · intro hb
              obtain ⟨j1, j2⟩ := i4 hb
              refine ⟨by simp only [List.map_cons, j1], ?_⟩
              intro c hc
              simp only [List.mem_cons] at hc
              rcases hc with hc | hc
              · subst hc; exact not_lt.1 hr
              · exact j2 c hc

theorem mainloop_events_step {σ : Type} (cbs : callbacks_t σ) (p : Nat) (evs : List Nat)
    (w w1 : World σ) (md : mainloop_data) (r : Int) (hmd : w.mdh p = some md)
    (hcb : cbs md.cb md.fd md.data w = some (r, w1)) (hr : r ≤ 0) :
    mainloop_events cbs (p :: evs) w =
      (mainloop_events cbs evs w1).map (fun x => (x.1, x.2.1, ⟨p, r⟩ :: x.2.2)) := by
  have e : mainloop_events cbs (p :: evs) w =
      match w.mdh p with
      | none => none
      | some md =>
        match cbs md.cb md.fd md.data w with
        | none => none
        | some (r, w1) =>
          if r > 0 then some (true, w1, [⟨p, r⟩])
          else
            match mainloop_events cbs evs w1 with
            | none => none
            | some (b, w2, l) => some (b, w2, ⟨p, r⟩ :: l) := rfl
  rw [e, hmd]
  simp only []
  rw [hcb]
  simp only []
  rw [if_neg (not_lt.2 hr)]
  cases mainloop_events cbs evs w1 with
  | none => rfl
  | some q => rfl

theorem mainloop_loop_value {σ : Type} (env : Env) (cbs : callbacks_t σ) (timeout : Nat) :
    ∀ (fuel i : Nat) (w : World σ) (v : Int) (w2 : World σ) (l : List Call),
      mainloop_loop env cbs timeout fuel i w = some (v, w2, l) →
      (v = 0 ∧ ∃ c, l.getLast? = some c ∧ c.ret > 0) ∨
      (v = -1 ∧ ∃ j, i ≤ j ∧ env.epoll_wait timeout j = Wake.error) := by
  intro fuel
  induction fuel with
  | zero => intro i w v w2 l h; simp [mainloop_loop] at h
  | succ fuel ih =>
    intro i w v w2 l h
    unfold mainloop_loop at h
    cases hw : epoll_wait env timeout i w with
    | eintr =>
      rw [hw] at h
      simp only [] at h
      rcases ih (i + 1) w v w2 l h with h1 | ⟨h1, j, h2, h3⟩
      · exact Or.inl h1
      · exact Or.inr ⟨h1, j, by omega, h3⟩
    | error =>
      rw [hw] at h
      simp only [Option.some.injEq, Prod.mk.injEq] at h
      refine Or.inr ⟨h.1.symm, i, le_refl _, ?_⟩
      unfold epoll_wait at hw
      cases hk : env.epoll_wait timeout i with
      | eintr => rw [hk] at hw; simp at hw
      | error => rfl
      | ready fds => rw [hk] at hw; simp at hw
    | events evs =>
      rw [hw] at h
      simp only [] at h
      cases hev : mainloop_events cbs evs w with
      | none => rw [hev] at h; simp at h
      | some q =>
        obtain ⟨b, w1, l1⟩ := q
        rw [hev] at h
        obtain ⟨_, _, k3, _⟩ := mainloop_events_calls cbs evs w b w1 l1 hev
        cases b with
        | true =>
          simp only [Option.some.injEq, Prod.mk.injEq] at h
          obtain ⟨e1, _, e3⟩ := h
          subst e3
          exact Or.inl ⟨e1.symm, k3 rfl⟩
        | false =>
          simp only [] at h
          cases hrec : mainloop_loop env cbs timeout fuel (i + 1) w1 with
          | none => rw [hrec] at h; simp at h
          | some q2 =>
            obtain ⟨r, w3, l2⟩ := q2
            rw [hrec] at h
            simp only [Option.some.injEq, Prod.mk.injEq] at h
            obtain ⟨e1, _, e3⟩ := h
            subst e1 e3
            rcases ih (i + 1) w1 r w3 l2 hrec with ⟨h1, c, h2, h3⟩ | ⟨h1, j, h2, h3⟩
            · refine Or.inl ⟨h1, c, ?_, h3⟩
              rw [List.getLast?_append, h2]
              rfl
            · exact Or.inr ⟨h1, j, by omega, h3⟩

theorem resize_length (junk : Nat → Option Nat) (old : List (Option Nat)) (n : Nat) :
    (resize junk old n).length = n := by
  simp [resize]

/-- A descriptor that is not in the interest list: `mainloop_del` returns -1 and
changes nothing. -/
theorem mainloop_del_unregistered {σ : Type} (fd : Int) (w : World σ)
    (h : w.interest fd = none) : mainloop_del fd w = some (-1, w) := by
  unfold mainloop_del
  by_cases h1 : fd ≥ (w.nrhandler : Int)
  · rw [if_pos h1]
  · rw [if_neg h1]
    simp [epoll_ctl_del, h]

/-- A descriptor of the interest list that is below `nrhandler` and whose
entry of `mds` is a live block: `mainloop_del` returns 0, and the descriptor is
not in the interest list any more; the other descriptors stay as they are. -/
theorem mainloop_del_registered {σ : Type} (fd : Int) (w : World σ) (p md : Nat)
    (arr : List (Option Nat)) (h0 : 0 ≤ w.epfd) (h1 : w.interest fd = some p)
    (h2 : fd < (w.nrhandler : Int)) (h3 : w.mds = some arr)
    (h4 : index arr fd = some (some md)) (h5 : (w.mdh md).isSome = true) :
    ∃ w2, mainloop_del fd w = some (0, w2) ∧ w2.interest fd = none ∧
      (∀ x, x ≠ fd → w2.interest x = w.interest x) ∧ w2.mdh md = none ∧
      w2.nrhandler = w.nrhandler ∧ w2.epfd = w.epfd := by
  unfold mainloop_del
  rw [if_neg (not_le.2 h2)]
  have e : epoll_ctl_del fd w =
      some { w with interest := fun x => if x = fd then none else w.interest x } := by
    unfold epoll_ctl_del
    rw [if_neg]
    simp [h1, not_lt.2 h0]
  rw [e]
  simp only [h3, h4, h5, if_true]
  refine ⟨_, rfl, by simp, fun x hx => by simp [hx], by simp, rfl, rfl⟩

/-- A descriptor at or above `nrhandler` that can be armed: `mainloop_add` returns
0 and the descriptor is in the interest list; `nrhandler` becomes `fd + 1`
cut to 16 bits. -/
theorem mainloop_add_registers {σ : Type} (env : Env) (fd : Int) (cb : Nat) (data : Option Nat)
    (w : World σ) (h1 : 0 ≤ w.epfd) (h3 : fd ≠ w.epfd) (h4 : w.interest fd = none)
    (h5 : env.epoll_add_ok fd = true) (h6 : (w.nrhandler : Int) ≤ fd)
    (h7 : env.realloc_ok (fd + 1).toNat = true) (h8 : env.malloc_ok w.brk = true) :
    ∃ w2, mainloop_add env fd cb data w = some (0, w2) ∧ w2.interest fd = some w.brk ∧
      w2.nrhandler = (fd + 1).toNat % 65536 ∧ w2.epfd = w.epfd ∧
      w2.mdh w.brk = some ⟨cb, data, fd⟩ := by
  have h2 : 0 ≤ fd := le_trans (Int.ofNat_nonneg _) h6
  unfold mainloop_add
  simp only [ge_iff_le, h6, if_true, h7, malloc, h8]
  have hl : ¬ (fd < 0 ∨ ((resize env.junk (w.mds.getD []) (fd + 1).toNat).length : Int) ≤ fd) := by
    rw [resize_length]
    omega
  rw [if_neg hl]
  have hc : ¬ (w.epfd < 0 ∨ fd < 0 ∨ fd = w.epfd ∨ (w.interest fd).isSome = true ∨
      env.epoll_add_ok fd = false) := by
    simp [h4, h5, h3]
    omega
  simp only [epoll_ctl_add, hc, if_false]
  exact ⟨_, rfl, by simp, rfl, rfl, by simp⟩

/-! ## The panels -/

theorem focused_set_current {σ : Type} (w : World σ) (wd wd2 : windata)
    (h : focused w = some wd) : focused (set_current w wd2) = some wd2 := by
  unfold focused index at *
  unfold set_current
  simp only []
  by_cases h0 : w.current_win < 0
  · rw [if_pos h0] at h; simp at h
  · rw [if_neg h0] at h
    rw [if_neg h0]
    have hlt : w.current_win.toNat < w.windata.length := by
      rcases Nat.lt_or_ge w.current_win.toNat w.windata.length with h1 | h1
      · exact h1
      · rw [List.get?_eq_none.2 h1] at h; simp at h
    simp [List.getElem?_set, hlt]

theorem display_next_line_spec {σ : Type} (w : World σ) (wd : windata)
    (hwd : focused w = some wd) (hc : 0 ≤ wd.cursor) (hrows : wd.nrdata ≤ wd.rowdata.length) :
    (wd.nrdata ≤ wd.cursor → display_next_line w = some (wd.cursor, w)) ∧
    (wd.cursor < wd.nrdata →
      display_next_line w =
        some (min (wd.cursor + 1) (wd.nrdata - 1),
          set_current w { wd with
            scrolling :=
              if wd.cursor < wd.nrdata - 1 ∧ wd.cursor ≥ w.maxy - 4 + wd.scrolling
              then wd.scrolling + 1 else wd.scrolling,
            cursor := min (wd.cursor + 1) (wd.nrdata - 1) })) := by
  unfold focused at hwd
  constructor
  · intro h
    unfold display_next_line
    rw [hwd]
    simp only [ge_iff_le, h, if_true]
  · intro h
    unfold display_next_line
    rw [hwd]
    simp only [ge_iff_le, not_le.2 h, if_false]
    have hr : ∃ r, index wd.rowdata wd.cursor = some r := by
      unfold index
      rw [if_neg (not_lt.2 hc)]
      have hlt : wd.cursor.toNat < wd.rowdata.length := by omega
      exact ⟨_, List.get?_eq_get hlt⟩
    obtain ⟨r, hr⟩ := hr
    rw [hr]
    simp only []
    by_cases h1 : wd.cursor < wd.nrdata - 1
    · have e : min (wd.cursor + 1) (wd.nrdata - 1) = wd.cursor + 1 := by omega
      simp only [h1, if_true, true_and, e]
    · have e : min (wd.cursor + 1) (wd.nrdata - 1) = wd.cursor := by omega
      simp only [h1, if_false, false_and, e]

theorem display_prev_line_spec {σ : Type} (w : World σ) (wd : windata)
    (hwd : focused w = some wd) (hc : 0 ≤ wd.cursor) (hrows : wd.nrdata ≤ wd.rowdata.length) :
    (wd.nrdata ≤ wd.cursor → display_prev_line w = some (wd.cursor, w)) ∧
    (wd.cursor < wd.nrdata →
      display_prev_line w =
        some (max (wd.cursor - 1) 0,
          set_current w { wd with
            scrolling :=
              if wd.cursor > 0 ∧ wd.cursor ≤ wd.scrolling
              then wd.scrolling - 1 else wd.scrolling,
            cursor := max (wd.cursor - 1) 0 })) := by
  unfold focused at hwd
  constructor
  · intro h
    unfold display_prev_line
    rw [hwd]
    simp only [ge_iff_le, h, if_true]
  · intro h
    unfold display_prev_line
    rw [hwd]
    simp only [ge_iff_le, not_le.2 h, if_false]
    have hr : ∃ r, index wd.rowdata wd.cursor = some r := by
      unfold index
      rw [if_neg (not_lt.2 hc)]
      have hlt : wd.cursor.toNat < wd.rowdata.length := by omega
      exact ⟨_, List.get?_eq_get hlt⟩
    obtain ⟨r, hr⟩ := hr
    rw [hr]
    simp only []
    by_cases h1 : wd.cursor > 0
    · have e : max (wd.cursor - 1) 0 = wd.cursor - 1 := by omega
      simp only [h1, if_true, true_and, e]
    · have e : max (wd.cursor - 1) 0 = wd.cursor := by omega
      simp only [h1, if_false, false_and, e]

theorem display_next_panel_eq {σ : Type} (w : World σ) (h0 : 0 ≤ w.current_win)
    (h1 : w.current_win < array_size w) (h2 : array_size w < 2 ^ 31) :
    display_next_panel w =
      ((w.current_win + 1) % (array_size w : Int),
        set_win w ((w.current_win + 1) % (array_size w : Int))) := by
  have e : (w.current_win + 1) % 2 ^ 64 = w.current_win + 1 :=
    Int.emod_eq_of_lt (by omega) (by omega)
  unfold display_next_panel set_win
  simp only [e]

theorem display_prev_panel_eq {σ : Type} (w : World σ) (h0 : 0 ≤ w.current_win)
    (h1 : w.current_win < array_size w) :
    display_prev_panel w =
      ((w.current_win - 1) % (array_size w : Int),
        set_win w ((w.current_win - 1) % (array_size w : Int))) := by
  have e : (if w.current_win - 1 < 0 then (array_size w : Int) - 1 else w.current_win - 1) =
      (w.current_win - 1) % (array_size w : Int) := by
    by_cases h : w.current_win - 1 < 0
    · rw [if_pos h]
      have e0 : w.current_win = 0 := by omega
      rw [e0, ← Int.add_emod_self]
      exact (Int.emod_eq_of_lt (by omega) (by omega)).symm
    · rw [if_neg h]
      exact (Int.emod_eq_of_lt (by omega) (by omega)).symm
  unfold display_prev_panel set_win
  simp only [e]

theorem next_panel_set_win {σ : Type} (w : World σ) (c : Int) (h0 : 0 ≤ c)
    (h1 : c < array_size w) (h2 : array_size w < 2 ^ 31) :
    next_panel (set_win w c) = set_win w ((c + 1) % (array_size w : Int)) := by
  unfold next_panel
  rw [display_next_panel_eq (set_win w c) h0 h1 h2]
  rfl

theorem prev_panel_set_win {σ : Type} (w : World σ) (c : Int) (h0 : 0 ≤ c)
    (h1 : c < array_size w) :
    prev_panel (set_win w c) = set_win w ((c - 1) % (array_size w : Int)) := by
  unfold prev_panel
  rw [display_prev_panel_eq (set_win w c) h0 h1]
  rfl

theorem next_panel_iterate {σ : Type} (w : World σ) (h0 : 0 ≤ w.current_win)
    (h1 : w.current_win < array_size w) (h2 : array_size w < 2 ^ 31) :
    ∀ k : Nat, next_panel^[k] w = set_win w ((w.current_win + k) % (array_size w : Int)) := by
  have hp : (0 : Int) < array_size w := by omega
  intro k
  induction k with
  | zero =>
    simp only [Function.iterate_zero, id_eq, Nat.cast_zero, add_zero]
    rw [Int.emod_eq_of_lt h0 h1]
    rfl
  | succ k ih =>
    rw [Function.iterate_succ_apply', ih,
      next_panel_set_win w _ (Int.emod_nonneg _ (by omega)) (Int.emod_lt_of_pos _ hp) h2,
      Int.emod_add_emod]
    have e : w.current_win + (k : Int) + 1 = w.current_win + ((k + 1 : Nat) : Int) := by
      push_cast; ring
    rw [e]

theorem prev_panel_iterate {σ : Type} (w : World σ) (h0 : 0 ≤ w.current_win)
    (h1 : w.current_win < array_size w) :
    ∀ k : Nat, prev_panel^[k] w = set_win w ((w.current_win - k) % (array_size w : Int)) := by
  have hp : (0 : Int) < array_size w := by omega
  intro k
  induction k with
  | zero =>
    simp only [Function.iterate_zero, id_eq, Nat.cast_zero, sub_zero]
    rw [Int.emod_eq_of_lt h0 h1]
    rfl
  | succ k ih =>
    rw [Function.iterate_succ_apply', ih,
      prev_panel_set_win w _ (Int.emod_nonneg _ (by omega)) (Int.emod_lt_of_pos _ hp)]
    have e : (w.current_win - (k : Int)) % (array_size w : Int) - 1 =
        (w.current_win - (k : Int)) % (array_size w : Int) + (-1) := by ring
    rw [e, Int.emod_add_emod]
    have e2 : w.current_win - (k : Int) + -1 = w.current_win - ((k + 1 : Nat) : Int) := by
      push_cast; ring
    rw [e2]

/-! ## Find mode -/

theorem regcomp_regexp : regcomp regexp true = some find_reg := by decide

/-- What the expression of Find mode accepts among the single-byte characters:
the letters, the digits, `_`, `|` and `.`; not `-`. -/
theorem find_reg_accepts :
    ∀ n : Nat, n < 256 →
      (regexec find_reg (c_str [Char.ofNat n, NUL]) = 0 ↔
        is_letter n ∨ is_digit n ∨ n = 95 ∨ n = 124 ∨ n = 46) := by
  decide

theorem cursor_to_top_spec {σ : Type} (w : World σ) (wd : windata) (h : focused w = some wd) :
    cursor_to_top w = some (set_current w { wd with cursor := 0, scrolling := 0 }) := by
  unfold focused at h
  unfold cursor_to_top
  rw [h]

/-- A call of an operation of an adapter leaves everything but the panel table
and the state of the adapters as it is. -/
theorem call_op_frame {σ : Type} (f : Panels σ → Option (Int × Panels σ)) (w w2 : World σ)
    (r : Int) (h : call_op f w = some (r, w2)) :
    PanelFrame w w2 ∧ w2.keys = w.keys := by
  unfold call_op at h
  cases hf : f ⟨w.windata, w.user⟩ with
  | none => rw [hf] at h; simp at h
  | some q =>
    rw [hf] at h
    simp only [Option.some.injEq, Prod.mk.injEq] at h
    obtain ⟨_, e⟩ := h
    subst e
    exact ⟨⟨rfl, rfl, rfl, rfl, rfl, rfl, rfl, rfl, rfl⟩, rfl⟩

/-- The statements after the `switch` of `display_find_keystroke` leave everything but
the panel table and the state of the adapters as it is. -/
theorem display_find_show_spec {σ : Type} (code : Code σ) (findd : Nat) (w w2 : World σ)
    (r : Int) (h : display_find_show code findd w = some (r, w2)) :
    PanelFrame w w2 ∧ w2.keys = w.keys := by
  unfold display_find_show at h
  cases hi : index w.windata w.current_win with
  | none => rw [hi] at h; simp at h
  | some wd =>
    rw [hi] at h
    simp only [] at h
    cases hf : wd.ops.bind (fun ops => ops.find) with
    | none =>
      rw [hf] at h
      simp only [Option.some.injEq, Prod.mk.injEq] at h
      obtain ⟨_, e⟩ := h
      subst e
      exact ⟨⟨rfl, rfl, rfl, rfl, rfl, rfl, rfl, rfl, rfl⟩, rfl⟩
    | some f =>
      rw [hf] at h
      simp only [] at h
      cases hb : w.findh findd with
      | none => rw [hb] at h; simp at h
      | some block =>
        rw [hb] at h
        simp only [] at h
        cases hc : call_op (code.find f (c_str block.string)) w with
        | none => rw [hc] at h; simp at h
        | some q =>
          obtain ⟨r1, w1⟩ := q
          rw [hc] at h
          have hfr := call_op_frame _ w w1 r1 hc
          simp only [display_show_header, display_show_footer, ne_eq, not_true_eq_false,
            if_false] at h
          by_cases hr : r1 = 0
          · simp only [hr, not_true_eq_false, if_false, Option.some.injEq, Prod.mk.injEq] at h
            obtain ⟨_, e⟩ := h
            subst e
            exact hfr
          · simp only [hr, not_false_eq_true, if_true, Option.some.injEq, Prod.mk.injEq] at h
            obtain ⟨_, e⟩ := h
            subst e
            exact hfr

/-- Without a `find` operation the statements after the `switch` of
`display_find_keystroke` return 0 and change nothing. -/
theorem display_find_show_absent {σ : Type} (code : Code σ) (findd : Nat) (w : World σ)
    (wd : windata) (h : focused w = some wd) (hf : wd.ops.bind (fun ops => ops.find) = none) :
    display_find_show code findd w = some (0, w) := by
  unfold focused at h
  unfold display_find_show
  rw [h]
  simp only []
  rw [hf]

/-- The default branch of `display_find_keystroke`: for a keystroke that is none of
Escape, arrow-down, arrow-up, Backspace and Enter, in a state whose focused
panel exists and whose buffer holds a C string of length `n`: when `regexec`
rejects the character `(char)keystroke` the function returns 0 and only the
keystroke is consumed; when it accepts it, the buffer the function leaves is
the old one with the character stored at index `n` if `n` is below `len - 1`,
the old one otherwise, followed by the statements after the `switch`. -/
theorem find_keystroke_default {σ : Type} (env : Env) (code : Code σ) (fd : Int) (findd : Nat)
    (w : World σ) (block : find_data) (k : Int) (ks : List Int) (n : Nat) (wd : windata)
    (hb : w.findh findd = some block) (hk : w.keys = k :: ks)
    (h1 : k ≠ 27) (h2 : k ≠ KEY_DOWN) (h3 : k ≠ KEY_UP) (h4 : k ≠ KEY_BACKSPACE) (h5 : k ≠ 13)
    (hn : buf_strlen block.string = some n) (hwd : focused w = some wd) :
    (regexec block.reg (c_str [to_char k, NUL]) ≠ 0 →
      display_find_keystroke env code fd (some findd) w = some (0, { w with keys := ks })) ∧
    (regexec block.reg (c_str [to_char k, NUL]) = 0 →
      display_find_keystroke env code fd (some findd) w =
        display_find_show code findd
          (set_current
            (if n < size_sub block.len 1
              then set_string { w with keys := ks } findd block (block.string.set n (to_char k))
              else { w with keys := ks })
            { wd with cursor := 0, scrolling := 0 })) := by
  have hg : getch w = (k, { w with keys := ks }) := by
    unfold getch
    rw [hk]
  constructor
  · intro hr
    unfold display_find_keystroke
    simp only [hb, hg, h1, h2, h3, h4, h5, if_false, hr, ne_eq, not_false_eq_true, if_true]
  · intro hr
    unfold display_find_keystroke
    simp only [hb, hg, h1, h2, h3, h4, h5, if_false, hr, ne_eq, not_true_eq_false, hn]
    by_cases hlt : n < size_sub block.len 1
    · simp only [hlt, if_true]
      have hf : focused (set_string { w with keys := ks } findd block
          (block.string.set n (to_char k))) = some wd := hwd
      rw [cursor_to_top_spec _ wd hf]
    · simp only [hlt, if_false]
      have hf : focused ({ w with keys := ks } : World σ) = some wd := hwd
      rw [cursor_to_top_spec _ wd hf]

/-- When `display_find_init` returns a pointer, the block it points to holds the
compiled `regexp`, a buffer of 64 NULs, and the cursor and scroll offset the
focused panel had; the focused panel has both set to 0. -/
theorem display_find_init_block {σ : Type} (env : Env) (w w2 : World σ) (p : Nat)
    (h : display_find_init env w = some (some p, w2)) :
    ∃ wd, focused w = some wd ∧
      w2.findh p = some
        { len := 64, string := List.replicate 64 NUL, reg := find_reg, ocursor := wd.cursor,
          oscrolling := wd.scrolling } ∧
      focused w2 = some { wd with cursor := 0, scrolling := 0 } ∧
      w2.current_win = w.current_win ∧ w2.keys = w.keys ∧ w2.interest = w.interest ∧
      w2.mdh = w.mdh ∧ w2.user = w.user := by
  unfold display_find_init at h
  by_cases hk1 : env.malloc_ok w.brk = true
  swap
  · simp [malloc, hk1] at h
  by_cases hok : env.regcomp_ok = true
  swap
  · simp [malloc, hk1, hok] at h
  by_cases hk2 : env.malloc_ok (w.brk + 1) = true
  swap
  · simp [malloc, hk1, hok, hk2, regcomp_regexp] at h
  by_cases hk3 : env.malloc_ok (w.brk + 1 + 1) = true
  swap
  · simp [malloc, hk1, hok, hk2, hk3, regcomp_regexp] at h
  simp only [malloc, hk1, hok, hk2, hk3, regcomp_regexp, if_true] at h
  cases hwd : index w.windata w.current_win with
  | none => rw [hwd] at h; simp at h
  | some wd =>
    rw [hwd] at h
    simp only [Option.some.injEq, Prod.mk.injEq] at h
    obtain ⟨e1, e2⟩ := h
    subst e1 e2
    have hf : focused w = some wd := hwd
    refine ⟨wd, hf, by simp [set_current], ?_, rfl, rfl, rfl, rfl, rfl⟩
    exact focused_set_current _ wd _ hwd

/-! ## The query buffer -/

theorem takeWhile_append_replicate (q : List Char) (n : Nat) (hq : NUL ∉ q) :
    (q ++ List.replicate n NUL).takeWhile (fun c => c ≠ NUL) = q := by
  induction q with
  | nil =>
    cases n with
    | zero => rfl
    | succ n => simp [List.replicate, List.takeWhile]
  | cons x xs ih =>
    simp only [List.mem_cons, not_or] at hq
    have hx : x ≠ NUL := fun e => hq.1 e.symm
    have e := ih hq.2
    simp only [List.cons_append, List.takeWhile, hx, ne_eq, not_false_eq_true, decide_True]
    simp only [ne_eq] at e
    exact congrArg (fun l => x :: l) e

theorem holds_query_c_str (buf q : List Char) (h : holds_query buf q) : c_str buf = q := by
  obtain ⟨h1, _, h3⟩ := h
  unfold c_str
  rw [h3]
  exact takeWhile_append_replicate q _ h1

theorem holds_query_strlen (buf q : List Char) (h : holds_query buf q) :
    buf_strlen buf = some q.length := by
  have e := holds_query_c_str buf q h
  obtain ⟨_, h2, h3⟩ := h
  unfold buf_strlen
  rw [e]
  have hl : buf.length = 64 := by
    rw [h3, List.length_append, List.length_replicate]
    omega
  rw [if_pos (by omega)]

theorem holds_query_init : holds_query (List.replicate 64 NUL) [] :=
  ⟨by simp, by simp, by simp⟩

theorem set_length_append (q : List Char) (x c : Char) (rest : List Char) :
    (q ++ x :: rest).set q.length c = q ++ c :: rest := by
  induction q with
  | nil => rfl
  | cons a q ih => simp [List.set, ih]

/-- Storing a character at the end of a query shorter than 63: the buffer
holds the query with the character appended, or the same query when the
character is NUL. -/
theorem holds_query_store (buf q : List Char) (c : Char) (h : holds_query buf q)
    (hl : q.length < 63) :
    holds_query (buf.set q.length c) (if c = NUL then q else q ++ [c]) := by
  obtain ⟨h1, h2, h3⟩ := h
  have e : List.replicate (64 - q.length) NUL =
      NUL :: List.replicate (64 - (q.length + 1)) NUL := by
    have e1 : 64 - q.length = (64 - (q.length + 1)) + 1 := by omega
    rw [e1, List.replicate_succ]
  have e2 : buf.set q.length c = q ++ c :: List.replicate (64 - (q.length + 1)) NUL := by
    rw [h3, e, set_length_append]
  by_cases hc : c = NUL
  · rw [if_pos hc]
    refine ⟨h1, h2, ?_⟩
    rw [e2, hc, ← e]
  · rw [if_neg hc]
    refine ⟨?_, ?_, ?_⟩
    · simp only [List.mem_append, List.mem_singleton, not_or]
      exact ⟨h1, fun e3 => hc e3.symm⟩
    · rw [List.length_append, List.length_singleton]
      omega
    · rw [e2, List.length_append, List.length_singleton, List.append_assoc]
      rfl

/-- Storing NUL on the last character of a query that is not empty: the
buffer holds the query without its last character. -/
theorem holds_query_erase (buf q : List Char) (h : holds_query buf q) (hq : q ≠ []) :
    holds_query (buf.set (q.length - 1) NUL) q.dropLast := by
  obtain ⟨h1, h2, h3⟩ := h
  rcases List.eq_nil_or_concat q with e | ⟨l, b, e⟩
  · exact absurd e hq
  · subst e
    have el : (l.concat b).length = l.length + 1 := by simp
    have ed : (l.concat b).dropLast = l := by simp
    rw [ed, el]
    simp only [Nat.add_sub_cancel]
    refine ⟨?_, by omega, ?_⟩
    · intro hm
      exact h1 (by simp [hm])
    · rw [h3, el]
      have e1 : l.concat b ++ List.replicate (64 - (l.length + 1)) NUL =
          l ++ b :: List.replicate (64 - (l.length + 1)) NUL := by simp
      rw [e1, set_length_append]
      have e2 : 64 - l.length = (64 - (l.length + 1)) + 1 := by
        rw [el] at h2; omega
      rw [e2, List.replicate_succ]

/-! ## What the handlers leave alone -/

theorem PanelFrame_refl {σ : Type} (w : World σ) : PanelFrame w w :=
  ⟨rfl, rfl, rfl, rfl, rfl, rfl, rfl, rfl, rfl⟩

theorem PanelFrame_trans {σ : Type} (w1 w2 w3 : World σ) (h1 : PanelFrame w1 w2)
    (h2 : PanelFrame w2 w3) : PanelFrame w1 w3 := by
  obtain ⟨a1, a2, a3, a4, a5, a6, a7, a8, a9⟩ := h1
  obtain ⟨b1, b2, b3, b4, b5, b6, b7, b8, b9⟩ := h2
  exact ⟨b1.trans a1, b2.trans a2, b3.trans a3, b4.trans a4, b5.trans a5, b6.trans a6,
    b7.trans a7, b8.trans a8, b9.trans a9⟩

theorem PanelFrame_set_current {σ : Type} (w : World σ) (wd : windata) :
    PanelFrame w (set_current w wd) :=
  ⟨rfl, rfl, rfl, rfl, rfl, rfl, rfl, rfl, rfl⟩

theorem display_next_line_frame {σ : Type} (w w2 : World σ) (c : Int)
    (h : display_next_line w = some (c, w2)) :
    PanelFrame w w2 ∧ w2.keys = w.keys ∧ w2.user = w.user := by
  unfold display_next_line at h
  cases hi : index w.windata w.current_win with
  | none => rw [hi] at h; simp at h
  | some wd =>
    rw [hi] at h
    simp only [] at h
    split at h
    · simp only [Option.some.injEq, Prod.mk.injEq] at h
      obtain ⟨_, e⟩ := h
      subst e
      exact ⟨PanelFrame_refl w, rfl, rfl⟩
    · split at h
      · simp at h
      · simp only [Option.some.injEq, Prod.mk.injEq] at h
        obtain ⟨_, e⟩ := h
        subst e
        exact ⟨PanelFrame_set_current w _, rfl, rfl⟩

theorem display_prev_line_frame {σ : Type} (w w2 : World σ) (c : Int)
    (h : display_prev_line w = some (c, w2)) :
    PanelFrame w w2 ∧ w2.keys = w.keys ∧ w2.user = w.user := by
  unfold display_prev_line at h
  cases hi : index w.windata w.current_win with
  | none => rw [hi] at h; simp at h
  | some wd =>
    rw [hi] at h
    simp only [] at h
    split at h
    · simp only [Option.some.injEq, Prod.mk.injEq] at h
      obtain ⟨_, e⟩ := h
      subst e
      exact ⟨PanelFrame_refl w, rfl, rfl⟩
    · split at h
      · simp at h
      · simp only [Option.some.injEq, Prod.mk.injEq] at h
        obtain ⟨_, e⟩ := h
        subst e
        exact ⟨PanelFrame_set_current w _, rfl, rfl⟩

theorem display_refresh_frame {σ : Type} (env : Env) (code : Code σ) (win : Int) (read : Bool)
    (w w2 : World σ) (r : Int) (h : display_refresh env code win read w = some (r, w2)) :
    PanelFrame w w2 ∧ w2.keys = w.keys := by
  unfold display_refresh at h
  split at h
  · simp only [Option.some.injEq, Prod.mk.injEq] at h
    obtain ⟨_, e⟩ := h
    subst e
    exact ⟨PanelFrame_refl w, rfl⟩
  · split at h
    · simp at h
    · split at h
      · exact call_op_frame _ w w2 r h
      · split at h
        · simp only [Option.some.injEq, Prod.mk.injEq] at h
          obtain ⟨_, e⟩ := h
          subst e
          exact ⟨PanelFrame_refl w, rfl⟩
        · simp only [Option.some.injEq, Prod.mk.injEq] at h
          obtain ⟨_, e⟩ := h
          subst e
          exact ⟨PanelFrame_refl w, rfl⟩

theorem cursor_to_top_frame {σ : Type} (w w2 : World σ) (h : cursor_to_top w = some w2) :
    PanelFrame w w2 ∧ w2.keys = w.keys ∧ w2.user = w.user ∧
      ∃ wd, focused w = some wd ∧ w2 = set_current w { wd with cursor := 0, scrolling := 0 } := by
  unfold cursor_to_top at h
  cases hi : index w.windata w.current_win with
  | none => rw [hi] at h; simp at h
  | some wd =>
    rw [hi] at h
    simp only [Option.some.injEq] at h
    subst h
    exact ⟨PanelFrame_set_current w _, rfl, rfl, wd, hi, rfl⟩

theorem LoopFrame_refl {σ : Type} (w : World σ) : LoopFrame w w :=
  ⟨rfl, rfl, rfl, rfl, rfl, rfl, rfl⟩

theorem LoopFrame_trans {σ : Type} (w1 w2 w3 : World σ) (h1 : LoopFrame w1 w2)
    (h2 : LoopFrame w2 w3) : LoopFrame w1 w3 := by
  obtain ⟨a1, a2, a3, a4, a5, a6, a7⟩ := h1
  obtain ⟨b1, b2, b3, b4, b5, b6, b7⟩ := h2
  exact ⟨b1.trans a1, b2.trans a2, b3.trans a3, b4.trans a4, b5.trans a5, b6.trans a6,
    b7.trans a7⟩

/-- What `mainloop_del` returns and leaves: -1 and the same state, or 0 with the
descriptor, which was registered, taken off the interest list. -/
theorem mainloop_del_inv {σ : Type} (fd : Int) (w w2 : World σ) (r : Int)
    (h : mainloop_del fd w = some (r, w2)) :
    LoopFrame w w2 ∧
    ((r = -1 ∧ w2 = w) ∨
      (r = 0 ∧ (w.interest fd).isSome = true ∧
        w2.interest = (fun x => if x = fd then none else w.interest x) ∧
        w2.nrhandler = w.nrhandler ∧ w2.mds = w.mds ∧ w2.brk = w.brk ∧
        ∀ x, w2.mdh x = w.mdh x ∨ w2.mdh x = none)) := by
  unfold mainloop_del at h
  split at h
  · simp only [Option.some.injEq, Prod.mk.injEq] at h
    obtain ⟨e1, e2⟩ := h
    subst e1 e2
    exact ⟨LoopFrame_refl w, Or.inl ⟨rfl, rfl⟩⟩
  · cases hd : epoll_ctl_del fd w with
    | none =>
      rw [hd] at h
      simp only [Option.some.injEq, Prod.mk.injEq] at h
      obtain ⟨e1, e2⟩ := h
      subst e1 e2
      exact ⟨LoopFrame_refl w, Or.inl ⟨rfl, rfl⟩⟩
    | some w1 =>
      rw [hd] at h
      unfold epoll_ctl_del at hd
      split at hd
      · simp at hd
      · rename_i hc
        have hreg : (w.interest fd).isSome = true := by
          cases hx : w.interest fd with
          | none => exact absurd (Or.inr (by rw [hx]; rfl)) hc
          | some _ => rfl
        simp only [Option.some.injEq] at hd
        subst hd
        simp only [] at h
        split at h
        · simp at h
        · split at h
          · simp at h
          · simp only [Option.some.injEq, Prod.mk.injEq] at h
            obtain ⟨e1, e2⟩ := h
            subst e1 e2
            exact ⟨⟨rfl, rfl, rfl, rfl, rfl, rfl, rfl⟩,
              Or.inr ⟨rfl, hreg, rfl, rfl, rfl, rfl, fun x => Or.inl rfl⟩⟩
          · split at h
            · simp only [Option.some.injEq, Prod.mk.injEq] at h
              obtain ⟨e1, e2⟩ := h
              subst e1 e2
              refine ⟨⟨rfl, rfl, rfl, rfl, rfl, rfl, rfl⟩,
                Or.inr ⟨rfl, hreg, rfl, rfl, rfl, rfl, fun x => ?_⟩⟩
              simp only []
              split
              · exact Or.inr rfl
              · exact Or.inl rfl
            · simp at h

/-- What `mainloop_add` returns and leaves: 0 with the descriptor, which was not
registered, put on the interest list with a fresh block that holds the
callback and its data; or -1 with the interest list as it was. -/
theorem mainloop_add_inv {σ : Type} (env : Env) (fd : Int) (cb : Nat) (data : Option Nat)
    (w w2 : World σ) (r : Int) (h : mainloop_add env fd cb data w = some (r, w2)) :
    LoopFrame w w2 ∧
    ((r = -1 ∧ w2.interest = w.interest) ∨
      (r = 0 ∧ w.interest fd = none ∧
        w2.interest = (fun x => if x = fd then some w.brk else w.interest x) ∧
        w2.mdh = (fun x => if x = w.brk then some ⟨cb, data, fd⟩ else w.mdh x))) := by
  unfold mainloop_add at h
  simp only [malloc] at h
  split at h
  · simp only [Option.some.injEq, Prod.mk.injEq] at h
    obtain ⟨e1, e2⟩ := h
    subst e1 e2
    exact ⟨⟨rfl, rfl, rfl, rfl, rfl, rfl, rfl⟩, Or.inl ⟨rfl, rfl⟩⟩
  · rename_i w1 hg
    have hw1 : LoopFrame w w1 ∧ w1.interest = w.interest ∧ w1.brk = w.brk ∧
        w1.mdh = w.mdh := by
      split at hg
      · split at hg
        · simp only [Option.some.injEq] at hg
          subst hg
          exact ⟨⟨rfl, rfl, rfl, rfl, rfl, rfl, rfl⟩, rfl, rfl, rfl⟩
        · simp at hg
      · simp only [Option.some.injEq] at hg
        subst hg
        exact ⟨LoopFrame_refl w, rfl, rfl, rfl⟩
    obtain ⟨f1, f2, f3, f4⟩ := hw1
    by_cases hm : env.malloc_ok w1.brk = true
    · simp only [hm, if_true] at h
      cases hmds : w1.mds with
      | none => rw [hmds] at h; simp at h
      | some arr =>
        rw [hmds] at h
        simp only [] at h
        split at h
        · simp at h
        · obtain ⟨a1, a2, a3, a4, a5, a6, a7⟩ := f1
          split at h
          · simp only [Option.some.injEq, Prod.mk.injEq] at h
            obtain ⟨e1, e2⟩ := h
            subst e1 e2
            exact ⟨⟨a1, a2, a3, a4, a5, a6, a7⟩, Or.inl ⟨rfl, f2⟩⟩
          · rename_i w5 ha
            simp only [Option.some.injEq, Prod.mk.injEq] at h
            obtain ⟨e1, e2⟩ := h
            subst e1 e2
            unfold epoll_ctl_add at ha
            split at ha
            · simp at ha
            · rename_i hc
              simp only [Option.some.injEq] at ha
              subst ha
              have hno : w.interest fd = none := by
                cases hx : w.interest fd with
                | none => rfl
                | some p =>
                  exfalso
                  apply hc
                  right; right; right; left
                  show (w1.interest fd).isSome = true
                  rw [f2, hx]
                  rfl
              refine ⟨⟨a1, a2, a3, a4, a5, a6, a7⟩, Or.inr ⟨rfl, hno, ?_, ?_⟩⟩
              · simp only [f2, f3]
              · simp only [f3, f4]
    · simp only [hm] at h
      simp only [Bool.false_eq_true, if_false, Option.some.injEq, Prod.mk.injEq] at h
      obtain ⟨e1, e2⟩ := h
      subst e1 e2
      exact ⟨f1, Or.inl ⟨rfl, f2⟩⟩

/-! ## One keystroke in Find mode -/

theorem getch_frame {σ : Type} (w : World σ) :
    PanelFrame w (getch w).2 ∧ (getch w).2.windata = w.windata ∧ (getch w).2.user = w.user ∧
      (getch w).2.keys = w.keys.tail := by
  unfold getch
  cases hk : w.keys with
  | nil => exact ⟨PanelFrame_refl w, rfl, rfl, hk⟩
  | cons k ks => exact ⟨⟨rfl, rfl, rfl, rfl, rfl, rfl, rfl, rfl, rfl⟩, rfl, rfl, rfl⟩

theorem regexec_nil (reg : regex_t) : regexec reg [] = 1 := by
  unfold regexec
  split
  · rfl
  · simp

theorem c_str_char (c : Char) : c_str [c, NUL] = if c = NUL then [] else [c] := by
  unfold c_str
  by_cases h : c = NUL
  · subst h
    simp [List.takeWhile]
  · simp [List.takeWhile, h]

theorem accepted_ne_NUL (reg : regex_t) (c : Char) (h : regexec reg (c_str [c, NUL]) = 0) :
    c ≠ NUL := by
  intro e
  rw [c_str_char, if_pos e, regexec_nil] at h
  exact absurd h (by decide)

/-- The state `display_find_show` is given by the branches of `display_find_keystroke` that
edit the query: the buffer set to `string`, cursor and scroll offset of the
focused panel set to 0. -/
theorem cursor_to_top_set_string {σ : Type} (w w2 : World σ) (findd : Nat) (block : find_data)
    (string : List Char) (h : cursor_to_top (set_string w findd block string) = some w2) :
    (w2.mdh = w.mdh ∧ w2.interest = w.interest ∧ w2.current_win = w.current_win ∧
      w2.keys = w.keys) ∧
      w2.findh findd = some { block with string := string } ∧
      (∀ x, x ≠ findd → w2.findh x = w.findh x) ∧
      ∃ wd, focused w = some wd ∧ focused w2 = some { wd with cursor := 0, scrolling := 0 } := by
  obtain ⟨f, k, _, wd, hwd, e⟩ := cursor_to_top_frame _ w2 h
  refine ⟨⟨f.2.1, f.2.2.1, f.2.2.2.1, k⟩, ?_, ?_, wd, hwd, ?_⟩
  · rw [f.1]
    simp [set_string]
  · intro x hx
    rw [f.1]
    simp [set_string, hx]
  · rw [e]
    exact focused_set_current _ wd _ hwd

theorem size_sub_64 : size_sub 64 1 = 63 := by decide

/-- One keystroke other than Escape handled by `display_find_keystroke` in a state whose
buffer holds the query `q`: registrations, focused panel index and the other
blocks stay as they are, the keystroke is consumed, and the buffer holds the
query `query_step` gives; the other fields of the `find_data` are unchanged. -/
theorem find_keystroke_step {σ : Type} (env : Env) (code : Code σ) (fd : Int) (findd : Nat)
    (w w2 : World σ) (block : find_data) (q : List Char) (r : Int)
    (hb : w.findh findd = some block) (hlen : block.len = 64)
    (hq : holds_query block.string q) (hk : (getch w).1 ≠ 27)
    (h : display_find_keystroke env code fd (some findd) w = some (r, w2)) :
    w2.mdh = w.mdh ∧ w2.interest = w.interest ∧ w2.current_win = w.current_win ∧
    w2.keys = w.keys.tail ∧ (∀ x, x ≠ findd → w2.findh x = w.findh x) ∧
    ∃ string, w2.findh findd = some { block with string := string } ∧
      holds_query string (query_step block.reg q (getch w).1) := by
  obtain ⟨fg, _, _, kg⟩ := getch_frame w
  generalize hg1 : (getch w).1 = k at hk ⊢
  generalize hg2 : (getch w).2 = w1 at fg kg
  have hg : getch w = (k, w1) := by rw [← hg1, ← hg2]
  have hb1 : w1.findh findd = some block := by rw [fg.1]; exact hb
  have hn := holds_query_strlen _ _ hq
  have kd : KEY_DOWN ≠ KEY_BACKSPACE := by decide
  have ku : KEY_UP ≠ KEY_BACKSPACE := by decide
  have ke : (13 : Int) ≠ KEY_BACKSPACE := by decide
  have fin : ∀ w3 : World σ, PanelFrame w1 w3 → w3.keys = w1.keys →
      w3.mdh = w.mdh ∧ w3.interest = w.interest ∧ w3.current_win = w.current_win ∧
        w3.keys = w.keys.tail := by
    intro w3 f3 k3
    have f := PanelFrame_trans w w1 w3 fg f3
    exact ⟨f.2.1, f.2.2.1, f.2.2.2.1, by rw [k3, kg]⟩
  have same : ∀ w3 : World σ, PanelFrame w1 w3 → w3.keys = w1.keys → query_step block.reg q k = q →
      w3.mdh = w.mdh ∧ w3.interest = w.interest ∧ w3.current_win = w.current_win ∧
      w3.keys = w.keys.tail ∧ (∀ x, x ≠ findd → w3.findh x = w.findh x) ∧
      ∃ string, w3.findh findd = some { block with string := string } ∧
        holds_query string (query_step block.reg q k) := by
    intro w3 f3 k3 e
    obtain ⟨a1, a2, a3, a4⟩ := fin w3 f3 k3
    have f := PanelFrame_trans w w1 w3 fg f3
    refine ⟨a1, a2, a3, a4, fun x _ => by rw [f.1], block.string, by rw [f.1, hb], ?_⟩
    rw [e]
    exact hq
  have edit : ∀ (string : List Char) (w3 : World σ),
      cursor_to_top (set_string w1 findd block string) = some w3 →
      display_find_show code findd w3 = some (r, w2) →
      holds_query string (query_step block.reg q k) →
      w2.mdh = w.mdh ∧ w2.interest = w.interest ∧ w2.current_win = w.current_win ∧
      w2.keys = w.keys.tail ∧ (∀ x, x ≠ findd → w2.findh x = w.findh x) ∧
      ∃ string, w2.findh findd = some { block with string := string } ∧
        holds_query string (query_step block.reg q k) := by
    intro string w3 hc hs hh
    obtain ⟨⟨c1, c2, c3, c4⟩, c5, c6, _⟩ := cursor_to_top_set_string w1 w3 findd block string hc
    obtain ⟨s1, s2⟩ := display_find_show_spec code findd w3 w2 r hs
    refine ⟨by rw [s1.2.1, c1, fg.2.1], by rw [s1.2.2.1, c2, fg.2.2.1],
      by rw [s1.2.2.2.1, c3, fg.2.2.2.1], by rw [s2, c4, kg], ?_, string, by rw [s1.1, c5], hh⟩
    intro x hx
    rw [s1.1, c6 x hx, fg.1]
  unfold display_find_keystroke at h
  simp only [hb, hg, hk, if_false] at h
  by_cases k1 : k = KEY_DOWN
  · simp only [k1, if_true] at h
    cases hd : display_next_line w1 with
    | none => rw [hd] at h; simp at h
    | some p =>
      obtain ⟨c, w3⟩ := p
      rw [hd] at h
      simp only [] at h
      obtain ⟨d1, d2, _⟩ := display_next_line_frame w1 w3 c hd
      obtain ⟨s1, s2⟩ := display_find_show_spec code findd w3 w2 r h
      rw [k1]
      have e : query_step block.reg q KEY_DOWN = q := by
        unfold query_step
        rw [if_neg kd, if_pos (Or.inl rfl)]
      rw [← k1] at e ⊢
      exact same w2 (PanelFrame_trans w1 w3 w2 d1 s1) (by rw [s2, d2]) e
  · simp only [k1, if_false] at h
    by_cases k2 : k = KEY_UP
    · simp only [k2, if_true] at h
      cases hd : display_prev_line w1 with
      | none => rw [hd] at h; simp at h
      | some p =>
        obtain ⟨c, w3⟩ := p
        rw [hd] at h
        simp only [] at h
        obtain ⟨d1, d2, _⟩ := display_prev_line_frame w1 w3 c hd
        obtain ⟨s1, s2⟩ := display_find_show_spec code findd w3 w2 r h
        have e : query_step block.reg q k = q := by
          unfold query_step
          rw [k2, if_neg ku, if_pos (Or.inr (Or.inl rfl))]
        exact same w2 (PanelFrame_trans w1 w3 w2 d1 s1) (by rw [s2, d2]) e
    · simp only [k2, if_false] at h
      by_cases k3 : k = KEY_BACKSPACE
      · simp only [k3, if_true, hn] at h
        have e : query_step block.reg q k = q.dropLast := by
          unfold query_step
          rw [if_pos k3]
        by_cases hz : q.length = 0
        · simp only [hz, ne_eq, not_true_eq_false, if_false] at h
          have hq0 : q = [] := List.length_eq_zero.1 hz
          cases hc : cursor_to_top w1 with
          | none => rw [hc] at h; simp at h
          | some w3 =>
            rw [hc] at h
            simp only [] at h
            obtain ⟨c1, c2, _⟩ := cursor_to_top_frame w1 w3 hc
            obtain ⟨s1, s2⟩ := display_find_show_spec code findd w3 w2 r h
            exact same w2 (PanelFrame_trans w1 w3 w2 c1 s1) (by rw [s2, c2])
              (by rw [e, hq0]; rfl)
        · simp only [hz, ne_eq, not_false_eq_true, if_true] at h
          cases hc : cursor_to_top
              (set_string w1 findd block (block.string.set (q.length - 1) NUL)) with
          | none => rw [hc] at h; simp at h
          | some w3 =>
            rw [hc] at h
            simp only [] at h
            refine edit _ w3 hc h ?_
            rw [e]
            exact holds_query_erase _ _ hq (fun e0 => hz (by rw [e0]; rfl))
      · simp only [k3, if_false] at h
        by_cases k4 : k = 13
        · simp only [k4, if_true] at h
          have e : query_step block.reg q k = q := by
            unfold query_step
            rw [if_neg k3, if_pos (Or.inr (Or.inr k4))]
          cases hi : index w1.windata w1.current_win with
          | none => rw [hi] at h; simp at h
          | some wd =>
            rw [hi] at h
            simp only [] at h
            cases hf : wd.ops.bind (fun ops => ops.selectf) with
            | none =>
              rw [hf] at h
              simp only [Option.some.injEq, Prod.mk.injEq] at h
              obtain ⟨_, e2⟩ := h
              subst e2
              exact same w1 (PanelFrame_refl w1) rfl e
            | some f =>
              rw [hf] at h
              simp only [] at h
              cases hc : call_op (code.selectf f) w1 with
              | none => rw [hc] at h; simp at h
              | some p =>
                obtain ⟨r1, w3⟩ := p
                rw [hc] at h
                simp only [] at h
                obtain ⟨c1, c2⟩ := call_op_frame _ w1 w3 r1 hc
                by_cases hr : r1 = 0
                · simp only [hr, ne_eq, not_true_eq_false, if_false] at h
                  cases ht : cursor_to_top w3 with
                  | none => rw [ht] at h; simp at h
                  | some w4 =>
                    rw [ht] at h
                    simp only [Option.some.injEq, Prod.mk.injEq] at h
                    obtain ⟨_, e2⟩ := h
                    subst e2
                    obtain ⟨t1, t2, _⟩ := cursor_to_top_frame w3 w4 ht
                    exact same w4 (PanelFrame_trans w1 w3 w4 c1 t1) (by rw [t2, c2]) e
                · simp only [hr, ne_eq, not_false_eq_true, if_true, Option.some.injEq,
                    Prod.mk.injEq] at h
                  obtain ⟨_, e2⟩ := h
                  subst e2
                  exact same w3 c1 c2 e
        · simp only [k4, if_false] at h
          by_cases ha : regexec block.reg (c_str [to_char k, NUL]) = 0
          · simp only [ha, ne_eq, not_true_eq_false, if_false, hn, hlen, size_sub_64] at h
            by_cases hl : q.length < 63
            · simp only [hl, if_true] at h
              have e : query_step block.reg q k = q ++ [to_char k] := by
                unfold query_step
                rw [if_neg k3, if_neg (by simp [k1, k2, k4]), if_pos ⟨ha, hl⟩]
              cases hc : cursor_to_top
                  (set_string w1 findd block (block.string.set q.length (to_char k))) with
              | none => rw [hc] at h; simp at h
              | some w3 =>
                rw [hc] at h
                simp only [] at h
                refine edit _ w3 hc h ?_
                rw [e]
                have hs := holds_query_store _ _ (to_char k) hq hl
                rw [if_neg (accepted_ne_NUL _ _ ha)] at hs
                exact hs
            · simp only [hl, if_false] at h
              have e : query_step block.reg q k = q := by
                unfold query_step
                rw [if_neg k3, if_neg (by simp [k1, k2, k4]), if_neg (fun c => hl c.2)]
              cases hc : cursor_to_top w1 with
              | none => rw [hc] at h; simp at h
              | some w3 =>
                rw [hc] at h
                simp only [] at h
                obtain ⟨c1, c2, _⟩ := cursor_to_top_frame w1 w3 hc
                obtain ⟨s1, s2⟩ := display_find_show_spec code findd w3 w2 r h
                exact same w2 (PanelFrame_trans w1 w3 w2 c1 s1) (by rw [s2, c2]) e
          · simp only [ha, ne_eq, not_false_eq_true, if_true, Option.some.injEq,
              Prod.mk.injEq] at h
            obtain ⟨_, e2⟩ := h
            subst e2
            have e : query_step block.reg q k = q := by
              unfold query_step
              rw [if_neg k3, if_neg (by simp [k1, k2, k4]), if_neg (fun c => ha c.1)]
            exact same w1 (PanelFrame_refl w1) rfl e

/-! ## Entering and leaving Find mode -/

theorem call_op_cursors {σ : Type} (f : Panels σ → Option (Int × Panels σ)) (w w2 : World σ)
    (r : Int) (h : call_op f w = some (r, w2)) (hf : keeps_cursor f) :
    cursors w2.windata = cursors w.windata := by
  unfold call_op at h
  cases hp : f ⟨w.windata, w.user⟩ with
  | none => rw [hp] at h; simp at h
  | some q =>
    rw [hp] at h
    simp only [Option.some.injEq, Prod.mk.injEq] at h
    obtain ⟨_, e⟩ := h
    subst e
    exact hf _ q.1 q.2 hp

theorem focused_cursors {σ : Type} (w w2 : World σ) (wd : windata)
    (hc : cursors w2.windata = cursors w.windata) (hw : w2.current_win = w.current_win)
    (h : focused w = some wd) :
    ∃ wd2, focused w2 = some wd2 ∧ wd2.cursor = wd.cursor ∧ wd2.scrolling = wd.scrolling := by
  unfold focused index at *
  rw [hw]
  by_cases h0 : w.current_win < 0
  · rw [if_pos h0] at h; simp at h
  · rw [if_neg h0] at h
    rw [if_neg h0]
    have e : (cursors w2.windata).get? w.current_win.toNat =
        (cursors w.windata).get? w.current_win.toNat := by rw [hc]
    unfold cursors at e
    simp only [List.get?_eq_getElem?, List.getElem?_map] at e h ⊢
    rw [h] at e
    cases h2 : w2.windata[w.current_win.toNat]? with
    | none => rw [h2] at e; simp at e
    | some wd2 =>
      rw [h2] at e
      simp only [Option.map_some', Option.some.injEq, Prod.mk.injEq] at e
      exact ⟨wd2, rfl, e.1, e.2⟩

theorem display_refresh_cursors {σ : Type} (env : Env) (code : Code σ) (win : Int) (read : Bool)
    (w w2 : World σ) (r : Int) (h : display_refresh env code win read w = some (r, w2))
    (hd : ∀ f b, keeps_cursor (code.display f b)) :
    cursors w2.windata = cursors w.windata := by
  unfold display_refresh at h
  split at h
  · simp only [Option.some.injEq, Prod.mk.injEq] at h
    obtain ⟨_, e⟩ := h
    subst e
    rfl
  · split at h
    · simp at h
    · split at h
      · exact call_op_cursors _ w w2 r h (hd _ _)
      · split at h
        · simp only [Option.some.injEq, Prod.mk.injEq] at h
          obtain ⟨_, e⟩ := h
          subst e
          rfl
        · simp only [Option.some.injEq, Prod.mk.injEq] at h
          obtain ⟨_, e⟩ := h
          subst e
          rfl

/-- What `display_switch_to_main` leaves: the `find_data` blocks, the focused index and
the pending keystrokes as they were; it returns -1, or the descriptor is
registered with `display_keystroke` and no data; the panel table is changed by the
`display` operation of the adapter only. -/
theorem display_switch_to_main_spec {σ : Type} (env : Env) (code : Code σ) (fd : Int)
    (w w2 : World σ) (r : Int) (h : display_switch_to_main env code fd w = some (r, w2)) :
    w2.findh = w.findh ∧ w2.current_win = w.current_win ∧ w2.keys = w.keys ∧
    (r = -1 ∨ handler w2 fd = some (display_keystroke_addr, none)) ∧
    ((∀ f b, keeps_cursor (code.display f b)) → cursors w2.windata = cursors w.windata) := by
  unfold display_switch_to_main at h
  cases hd : mainloop_del fd w with
  | none => rw [hd] at h; simp at h
  | some p =>
    obtain ⟨r1, w1⟩ := p
    rw [hd] at h
    simp only [] at h
    obtain ⟨⟨d1, d2, d3, d4, d5, d6, d7⟩, _⟩ := mainloop_del_inv fd w w1 r1 hd
    by_cases hr1 : r1 = 0
    swap
    · simp only [hr1, ne_eq, not_false_eq_true, if_true, Option.some.injEq, Prod.mk.injEq] at h
      obtain ⟨e1, e2⟩ := h
      subst e1 e2
      exact ⟨d1, d2, d4, Or.inl rfl, fun _ => by rw [d3]⟩
    simp only [hr1, ne_eq, not_true_eq_false, if_false] at h
    cases ha : mainloop_add env fd display_keystroke_addr none w1 with
    | none => rw [ha] at h; simp at h
    | some p =>
      obtain ⟨r2, w3⟩ := p
      rw [ha] at h
      simp only [] at h
      obtain ⟨⟨a1, a2, a3, a4, a5, a6, a7⟩, hreg⟩ := mainloop_add_inv env fd _ _ w1 w3 r2 ha
      by_cases hr2 : r2 = 0
      swap
      · simp only [hr2, ne_eq, not_false_eq_true, if_true, Option.some.injEq,
          Prod.mk.injEq] at h
        obtain ⟨e1, e2⟩ := h
        subst e1 e2
        exact ⟨a1.trans d1, a2.trans d2, a4.trans d4, Or.inl rfl, fun _ => by rw [a3, d3]⟩
      simp only [hr2, ne_eq, not_true_eq_false, if_false, display_show_header,
        display_show_footer] at h
      obtain ⟨f1, f2⟩ := display_refresh_frame env code _ false w3 w2 r h
      refine ⟨by rw [f1.1, a1, d1], by rw [f1.2.2.2.1, a2, d2], by rw [f2, a4, d4], Or.inr ?_,
        fun hk => ?_⟩
      · rcases hreg with ⟨e, _⟩ | ⟨_, _, e1, e2⟩
        · exact absurd (hr2 ▸ e) (by decide)
        · unfold handler
          rw [f1.2.2.1, f1.2.1, e1, e2]
          simp
      · rw [display_refresh_cursors env code _ false w3 w2 r h hk, a3, d3]

/-- Escape handled by `display_find_keystroke`: the `find_data` block is freed, the other
blocks, the focused index and the remaining keystrokes stay; the function
returns -1 or the descriptor is registered with `display_keystroke`; and when the
`display` operations keep the cursors, cursor and scroll offset of the panels
are those before the key, with the snapshot of the block put back into the
focused panel. -/
theorem find_keystroke_escape {σ : Type} (env : Env) (code : Code σ) (fd : Int) (findd : Nat)
    (w w2 : World σ) (block : find_data) (r : Int)
    (hb : w.findh findd = some block) (hk : (getch w).1 = 27)
    (h : display_find_keystroke env code fd (some findd) w = some (r, w2)) :
    w2.findh findd = none ∧ (∀ x, x ≠ findd → w2.findh x = w.findh x) ∧
    w2.current_win = w.current_win ∧ w2.keys = w.keys.tail ∧
    (r = -1 ∨ handler w2 fd = some (display_keystroke_addr, none)) ∧
    ∃ wd, focused w = some wd ∧
      ((∀ f b, keeps_cursor (code.display f b)) →
        cursors w2.windata = cursors (w.windata.set w.current_win.toNat
          { wd with cursor := block.ocursor, scrolling := block.oscrolling })) := by
  obtain ⟨fg, wg, _, kg⟩ := getch_frame w
  generalize hg1 : (getch w).1 = k at hk
  generalize hg2 : (getch w).2 = w1 at fg kg wg
  have hg : getch w = (k, w1) := by rw [← hg1, ← hg2]
  have hb1 : w1.findh findd = some block := by rw [fg.1]; exact hb
  unfold display_find_keystroke at h
  simp only [hb, hg, hk, if_true] at h
  cases hf : display_find_fini findd w1 with
  | none => rw [hf] at h; simp at h
  | some w3 =>
    rw [hf] at h
    simp only [] at h
    unfold display_find_fini at hf
    rw [hb1] at hf
    simp only [] at hf
    cases hi : index w1.windata w1.current_win with
    | none => rw [hi] at hf; simp at hf
    | some wd =>
      rw [hi] at hf
      simp only [Option.some.injEq] at hf
      subst hf
      obtain ⟨s1, s2, s3, s4, s5⟩ := display_switch_to_main_spec env code fd _ w2 r h
      have hwd : focused w = some wd := by
        unfold focused
        rw [← wg, ← fg.2.2.2.1]
        exact hi
      refine ⟨by rw [s1]; simp, ?_, by rw [s2]; exact fg.2.2.2.1, by rw [s3]; exact kg, s4, wd,
        hwd, fun hd => ?_⟩
      · intro x hx
        rw [s1]
        simp only [set_current, hx, if_false]
        rw [fg.1]
      · rw [s5 hd]
        simp only [set_current]
        rw [wg, fg.2.2.2.1]

/-- A `/` that `display_switch_to_find` handles with the result 0: the descriptor is
registered with `display_find_keystroke` and a fresh `find_data` block, which holds the
compiled `regexp`, an empty query, and the cursor and scroll offset the
focused panel had; the focused panel has both set to 0, and nothing else of
the panels has changed. -/
theorem display_switch_to_find_spec {σ : Type} (env : Env) (fd : Int) (w w2 : World σ)
    (h : display_switch_to_find env fd w = some (0, w2)) :
    ∃ findd wd, focused w = some wd ∧
      handler w2 fd = some (display_find_keystroke_addr, some findd) ∧
      w2.findh findd = some
        { len := 64, string := List.replicate 64 NUL, reg := find_reg, ocursor := wd.cursor,
          oscrolling := wd.scrolling } ∧
      focused w2 = some { wd with cursor := 0, scrolling := 0 } ∧
      w2.current_win = w.current_win ∧ w2.keys = w.keys ∧ w2.user = w.user := by
  unfold display_switch_to_find at h
  cases hi : display_find_init env w with
  | none => rw [hi] at h; simp at h
  | some p =>
    obtain ⟨o, w1⟩ := p
    rw [hi] at h
    cases o with
    | none => simp at h
    | some findd =>
      simp only [] at h
      obtain ⟨wd, i1, i2, i3, i4, i5, i6, i7, i8⟩ := display_find_init_block env w w1 findd hi
      cases hd : mainloop_del fd w1 with
      | none => rw [hd] at h; simp at h
      | some p =>
        obtain ⟨r1, w3⟩ := p
        rw [hd] at h
        simp only [] at h
        obtain ⟨⟨d1, d2, d3, d4, d5, d6, d7⟩, _⟩ := mainloop_del_inv fd w1 w3 r1 hd
        by_cases hr1 : r1 = 0
        swap
        · simp [hr1] at h
        simp only [hr1, ne_eq, not_true_eq_false, if_false] at h
        cases ha : mainloop_add env fd display_find_keystroke_addr (some findd) w3 with
        | none => rw [ha] at h; simp at h
        | some p =>
          obtain ⟨r2, w4⟩ := p
          rw [ha] at h
          simp only [] at h
          obtain ⟨⟨a1, a2, a3, a4, a5, a6, a7⟩, hreg⟩ := mainloop_add_inv env fd _ _ w3 w4 r2 ha
          by_cases hr2 : r2 = 0
          swap
          · simp [hr2] at h
          simp only [hr2, ne_eq, not_true_eq_false, if_false, display_show_footer,
            Option.some.injEq, Prod.mk.injEq, true_and] at h
          subst h
          have hf : ∀ w5 : World σ, w5.current_win = w1.current_win → w5.windata = w1.windata →
              focused w5 = focused w1 := by
            intro w5 e1 e2
            unfold focused
            rw [e1, e2]
          refine ⟨findd, wd, i1, ?_, by rw [a1, d1]; exact i2, ?_, by rw [a2, d2, i4],
            by rw [a4, d4, i5], by rw [a6, d6, i8]⟩
          · rcases hreg with ⟨e, _⟩ | ⟨_, _, e1, e2⟩
            · exact absurd (hr2 ▸ e) (by decide)
            · unfold handler
              rw [e1, e2]
              simp
          · rw [hf w4 (a2.trans d2) (a3.trans d3)]
            exact i3

theorem find_keystroke_freed {σ : Type} (env : Env) (code : Code σ) (fd : Int) (findd : Nat)
    (w : World σ) (h : w.findh findd = none) :
    display_find_keystroke env code fd (some findd) w = none := by
  unfold display_find_keystroke
  simp only [h]

/-- Along a sequence of keystrokes handled by `display_find_keystroke` the focused index
stays, and the `find_data` block is freed (by an Escape, the last of them) or
holds a query in its buffer of 64 bytes, its other fields unchanged. -/
theorem find_steps_inv {σ : Type} (env : Env) (code : Code σ) (fd : Int) (findd : Nat) :
    ∀ (n : Nat) (w w2 : World σ) (block : find_data) (q : List Char),
      w.findh findd = some block → block.len = 64 → holds_query block.string q →
      find_steps env code fd findd n w = some w2 →
      w2.current_win = w.current_win ∧
      (w2.findh findd = none ∨
        ∃ string q2, w2.findh findd = some { block with string := string } ∧
          holds_query string q2) := by
  intro n
  induction n with
  | zero =>
    intro w w2 block q hb _ hq h
    simp only [find_steps, Option.some.injEq] at h
    subst h
    exact ⟨rfl, Or.inr ⟨block.string, q, hb, hq⟩⟩
  | succ n ih =>
    intro w w2 block q hb hlen hq h
    unfold find_steps at h
    cases hs : display_find_keystroke env code fd (some findd) w with
    | none => rw [hs] at h; simp at h
    | some p =>
      obtain ⟨r, w1⟩ := p
      rw [hs] at h
      simp only [] at h
      by_cases hk : (getch w).1 = 27
      · obtain ⟨e1, _, e3, _⟩ := find_keystroke_escape env code fd findd w w1 block r hb hk hs
        cases n with
        | zero =>
          simp only [find_steps, Option.some.injEq] at h
          subst h
          exact ⟨e3, Or.inl e1⟩
        | succ n =>
          unfold find_steps at h
          rw [find_keystroke_freed env code fd findd w1 e1] at h
          simp at h
      · obtain ⟨_, _, e3, _, _, string, e6, e7⟩ :=
          find_keystroke_step env code fd findd w w1 block q r hb hlen hq hk hs
        obtain ⟨i1, i2⟩ := ih w1 w2 { block with string := string } _ e6 hlen e7 h
        exact ⟨i1.trans e3, i2⟩

/-! ## One keystroke in Normal mode -/

theorem display_keystroke_slash {σ : Type} (env : Env) (code : Code σ) (fd : Int)
    (data : Option Nat) (w : World σ) (hk : (getch w).1 = 47) :
    display_keystroke env code fd data w = display_switch_to_find env fd (getch w).2 := by
  generalize hg1 : (getch w).1 = k at hk
  generalize hg2 : (getch w).2 = w1
  have hg : getch w = (k, w1) := by rw [← hg1, ← hg2]
  unfold display_keystroke
  subst hk
  simp only [hg]
  have e1 : ¬ ((47 : Int) = KEY_RIGHT ∨ (47 : Int) = 9) := by decide
  have e2 : ¬ ((47 : Int) = KEY_LEFT ∨ (47 : Int) = KEY_BTAB) := by decide
  have e3 : (47 : Int) ≠ KEY_DOWN := by decide
  have e4 : (47 : Int) ≠ KEY_UP := by decide
  have e5 : (47 : Int) ≠ 13 := by decide
  have e6 : ¬ ((47 : Int) = EOF ∨ (47 : Int) = 113 ∨ (47 : Int) = 81) := by decide
  simp only [e1, e2, e3, e4, e5, e6, if_false, if_true]

theorem code_idle_keeps :
    (∀ f s, keeps_cursor (code_idle.find f s)) ∧ (∀ f b, keeps_cursor (code_idle.display f b)) := by
  constructor
  · intro f s p r p2 h
    simp only [code_idle, Option.some.injEq, Prod.mk.injEq] at h
    rw [← h.2]
  · intro f b p r p2 h
    simp only [code_idle, Option.some.injEq, Prod.mk.injEq] at h
    rw [← h.2]

/-- A query edit handled by `display_find_keystroke`: a keystroke other than Escape, the
arrows and Enter.  When it is not Backspace and `regexec` rejects it, the
function returns 0 and only the keystroke is consumed; otherwise the function
goes on with the statements after the `switch` in the state `edited`. -/
theorem find_keystroke_edit {σ : Type} (env : Env) (code : Code σ) (fd : Int) (findd : Nat)
    (w : World σ) (block : find_data) (q : List Char) (wd : windata)
    (hb : w.findh findd = some block) (hlen : block.len = 64)
    (hq : holds_query block.string q) (hwd : focused w = some wd)
    (k1 : (getch w).1 ≠ 27) (k2 : (getch w).1 ≠ KEY_DOWN) (k3 : (getch w).1 ≠ KEY_UP)
    (k5 : (getch w).1 ≠ 13) :
    display_find_keystroke env code fd (some findd) w =
      if (getch w).1 ≠ KEY_BACKSPACE ∧
          regexec block.reg (c_str [to_char (getch w).1, NUL]) ≠ 0
      then some (0, (getch w).2)
      else display_find_show code findd (edited (getch w).2 findd block q wd (getch w).1) := by
  obtain ⟨fg, wg, _, kg⟩ := getch_frame w
  generalize hg1 : (getch w).1 = k at k1 k2 k3 k5 ⊢
  generalize hg2 : (getch w).2 = w1 at fg kg wg ⊢
  have hg : getch w = (k, w1) := by rw [← hg1, ← hg2]
  have hwd1 : focused w1 = some wd := by
    unfold focused
    rw [wg, fg.2.2.2.1]
    exact hwd
  have hn := holds_query_strlen _ _ hq
  unfold display_find_keystroke edited
  simp only [hb, hg, k1, k2, k3, k5, if_false, hn, hlen, size_sub_64]
  by_cases k4 : k = KEY_BACKSPACE
  · simp only [k4, if_true, ne_eq, not_true_eq_false, false_and, if_false]
    by_cases hz : q.length = 0
    · simp only [hz, not_true_eq_false, if_false]
      rw [cursor_to_top_spec w1 wd hwd1]
    · simp only [hz, not_false_eq_true, if_true]
      have hf : focused (set_string w1 findd block (block.string.set (q.length - 1) NUL)) =
          some wd := hwd1
      rw [cursor_to_top_spec _ wd hf]
  · simp only [k4, if_false, ne_eq, not_false_eq_true, true_and]
    by_cases ha : regexec block.reg (c_str [to_char k, NUL]) = 0
    · simp only [ha, not_true_eq_false, if_false]
      by_cases hl : q.length < 63
      · simp only [hl, if_true]
        have hf : focused (set_string w1 findd block (block.string.set q.length (to_char k))) =
            some wd := hwd1
        rw [cursor_to_top_spec _ wd hf]
      · simp only [hl, if_false]
        rw [cursor_to_top_spec w1 wd hwd1]
    · simp only [ha, not_false_eq_true, if_true]

theorem focused_edited {σ : Type} (w1 : World σ) (findd : Nat) (block : find_data)
    (q : List Char) (wd : windata) (k : Int) (h : focused w1 = some wd) :
    focused (edited w1 findd block q wd k) = some { wd with cursor := 0, scrolling := 0 } := by
  unfold edited
  apply focused_set_current _ wd
  split
  · split
    · exact h
    · exact h
  · split
    · exact h
    · exact h

theorem focused_getch {σ : Type} (w : World σ) : focused (getch w).2 = focused w := by
  obtain ⟨fg, wg, _, _⟩ := getch_frame w
  unfold focused
  rw [wg, fg.2.2.2.1]

theorem index_CLOCK (ws : List windata) : index ws CLOCK = ws.get? 0 := by
  simp [index, CLOCK]

theorem rows_resize_set (junk : Nat → rowdata) (old : List rowdata) (n : Nat) (x : rowdata)
    (hn : n ≤ old.length) : (rows_resize junk old (n + 1)).set n x = old.take n ++ [x] := by
  apply List.ext_getElem?
  intro i
  unfold rows_resize
  rcases Nat.lt_trichotomy i n with hi | hi | hi
  · rw [List.getElem?_set_ne (by omega), List.getElem?_append_left (by simp; omega)]
    simp [List.getElem?_take, hi]
    have : i < old.length := by omega
    simp [List.getElem?_eq_getElem, this]
    refine ⟨i, ?_, ?_⟩
    · rw [List.getElem?_range (by omega)]
    · simp [List.getElem?_eq_getElem, this]
  · subst hi
    rw [List.getElem?_set_self (by simp), List.getElem?_append_right (by simp)]
    simp [Nat.min_eq_left hn]
  · rw [List.getElem?_set_ne (by omega)]
    rw [List.getElem?_eq_none (by simp; omega), List.getElem?_eq_none (by simp; omega)]

theorem Printed_index (ws0 ws : List windata) (l : List Nat) (h : Printed ws0 ws l) :
    ∃ wd, index ws CLOCK = some wd ∧ ws = ws0.set 0 wd ∧ wd.nrdata = l.length ∧
      l.length ≤ wd.rowdata.length ∧
      (wd.rowdata.take l.length).map (fun r => r.data) = l.map some ∧
      ∃ wd0, index ws0 CLOCK = some wd0 ∧ wd.ops = wd0.ops ∧ wd.name = wd0.name ∧
        wd.scrolling = wd0.scrolling ∧ wd.cursor = wd0.cursor := by
  obtain ⟨wd0, wd, h0, e, a1, a2, a3, a4, a5, a6, a7⟩ := h
  refine ⟨wd, ?_, e, a5, a6, a7, wd0, h0, a1, a2, a3, a4⟩
  rw [index_CLOCK] at h0 ⊢
  rw [e]
  cases ws0 with
  | nil => simp at h0
  | cons x xs => simp

theorem display_print_line_spec (dr : Draw) (ws0 ws : List windata) (l : List Nat)
    (h : Printed ws0 ws l) (hrows : ∀ n, dr.rows_ok n = true) (bold : Int) (t : Nat) :
    ∃ ws2, display_print_line dr CLOCK (l.length : Int) bold (some t) ws = some (0, ws2) ∧
      Printed ws0 ws2 (l ++ [t]) := by
  obtain ⟨wd, hi, e, a5, a6, a7, wd0, h0, a1, a2, a3, a4⟩ := Printed_index ws0 ws l h
  have hset : ∀ attr : Int, display_set_row_data dr CLOCK (l.length : Int) (some t) attr ws =
      some (0, ws0.set 0 { wd with
        rowdata := wd.rowdata.take l.length ++ [⟨attr, some t⟩],
        nrdata := (l.length : Int) + 1 }) := by
    intro attr
    unfold display_set_row_data
    have e1 : ¬ ((l.length : Int) < 0) := by omega
    have e2 : ((l.length : Int) + 1).toNat = l.length + 1 := by omega
    have e3 : (l.length : Int).toNat = l.length := by omega
    simp only [hi, e1, if_false, a5, ge_iff_le, le_refl, if_true, hrows, e2, e3]
    have e4 : l.length < (rows_resize dr.rows_junk wd.rowdata (l.length + 1)).length := by
      simp [rows_resize]
    simp only [e4, if_true, rows_resize_set dr.rows_junk wd.rowdata l.length _ a6]
    have e5 : CLOCK.toNat = 0 := rfl
    rw [e5, e, List.set_set]
  have hp : ∀ attr : Int, Printed ws0 (ws0.set 0 { wd with
        rowdata := wd.rowdata.take l.length ++ [⟨attr, some t⟩],
        nrdata := (l.length : Int) + 1 }) (l ++ [t]) := by
    intro attr
    refine ⟨wd0, _, h0, rfl, a1, a2, a3, a4, ?_, ?_, ?_⟩
    · simp
    · simp [Nat.min_eq_left a6]
    · have e6 : (l ++ [t]).length =
          (wd.rowdata.take l.length ++ [(⟨attr, some t⟩ : rowdata)]).length := by
        simp [Nat.min_eq_left a6]
      simp only []
      rw [e6, List.take_length, List.map_append, a7]
      simp
  unfold display_print_line
  simp only [hi, hset]
  exact ⟨_, rfl, hp _⟩

/-- In a loaded tree the chain of ancestors of a node consists of nodes of the
tree with addresses up to the node's. -/
theorem ancestors_nodes (sys : Sys) (fuel : Nat) (h h2 : Heap) (path : List Char)
    (filter : tree_filter_t) (follow : Bool) (root : Nat)
    (hload : tree_load sys fuel h path filter follow = some (h2, some root)) :
    ∀ n, root ≤ n → n < h2.size →
      ∃ anc, anc.length ≤ n - root + 1 ∧ ancestors h2 (anc.length + 1) (some n) = some anc ∧
        ∀ a ∈ anc, root ≤ a ∧ a ≤ n := by
  obtain ⟨hd0, hp0, hpar⟩ := depth_parent_mod_256 sys fuel h h2 path filter follow root hload
  intro n
  induction n using Nat.strong_induction_on with
  | _ n ih =>
    intro hn1 hn2
    rcases Nat.eq_or_lt_of_le hn1 with e | hlt
    · subst e
      exact ⟨[root], by simp, by simp [ancestors, hp0], by simp⟩
    · obtain ⟨p, hp1, hp2, hp3, _⟩ := hpar n hlt hn2
      obtain ⟨anc, hlen, hanc, hmem⟩ := ih p hp2 hp1 (by omega)
      refine ⟨anc ++ [n], by simp; omega, ?_, ?_⟩
      · have e : ancestors h2 ((anc ++ [n]).length + 1) (some n) =
            (ancestors h2 (anc.length + 1) (h2.cell n).parent).map (fun l => l ++ [n]) := by
          simp [ancestors]
        rw [e, hp3, hanc]
        rfl
      · intro a ha
        rcases List.mem_append.1 ha with h1 | h1
        · have := hmem a h1
          omega
        · simp only [List.mem_singleton] at h1
          omega

/-- In a loaded tree the proper ancestors of a node other than the root are
found with the fuel `size + 1`; they are nodes of the tree with smaller
addresses. -/
theorem proper_ancestors (sys : Sys) (fuel : Nat) (h h2 : Heap) (path : List Char)
    (filter : tree_filter_t) (follow : Bool) (root : Nat)
    (hload : tree_load sys fuel h path filter follow = some (h2, some root))
    (n : Nat) (hn1 : root < n) (hn2 : n < h2.size) :
    ∃ p anc, (h2.cell n).parent = some p ∧
      (∀ k, h2.size < k → ancestors h2 k (some p) = some anc) ∧
      ∀ a ∈ anc, root ≤ a ∧ a < n := by
  obtain ⟨_, _, hpar⟩ := depth_parent_mod_256 sys fuel h h2 path filter follow root hload
  obtain ⟨p, hp1, hp2, hp3, _⟩ := hpar n hn1 hn2
  obtain ⟨anc, hlen, hanc, hmem⟩ :=
    ancestors_nodes sys fuel h h2 path filter follow root hload p hp1 (by omega)
  refine ⟨p, anc, hp3, fun k hk => ?_, fun a ha => ?_⟩
  · exact ancestors_mono h2 _ _ _ hanc k (by omega)
  · have := hmem a ha
    omega

theorem info_of_Filled (c : Clocks) (root t : Nat) (hf : Filled c root) (h1 : root ≤ t)
    (h2 : t < c.heap.size) : ∃ clk, c.info t = some clk := by
  obtain ⟨a, clk, e1, e2⟩ := hf.1 t h1 h2
  refine ⟨clk, ?_⟩
  unfold Clocks.info
  rw [if_pos h2, e1]
  exact e2

theorem collapsed_visit (c : Clocks) : ∀ anc : List Nat, (∀ a ∈ anc, ∃ clk, c.info a = some clk) →
    visit (cb_of (is_collapsed c)) anc (some ()) = (if anc.all c.flag then 0 else 1, some ()) := by
  intro anc
  induction anc with
  | nil => intro _; rfl
  | cons a rest ih =>
    intro hin
    obtain ⟨clk, hclk⟩ := hin a (List.mem_cons_self _ _)
    have hr := ih (fun x hx => hin x (List.mem_cons_of_mem _ hx))
    have hflag : c.flag a = clk.expanded := by
      unfold Clocks.flag
      rw [hclk]
    cases he : clk.expanded with
    | false =>
      simp [visit, cb_of, is_collapsed, hclk, he, hflag]
    | true =>
      simp [visit, cb_of, is_collapsed, hclk, he, hflag, hr]

/-- What the test `tree_for_each_parent(t->parent, is_collapsed, NULL)` of `clock_print_info_cb` gives. -/
theorem collapsed_parents (c : Clocks) (fuel : Nat) (p : Option Nat) (anc : List Nat)
    (ha : ancestors c.heap fuel p = some anc) (hin : ∀ a ∈ anc, ∃ clk, c.info a = some clk) :
    ∃ r, cb_result (tree_for_each_parent c.heap (cb_of (is_collapsed c)) fuel p (some ())) =
        some (r, ()) ∧ (r = 0 ↔ anc.all c.flag = true) := by
  rw [tree_for_each_parent_eq c.heap _ fuel p anc _ ha]
  obtain ⟨h1, h2⟩ := visit_parents_visit (cb_of (is_collapsed c)) anc (some ())
  rw [collapsed_visit c anc hin] at h1 h2
  refine ⟨(visit_parents (cb_of (is_collapsed c)) anc (some ())).1, ?_, ?_⟩
  · have e : visit_parents (cb_of (is_collapsed c)) anc (some ()) =
        ((visit_parents (cb_of (is_collapsed c)) anc (some ())).1, some ()) :=
      Prod.ext rfl h2
    rw [e]
    rfl
  · by_cases hall : anc.all c.flag = true
    · simp only [hall, if_true, ne_eq, not_true_eq_false, iff_false, not_not] at h1
      simp [h1, hall]
    · simp only [hall, if_false] at h1
      have : (visit_parents (cb_of (is_collapsed c)) anc (some ())).1 ≠ 0 := h1.2 (by decide)
      simp [this, hall]

/-- The callback `_clock_print_info_cb` on a node with a `struct clock_info`, when no allocation
fails: the root gets no row, every other node the next one. -/
theorem print_cb_spec (dr : Draw) (c : Clocks) (t : Nat) (ws0 ws : List windata) (l : List Nat)
    (ht : t < c.heap.size) (hinfo : ∃ clk, c.info t = some clk)
    (hline : ∀ x, dr.line_ok x = true) (hrows : ∀ n, dr.rows_ok n = true)
    (hp : Printed ws0 ws l) :
    ∃ ws2, _clock_print_info_cb dr c t ((l.length : Int), ws) =
        some (0, (((l ++ if (c.heap.cell t).parent = none then [] else [t]).length : Int), ws2)) ∧
      Printed ws0 ws2 (l ++ if (c.heap.cell t).parent = none then [] else [t]) := by
  obtain ⟨clk, hclk⟩ := hinfo
  unfold _clock_print_info_cb
  have e1 : ¬ (t ≥ c.heap.size) := by omega
  by_cases hr : (c.heap.cell t).parent = none
  · simp only [e1, hr, if_false, if_true, List.append_nil]
    exact ⟨ws, rfl, hp⟩
  · obtain ⟨ws2, h1, h2⟩ := display_print_line_spec dr ws0 ws l hp hrows clk.usecount t
    simp only [e1, hr, if_false, hclk, hline, h1]
    refine ⟨ws2, ?_, h2⟩
    simp

/-- The callback `clock_print_info_cb` on a node of a loaded tree. -/
theorem clock_print_info_cb_spec (sys : Sys) (fuel0 : Nat) (h0 : Heap) (path : List Char)
    (filter : tree_filter_t) (follow : Bool) (root : Nat) (dr : Draw) (c : Clocks) (fuel : Nat)
    (hload : tree_load sys fuel0 h0 path filter follow = some (c.heap, some root))
    (hfill : Filled c root) (hline : ∀ x, dr.line_ok x = true)
    (hrows : ∀ n, dr.rows_ok n = true) (hfuel : c.heap.size < fuel)
    (t : Nat) (ht1 : root ≤ t) (ht2 : t < c.heap.size) (ws0 ws : List windata) (l : List Nat)
    (hp : Printed ws0 ws l) :
    ∃ ws2, clock_print_info_cb dr c fuel t ((l.length : Int), ws) =
        some (0, (((l ++ shown c root [t]).length : Int), ws2)) ∧
      Printed ws0 ws2 (l ++ shown c root [t]) := by
  obtain ⟨_, hp0, _⟩ := depth_parent_mod_256 sys fuel0 h0 c.heap path filter follow root hload
  have e1 : ¬ (t ≥ c.heap.size) := by omega
  unfold clock_print_info_cb
  rcases Nat.eq_or_lt_of_le ht1 with e | hlt
  · subst e
    have hs : shown c root [root] = [] := by simp [shown]
    simp only [e1, hp0, if_false, if_true, hs, List.append_nil]
    exact ⟨ws, rfl, hp⟩
  · obtain ⟨p, anc, hpar, hanc, hmem⟩ :=
      proper_ancestors sys fuel0 h0 c.heap path filter follow root hload t hlt ht2
    have hin : ∀ a ∈ anc, ∃ clk, c.info a = some clk := fun a ha =>
      info_of_Filled c root a hfill (hmem a ha).1 (by have := (hmem a ha).2; omega)
    obtain ⟨r, hr1, hr2⟩ := collapsed_parents c fuel (some p) anc (hanc fuel hfuel) hin
    have hne : (c.heap.cell t).parent ≠ none := by rw [hpar]; simp
    have hall : all_expanded c t = anc.all c.flag := by
      unfold all_expanded
      rw [hpar, hanc (c.heap.size + 1) (by omega)]
    have hs : shown c root [t] = if anc.all c.flag = true then [t] else [] := by
      have hd : decide (t ≠ root) = true := by
        have : t ≠ root := by omega
        simpa using this
      unfold shown
      simp only [List.filter_cons, List.filter_nil, hd, hall, Bool.true_and]
    simp only [e1, hne, if_false]
    rw [hpar, hr1]
    simp only []
    by_cases h0 : r = 0
    · have ha := hr2.1 h0
      rw [hs, if_pos ha]
      simp only [h0, ne_eq, not_true_eq_false, if_false]
      obtain ⟨ws2, h1, h2⟩ := print_cb_spec dr c t ws0 ws l ht2
        (info_of_Filled c root t hfill ht1 ht2) hline hrows hp
      rw [if_neg hne] at h1 h2
      exact ⟨ws2, h1, h2⟩
    · have ha : ¬ (anc.all c.flag = true) := fun hh => h0 (hr2.2 hh)
      rw [hs, if_neg ha]
      simp only [ne_eq, h0, not_false_eq_true, if_true, List.append_nil]
      exact ⟨ws, rfl, hp⟩

theorem shown_cons (c : Clocks) (root t : Nat) (ts : List Nat) :
    shown c root (t :: ts) = shown c root [t] ++ shown c root ts := by
  unfold shown
  rw [← List.filter_append]
  rfl

/-- The traversal of `clock_print_info` over nodes of a loaded tree. -/
theorem print_visit (sys : Sys) (fuel0 : Nat) (h0 : Heap) (path : List Char)
    (filter : tree_filter_t) (follow : Bool) (root : Nat) (dr : Draw) (c : Clocks) (fuel : Nat)
    (hload : tree_load sys fuel0 h0 path filter follow = some (c.heap, some root))
    (hfill : Filled c root) (hline : ∀ x, dr.line_ok x = true)
    (hrows : ∀ n, dr.rows_ok n = true) (hfuel : c.heap.size < fuel) (ws0 : List windata) :
    ∀ (ts : List Nat), (∀ t ∈ ts, root ≤ t ∧ t < c.heap.size) →
      ∀ (l : List Nat) (ws : List windata), Printed ws0 ws l →
      ∃ ws2, visit (cb_of (clock_print_info_cb dr c fuel)) ts (some ((l.length : Int), ws)) =
          (0, some (((l ++ shown c root ts).length : Int), ws2)) ∧
        Printed ws0 ws2 (l ++ shown c root ts) := by
  intro ts
  induction ts with
  | nil =>
    intro _ l ws hp
    refine ⟨ws, ?_, ?_⟩
    · simp [visit, shown]
    · simpa [shown] using hp
  | cons t ts ih =>
    intro hin l ws hp
    obtain ⟨ht1, ht2⟩ := hin t (List.mem_cons_self _ _)
    obtain ⟨ws1, h1, h2⟩ := clock_print_info_cb_spec sys fuel0 h0 path filter follow root dr c
      fuel hload hfill hline hrows hfuel t ht1 ht2 ws0 ws l hp
    obtain ⟨ws2, h3, h4⟩ := ih (fun x hx => hin x (List.mem_cons_of_mem _ hx)) _ ws1 h2
    have hcb : cb_of (clock_print_info_cb dr c fuel) t (some ((l.length : Int), ws)) =
        (0, some (((l ++ shown c root [t]).length : Int), ws1)) := by
      unfold cb_of
      rw [Option.some_bind, h1]
    refine ⟨ws2, ?_, ?_⟩
    · simp only [visit, hcb, ne_eq, not_true_eq_false, if_false]
      rw [h3, shown_cons c root t ts, List.append_assoc]
    · rw [shown_cons c root t ts, ← List.append_assoc]
      exact h4

/-- The state `display_reset_cursor(CLOCK)` leaves is the start of a rendering. -/
theorem display_reset_cursor_spec (dr : Draw) (ws : List windata) (wd : windata)
    (h : index ws CLOCK = some wd) :
    ∃ ws1, display_reset_cursor dr CLOCK ws = some (dr.wmove, ws1) ∧ Printed ws ws1 [] := by
  unfold display_reset_cursor
  rw [h]
  refine ⟨_, rfl, wd, { wd with nrdata := 0 }, h, rfl, rfl, rfl, rfl, rfl, rfl, ?_, ?_⟩
  · simp
  · simp

/-- What `clock_print_info` does on a loaded tree in which every node has a `struct clock_info`,
when no allocation fails. -/
theorem clock_print_info_spec (sys : Sys) (fuel0 : Nat) (h0 : Heap) (path : List Char)
    (filter : tree_filter_t) (follow : Bool) (root : Nat) (dr : Draw) (c : Clocks) (fuel : Nat)
    (hload : tree_load sys fuel0 h0 path filter follow = some (c.heap, some root))
    (hfill : Filled c root) (hline : ∀ x, dr.line_ok x = true)
    (hrows : ∀ n, dr.rows_ok n = true) (hfuel : c.heap.size < fuel) (ws : List windata)
    (wd : windata) (hwd : index ws CLOCK = some wd) :
    ∃ ws2, clock_print_info dr c fuel (some root) ws = some (0, ws2) ∧
      Printed ws ws2 (shown c root (List.range' root (c.heap.size - root))) := by
  obtain ⟨_, _, f, hl⟩ := tree_load_spec sys fuel0 h0 c.heap path filter follow root hload
  obtain ⟨ws1, h1, h2⟩ := display_reset_cursor_spec dr ws wd hwd
  obtain ⟨ws2, h3, h4⟩ := print_visit sys fuel0 h0 path filter follow root dr c fuel hload hfill
    hline hrows hfuel ws (List.range' root (c.heap.size - root))
    (fun t ht => by rw [List.mem_range'_1] at ht; omega) [] ws1 h2
  simp only [List.nil_append, List.length_nil, Int.ofNat_zero] at h3 h4
  obtain ⟨wd2, hi, _⟩ := Printed_index ws ws2 _ h4
  unfold clock_print_info
  rw [h1]
  simp only []
  rw [Loaded_for_each sys filter follow path c.heap root f hl _ _ fuel (by omega)]
  have h3' : visit (cb_of (clock_print_info_cb dr c fuel))
      (List.range' root (c.heap.size - root)) (some (0, ws1)) =
      (0, some (((shown c root (List.range' root (c.heap.size - root))).length : Int), ws2)) := by
    simpa using h3
  rw [h3']
  simp only [ne_eq, not_true_eq_false, if_false, cb_result, display_refresh_pad, hi,
    Option.map_some']
  exact ⟨ws2, rfl, h4⟩

theorem clocks_abc_loaded :
    tree_load sys_clock 8 heap0 "/sys/kernel/debug/clock".toList none false =
      some (clocks_abc.heap, some 0) := by
  rfl

theorem clocks_abc_Filled : Filled clocks_abc 0 := by
  have hs : clocks_abc.heap.size = 6 := by rfl
  have hp : ∀ t, t < 6 → clocks_abc.priv t = some t ∧ (clocks_abc.clk t).isSome = true := by
    intro t ht
    interval_cases t <;> exact ⟨by rfl, by rfl⟩
  constructor
  · intro t _ ht
    rw [hs] at ht
    obtain ⟨e1, e2⟩ := hp t ht
    cases hc : clocks_abc.clk t with
    | none => rw [hc] at e2; simp at e2
    | some clk => exact ⟨t, clk, e1, hc⟩
  · intro t u a _ ht _ hu h1 h2
    rw [hs] at ht hu
    rw [(hp t ht).1] at h1
    rw [(hp u hu).1] at h2
    have e1 := Option.some.inj h1
    have e2 := Option.some.inj h2
    omega

theorem toggle_frame (c : Clocks) (t : Nat) :
    (c.toggle t).heap = c.heap ∧ (c.toggle t).clock_tree = c.clock_tree ∧
      (c.toggle t).priv = c.priv ∧ (c.toggle t).nclk = c.nclk := by
  unfold Clocks.toggle
  split
  · exact ⟨rfl, rfl, rfl, rfl⟩
  · split
    · exact ⟨rfl, rfl, rfl, rfl⟩
    · exact ⟨rfl, rfl, rfl, rfl⟩

/-- The inversion of the flag of `t` leaves the `struct clock_info` of every other node as it is. -/
theorem toggle_info_ne (c : Clocks) (root t u : Nat) (hf : Filled c root) (ht1 : root ≤ t)
    (ht2 : t < c.heap.size) (hu1 : root ≤ u) (hu2 : u < c.heap.size) (hne : u ≠ t) :
    (c.toggle t).info u = c.info u := by
  obtain ⟨a, clk, e1, e2⟩ := hf.1 t ht1 ht2
  obtain ⟨b, clkb, e3, e4⟩ := hf.1 u hu1 hu2
  have hab : b ≠ a := fun e => hne (hf.2 u t a hu1 hu2 ht1 ht2 (e ▸ e3) e1)
  unfold Clocks.toggle Clocks.info
  simp only [e1, e2, Clocks.store, hu2, if_true, e3, Option.some_bind, hab, if_false]

theorem toggle_info_eq (c : Clocks) (root t : Nat) (hf : Filled c root) (ht1 : root ≤ t)
    (ht2 : t < c.heap.size) :
    ∃ clk, c.info t = some clk ∧
      (c.toggle t).info t = some { clk with expanded := !clk.expanded } := by
  obtain ⟨a, clk, e1, e2⟩ := hf.1 t ht1 ht2
  refine ⟨clk, ?_, ?_⟩
  · unfold Clocks.info
    simp only [ht2, if_true, e1, Option.some_bind, e2]
  · unfold Clocks.toggle Clocks.info
    simp only [e1, e2, Clocks.store, ht2, if_true, Option.some_bind]

theorem toggle_flag_eq (c : Clocks) (root t : Nat) (hf : Filled c root) (ht1 : root ≤ t)
    (ht2 : t < c.heap.size) : (c.toggle t).flag t = !c.flag t := by
  obtain ⟨clk, e1, e2⟩ := toggle_info_eq c root t hf ht1 ht2
  unfold Clocks.flag
  rw [e1, e2]

theorem toggle_flag_ne (c : Clocks) (root t u : Nat) (hf : Filled c root) (ht1 : root ≤ t)
    (ht2 : t < c.heap.size) (hu1 : root ≤ u) (hu2 : u < c.heap.size) (hne : u ≠ t) :
    (c.toggle t).flag u = c.flag u := by
  unfold Clocks.flag
  rw [toggle_info_ne c root t u hf ht1 ht2 hu1 hu2 hne]

theorem Filled_toggle (c : Clocks) (root t : Nat) (hf : Filled c root) :
    Filled (c.toggle t) root := by
  obtain ⟨e1, e2, e3, _⟩ := toggle_frame c t
  constructor
  · intro u hu1 hu2
    rw [e1] at hu2
    obtain ⟨b, clkb, e4, e5⟩ := hf.1 u hu1 hu2
    rw [e3]
    cases hp : c.priv t with
    | none => exact ⟨b, clkb, e4, by simp only [Clocks.toggle, hp]; exact e5⟩
    | some a =>
      cases hc : c.clk a with
      | none => exact ⟨b, clkb, e4, by simp only [Clocks.toggle, hp, hc]; exact e5⟩
      | some clk =>
        by_cases hab : b = a
        · exact ⟨b, { clk with expanded := !clk.expanded }, e4,
            by simp [Clocks.toggle, hp, hc, Clocks.store, hab]⟩
        · exact ⟨b, clkb, e4, by simp [Clocks.toggle, hp, hc, Clocks.store, hab, e5]⟩
  · intro u v a hu1 hu2 hv1 hv2 h1 h2
    rw [e1] at hu2 hv2
    rw [e3] at h1 h2
    exact hf.2 u v a hu1 hu2 hv1 hv2 h1 h2

theorem Clocks.ext_fields (c d : Clocks) (h1 : d.heap = c.heap) (h2 : d.clock_tree = c.clock_tree)
    (h3 : d.priv = c.priv) (h4 : d.clk = c.clk) (h5 : d.nclk = c.nclk) : d = c := by
  cases c
  cases d
  simp only [Clocks.mk.injEq]
  exact ⟨h1, h2, h3, h4, h5⟩

/-- Two inversions of the flag of a node give the clocks back. -/
theorem toggle_toggle (c : Clocks) (root t : Nat) (hf : Filled c root) (ht1 : root ≤ t)
    (ht2 : t < c.heap.size) : (c.toggle t).toggle t = c := by
  obtain ⟨a, clk, e1, e2⟩ := hf.1 t ht1 ht2
  have e : c.toggle t = c.store a { clk with expanded := !clk.expanded } := by
    unfold Clocks.toggle
    simp only [e1, e2]
  have e' : (c.toggle t).toggle t =
      (c.store a { clk with expanded := !clk.expanded }).store a
        { clk with expanded := !(!clk.expanded) } := by
    rw [e]
    unfold Clocks.toggle
    simp only [Clocks.store, e1, if_true]
  rw [e']
  apply Clocks.ext_fields
  · rfl
  · rfl
  · rfl
  · funext x
    by_cases hx : x = a
    · subst hx
      simp [Clocks.store, e2]
    · simp [Clocks.store, hx]
  · rfl

/-- The row under the cursor, read by `display_get_row_data`, in a panel that shows the rows
`before ++ t :: after` with the cursor on the row of `t`. -/
theorem display_get_row_data_spec (ws : List windata) (wd : windata) (before after : List Nat)
    (t : Nat) (hwd : index ws CLOCK = some wd)
    (hrow : rows wd = (before ++ t :: after).map some) (hc : wd.cursor = before.length) :
    display_get_row_data CLOCK ws = some (some t) := by
  unfold display_get_row_data
  rw [hwd, Option.some_bind]
  unfold rows at hrow
  have h := congrArg (fun l => l[before.length]?) hrow
  simp only [List.getElem?_map, List.getElem?_take] at h
  have e1 : (before ++ t :: after)[before.length]? = some t := by
    rw [List.getElem?_append_right (le_refl _)]
    simp
  rw [e1] at h
  unfold index
  have e2 : ¬ (wd.cursor < 0) := by omega
  have e3 : wd.cursor.toNat = before.length := by omega
  rw [if_neg e2, e3, List.get?_eq_getElem?]
  split at h
  · exact h
  · simp at h

theorem clock_select_spec (p : Panels Clocks) (root t : Nat) (hf : Filled p.user root)
    (ht1 : root ≤ t) (ht2 : t < p.user.heap.size)
    (hrow : display_get_row_data CLOCK p.windata = some (some t)) :
    clock_select p = some (0, { p with user := p.user.toggle t }) := by
  obtain ⟨a, clk, e1, e2⟩ := hf.1 t ht1 ht2
  have e3 : ¬ (t ≥ p.user.heap.size) := by omega
  unfold clock_select Clocks.toggle
  simp only [hrow, e3, if_false, e1, e2]

theorem all_expanded_toggle (sys : Sys) (fuel0 : Nat) (h0 : Heap) (path : List Char)
    (filter : tree_filter_t) (follow : Bool) (root : Nat) (c : Clocks)
    (hload : tree_load sys fuel0 h0 path filter follow = some (c.heap, some root))
    (hfill : Filled c root) (t x : Nat) (ht1 : root ≤ t) (ht2 : t < c.heap.size)
    (hx1 : root ≤ x) (hx : x ≤ t) :
    all_expanded (c.toggle t) x = all_expanded c x := by
  obtain ⟨_, hp0, _⟩ := depth_parent_mod_256 sys fuel0 h0 c.heap path filter follow root hload
  obtain ⟨e1, _⟩ := toggle_frame c t
  unfold all_expanded
  rw [e1]
  rcases Nat.eq_or_lt_of_le hx1 with e | hlt
  · subst e
    rw [hp0]
    simp [ancestors]
  · obtain ⟨p, anc, hpar, hanc, hmem⟩ :=
      proper_ancestors sys fuel0 h0 c.heap path filter follow root hload x hlt (by omega)
    rw [hpar, hanc (c.heap.size + 1) (by omega)]
    simp only []
    rw [Bool.eq_iff_iff, List.all_eq_true, List.all_eq_true]
    constructor
    · intro h a ha
      have := hmem a ha
      rw [← toggle_flag_ne c root t a hfill ht1 ht2 this.1 (by omega) (by omega)]
      exact h a ha
    · intro h a ha
      have := hmem a ha
      rw [toggle_flag_ne c root t a hfill ht1 ht2 this.1 (by omega) (by omega)]
      exact h a ha

theorem shown_toggle_before (sys : Sys) (fuel0 : Nat) (h0 : Heap) (path : List Char)
    (filter : tree_filter_t) (follow : Bool) (root : Nat) (c : Clocks)
    (hload : tree_load sys fuel0 h0 path filter follow = some (c.heap, some root))
    (hfill : Filled c root) (t : Nat) (ht1 : root ≤ t) (ht2 : t < c.heap.size)
    (l : List Nat) (hl : ∀ x ∈ l, root ≤ x ∧ x ≤ t) :
    shown (c.toggle t) root l = shown c root l := by
  unfold shown
  apply List.filter_congr
  intro x hx
  rw [all_expanded_toggle sys fuel0 h0 path filter follow root c hload hfill t x ht1 ht2
    (hl x hx).1 (hl x hx).2]

theorem append_cons_inj (t : Nat) : ∀ (l1 l2 r1 r2 : List Nat),
    l1 ++ t :: r1 = l2 ++ t :: r2 → t ∉ l1 → t ∉ l2 → l1 = l2 ∧ r1 = r2 := by
  intro l1
  induction l1 with
  | nil =>
    intro l2 r1 r2 h _ h2
    cases l2 with
    | nil => simpa using h
    | cons y ys =>
      simp only [List.nil_append, List.cons_append, List.cons.injEq] at h
      exact absurd (by rw [← h.1]; exact List.mem_cons_self _ _) h2
  | cons x xs ih =>
    intro l2 r1 r2 h h1 h2
    cases l2 with
    | nil =>
      simp only [List.nil_append, List.cons_append, List.cons.injEq] at h
      exact absurd (by rw [h.1]; exact List.mem_cons_self _ _) h1
    | cons y ys =>
      simp only [List.cons_append, List.cons.injEq] at h
      obtain ⟨e1, e2⟩ := ih ys r1 r2 h.2 (fun hh => h1 (List.mem_cons_of_mem _ hh))
        (fun hh => h2 (List.mem_cons_of_mem _ hh))
      exact ⟨by rw [h.1, e1], e2⟩

theorem shown_append (c : Clocks) (root : Nat) (l1 l2 : List Nat) :
    shown c root (l1 ++ l2) = shown c root l1 ++ shown c root l2 := by
  unfold shown
  rw [List.filter_append]

/-- The rows up to the row of `t` stay as they are when the flag of `t` is
inverted. -/
theorem shown_toggle_split (sys : Sys) (fuel0 : Nat) (h0 : Heap) (path : List Char)
    (filter : tree_filter_t) (follow : Bool) (root : Nat) (c : Clocks)
    (hload : tree_load sys fuel0 h0 path filter follow = some (c.heap, some root))
    (hfill : Filled c root) (before after : List Nat) (t : Nat)
    (hs : shown c root (List.range' root (c.heap.size - root)) = before ++ t :: after) :
    (root ≤ t ∧ t < c.heap.size) ∧
    ∃ after2, shown (c.toggle t) root (List.range' root (c.heap.size - root)) =
      before ++ t :: after2 := by
  have hmem : t ∈ shown c root (List.range' root (c.heap.size - root)) := by
    rw [hs]; simp
  have hpred := hmem
  unfold shown at hpred
  rw [List.mem_filter, List.mem_range'_1] at hpred
  obtain ⟨⟨ht1, ht2'⟩, hpt⟩ := hpred
  have ht2 : t < c.heap.size := by omega
  have hsplit : List.range' root (c.heap.size - root) =
      List.range' root (t - root) ++ t :: List.range' (t + 1) (c.heap.size - t - 1) := by
    have e1 : c.heap.size - root = ((c.heap.size - t - 1) + 1) + (t - root) := by omega
    have e2 : root + (t - root) = t := by omega
    rw [e1, ← List.range'_append_1 root (t - root) ((c.heap.size - t - 1) + 1), e2,
      List.range'_succ]
  have hone : shown c root [t] = [t] := by
    unfold shown
    simp only [List.filter_cons, List.filter_nil]
    rw [if_pos hpt]
  have hcons : ∀ (d : Clocks) (l : List Nat), shown d root (t :: l) =
      shown d root [t] ++ shown d root l := fun d l => shown_cons d root t l
  have hlow : ∀ x ∈ List.range' root (t - root), root ≤ x ∧ x ≤ t := by
    intro x hx
    rw [List.mem_range'_1] at hx
    omega
  have h1 : shown c root (List.range' root (c.heap.size - root)) =
      shown c root (List.range' root (t - root)) ++
        t :: shown c root (List.range' (t + 1) (c.heap.size - t - 1)) := by
    rw [hsplit, shown_append, hcons, hone]
    rfl
  have hnd : (before ++ t :: after).Nodup := by
    rw [← hs]
    unfold shown
    exact (List.nodup_range' _ _).filter _
  have hb : t ∉ before := by
    intro hin
    have := List.nodup_append.1 hnd
    exact this.2.2 hin (List.mem_cons_self _ _)
  have hl : t ∉ shown c root (List.range' root (t - root)) := by
    intro hin
    unfold shown at hin
    rw [List.mem_filter, List.mem_range'_1] at hin
    omega
  rw [h1] at hs
  obtain ⟨e1, _⟩ := append_cons_inj t _ _ _ _ hs hl hb
  refine ⟨⟨ht1, ht2⟩, shown (c.toggle t) root (List.range' (t + 1) (c.heap.size - t - 1)), ?_⟩
  have hone2 : shown (c.toggle t) root [t] = [t] := by
    rw [shown_toggle_before sys fuel0 h0 path filter follow root c hload hfill t ht1 ht2 [t]
      (fun x hx => by simp only [List.mem_singleton] at hx; omega)]
    exact hone
  rw [hsplit, shown_append, hcons, hone2,
    shown_toggle_before sys fuel0 h0 path filter follow root c hload hfill t ht1 ht2 _ hlow, e1]
  rfl

/-- What `clock_display(false)` does on a loaded tree in which every node has a `struct clock_info`,
when no allocation fails. -/
theorem clock_display_spec (sys : Sys) (fuel0 : Nat) (h0 : Heap) (path : List Char)
    (filter : tree_filter_t) (follow : Bool) (root : Nat) (dr : Draw) (p : Panels Clocks)
    (fuel : Nat)
    (hload : tree_load sys fuel0 h0 path filter follow = some (p.user.heap, some root))
    (htree : p.user.clock_tree = some root)
    (hfill : Filled p.user root) (hline : ∀ x, dr.line_ok x = true)
    (hrows : ∀ n, dr.rows_ok n = true) (hfuel : p.user.heap.size < fuel)
    (wd : windata) (hwd : index p.windata CLOCK = some wd) :
    ∃ ws2, clock_display dr fuel false p = some (0, { windata := ws2, user := p.user }) ∧
      Printed p.windata ws2 (shown p.user root (List.range' root (p.user.heap.size - root))) := by
  obtain ⟨ws2, h1, h2⟩ := clock_print_info_spec sys fuel0 h0 path filter follow root dr p.user
    fuel hload hfill hline hrows hfuel p.windata wd hwd
  refine ⟨ws2, ?_, h2⟩
  unfold clock_display
  simp only [Bool.false_eq_true, if_false, ne_eq, not_true_eq_false, htree, h1,
    Option.map_some']

theorem Printed_rows (ws0 ws : List windata) (l : List Nat) (wd0 : windata)
    (h0 : index ws0 CLOCK = some wd0) (h : Printed ws0 ws l) :
    ∃ wd, index ws CLOCK = some wd ∧ rows wd = l.map some ∧ wd.nrdata = l.length ∧
      wd.cursor = wd0.cursor ∧ wd.scrolling = wd0.scrolling ∧ wd.ops = wd0.ops ∧
      ws = ws0.set 0 wd := by
  obtain ⟨wd, hi, e, a5, a6, a7, wd1, hi0, a1, _, a3, a4⟩ := Printed_index ws0 ws l h
  rw [h0] at hi0
  have e0 : wd1 = wd0 := (Option.some.inj hi0).symm
  subst e0
  refine ⟨wd, hi, ?_, a5, a4, a3, a1, e⟩
  unfold rows
  rw [a5]
  simpa using a7

/-- What Enter does on the clock panel, the cursor being on the row of `t`: the
flag of `t` is inverted and the panel rendered anew; the rows up to the row of
`t` are the same ones. -/
theorem clock_enter_spec (sys : Sys) (fuel0 : Nat) (h0 : Heap) (path : List Char)
    (filter : tree_filter_t) (follow : Bool) (root : Nat) (dr : Draw) (p : Panels Clocks)
    (fuel : Nat) (wd : windata) (before after : List Nat) (t : Nat)
    (hload : tree_load sys fuel0 h0 path filter follow = some (p.user.heap, some root))
    (htree : p.user.clock_tree = some root)
    (hfill : Filled p.user root) (hline : ∀ x, dr.line_ok x = true)
    (hrows : ∀ n, dr.rows_ok n = true) (hfuel : p.user.heap.size < fuel)
    (hwd : index p.windata CLOCK = some wd)
    (hrow : rows wd = (shown p.user root (List.range' root (p.user.heap.size - root))).map some)
    (hs : shown p.user root (List.range' root (p.user.heap.size - root)) = before ++ t :: after)
    (hc : wd.cursor = before.length) :
    ∃ ws1 wd1 after2,
      clock_enter dr fuel p = some (0, { windata := ws1, user := p.user.toggle t }) ∧
      index ws1 CLOCK = some wd1 ∧
      shown (p.user.toggle t) root (List.range' root (p.user.heap.size - root)) =
        before ++ t :: after2 ∧
      rows wd1 =
        (shown (p.user.toggle t) root (List.range' root (p.user.heap.size - root))).map some ∧
      wd1.cursor = wd.cursor ∧ wd1.scrolling = wd.scrolling ∧ wd1.ops = wd.ops ∧
      ws1 = p.windata.set 0 wd1 := by
  obtain ⟨⟨ht1, ht2⟩, after2, hs2⟩ :=
    shown_toggle_split sys fuel0 h0 path filter follow root p.user hload hfill before after t hs
  rw [hs] at hrow
  have hget := display_get_row_data_spec p.windata wd before after t hwd hrow hc
  have hsel := clock_select_spec p root t hfill ht1 ht2 hget
  obtain ⟨e1, e2, _, _⟩ := toggle_frame p.user t
  have hload1 : tree_load sys fuel0 h0 path filter follow =
      some ((p.user.toggle t).heap, some root) := by rw [e1]; exact hload
  obtain ⟨ws1, hd, hp⟩ := clock_display_spec sys fuel0 h0 path filter follow root dr
    { p with user := p.user.toggle t } fuel hload1 (by rw [e2]; exact htree)
    (Filled_toggle p.user root t hfill) hline hrows (by rw [e1]; exact hfuel) wd hwd
  obtain ⟨wd1, hi1, hr1, _, c1, c2, c3, c4⟩ := Printed_rows p.windata ws1 _ wd hwd hp
  simp only [e1] at hr1
  refine ⟨ws1, wd1, after2, ?_, hi1, hs2, hr1, c1, c2, c3, c4⟩
  unfold clock_enter
  rw [hsel]
  exact hd

/-- A node below a collapsed node has no row, and gets one when the flag of
that node is inverted while its other proper ancestors are expanded. -/
theorem shown_hidden (sys : Sys) (fuel0 : Nat) (h0 : Heap) (path : List Char)
    (filter : tree_filter_t) (follow : Bool) (root : Nat) (c : Clocks)
    (hload : tree_load sys fuel0 h0 path filter follow = some (c.heap, some root))
    (hfill : Filled c root) (n a : Nat) (anc order : List Nat)
    (hanc : ancestors c.heap (c.heap.size + 1) (c.heap.cell n).parent = some anc)
    (ha : a ∈ anc) (hflag : c.flag a = false) :
    n ∉ shown c root order ∧
    (n ∈ order → root < n → n < c.heap.size → (∀ b ∈ anc, b ≠ a → c.flag b = true) →
      n ∈ shown (c.toggle a) root order) := by
  constructor
  · intro hin
    unfold shown at hin
    rw [List.mem_filter, Bool.and_eq_true] at hin
    have h2 := hin.2.2
    unfold all_expanded at h2
    rw [hanc] at h2
    simp only [List.all_eq_true] at h2
    rw [h2 a ha] at hflag
    exact Bool.noConfusion hflag
  · intro hn hn1 hn2 hall
    obtain ⟨p, anc2, hpar, hanc2, hmem⟩ :=
      proper_ancestors sys fuel0 h0 c.heap path filter follow root hload n hn1 hn2
    rw [hpar, hanc2 (c.heap.size + 1) (by omega)] at hanc
    have e0 : anc2 = anc := Option.some.inj hanc
    subst e0
    have ha1 := hmem a ha
    have ha2 : a < c.heap.size := by omega
    obtain ⟨e1, _⟩ := toggle_frame c a
    unfold shown
    rw [List.mem_filter, Bool.and_eq_true]
    refine ⟨hn, by simp; omega, ?_⟩
    unfold all_expanded
    rw [e1, hpar, hanc2 (c.heap.size + 1) (by omega)]
    simp only [List.all_eq_true]
    intro b hb
    by_cases hba : b = a
    · subst hba
      rw [toggle_flag_eq c root b hfill ha1.1 ha2, hflag]
      rfl
    · have hb1 := hmem b hb
      rw [toggle_flag_ne c root a b hfill ha1.1 ha2 hb1.1 (by omega) hba]
      exact hall b hb hba

theorem display_keystroke_enter {σ : Type} (env : Env) (code : Code σ) (fd : Int)
    (data : Option Nat) (w : World σ) (hk : (getch w).1 = 13) :
    display_keystroke env code fd data w =
      match display_select code (getch w).2 with
      | none => none
      | some (_, w3) =>
        (display_refresh env code w3.current_win false w3).map (fun r => ((0 : Int), r.2)) := by
  generalize hg1 : (getch w).1 = k at hk
  generalize hg2 : (getch w).2 = w1
  have hg : getch w = (k, w1) := by rw [← hg1, ← hg2]
  unfold display_keystroke
  subst hk
  simp only [hg]
  have e1 : ¬ ((13 : Int) = KEY_RIGHT ∨ (13 : Int) = 9) := by decide
  have e2 : ¬ ((13 : Int) = KEY_LEFT ∨ (13 : Int) = KEY_BTAB) := by decide
  have e3 : (13 : Int) ≠ KEY_DOWN := by decide
  have e4 : (13 : Int) ≠ KEY_UP := by decide
  simp only [e1, e2, e3, e4, if_false, if_true]

theorem clock_select_windata (p p1 : Panels Clocks) (r : Int)
    (h : clock_select p = some (r, p1)) : p1.windata = p.windata := by
  unfold clock_select at h
  split at h
  · simp at h
  · simp at h
  · split at h
    · simp at h
    · split at h
      · simp at h
      · split at h
        · simp at h
        · simp only [Option.some.injEq, Prod.mk.injEq] at h
          rw [← h.2]

/-- Enter in Normal mode, the focused panel being registered with `clock_ops`: the
handler calls `clock_select()` and then `clock_display(false)`, and returns 0. -/
theorem display_keystroke_enter_clock (env : Env) (sys : Sys) (dr : Draw) (fuel : Nat)
    (fd : Int) (data : Option Nat) (w : World Clocks) (wd : windata)
    (hwd : focused w = some wd) (hops : wd.ops = some clock_ops) (hk : (getch w).1 = 13) :
    display_keystroke env (clock_code sys dr fuel) fd data w =
      (call_op (clock_enter dr fuel) (getch w).2).map (fun r => (0, r.2)) := by
  rw [display_keystroke_enter env _ fd data w hk]
  have hwd1 : focused (getch w).2 = some wd := by rw [focused_getch]; exact hwd
  generalize (getch w).2 = w1 at hwd1
  unfold focused at hwd1
  have hsel : wd.ops.bind (fun ops => ops.select) = some clock_select_addr := by
    rw [hops]; rfl
  have hdis : wd.ops.bind (fun ops => ops.display) = some clock_display_addr := by
    rw [hops]; rfl
  unfold display_select
  simp only [hwd1, hsel, clock_code, if_true]
  cases hs : clock_select ⟨w1.windata, w1.user⟩ with
  | none => simp [call_op, clock_enter, hs]
  | some x =>
    obtain ⟨r, p1⟩ := x
    have hw := clock_select_windata _ p1 r hs
    simp only [] at hw
    simp only [call_op, clock_enter, hs]
    unfold display_refresh
    simp only [ne_eq, not_true_eq_false, if_false, hw, hwd1, hdis, if_true]
    have hp1 : ({ windata := w1.windata, user := p1.user } : Panels Clocks) = p1 := by
      cases p1
      simp only [] at hw
      rw [hw]
    simp only [call_op, hp1]

theorem Loaded_finds_empty (sys : Sys) (filter : tree_filter_t) (follow : Bool)
    (path : List Char) (h : Heap) (root : Nat) (f : Forest)
    (hl : Loaded sys filter follow path h root f) (sys2 : Sys)
    (ptr0 : Option (List (Option Nat))) (k : Nat) (hk : h.size - root < k) :
    tree_finds sys2 h k (some root) [] ptr0 = some (0, ptr0) := by
  unfold tree_finds
  rw [Loaded_for_each sys filter follow path h root f hl _ _ k hk, visit_finds_empty h _ _ rfl]
  simp

/-- The loop of `clock_find` over nodes of a loaded tree. -/
theorem find_loop_spec (sys : Sys) (fuel0 : Nat) (h0 : Heap) (path : List Char)
    (filter : tree_filter_t) (follow : Bool) (root : Nat) (dr : Draw) (c : Clocks)
    (hload : tree_load sys fuel0 h0 path filter follow = some (c.heap, some root))
    (hfill : Filled c root) (hline : ∀ x, dr.line_ok x = true)
    (hrows : ∀ n, dr.rows_ok n = true) (ws0 : List windata) :
    ∀ (ts : List Nat), (∀ t ∈ ts, root ≤ t ∧ t < c.heap.size) →
      ∀ (l : List Nat) (ws : List windata), Printed ws0 ws l →
      ∃ ws2, clock_find_loop dr c (ts.map some) ((l.length : Int), ws) =
          some (0, (((l ++ ts.filter (fun t => decide (t ≠ root))).length : Int), ws2)) ∧
        Printed ws0 ws2 (l ++ ts.filter (fun t => decide (t ≠ root))) := by
  obtain ⟨_, hp0, hpar⟩ :=
    depth_parent_mod_256 sys fuel0 h0 c.heap path filter follow root hload
  intro ts
  induction ts with
  | nil =>
    intro _ l ws hp
    exact ⟨ws, by simp [clock_find_loop], by simpa using hp⟩
  | cons t ts ih =>
    intro hin l ws hp
    obtain ⟨ht1, ht2⟩ := hin t (List.mem_cons_self _ _)
    obtain ⟨ws1, h1, h2⟩ := print_cb_spec dr c t ws0 ws l ht2
      (info_of_Filled c root t hfill ht1 ht2) hline hrows hp
    have hone : (if (c.heap.cell t).parent = none then [] else [t]) =
        [t].filter (fun t => decide (t ≠ root)) := by
      rcases Nat.eq_or_lt_of_le ht1 with e | hlt
      · subst e
        simp [hp0]
      · obtain ⟨p, _, _, hp3, _⟩ := hpar t hlt ht2
        have : t ≠ root := by omega
        simp [hp3, this]
    rw [hone] at h1 h2
    obtain ⟨ws2, h3, h4⟩ := ih (fun x hx => hin x (List.mem_cons_of_mem _ hx)) _ ws1 h2
    have hsplit : (t :: ts).filter (fun t => decide (t ≠ root)) =
        [t].filter (fun t => decide (t ≠ root)) ++ ts.filter (fun t => decide (t ≠ root)) := by
      rw [← List.filter_append]
      rfl
    refine ⟨ws2, ?_, ?_⟩
    · simp only [List.map_cons, clock_find_loop, h1, ne_eq, not_true_eq_false, if_false]
      rw [h3, hsplit, List.append_assoc]
    · rw [hsplit, ← List.append_assoc]
      exact h4

/-- What `clock_find(q)` does on a loaded tree in which every node has a `struct clock_info`,
when no allocation fails. -/
theorem clock_find_spec (sys : Sys) (fuel0 : Nat) (h0 : Heap) (path : List Char)
    (filter : tree_filter_t) (follow : Bool) (root : Nat) (sys2 : Sys) (dr : Draw)
    (p : Panels Clocks) (fuel : Nat) (q : List Char)
    (hload : tree_load sys fuel0 h0 path filter follow = some (p.user.heap, some root))
    (htree : p.user.clock_tree = some root)
    (hfill : Filled p.user root) (hline : ∀ x, dr.line_ok x = true)
    (hrows : ∀ n, dr.rows_ok n = true) (harr : ∀ n, sys2.array_ok n = true)
    (hfuel : p.user.heap.size < fuel)
    (wd : windata) (hwd : index p.windata CLOCK = some wd) :
    ∃ ws2, clock_find sys2 dr fuel q p = some (0, { p with windata := ws2 }) ∧
      Printed p.windata ws2
        (found p.user root q (List.range' root (p.user.heap.size - root))) := by
  obtain ⟨_, _, f, hl⟩ := tree_load_spec sys fuel0 h0 p.user.heap path filter follow root hload
  obtain ⟨ws1, h1, h2⟩ := display_reset_cursor_spec dr p.windata wd hwd
  by_cases hq : q = []
  · subst hq
    obtain ⟨wd1, hi1, _⟩ := Printed_index p.windata ws1 [] h2
    refine ⟨ws1, ?_, by simpa [found] using h2⟩
    unfold clock_find
    rw [htree, Loaded_finds_empty sys filter follow path p.user.heap root f hl sys2 none fuel
      (by omega), h1]
    simp [clock_find_loop, display_refresh_pad, hi1]
  · have hms := Loaded_finds sys filter follow path p.user.heap root f hl sys2 q hq none fuel
      (by omega) _ rfl
    obtain ⟨ws2, h3, h4⟩ := find_loop_spec sys fuel0 h0 path filter follow root dr p.user hload
      hfill hline hrows p.windata
      ((List.range' root (p.user.heap.size - root)).filter
        (fun t => decide ((p.user.heap.cell t).name.take q.length = q)))
      (fun t ht => by
        rw [List.mem_filter, List.mem_range'_1] at ht
        omega) [] ws1 h2
    have hfound : found p.user root q (List.range' root (p.user.heap.size - root)) =
        ((List.range' root (p.user.heap.size - root)).filter
          (fun t => decide ((p.user.heap.cell t).name.take q.length = q))).filter
            (fun t => decide (t ≠ root)) := by
      unfold found
      rw [if_neg hq, List.filter_filter]
    simp only [List.nil_append, List.length_nil, Int.ofNat_zero] at h3 h4
    rw [← hfound] at h3 h4
    obtain ⟨wd2, hi2, _⟩ := Printed_index p.windata ws2 _ h4
    refine ⟨ws2, ?_, h4⟩
    unfold clock_find
    rw [htree, hms]
    by_cases hnil : (List.range' root (p.user.heap.size - root)).filter
        (fun t => decide ((p.user.heap.cell t).name.take q.length = q)) = []
    · rw [hnil] at h3
      simp only [hnil, if_true, h1, le_refl]
      simp only [List.map_nil] at h3
      have h3' : clock_find_loop dr p.user [] (0, ws1) = some (0,
          (((found p.user root q (List.range' root (p.user.heap.size - root))).length : Int),
            ws2)) := by simpa using h3
      rw [h3']
      simp [display_refresh_pad, hi2]
    · have hpos : ¬ ((((List.range' root (p.user.heap.size - root)).filter
          (fun t => decide ((p.user.heap.cell t).name.take q.length = q))).length : Int) ≤ 0) := by
        have : 0 < ((List.range' root (p.user.heap.size - root)).filter
          (fun t => decide ((p.user.heap.cell t).name.take q.length = q))).length :=
          List.length_pos.2 hnil
        omega
      simp only [hnil, if_false, harr, Bool.true_eq_false, h1, hpos, Int.toNat_ofNat,
        List.length_map, le_refl, if_true, List.take_length]
      have e : List.take ((List.range' root (p.user.heap.size - root)).filter
          (fun t => decide ((p.user.heap.cell t).name.take q.length = q))).length
          (((List.range' root (p.user.heap.size - root)).filter
          (fun t => decide ((p.user.heap.cell t).name.take q.length = q))).map some) =
          ((List.range' root (p.user.heap.size - root)).filter
          (fun t => decide ((p.user.heap.cell t).name.take q.length = q))).map some := by
        rw [List.take_of_length_le (by simp)]
      have h3' : clock_find_loop dr p.user
          (((List.range' root (p.user.heap.size - root)).filter
          (fun t => decide ((p.user.heap.cell t).name.take q.length = q))).map some) (0, ws1) =
          some (0,
          (((found p.user root q (List.range' root (p.user.heap.size - root))).length : Int),
            ws2)) := by simpa using h3
      simp only [e, h3']
      simp [display_refresh_pad, hi2]

theorem tree_for_each_cb_none {σ : Type} (h : Heap) (f : Nat → σ → Option (Int × σ)) :
    ∀ (fuel : Nat) (tree : Option Nat) (r : Int) (d : Option σ),
      tree_for_each h (cb_of f) fuel tree none = some (r, d) → d = none := by
  intro fuel
  cases fuel with
  | zero => intro tree r d hh; simp [tree_for_each] at hh
  | succ k =>
    intro tree r d hh
    cases tree with
    | none =>
      simp only [tree_for_each, Option.some.injEq, Prod.mk.injEq] at hh
      exact hh.2.symm
    | some t =>
      simp only [tree_for_each, cb_of, Option.none_bind, ne_eq, Int.reduceNeg, neg_eq_zero,
        one_ne_zero, not_false_eq_true, if_true, Option.some.injEq, Prod.mk.injEq] at hh
      exact hh.2.symm

/-- A property of the data that every call of the callback keeps is kept by
`tree_for_each`. -/
theorem tree_for_each_inv {σ : Type} (h : Heap) (f : Nat → σ → Option (Int × σ))
    (P : σ → Prop) (hP : ∀ t c r c2, f t c = some (r, c2) → P c → P c2) :
    ∀ (fuel : Nat) (tree : Option Nat) (c : σ) (r : Int) (c2 : σ),
      tree_for_each h (cb_of f) fuel tree (some c) = some (r, some c2) → P c → P c2 := by
  intro fuel
  induction fuel with
  | zero => intro tree c r c2 hh _; simp [tree_for_each] at hh
  | succ k ih =>
    intro tree c r c2 hh hc
    cases tree with
    | none =>
      simp only [tree_for_each, Option.some.injEq, Prod.mk.injEq] at hh
      rw [← hh.2]
      exact hc
    | some t =>
      cases hf : f t c with
      | none =>
        simp [tree_for_each, cb_of, hf] at hh
      | some x =>
        obtain ⟨r1, d1⟩ := x
        have hcb : cb_of f t (some c) = (r1, some d1) := by
          unfold cb_of
          rw [Option.some_bind, hf]
        have hd1 := hP t c r1 d1 hf hc
        simp only [tree_for_each, hcb] at hh
        by_cases hr1 : r1 ≠ 0
        · rw [if_pos hr1] at hh
          simp only [Option.some.injEq, Prod.mk.injEq] at hh
          rw [← hh.2]
          exact hd1
        · rw [if_neg hr1] at hh
          cases hch : tree_for_each h (cb_of f) k (h.cell t).child (some d1) with
          | none => rw [hch] at hh; simp at hh
          | some y =>
            obtain ⟨r2, data2⟩ := y
            rw [hch] at hh
            simp only [] at hh
            cases data2 with
            | none =>
              by_cases hr2 : r2 ≠ 0
              · rw [if_pos hr2] at hh
                simp at hh
              · rw [if_neg hr2] at hh
                have := tree_for_each_cb_none h f k _ r (some c2) hh
                simp at this
            | some d2 =>
              have hd2 := ih _ d1 r2 d2 hch hd1
              by_cases hr2 : r2 ≠ 0
              · rw [if_pos hr2] at hh
                simp only [Option.some.injEq, Prod.mk.injEq] at hh
                rw [← hh.2]
                exact hd2
              · rw [if_neg hr2] at hh
                exact ih _ d2 r c2 hh hd2

/-- What `fill_clock_cb` does when it returns 0: the node gets a fresh `struct clock_info`. -/
theorem fill_clock_cb_spec (dr : Draw) (t : Nat) (c c2 : Clocks) (r : Int)
    (h : fill_clock_cb dr t c = some (r, c2)) :
    c2.heap = c.heap ∧ c2.clock_tree = c.clock_tree ∧
    (r = 0 → c2.nclk = c.nclk + 1 ∧ c2.priv t = some c.nclk ∧ (c2.clk c.nclk).isSome = true ∧
      (∀ u, u ≠ t → c2.priv u = c.priv u) ∧ ∀ a, a ≠ c.nclk → c2.clk a = c.clk a) := by
  unfold fill_clock_cb at h
  by_cases hok : dr.clock_ok c.nclk = false
  · rw [if_pos hok] at h
    have e := Option.some.inj h
    have e1 : (-1 : Int) = r := congrArg Prod.fst e
    have e2 : c = c2 := congrArg Prod.snd e
    subst e2
    refine ⟨rfl, rfl, fun e0 => ?_⟩
    omega
  · rw [if_neg hok] at h
    dsimp only at h
    by_cases hroot : (c.heap.cell t).parent = none
    · rw [if_pos hroot] at h
      have e := Option.some.inj h
      have e2 := congrArg Prod.snd e
      simp only [] at e2
      subst e2
      refine ⟨rfl, rfl, fun _ => ⟨rfl, by simp [Clocks.store], by simp [Clocks.store],
        fun u hu => by simp [Clocks.store, hu], fun a ha => by simp [Clocks.store, ha]⟩⟩
    · rw [if_neg hroot] at h
      unfold read_clock_cb at h
      simp only [if_true, Option.some.injEq, Prod.mk.injEq] at h
      obtain ⟨_, e2⟩ := h
      subst e2
      refine ⟨rfl, rfl, fun _ => ⟨rfl, by simp [Clocks.store], by simp [Clocks.store],
        fun u hu => by simp [Clocks.store, hu], fun a ha => by simp [Clocks.store, ha]⟩⟩

/-- The traversal of `fill_clock_tree`: when it returns 0, the nodes visited have distinct
live `struct clock_info` blocks. -/
theorem fill_visit (dr : Draw) : ∀ (ts done : List Nat) (c1 c2 : Clocks),
    visit (cb_of (fill_clock_cb dr)) ts (some c1) = (0, some c2) →
    (∀ t ∈ ts, t ∉ done) → ts.Nodup →
    (∀ t ∈ done, ∃ a clk, a < c1.nclk ∧ c1.priv t = some a ∧ c1.clk a = some clk) →
    (∀ t u a, t ∈ done → u ∈ done → c1.priv t = some a → c1.priv u = some a → t = u) →
    c2.heap = c1.heap ∧ c2.clock_tree = c1.clock_tree ∧
    (∀ t, t ∈ done ∨ t ∈ ts → ∃ a clk, a < c2.nclk ∧ c2.priv t = some a ∧ c2.clk a = some clk) ∧
    (∀ t u a, t ∈ done ∨ t ∈ ts → u ∈ done ∨ u ∈ ts →
      c2.priv t = some a → c2.priv u = some a → t = u) := by
  intro ts
  induction ts with
  | nil =>
    intro done c1 c2 h _ _ h1 h2
    simp only [visit, Prod.mk.injEq, Option.some.injEq, true_and] at h
    subst h
    refine ⟨rfl, rfl, fun t ht => ?_, fun t u a ht hu => ?_⟩
    · rcases ht with ht | ht
      · exact h1 t ht
      · simp at ht
    · rcases ht with ht | ht
      · rcases hu with hu | hu
        · exact h2 t u a ht hu
        · simp at hu
      · simp at ht
  | cons t ts ih =>
    intro done c1 c2 h hnew hnd h1 h2
    cases hcb : fill_clock_cb dr t c1 with
    | none =>
      simp [visit, cb_of, hcb] at h
    | some x =>
      obtain ⟨r, c3⟩ := x
      have hcb2 : cb_of (fill_clock_cb dr) t (some c1) = (r, some c3) := by
        unfold cb_of
        rw [Option.some_bind, hcb]
      simp only [visit, hcb2] at h
      by_cases hr : r ≠ 0
      · rw [if_pos hr] at h
        exact absurd (congrArg Prod.fst h) hr
      · rw [if_neg hr] at h
        have hr0 : r = 0 := not_not.1 hr
        subst hr0
        obtain ⟨f1, f2, f3⟩ := fill_clock_cb_spec dr t c1 c3 0 hcb
        obtain ⟨g1, g2, g3, g4, g5⟩ := f3 rfl
        have htd : t ∉ done := hnew t (List.mem_cons_self _ _)
        have hnd2 := List.nodup_cons.1 hnd
        have old : ∀ u ∈ done, ∃ a clk, a < c1.nclk ∧ c3.priv u = some a ∧ c3.clk a = some clk ∧
            c1.priv u = some a := by
          intro u hu
          obtain ⟨a, clk, a1, a2, a3⟩ := h1 u hu
          have hut : u ≠ t := fun e => htd (e ▸ hu)
          exact ⟨a, clk, a1, by rw [g4 u hut]; exact a2, by rw [g5 a (by omega)]; exact a3, a2⟩
        have new : ∃ clk, c3.clk c1.nclk = some clk := by
          cases hc : c3.clk c1.nclk with
          | none => rw [hc] at g3; simp at g3
          | some clk => exact ⟨clk, rfl⟩
        have k1 : ∀ u ∈ done ++ [t],
            ∃ a clk, a < c3.nclk ∧ c3.priv u = some a ∧ c3.clk a = some clk := by
          intro u hu
          rcases List.mem_append.1 hu with hu1 | hu1
          · obtain ⟨a, clk, a1, a2, a3, _⟩ := old u hu1
            exact ⟨a, clk, by omega, a2, a3⟩
          · have eu : u = t := by simpa using hu1
            obtain ⟨clk, hc⟩ := new
            exact ⟨c1.nclk, clk, by omega, by rw [eu]; exact g2, hc⟩
        have k2 : ∀ u v a, u ∈ done ++ [t] → v ∈ done ++ [t] →
            c3.priv u = some a → c3.priv v = some a → u = v := by
          intro u v a hu hv e1 e2
          rcases List.mem_append.1 hu with hu1 | hu1
          · obtain ⟨b, _, b1, b2, _, b4⟩ := old u hu1
            rw [b2] at e1
            have eb := Option.some.inj e1
            rcases List.mem_append.1 hv with hv1 | hv1
            · obtain ⟨d, _, d1, d2, _, d4⟩ := old v hv1
              rw [d2] at e2
              have ed := Option.some.inj e2
              exact h2 u v a hu1 hv1 (by rw [b4, eb]) (by rw [d4, ed])
            · have ev : v = t := by simpa using hv1
              rw [ev, g2] at e2
              have ed := Option.some.inj e2
              omega
          · have eu : u = t := by simpa using hu1
            rw [eu, g2] at e1
            have eb := Option.some.inj e1
            rcases List.mem_append.1 hv with hv1 | hv1
            · obtain ⟨d, _, d1, d2, _, _⟩ := old v hv1
              rw [d2] at e2
              have ed := Option.some.inj e2
              omega
            · have ev : v = t := by simpa using hv1
              rw [eu, ev]
        obtain ⟨i1, i2, i3, i4⟩ := ih (done ++ [t]) c3 c2 h
          (fun u hu hd => by
            rcases List.mem_append.1 hd with hd1 | hd1
            · exact hnew u (List.mem_cons_of_mem _ hu) hd1
            · have eu : u = t := by simpa using hd1
              exact hnd2.1 (eu ▸ hu)) hnd2.2 k1 k2
        have hmem : ∀ u, u ∈ done ∨ u ∈ t :: ts → u ∈ done ++ [t] ∨ u ∈ ts := by
          intro u hu
          rcases hu with hu1 | hu1
          · exact Or.inl (List.mem_append_left _ hu1)
          · rcases List.mem_cons.1 hu1 with e | hu2
            · exact Or.inl (List.mem_append_right _ (by simp [e]))
            · exact Or.inr hu2
        exact ⟨i1.trans f1, i2.trans f2, fun u hu => i3 u (hmem u hu),
          fun u v a hu hv => i4 u v a (hmem u hu) (hmem v hv)⟩

/-- After a `clock_init()` that returns 0 the clock tree is a loaded tree in which
every node has a `struct clock_info` of its own, and the clock panel is registered with
`clock_ops`. -/
theorem clock_init_Filled (sys : Sys) (dr : Draw) (fuel : Nat) (p p2 : Panels Clocks)
    (h : clock_init sys dr fuel p = some (0, p2)) (hfuel : p2.user.heap.size < fuel) :
    ∃ root, p2.user.clock_tree = some root ∧
      tree_load sys fuel p.user.heap "/sys/kernel/debug/clock".toList none false =
        some (p2.user.heap, some root) ∧
      Filled p2.user root ∧
      p2.windata = (display_register CLOCK clock_ops p.windata).2 := by
  unfold clock_init at h
  have epath : "/sys/kernel/debug".toList ++ "/clock".toList =
      "/sys/kernel/debug/clock".toList := by decide
  simp only [epath] at h
  split at h
  · simp at h
  · split at h
    · simp at h
    · rename_i hh tree hl
      cases tree with
      | none => simp at h
      | some root =>
        simp only [Option.isNone_some, Bool.false_eq_true, if_false] at h
        split at h
        · simp at h
        · rename_i r c1 hfill
          split at h
          · simp at h
          · rename_i hr
            have hr0 : r = 0 := not_not.1 hr
            subst hr0
            simp only [Option.some.injEq, Prod.mk.injEq] at h
            obtain ⟨_, e2⟩ := h
            subst e2
            simp only [] at hfuel ⊢
            obtain ⟨_, _, f, hld⟩ :=
              tree_load_spec sys fuel p.user.heap hh _ none false root hl
            unfold fill_clock_tree at hfill
            simp only [] at hfill
            cases hv : tree_for_each hh (cb_of (fill_clock_cb dr)) fuel (some root)
                (some { p.user with heap := hh, clock_tree := some root }) with
            | none => rw [hv] at hfill; simp [cb_result] at hfill
            | some y =>
              obtain ⟨r2, d2⟩ := y
              rw [hv] at hfill
              cases d2 with
              | none => simp [cb_result] at hfill
              | some c2 =>
                simp only [cb_result, Option.some.injEq, Prod.mk.injEq] at hfill
                obtain ⟨e3, e4⟩ := hfill
                subst e3
                subst e4
                have hheap : c2.heap = hh :=
                  tree_for_each_inv hh (fill_clock_cb dr) (fun c => c.heap = hh)
                    (fun t c r c3 hc hp => by
                      show c3.heap = hh
                      rw [(fill_clock_cb_spec dr t c c3 r hc).1]
                      exact hp)
                    fuel (some root) _ 0 c2 hv rfl
                rw [hheap] at hfuel
                rw [Loaded_for_each sys none false _ hh root f hld _ _ fuel (by omega)] at hv
                simp only [Option.some.injEq, Prod.mk.injEq] at hv
                obtain ⟨v1, v2⟩ := hv
                have v0 : (visit (cb_of (fill_clock_cb dr)) (List.range' root (hh.size - root))
                    (some { p.user with heap := hh, clock_tree := some root })).1 = 0 := by
                  by_contra hne
                  rw [if_pos hne] at v1
                  omega
                obtain ⟨i1, i2, i3, i4⟩ := fill_visit dr (List.range' root (hh.size - root)) []
                  { p.user with heap := hh, clock_tree := some root } c2
                  (Prod.ext v0 v2) (fun _ _ hd => by simp at hd) (List.nodup_range' _ _)
                  (fun _ hd => by simp at hd) (fun _ _ _ hd => by simp at hd)
                have hmem : ∀ t, root ≤ t → t < c2.heap.size →
                    t ∈ ([] : List Nat) ∨ t ∈ List.range' root (hh.size - root) := by
                  intro t ht1 ht2
                  right
                  rw [List.mem_range'_1]
                  rw [hheap] at ht2
                  omega
                refine ⟨root, i2, by rw [hheap]; exact hl, ⟨fun t ht1 ht2 => ?_,
                  fun t u a ht1 ht2 hu1 hu2 => i4 t u a (hmem t ht1 ht2) (hmem u hu1 hu2)⟩, ?_⟩
                · obtain ⟨a, clk, _, a2, a3⟩ := i3 t (hmem t ht1 ht2)
                  exact ⟨a, clk, a2, a3⟩
                · trivial

/-! ## The operations of `clocks.c` leave cursors and scroll offsets alone -/

theorem cursors_set (ws : List windata) (i : Int) (wd wd2 : windata)
    (h : index ws i = some wd) (hc : wd2.cursor = wd.cursor)
    (hs : wd2.scrolling = wd.scrolling) : cursors (ws.set i.toNat wd2) = cursors ws := by
  unfold index at h
  split at h
  · simp at h
  · rw [List.get?_eq_getElem?] at h
    unfold cursors
    rw [List.map_set, hc, hs]
    apply List.ext_getElem?
    intro k
    by_cases hk : k = i.toNat
    · subst hk
      obtain ⟨hlt, hget⟩ := List.getElem?_eq_some_iff.1 h
      rw [List.getElem?_set_self (by simpa using hlt), List.getElem?_map, h]
      rfl
    · rw [List.getElem?_set_ne (Ne.symm hk)]

theorem display_set_row_data_cursors (dr : Draw) (win line : Int) (data : Option Nat)
    (attr : Int) (ws ws2 : List windata) (r : Int)
    (h : display_set_row_data dr win line data attr ws = some (r, ws2)) :
    cursors ws2 = cursors ws := by
  unfold display_set_row_data at h
  cases hi : index ws win with
  | none => rw [hi] at h; simp at h
  | some wd =>
    rw [hi] at h
    simp only [] at h
    split at h
    · simp at h
    · split at h
      · simp only [Option.some.injEq, Prod.mk.injEq] at h
        rw [← h.2]
      · rename_i wd1 hg
        have hwd1 : wd1.cursor = wd.cursor ∧ wd1.scrolling = wd.scrolling := by
          split at hg
          · split at hg
            · simp only [Option.some.injEq] at hg
              rw [← hg]
              exact ⟨rfl, rfl⟩
            · simp at hg
          · simp only [Option.some.injEq] at hg
            rw [← hg]
            exact ⟨rfl, rfl⟩
        split at h
        · simp only [Option.some.injEq, Prod.mk.injEq] at h
          rw [← h.2]
          exact cursors_set ws win wd _ hi hwd1.1 hwd1.2
        · simp at h

theorem display_print_line_cursors (dr : Draw) (win line bold : Int) (data : Option Nat)
    (ws ws2 : List windata) (r : Int)
    (h : display_print_line dr win line bold data ws = some (r, ws2)) :
    cursors ws2 = cursors ws := by
  unfold display_print_line at h
  split at h
  · simp at h
  · simp only [] at h
    split at h
    · simp at h
    · rename_i r1 ws1 hset
      have e := display_set_row_data_cursors dr win line data _ ws ws1 r1 hset
      split at h
      · simp only [Option.some.injEq, Prod.mk.injEq] at h
        rw [← h.2]
        exact e
      · simp only [Option.some.injEq, Prod.mk.injEq] at h
        rw [← h.2]
        exact e

theorem display_reset_cursor_cursors (dr : Draw) (win : Int) (ws ws2 : List windata) (r : Int)
    (h : display_reset_cursor dr win ws = some (r, ws2)) : cursors ws2 = cursors ws := by
  unfold display_reset_cursor at h
  cases hi : index ws win with
  | none => rw [hi] at h; simp at h
  | some wd =>
    rw [hi] at h
    simp only [Option.some.injEq, Prod.mk.injEq] at h
    rw [← h.2]
    exact cursors_set ws win wd _ hi rfl rfl

theorem print_cb_cursors (dr : Draw) (c : Clocks) (t : Nat) (d d2 : Int × List windata)
    (r : Int) (h : _clock_print_info_cb dr c t d = some (r, d2)) :
    cursors d2.2 = cursors d.2 := by
  unfold _clock_print_info_cb at h
  split at h
  · simp at h
  · split at h
    · simp only [Option.some.injEq, Prod.mk.injEq] at h
      rw [← h.2]
    · split at h
      · simp at h
      · split at h
        · simp only [Option.some.injEq, Prod.mk.injEq] at h
          rw [← h.2]
        · split at h
          · simp at h
          · rename_i r1 ws1 hp
            simp only [Option.some.injEq, Prod.mk.injEq] at h
            rw [← h.2]
            exact display_print_line_cursors dr CLOCK d.1 _ _ d.2 ws1 r1 hp

theorem clock_print_info_cb_cursors (dr : Draw) (c : Clocks) (fuel t : Nat)
    (d d2 : Int × List windata) (r : Int)
    (h : clock_print_info_cb dr c fuel t d = some (r, d2)) :
    cursors d2.2 = cursors d.2 := by
  unfold clock_print_info_cb at h
  split at h
  · simp at h
  · split at h
    · simp only [Option.some.injEq, Prod.mk.injEq] at h
      rw [← h.2]
    · split at h
      · simp at h
      · split at h
        · simp only [Option.some.injEq, Prod.mk.injEq] at h
          rw [← h.2]
        · exact print_cb_cursors dr c t d d2 r h

/-- A property of the data that every call of the callback keeps is kept by
`tree_for_each_parent`. -/
theorem tree_for_each_parent_inv {σ : Type} (h : Heap) (f : Nat → σ → Option (Int × σ))
    (P : σ → Prop) (hP : ∀ t c r c2, f t c = some (r, c2) → P c → P c2) :
    ∀ (fuel : Nat) (tree : Option Nat) (d : Option σ) (r : Int) (c2 : σ),
      tree_for_each_parent h (cb_of f) fuel tree d = some (r, some c2) →
      (∀ c, d = some c → P c) → P c2 := by
  intro fuel
  induction fuel with
  | zero => intro tree d r c2 hh _; simp [tree_for_each_parent] at hh
  | succ k ih =>
    intro tree d r c2 hh hd
    cases tree with
    | none =>
      simp only [tree_for_each_parent, Option.some.injEq, Prod.mk.injEq] at hh
      exact hd c2 hh.2
    | some t =>
      simp only [tree_for_each_parent] at hh
      cases hp : tree_for_each_parent h (cb_of f) k (h.cell t).parent d with
      | none => rw [hp] at hh; simp at hh
      | some y =>
        obtain ⟨r1, d1⟩ := y
        rw [hp] at hh
        simp only [] at hh
        by_cases hr1 : r1 ≠ 0
        · rw [if_pos hr1] at hh
          simp only [Option.some.injEq, Prod.mk.injEq] at hh
          obtain ⟨_, e⟩ := hh
          subst e
          exact ih _ d r1 c2 hp hd
        · rw [if_neg hr1] at hh
          cases d1 with
          | none => simp [cb_of] at hh
          | some c1 =>
            have hc1 := ih _ d r1 c1 hp hd
            cases hf : f t c1 with
            | none => simp [cb_of, hf] at hh
            | some z =>
              obtain ⟨r3, c3⟩ := z
              simp only [cb_of, Option.some_bind, hf, Option.some.injEq, Prod.mk.injEq] at hh
              obtain ⟨_, e⟩ := hh
              subst e
              exact hP t c1 r3 c3 hf hc1

theorem cb_result_some {σ : Type} (x : Option (Int × Option σ)) (r : Int) (d : σ)
    (h : cb_result x = some (r, d)) : x = some (r, some d) := by
  cases x with
  | none => simp [cb_result] at h
  | some y =>
    obtain ⟨r1, d1⟩ := y
    cases d1 with
    | none => simp [cb_result] at h
    | some d2 =>
      simp only [cb_result, Option.some.injEq, Prod.mk.injEq] at h
      rw [h.1, h.2]

theorem clock_print_info_cursors (dr : Draw) (c : Clocks) (fuel : Nat) (tree : Option Nat)
    (ws ws2 : List windata) (r : Int)
    (h : clock_print_info dr c fuel tree ws = some (r, ws2)) : cursors ws2 = cursors ws := by
  unfold clock_print_info at h
  split at h
  · simp at h
  · rename_i r1 ws1 hreset
    have e1 := display_reset_cursor_cursors dr CLOCK ws ws1 r1 hreset
    split at h
    · simp at h
    · rename_i ret line ws3 hv
      have hv2 := cb_result_some _ ret (line, ws3) hv
      have e2 := tree_for_each_inv c.heap (clock_print_info_cb dr c fuel)
        (fun d => cursors d.2 = cursors ws)
        (fun t d r d2 hc hp => by
          show cursors d2.2 = cursors ws
          rw [clock_print_info_cb_cursors dr c fuel t d d2 r hc]
          exact hp) fuel tree (0, ws1) ret (line, ws3) hv2 e1
      split at h
      · simp at h
      · simp only [Option.some.injEq, Prod.mk.injEq] at h
        rw [← h.2]
        exact e2

theorem clock_find_loop_cursors (dr : Draw) (c : Clocks) :
    ∀ (l : List (Option Nat)) (d d2 : Int × List windata) (r : Int),
      clock_find_loop dr c l d = some (r, d2) → cursors d2.2 = cursors d.2 := by
  intro l
  induction l with
  | nil =>
    intro d d2 r h
    simp only [clock_find_loop, Option.some.injEq, Prod.mk.injEq] at h
    rw [← h.2]
  | cons x xs ih =>
    intro d d2 r h
    cases x with
    | none => simp [clock_find_loop] at h
    | some t =>
      simp only [clock_find_loop] at h
      split at h
      · simp at h
      · rename_i ret d1 hcb
        have e1 := print_cb_cursors dr c t d d1 ret hcb
        split at h
        · simp only [Option.some.injEq, Prod.mk.injEq] at h
          rw [← h.2]
          exact e1
        · rw [ih d1 d2 r h, e1]

/-- The four operations of `clocks.c` leave the cursor and the scroll offset of
every panel as they are. -/
theorem clock_code_keeps_cursor (sys : Sys) (dr : Draw) (fuel : Nat) :
    (∀ f b, keeps_cursor ((clock_code sys dr fuel).display f b)) ∧
    (∀ f, keeps_cursor ((clock_code sys dr fuel).select f)) ∧
    (∀ f s, keeps_cursor ((clock_code sys dr fuel).find f s)) ∧
    (∀ f, keeps_cursor ((clock_code sys dr fuel).selectf f)) := by
  refine ⟨fun f b p r p2 h => ?_, fun f p r p2 h => ?_, fun f s p r p2 h => ?_,
    fun f p r p2 h => ?_⟩
  · simp only [clock_code] at h
    split at h
    · unfold clock_display at h
      simp only [] at h
      split at h
      · simp at h
      · split at h
        · simp only [Option.some.injEq, Prod.mk.injEq] at h
          rw [← h.2]
        · cases hp : clock_print_info dr _ fuel _ p.windata with
          | none => rw [hp] at h; simp at h
          | some y =>
            rw [hp] at h
            simp only [Option.map_some', Option.some.injEq, Prod.mk.injEq] at h
            rw [← h.2]
            exact clock_print_info_cursors dr _ fuel _ p.windata y.2 y.1 hp
    · simp at h
  · simp only [clock_code] at h
    split at h
    · rw [clock_select_windata p p2 r h]
    · simp at h
  · simp only [clock_code] at h
    split at h
    · unfold clock_find at h
      split at h
      · simp at h
      · split at h
        · simp at h
        · rename_i r1 ws1 hreset
          have e1 := display_reset_cursor_cursors dr CLOCK p.windata ws1 r1 hreset
          simp only [] at h
          split at h
          · simp at h
          · split at h
            · simp at h
            · rename_i ret line ws2 hloop
              have e2 := clock_find_loop_cursors dr p.user _ (0, ws1) (line, ws2) ret hloop
              split at h
              · simp at h
              · simp only [Option.some.injEq, Prod.mk.injEq] at h
                rw [← h.2]
                exact e2.trans e1
    · simp at h
  · simp only [clock_code] at h
    split at h
    · unfold clock_selectf at h
      split at h
      · simp at h
      · split at h
        · simp at h
        · rename_i r1 ws1 hreset
          have e1 := display_reset_cursor_cursors dr CLOCK p.windata ws1 r1 hreset
          split at h
          · simp at h
          · rename_i ret line ws2 hv
            have hv2 := cb_result_some _ ret (line, ws2) hv
            have e2 := tree_for_each_parent_inv p.user.heap (_clock_print_info_cb dr p.user)
              (fun d => cursors d.2 = cursors p.windata)
              (fun t d r d2 hc hp => by
                show cursors d2.2 = cursors p.windata
                rw [print_cb_cursors dr p.user t d d2 r hc]
                exact hp) fuel _ (some (0, ws1)) ret (line, ws2) hv2
              (fun c hc => by
                have := Option.some.inj hc
                subst this
                exact e1)
            split at h
            · simp only [Option.some.injEq, Prod.mk.injEq] at h
              rw [← h.2]
              exact e2
            · cases hr : display_refresh_pad dr CLOCK ws2 with
              | none => rw [hr] at h; simp at h
              | some y =>
                rw [hr] at h
                simp only [Option.map_some', Option.some.injEq, Prod.mk.injEq] at h
                rw [← h.2]
                exact e2
    · simp at h

/-- The statements after the `switch` of `display_find_keystroke` when the `find` operation of
the focused panel, if there is one, returns for the query and keeps the
cursors. -/
theorem display_find_show_call {σ : Type} (code : Code σ) (findd : Nat) (w : World σ)
    (wd : windata) (block : find_data) (s : List Char) (hwd : focused w = some wd)
    (hb : w.findh findd = some block) (hs : c_str block.string = s)
    (hfind : ∀ f, wd.ops.bind (fun ops => ops.find) = some f →
      keeps_cursor (code.find f s) ∧ (code.find f s ⟨w.windata, w.user⟩).isSome = true) :
    ∃ r w2, display_find_show code findd w = some (r, w2) ∧
      cursors w2.windata = cursors w.windata := by
  unfold focused at hwd
  unfold display_find_show
  rw [hwd]
  simp only []
  cases hop : wd.ops.bind (fun ops => ops.find) with
  | none => exact ⟨_, _, rfl, rfl⟩
  | some f =>
    obtain ⟨hkeep, hsome⟩ := hfind f hop
    simp only [hb, hs]
    cases hc : code.find f s ⟨w.windata, w.user⟩ with
    | none => rw [hc] at hsome; simp at hsome
    | some x =>
      obtain ⟨r1, p2⟩ := x
      have hcur := hkeep _ r1 p2 hc
      simp only [] at hcur
      simp only [call_op, hc, display_show_header, display_show_footer, ne_eq,
        not_true_eq_false, if_false]
      by_cases hr : r1 = 0
      · simp only [hr, not_true_eq_false, if_false]
        exact ⟨_, _, rfl, hcur⟩
      · simp only [hr, not_false_eq_true, if_true]
        exact ⟨_, _, rfl, hcur⟩

/-- The state in which `display_find_keystroke` reaches the statements after its `switch`
for Backspace. -/
theorem edited_backspace {σ : Type} (w : World σ) (findd : Nat) (block : find_data)
    (q : List Char) (wd : windata) (hb : w.findh findd = some block)
    (hq : holds_query block.string q) (hwd : focused w = some wd) :
    focused (edited (getch w).2 findd block q wd KEY_BACKSPACE) =
      some { wd with cursor := 0, scrolling := 0 } ∧
    (edited (getch w).2 findd block q wd KEY_BACKSPACE).windata =
      w.windata.set w.current_win.toNat { wd with cursor := 0, scrolling := 0 } ∧
    (edited (getch w).2 findd block q wd KEY_BACKSPACE).user = w.user ∧
    (edited (getch w).2 findd block q wd KEY_BACKSPACE).current_win = w.current_win ∧
    ∃ string, (edited (getch w).2 findd block q wd KEY_BACKSPACE).findh findd =
        some { block with string := string } ∧ holds_query string q.dropLast := by
  obtain ⟨fg, wg, ug, _⟩ := getch_frame w
  have hwd1 : focused (getch w).2 = some wd := by rw [focused_getch]; exact hwd
  have hb1 : (getch w).2.findh findd = some block := by rw [fg.1]; exact hb
  have hed : edited (getch w).2 findd block q wd KEY_BACKSPACE =
      set_current
        (if q.length ≠ 0 then
          set_string (getch w).2 findd block (block.string.set (q.length - 1) NUL)
        else (getch w).2) { wd with cursor := 0, scrolling := 0 } := by
    unfold edited
    rw [if_pos rfl]
  refine ⟨focused_edited _ findd block q wd _ hwd1, ?_, ?_, ?_, ?_⟩
  · rw [hed]
    by_cases hz : q.length ≠ 0
    · rw [if_pos hz]
      simp only [set_current, set_string, wg, fg.2.2.2.1]
    · rw [if_neg hz]
      simp only [set_current, wg, fg.2.2.2.1]
  · rw [hed]
    by_cases hz : q.length ≠ 0
    · rw [if_pos hz]
      simp only [set_current, set_string, ug]
    · rw [if_neg hz]
      simp only [set_current, ug]
  · rw [hed]
    by_cases hz : q.length ≠ 0
    · rw [if_pos hz]
      simp only [set_current, set_string, fg.2.2.2.1]
    · rw [if_neg hz]
      simp only [set_current, fg.2.2.2.1]
  · rw [hed]
    by_cases hz : q.length ≠ 0
    · have hne : q ≠ [] := fun e => hz (by rw [e]; rfl)
      refine ⟨block.string.set (q.length - 1) NUL, ?_, holds_query_erase _ _ hq hne⟩
      rw [if_pos hz]
      simp only [set_current, set_string, if_true]
    · have he : q = [] := List.length_eq_zero.1 (not_not.1 hz)
      refine ⟨block.string, ?_, by rw [he]; rw [he] at hq; exact hq⟩
      rw [if_neg hz]
      simp only [set_current, hb1]

/-! ## Switching between Normal and Find mode: every outcome -/

/-- Where the model of `tree_load` gives no result for a root path: the allocation
succeeds and the path has no `/`, so that `tree_alloc` computes `name` from the `NULL` of
`strrchr`. -/
theorem tree_load_without_slash (sys : Sys) (fuel : Nat) (h : Heap) (path : List Char)
    (filter : tree_filter_t) (follow : Bool) (hm : sys.malloc_ok path = true)
    (hp : '/' ∉ path) : tree_load sys fuel h path filter follow = none := by
  unfold tree_load tree_alloc
  rw [strrchr_not_mem '/' path hp]
  simp [hm]

/-! ## The claims -/

/-- C1: on a tree returned by `tree_load`, `tree_for_each` started at the root
with a callback that always returns 0 returns 0 and calls the callback once on
every node of the tree (the nodes `tree_load` allocated: the addresses from
`root` up to the size of the heap; `order` holds each of them once), in
pre-order: a node, then the subtrees of its children in the order of its child
list; and the child list of every node follows the enumeration order of the
entries of its directory that `tree_scan` selects. -/
theorem tree_for_each_preorder {σ : Type} (sys : Sys) (fuel : Nat) (h h2 : Heap)
    (path : List Char) (filter : tree_filter_t) (follow : Bool) (root : Nat)
    (hload : tree_load sys fuel h path filter follow = some (h2, some root))
    (cb : tree_cb_t σ) (hcb : ∀ t d, (cb t d).1 = 0) (data : σ) :
    root = h.size ∧
    ∃ order : List Nat,
      order.Nodup ∧ (∀ n, n ∈ order ↔ root ≤ n ∧ n < h2.size) ∧
      (∀ k, h2.size - root < k → pre_order h2 k root = some order) ∧
      (∀ k, h2.size - root < k →
        tree_for_each h2 cb k (some root) data =
          some (0, order.foldl (fun d t => (cb t d).2) data)) ∧
      (∀ n ∈ order, ∃ entries ks, sys.opendir (h2.cell n).path = some entries ∧
        (∀ k, ks.length < k → child_list h2 k (h2.cell n).child = some ks) ∧
        ks.map (fun c => (h2.cell c).path) =
          (entries.filter (wanted sys filter follow (h2.cell n).path)).map
            (entry_path (h2.cell n).path)) := by
  obtain ⟨hroot, _, f, hl⟩ := tree_load_spec sys fuel h h2 path filter follow root hload
  refine ⟨hroot, List.range' root (h2.size - root), List.nodup_range' _ _, ?_, ?_, ?_, ?_⟩
  · intro n
    rw [List.mem_range'_1]
    have := hl.1
    omega
  · exact fun k hk => Loaded_pre_order sys filter follow path h2 root f hl k hk
  · intro k hk
    rw [Loaded_for_each sys filter follow path h2 root f hl cb data k hk, visit_zero cb hcb]
    simp
  · intro n hn
    rw [List.mem_range'_1] at hn
    obtain ⟨ks, ⟨entries, hopen, hc, _, _, _, _, hmap⟩, _⟩ :=
      Loaded_node sys filter follow path h2 root f hl n hn.1 (by omega)
    exact ⟨entries, ks, hopen, child_list_of_chain h2 (some n) ks _ _ hc, hmap⟩

/-- Witness of C1: the scenario of the specification, `/a` holding `b` then
`c`: the visit order is root, `b`, `c`. -/
theorem tree_for_each_preorder_witness :
    tree_load sys_ab 2 heap0 "/a".toList none false = some (tree_ab, some 0) ∧
    (∀ t d, (log_name tree_ab t d).1 = 0) ∧
    tree_for_each tree_ab (log_name tree_ab) 4 (some 0) [] =
      some (0, ["a".toList, "b".toList, "c".toList]) := by
  refine ⟨rfl, fun _ _ => rfl, ?_⟩
  obtain ⟨_, order, _, _, hpo, hfe, _⟩ := tree_for_each_preorder sys_ab 2 heap0 tree_ab
    "/a".toList none false 0 rfl (log_name tree_ab) (fun _ _ => rfl) []
  have ho : order = [0, 1, 2] :=
    Option.some.inj ((hpo 4 (by decide)).symm.trans (by rfl))
  subst ho
  exact hfe 4 (by decide)

/-- C2: in a tree returned by `tree_load`, the `nrchild` of every node is the
length of its child list (the nodes reached from `child` by following `next`),
and that is the number of nodes the scan created for it: the nodes of the tree
whose `parent` it is, one for each entry of its directory that `tree_scan`
selects. -/
theorem nrchild_counts_children (sys : Sys) (fuel : Nat) (h h2 : Heap) (path : List Char)
    (filter : tree_filter_t) (follow : Bool) (root : Nat)
    (hload : tree_load sys fuel h path filter follow = some (h2, some root))
    (n : Nat) (hn1 : root ≤ n) (hn2 : n < h2.size) :
    ∃ ks entries,
      (∀ k, ks.length < k → child_list h2 k (h2.cell n).child = some ks) ∧
      (h2.cell n).nrchild = ks.length ∧
      ks.length = ((List.range' root (h2.size - root)).filter
        (fun x => decide ((h2.cell x).parent = some n))).length ∧
      sys.opendir (h2.cell n).path = some entries ∧
      ks.length = (entries.filter (wanted sys filter follow (h2.cell n).path)).length := by
  obtain ⟨_, _, f, hl⟩ := tree_load_spec sys fuel h h2 path filter follow root hload
  obtain ⟨ks, ⟨entries, hopen, hc, hnr, _, _, _, hmap⟩, hnd, hrange, hpar⟩ :=
    Loaded_node sys filter follow path h2 root f hl n hn1 hn2
  refine ⟨ks, entries, child_list_of_chain h2 (some n) ks _ _ hc, hnr, ?_, hopen, ?_⟩
  · apply List.Perm.length_eq
    rw [List.perm_ext_iff_of_nodup hnd ((List.nodup_range' _ _).filter _)]
    intro x
    simp only [List.mem_filter, List.mem_range'_1, decide_eq_true_eq]
    constructor
    · intro hx
      obtain ⟨h1, h3⟩ := hrange x hx
      exact ⟨⟨by omega, by omega⟩, (hpar x (by omega) h3).2 hx⟩
    · rintro ⟨⟨h1, h2'⟩, h3⟩
      exact (hpar x h1 (by omega)).1 h3
  · have := congrArg List.length hmap
    simpa using this

/-- Witness of C2: the root of the tree over `/a` (entries `.`, `..`, `b`,
`c`) has `nrchild` 2 and the child list `[1, 2]`. -/
theorem nrchild_counts_children_witness :
    tree_load sys_ab 2 heap0 "/a".toList none false = some (tree_ab, some 0) ∧
    0 ≤ 0 ∧ 0 < tree_ab.size ∧ (tree_ab.cell 0).nrchild = 2 ∧
    child_list tree_ab 3 (tree_ab.cell 0).child = some [1, 2] ∧
    ∃ ks entries,
      (∀ k, ks.length < k → child_list tree_ab k (tree_ab.cell 0).child = some ks) ∧
      (tree_ab.cell 0).nrchild = ks.length ∧
      ks.length = ((List.range' 0 (tree_ab.size - 0)).filter
        (fun x => decide ((tree_ab.cell x).parent = some 0))).length ∧
      sys_ab.opendir (tree_ab.cell 0).path = some entries ∧
      ks.length = (entries.filter (wanted sys_ab none false (tree_ab.cell 0).path)).length :=
  ⟨rfl, by decide, by decide, rfl, rfl,
    nrchild_counts_children sys_ab 2 heap0 tree_ab "/a".toList none false 0 rfl 0 (by decide)
      (by decide)⟩

/-- C3 (the code departs from the claim): below a chain of 256 nested
directories `tree_load` returns a tree in which the node 256 levels below the
root, whose parent has depth 255, has the stored depth 0, not 256. -/
theorem depth_wraps_at_256 :
    tree_load sys_deep 300 heap0 "/r".toList none false = some (tree_deep, some 0) ∧
    tree_deep.size = 257 ∧
    (tree_deep.cell 256).parent = some 255 ∧ (tree_deep.cell 255).depth = 255 ∧
    (tree_deep.cell 256).depth = 0 ∧
    (tree_deep.cell 256).depth ≠ (tree_deep.cell 255).depth + 1 :=
  ⟨rfl, by decide, by decide, by decide, by decide, by decide⟩

/-- C4: in a tree returned by `tree_load`, for a node `n` at depth `d` below
the root and a callback that always returns 0, `tree_for_each_parent(n)`
returns 0 and calls the callback on exactly `d + 1` nodes: the chain of
ancestors of `n` from the root down, the root first and `n` itself last.
(The stored `depth` of `n` is `d` modulo 256, and every node of the tree lies
at some depth.) -/
theorem tree_for_each_parent_root_first {σ : Type} (sys : Sys) (fuel : Nat) (h h2 : Heap)
    (path : List Char) (filter : tree_filter_t) (follow : Bool) (root : Nat)
    (hload : tree_load sys fuel h path filter follow = some (h2, some root))
    (cb : tree_cb_t σ) (hcb : ∀ t d, (cb t d).1 = 0) (data : σ)
    (fuel2 d : Nat) (level : List Nat) (hlevel : at_depth h2 fuel2 root d = some level)
    (n : Nat) (hn : n ∈ level) :
    ∃ anc : List Nat,
      anc.length = d + 1 ∧ anc.head? = some root ∧ anc.getLast? = some n ∧
      (∀ k, d + 1 < k → ancestors h2 k (some n) = some anc) ∧
      (∀ k, d + 1 < k →
        tree_for_each_parent h2 cb k (some n) data =
          some (0, anc.foldl (fun dd t => (cb t dd).2) data)) ∧
      (h2.cell n).depth = d % 256 ∧
      ∀ m, root ≤ m → m < h2.size →
        ∃ d2 level2, at_depth h2 (h2.size + 1) root d2 = some level2 ∧ m ∈ level2 := by
  obtain ⟨_, _, f, hl⟩ := tree_load_spec sys fuel h h2 path filter follow root hload
  obtain ⟨_, _, hdep, anc, hlen, hanc, hhead, hlast⟩ :=
    Loaded_at_depth sys filter follow path h2 root f hl fuel2 d level hlevel n hn
  have hk : ∀ k, d + 1 < k → ancestors h2 k (some n) = some anc :=
    fun k hk => ancestors_mono h2 (d + 2) _ anc hanc k (by omega)
  refine ⟨anc, hlen, hhead, hlast, hk, fun k hk2 => ?_, hdep,
    every_node_at_depth sys fuel h h2 path filter follow root hload⟩
  rw [tree_for_each_parent_eq h2 cb k _ anc data (hk k hk2), visit_parents_zero cb hcb]

/-- Witness of C4: in the tree over `/a` the node 2 (`/a/b/d`) is at depth 2
and `tree_for_each_parent` visits the nodes 0, 1, 2. -/
theorem tree_for_each_parent_root_first_witness :
    tree_load sys_abd 3 heap0 "/a".toList none false = some (tree_abd, some 0) ∧
    (∀ t d, (log_node t d).1 = 0) ∧
    at_depth tree_abd 5 0 2 = some [2] ∧ 2 ∈ [2] ∧
    tree_for_each_parent tree_abd log_node 4 (some 2) [] = some (0, [0, 1, 2]) ∧
    ∃ anc : List Nat,
      anc.length = 2 + 1 ∧ anc.head? = some 0 ∧ anc.getLast? = some 2 ∧
      (∀ k, 2 + 1 < k → ancestors tree_abd k (some 2) = some anc) ∧
      (∀ k, 2 + 1 < k →
        tree_for_each_parent tree_abd log_node k (some 2) [] =
          some (0, anc.foldl (fun dd t => (log_node t dd).2) [])) ∧
      (tree_abd.cell 2).depth = 2 % 256 ∧
      ∀ m, 0 ≤ m → m < tree_abd.size →
        ∃ d2 level2, at_depth tree_abd (tree_abd.size + 1) 0 d2 = some level2 ∧ m ∈ level2 :=
  ⟨rfl, fun _ _ => rfl, rfl, by decide, by decide,
    tree_for_each_parent_root_first sys_abd 3 heap0 tree_abd "/a".toList none false 0 rfl
      log_node (fun _ _ => rfl) [] 5 2 [2] rfl 2 (by decide)⟩

/-- C5: on a tree returned by `tree_load`, when the callback returns non-zero
on a node `t` (having returned 0 on the nodes `before` it in the traversal
order), `tree_for_each` and `tree_for_each_parent` return a non-zero value and
the data is as that call left it: the callback is called on no later node.
The order is the pre-order of the tree for `tree_for_each`, the chain of
ancestors from the root down for `tree_for_each_parent`. -/
theorem traversal_stops_at_failure {σ : Type} (sys : Sys) (fuel : Nat) (h h2 : Heap)
    (path : List Char) (filter : tree_filter_t) (follow : Bool) (root : Nat)
    (hload : tree_load sys fuel h path filter follow = some (h2, some root))
    (cb : tree_cb_t σ) (data : σ) :
    (∀ (before after : List Nat) (t : Nat),
      List.range' root (h2.size - root) = before ++ t :: after →
      (visit cb before data).1 = 0 → (cb t (visit cb before data).2).1 ≠ 0 →
      (∀ k, h2.size - root < k → pre_order h2 k root = some (before ++ t :: after)) ∧
      ∀ k, h2.size - root < k →
        tree_for_each h2 cb k (some root) data = some (-1, (cb t (visit cb before data).2).2)) ∧
    (∀ n, root ≤ n → n < h2.size →
      ∃ anc, (∀ k, n - root + 1 < k → ancestors h2 k (some n) = some anc) ∧
        ∀ (before after : List Nat) (t : Nat), anc = before ++ t :: after →
          (visit cb before data).1 = 0 → (cb t (visit cb before data).2).1 ≠ 0 →
          ∀ k, n - root + 1 < k →
            ∃ r, r ≠ 0 ∧
              tree_for_each_parent h2 cb k (some n) data =
                some (r, (cb t (visit cb before data).2).2)) := by
  obtain ⟨_, _, f, hl⟩ := tree_load_spec sys fuel h h2 path filter follow root hload
  constructor
  · intro before after t horder h0 h1
    refine ⟨fun k hk => ?_, fun k hk => ?_⟩
    · rw [← horder]
      exact Loaded_pre_order sys filter follow path h2 root f hl k hk
    · rw [Loaded_for_each sys filter follow path h2 root f hl cb data k hk, horder,
        visit_stop cb before after t data h0 h1]
      simp [h1]
  · intro n hn1 hn2
    obtain ⟨anc, hlen, hanc, _, _⟩ :=
      ancestors_exist sys fuel h h2 path filter follow root hload n hn1 hn2
    have hk : ∀ k, n - root + 1 < k → ancestors h2 k (some n) = some anc :=
      fun k hk => ancestors_mono h2 _ _ anc hanc k (by omega)
    refine ⟨anc, hk, ?_⟩
    intro before after t hsplit h0 h1 k hk2
    obtain ⟨e1, e2⟩ := visit_parents_visit cb anc data
    rw [hsplit, visit_stop cb before after t data h0 h1] at e1 e2
    refine ⟨(visit_parents cb (before ++ t :: after) data).1, e1.2 h1, ?_⟩
    rw [tree_for_each_parent_eq h2 cb k _ anc data (hk k hk2), hsplit, ← e2]

/-- Witness of C5: in the tree over `/a` (nodes 0, 1, 2, 3 in pre-order), a
callback that fails on node 1 stops `tree_for_each` after the nodes 0, 1, and
stops `tree_for_each_parent` from node 2 after the nodes 0, 1. -/
theorem traversal_stops_at_failure_witness :
    tree_load sys_abd 3 heap0 "/a".toList none false = some (tree_abd, some 0) ∧
    tree_for_each tree_abd (log_fail_at 1) 5 (some 0) [] = some (-1, [0, 1]) ∧
    tree_for_each_parent tree_abd (log_fail_at 1) 5 (some 2) [] = some (-1, [0, 1]) ∧
    (∀ k, tree_abd.size - 0 < k →
      tree_for_each tree_abd (log_fail_at 1) k (some 0) [] =
        some (-1, (log_fail_at 1 1 (visit (log_fail_at 1) [0] []).2).2)) := by
  have hw := traversal_stops_at_failure sys_abd 3 heap0 tree_abd "/a".toList none false 0 rfl
    (log_fail_at 1) []
  exact ⟨rfl, by decide, by decide, (hw.1 [0] [2, 3] 1 (by decide) (by decide) (by decide)).2⟩

/-- C6 (amended): on a tree returned by `tree_load`, for a query `q` that is
not empty, `matches` being the nodes whose name's first `len(q)` characters
equal `q`, in pre-order: when no node matches, `tree_finds` returns 0 and
leaves the caller's pointer as it was; when the array for the `n > 0` matches
can be allocated, it returns `n` and the array holds exactly the matching
nodes, each once, in pre-order; when that `malloc` fails, it returns -1 and the
caller's pointer is `NULL`. -/
theorem tree_finds_prefix_matches (sys : Sys) (fuel : Nat) (h h2 : Heap) (path : List Char)
    (filter : tree_filter_t) (follow : Bool) (root : Nat)
    (hload : tree_load sys fuel h path filter follow = some (h2, some root))
    (sys2 : Sys) (q : List Char) (hq : q ≠ []) (ptr0 : Option (List (Option Nat))) :
    ∃ order found : List Nat,
      (∀ k, h2.size - root < k → pre_order h2 k root = some order) ∧
      found = order.filter (fun t => decide ((h2.cell t).name.take q.length = q)) ∧
      ∀ k, h2.size - root < k →
        tree_finds sys2 h2 k (some root) q ptr0 =
          some (if found = [] then (0, ptr0)
            else if sys2.array_ok found.length = false then (-1, none)
            else ((found.length : Int), some (found.map some))) := by
  obtain ⟨_, _, f, hl⟩ := tree_load_spec sys fuel h h2 path filter follow root hload
  exact ⟨List.range' root (h2.size - root), _,
    fun k hk => Loaded_pre_order sys filter follow path h2 root f hl k hk, rfl,
    fun k hk => Loaded_finds sys filter follow path h2 root f hl sys2 q hq ptr0 k hk _ rfl⟩

/-- Witness of C6: in the tree over `/a` (names `a`, `b`, `d`, `c`) the query
`b` has exactly one match, the node 1 named `b`. -/
theorem tree_finds_prefix_matches_witness :
    tree_load sys_abd 3 heap0 "/a".toList none false = some (tree_abd, some 0) ∧
    "b".toList ≠ [] ∧
    tree_finds sys_abd tree_abd 5 (some 0) "b".toList none = some (1, some [some 1]) ∧
    ∃ order found : List Nat,
      (∀ k, tree_abd.size - 0 < k → pre_order tree_abd k 0 = some order) ∧
      found = order.filter
        (fun t => decide ((tree_abd.cell t).name.take "b".toList.length = "b".toList)) ∧
      ∀ k, tree_abd.size - 0 < k →
        tree_finds sys_abd tree_abd k (some 0) "b".toList none =
          some (if found = [] then (0, none)
            else if sys_abd.array_ok found.length = false then (-1, none)
            else ((found.length : Int), some (found.map some))) :=
  ⟨rfl, by decide, by decide,
    tree_finds_prefix_matches sys_abd 3 heap0 tree_abd "/a".toList none false 0 rfl sys_abd
      "b".toList (by decide) none⟩

/-- C6 as stated fails when `malloc` fails: in the tree over `/a` one node
matches the query `b`, and `tree_finds` returns -1, not 1, when the result
array cannot be allocated. -/
theorem tree_finds_malloc_failure :
    tree_load sys_abd_nomem 3 heap0 "/a".toList none false = some (tree_abd, some 0) ∧
    ((List.range' 0 tree_abd.size).filter
      (fun t => decide ((tree_abd.cell t).name.take "b".toList.length = "b".toList))) = [1] ∧
    tree_finds sys_abd_nomem tree_abd 5 (some 0) "b".toList none = some (-1, none) :=
  ⟨rfl, by decide, by decide⟩

/-- C7: `tree_finds` with the empty query returns 0 and leaves the caller's
result pointer as it was: on a tree returned by `tree_load` whatever the
pointer held, and on any heap and any `tree` pointer whenever the traversal
returns at all. -/
theorem tree_finds_empty_query (sys : Sys) (fuel : Nat) (h h2 : Heap) (path : List Char)
    (filter : tree_filter_t) (follow : Bool) (root : Nat)
    (hload : tree_load sys fuel h path filter follow = some (h2, some root))
    (sys2 : Sys) (ptr0 : Option (List (Option Nat))) :
    (∀ k, h2.size - root < k → tree_finds sys2 h2 k (some root) [] ptr0 = some (0, ptr0)) ∧
    ∀ (h3 : Heap) (fuel3 : Nat) (tree : Option Nat),
      tree_finds sys2 h3 fuel3 tree [] ptr0 = none ∨
        tree_finds sys2 h3 fuel3 tree [] ptr0 = some (0, ptr0) := by
  have hgen : ∀ (h3 : Heap) (fuel3 : Nat) (tree : Option Nat),
      tree_finds sys2 h3 fuel3 tree [] ptr0 = none ∨
        tree_finds sys2 h3 fuel3 tree [] ptr0 = some (0, ptr0) := by
    intro h3 fuel3 tree
    unfold tree_finds
    rcases tree_for_each_finds_empty h3 fuel3 tree { nr := 0, name := [], ptree := none } rfl
      with e | e
    · rw [e]; exact Or.inl rfl
    · rw [e]; exact Or.inr (by simp)
  refine ⟨fun k hk => ?_, hgen⟩
  obtain ⟨_, _, f, hl⟩ := tree_load_spec sys fuel h h2 path filter follow root hload
  unfold tree_finds
  rw [Loaded_for_each sys filter follow path h2 root f hl _ _ k hk,
    visit_finds_empty h2 _ _ rfl]
  simp

/-- Witness of C7: on the tree over `/a` the empty query returns 0 and the
caller's pointer keeps its value, here an array holding node 3. -/
theorem tree_finds_empty_query_witness :
    tree_load sys_abd 3 heap0 "/a".toList none false = some (tree_abd, some 0) ∧
    tree_finds sys_abd tree_abd 5 (some 0) [] (some [some 3]) = some (0, some [some 3]) :=
  ⟨rfl, (tree_finds_empty_query sys_abd 3 heap0 tree_abd "/a".toList none false 0 rfl sys_abd
    (some [some 3])).1 5 (by decide)⟩

/-- C8: on a tree returned by `tree_load`, `tree_find(tree, name)` returns the
first node, in the order in which `tree_for_each` reaches the nodes (the
pre-order of the tree), whose name is `name`; it returns `NULL` exactly when no
node of the tree has that name. -/
theorem tree_find_first_in_preorder (sys : Sys) (fuel : Nat) (h h2 : Heap) (path : List Char)
    (filter : tree_filter_t) (follow : Bool) (root : Nat)
    (hload : tree_load sys fuel h path filter follow = some (h2, some root))
    (name : List Char) :
    ∃ order : List Nat,
      (∀ k, h2.size - root < k → pre_order h2 k root = some order) ∧
      (∀ k, h2.size - root < k →
        tree_for_each h2 log_node k (some root) [] = some (0, order)) ∧
      (∀ k, h2.size - root < k →
        tree_find h2 k (some root) name =
          some (order.find? (fun t => decide ((h2.cell t).name = name)))) ∧
      (order.find? (fun t => decide ((h2.cell t).name = name)) = none ↔
        ∀ n, root ≤ n → n < h2.size → (h2.cell n).name ≠ name) := by
  obtain ⟨_, _, f, hl⟩ := tree_load_spec sys fuel h h2 path filter follow root hload
  refine ⟨List.range' root (h2.size - root), ?_, ?_, ?_, ?_⟩
  · exact fun k hk => Loaded_pre_order sys filter follow path h2 root f hl k hk
  · intro k hk
    rw [Loaded_for_each sys filter follow path h2 root f hl log_node [] k hk,
      visit_zero log_node (fun _ _ => rfl), foldl_log_node]
    simp
  · exact fun k hk => Loaded_find sys filter follow path h2 root f hl name k hk
  · rw [List.find?_eq_none]
    constructor
    · intro hx n hn1 hn2
      have := hx n (by rw [List.mem_range'_1]; omega)
      simpa using this
    · intro hx n hn
      rw [List.mem_range'_1] at hn
      simpa using hx n hn.1 (by omega)

/-- Witness of C8: in the tree over `/a` the name `c` is found at node 2, and
the name `x` is not found. -/
theorem tree_find_first_in_preorder_witness :
    tree_load sys_ab 2 heap0 "/a".toList none false = some (tree_ab, some 0) ∧
    tree_find tree_ab 4 (some 0) "c".toList = some (some 2) ∧
    tree_find tree_ab 4 (some 0) "x".toList = some none ∧
    ∃ order : List Nat,
      (∀ k, tree_ab.size - 0 < k → pre_order tree_ab k 0 = some order) ∧
      (∀ k, tree_ab.size - 0 < k →
        tree_for_each tree_ab log_node k (some 0) [] = some (0, order)) ∧
      (∀ k, tree_ab.size - 0 < k →
        tree_find tree_ab k (some 0) "c".toList =
          some (order.find? (fun t => decide ((tree_ab.cell t).name = "c".toList)))) ∧
      (order.find? (fun t => decide ((tree_ab.cell t).name = "c".toList)) = none ↔
        ∀ n, 0 ≤ n → n < tree_ab.size → (tree_ab.cell n).name ≠ "c".toList) :=
  ⟨rfl, by decide, by decide,
    tree_find_first_in_preorder sys_ab 2 heap0 tree_ab "/a".toList none false 0 rfl "c".toList⟩

/-- C9: `tree_load` returns a tree only when every directory of the hierarchy
was opened and the `stat` of every entry that is neither hidden nor filtered
out succeeded: if one of them fails, what `tree_load` returns is not a tree.
The tree it returns is complete: every directory of the hierarchy has its node. -/
theorem tree_load_never_partial (sys : Sys) (fuel : Nat) (h h2 : Heap) (path : List Char)
    (filter : tree_filter_t) (follow : Bool) (root : Nat)
    (hload : tree_load sys fuel h path filter follow = some (h2, some root))
    (dir : List Char) (hdir : Reached sys filter follow path dir) :
    (∃ entries, sys.opendir dir = some entries ∧
      ∀ e ∈ entries, visible filter e = true → (sys.stat (entry_path dir e)).isSome = true) ∧
    ∃ n, root ≤ n ∧ n < h2.size ∧ (h2.cell n).path = dir := by
  obtain ⟨_, _, f, hl⟩ := tree_load_spec sys fuel h h2 path filter follow root hload
  have hnode : ∃ n, root ≤ n ∧ n < h2.size ∧ (h2.cell n).path = dir := by
    induction hdir with
    | top => exact ⟨root, le_refl _, hl.1, hl.2.2.2.2.2.2.1⟩
    | entry d entries e _ hopen he hw ih =>
      obtain ⟨n, hn1, hn2, hn3⟩ := ih
      obtain ⟨ks, ⟨entries2, hopen2, _, _, _, _, _, hmap⟩, _, hrange, _⟩ :=
        Loaded_node sys filter follow path h2 root f hl n hn1 hn2
      rw [hn3, hopen] at hopen2
      have e2 : entries = entries2 := Option.some.inj hopen2
      subst e2
      have hin : entry_path d e ∈ ks.map (fun k => (h2.cell k).path) := by
        rw [hmap, hn3]
        exact List.mem_map.2 ⟨e, List.mem_filter.2 ⟨he, hw⟩, rfl⟩
      obtain ⟨c, hc, hcp⟩ := List.mem_map.1 hin
      obtain ⟨h1, h3⟩ := hrange c hc
      exact ⟨c, by omega, h3, hcp⟩
  refine ⟨?_, hnode⟩
  obtain ⟨n, hn1, hn2, hn3⟩ := hnode
  obtain ⟨ks, ⟨entries, hopen, _, _, _, _, hstat, _⟩, _⟩ :=
    Loaded_node sys filter follow path h2 root f hl n hn1 hn2
  rw [hn3] at hopen hstat
  exact ⟨entries, hopen, hstat⟩

/-- Witness of C9: in the tree over `/a`, the directory `/a/b` was opened; and
when `/a/b` cannot be opened, `tree_load("/a", NULL, false)` returns `NULL`. -/
theorem tree_load_never_partial_witness :
    tree_load sys_ab 2 heap0 "/a".toList none false = some (tree_ab, some 0) ∧
    Reached sys_ab none false "/a".toList (entry_path "/a".toList "b".toList) ∧
    (tree_load sys_abd_locked 3 heap0 "/a".toList none false).map (fun r => r.2) = some none ∧
    ((∃ entries, sys_ab.opendir (entry_path "/a".toList "b".toList) = some entries ∧
      ∀ e ∈ entries, visible none e = true →
        (sys_ab.stat (entry_path (entry_path "/a".toList "b".toList) e)).isSome = true) ∧
    ∃ n, 0 ≤ n ∧ n < tree_ab.size ∧
      (tree_ab.cell n).path = entry_path "/a".toList "b".toList) :=
  have hr : Reached sys_ab none false "/a".toList (entry_path "/a".toList "b".toList) :=
    Reached.entry "/a".toList [".".toList, "..".toList, "b".toList, "c".toList] "b".toList
      Reached.top rfl (by decide) rfl
  ⟨rfl, hr, by decide,
    tree_load_never_partial sys_ab 2 heap0 tree_ab "/a".toList none false 0 rfl _ hr⟩

/-- C10 (the code departs from the claim): with `follow` unset, the entry `l`
of `/a`, a symbolic link to a directory, gets a child node: `tree_scan` reads
the type of an entry with `stat`, which resolves the link and never reports a
link. -/
theorem symlink_followed_without_follow :
    sys_link.lstat "/a/l".toList = some FileType.S_IFLNK ∧
    (∀ p, sys_link.stat p ≠ some FileType.S_IFLNK) ∧
    tree_load sys_link 2 heap0 "/a".toList none false = some (tree_link, some 0) ∧
    tree_link.size = 2 ∧ (tree_link.cell 0).child = some 1 ∧
    (tree_link.cell 1).parent = some 0 ∧ (tree_link.cell 1).path = "/a/l".toList ∧
    (tree_link.cell 1).name = "l".toList :=
  ⟨rfl, fun _ => by simp [sys_link], rfl, by decide, by decide, by decide, by decide, by decide⟩

/-- C11 (amended): let the root path contain a `/`, as every absolute path does,
and let `tree_load` return a tree for it on a file system whose directory entries
are file names (not empty, without `/`).  Then for every node of the tree `name`
is the part of `path` after its last `/`; it is empty exactly for the root of
a root path that ends in `/`, so it is not empty for every other node; and
for a node other than the root `path` is the path of the parent followed by
`/` and `name`.  (A root path without `/` is outside this statement: `tree_alloc` then
takes `name` from the `NULL` of `strrchr`, see `tree_load_without_slash`.) -/
theorem name_is_basename (sys : Sys) (fuel : Nat) (h h2 : Heap) (path : List Char)
    (filter : tree_filter_t) (follow : Bool) (root : Nat)
    (hslash : '/' ∈ path) (hnames : entries_are_names sys)
    (hload : tree_load sys fuel h path filter follow = some (h2, some root))
    (n : Nat) (hn1 : root ≤ n) (hn2 : n < h2.size) :
    (∃ pre, (h2.cell n).path = pre ++ '/' :: (h2.cell n).name ∧ '/' ∉ (h2.cell n).name) ∧
    ((h2.cell n).name = [] ↔ n = root ∧ path.getLast? = some '/') ∧
    (n ≠ root → ∃ p, (h2.cell n).parent = some p ∧ root ≤ p ∧ p < h2.size ∧
      (h2.cell n).path = (h2.cell p).path ++ '/' :: (h2.cell n).name) := by
  obtain ⟨_, _, f, hl⟩ := tree_load_spec sys fuel h h2 path filter follow root hload
  obtain ⟨_, _, hpar⟩ := depth_parent_mod_256 sys fuel h h2 path filter follow root hload
  have hfound : strrchr path '/' ≠ none := fun e0 => strrchr_none '/' path e0 hslash
  rcases Nat.eq_or_lt_of_le hn1 with e | hlt
  · subst e
    obtain ⟨_, _, _, _, _, _, hp, _, hs⟩ := hl
    obtain ⟨pre, t, e1, e2, e3⟩ := strrchr_split '/' _ _ hs
    simp only [List.cons.injEq, true_and] at e1
    subst e1
    rw [hp]
    refine ⟨⟨pre, e2, e3⟩, ?_, fun hne => absurd rfl hne⟩
    rw [basename_empty_iff pre _ e3, ← e2]
    simp
  · obtain ⟨p, hp1, hp2, hp3, _⟩ := hpar n hlt hn2
    obtain ⟨ks, ⟨entries, hopen, _, _, _, hd, _, hmap⟩, _, _, hmem⟩ :=
      Loaded_node sys filter follow path h2 root f hl p hp1 (by omega)
    have hnk : n ∈ ks := (hmem n hn1 hn2).1 hp3
    have hpath : (h2.cell n).path ∈ ks.map (fun k => (h2.cell k).path) :=
      List.mem_map.2 ⟨n, hnk, rfl⟩
    rw [hmap] at hpath
    obtain ⟨e, he1, he2⟩ := List.mem_map.1 hpath
    have he3 : e ∈ entries := (List.mem_filter.1 he1).1
    obtain ⟨hne, hns⟩ := hnames _ entries hopen e he3
    have hs := (hd n hnk).2
    rw [← he2] at hs
    unfold entry_path at hs he2
    rw [strrchr_append '/' e hns] at hs
    simp only [Option.some.injEq, List.cons.injEq, true_and] at hs
    subst hs
    refine ⟨⟨(h2.cell p).path, he2.symm, hns⟩, ?_, fun _ => ⟨p, hp3, hp1, by omega, he2.symm⟩⟩
    constructor
    · intro e0; exact absurd e0 hne
    · intro ⟨e0, _⟩; omega

/-- C11 (witness): the tree over `/a`, whose root has the children `/a/b` and `/a/c`; the
node 2 is the one of `/a/c`. -/
theorem name_is_basename_witness :
    '/' ∈ "/a".toList ∧ entries_are_names sys_ab ∧
    tree_load sys_ab 2 heap0 "/a".toList none false = some (tree_ab, some 0) ∧
    (tree_ab.cell 2).path = "/a/c".toList ∧ (tree_ab.cell 2).name = "c".toList ∧
    (tree_ab.cell 2).parent = some 0 ∧
    ((∃ pre, (tree_ab.cell 2).path = pre ++ '/' :: (tree_ab.cell 2).name ∧
        '/' ∉ (tree_ab.cell 2).name) ∧
      ((tree_ab.cell 2).name = [] ↔ 2 = 0 ∧ "/a".toList.getLast? = some '/') ∧
      (2 ≠ 0 → ∃ p, (tree_ab.cell 2).parent = some p ∧ 0 ≤ p ∧ p < tree_ab.size ∧
        (tree_ab.cell 2).path = (tree_ab.cell p).path ++ '/' :: (tree_ab.cell 2).name)) :=
  have hn : entries_are_names sys_ab := by
    intro dir entries ho e he
    simp only [sys_ab] at ho
    split at ho
    · simp only [Option.some.injEq] at ho
      subst ho
      simp only [List.mem_cons, List.mem_singleton, List.not_mem_nil, or_false] at he
      rcases he with e1 | e1 | e1 | e1 <;> subst e1 <;> decide
    · simp only [Option.some.injEq] at ho
      subst ho
      simp at he
  ⟨by decide, hn, rfl, rfl, rfl, rfl,
    name_is_basename sys_ab 2 heap0 tree_ab "/a".toList none false 0 (by decide) hn rfl 2
      (by decide) (by decide)⟩

/-- C11 (counterexample to the claim as stated): `tree_load` accepts the root
path `/a/` and returns a tree whose root has the empty name, although its entries are file
names; the child made for the entry `b` has the path `/a//b` and the name `b`. -/
theorem root_name_empty_after_trailing_slash :
    tree_load sys_slash 2 heap0 "/a/".toList none false = some (tree_slash, some 0) ∧
    (tree_slash.cell 0).path = "/a/".toList ∧ (tree_slash.cell 0).name = [] ∧
    tree_slash.size = 2 ∧ (tree_slash.cell 1).path = "/a//b".toList ∧
    (tree_slash.cell 1).name = "b".toList :=
  ⟨rfl, rfl, rfl, rfl, rfl, rfl⟩

/-- C12 (amended): in `mainloop`, when the callback of a ready source returns
an error (a negative value `r`), `mainloop` goes on as after a callback that
returns 0: the loop over the ready sources continues with the remaining ones
from the state the callback left; and whatever `mainloop` returns in the end is
not taken from a callback: it is 0 after a call that returned a value above 0,
or -1 after a wait that failed. -/
theorem mainloop_ignores_callback_error {σ : Type} (env : Env) (cbs : callbacks_t σ)
    (timeout p : Nat) (evs : List Nat) (w w1 : World σ) (md : mainloop_data) (r : Int)
    (hmd : w.mdh p = some md) (hcb : cbs md.cb md.fd md.data w = some (r, w1)) (hr : r < 0) :
    mainloop_events cbs (p :: evs) w =
      (mainloop_events cbs evs w1).map (fun x => (x.1, x.2.1, ⟨p, r⟩ :: x.2.2)) ∧
    ∀ (fuel i : Nat) (v : Int) (w2 : World σ) (l : List Call),
      mainloop_loop env cbs timeout fuel i w = some (v, w2, l) →
      (v = 0 ∧ ∃ c, l.getLast? = some c ∧ c.ret > 0) ∨
      (v = -1 ∧ ∃ j, i ≤ j ∧ env.epoll_wait timeout j = Wake.error) :=
  ⟨mainloop_events_step cbs p evs w w1 md r hmd hcb (le_of_lt hr),
    fun fuel i v w2 l h => mainloop_loop_value env cbs timeout fuel i w v w2 l h⟩

theorem mainloop_ignores_callback_error_witness :
    world_two.mdh 0 = some ⟨1, none, 0⟩ ∧
    cbs_demo 1 0 none world_two = some (-1, { world_two with user := [0] }) ∧
    (-1 : Int) < 0 ∧
    (mainloop_events cbs_demo (0 :: [1]) world_two =
        (mainloop_events cbs_demo [1] { world_two with user := [0] }).map
          (fun x => (x.1, x.2.1, ⟨0, -1⟩ :: x.2.2)) ∧
      ∀ (fuel i : Nat) (v : Int) (w2 : World (List Int)) (l : List Call),
        mainloop_loop env_two cbs_demo 1000 fuel i world_two = some (v, w2, l) →
        (v = 0 ∧ ∃ c, l.getLast? = some c ∧ c.ret > 0) ∨
        (v = -1 ∧ ∃ j, i ≤ j ∧ env_two.epoll_wait 1000 j = Wake.error)) :=
  ⟨rfl, rfl, by decide,
    mainloop_ignores_callback_error env_two cbs_demo 1000 0 [1] world_two
      { world_two with user := [0] } ⟨1, none, 0⟩ (-1) rfl rfl (by decide)⟩

/-- C12 (counterexample to the claim as stated): with the descriptors 0 and 5
ready, the callback of descriptor 0 returns -1; `mainloop` does not stop: it
calls the callback of descriptor 5, which returns 1, and returns 0, not -1. -/
theorem mainloop_goes_on_after_error :
    world_two.interest 0 = some 0 ∧ world_two.interest 5 = some 1 ∧
    (mainloop env_two cbs_demo 1000 1 world_two).map (fun x => (x.1, x.2.2, x.2.1.user)) =
      some (0, [⟨0, -1⟩, ⟨1, 1⟩], [0, 5]) :=
  ⟨rfl, rfl, by decide⟩

/-- C14: when a wait of `mainloop` times out with no source ready, the loop
over the ready sources calls no callback and leaves the state as it is, this
turn of the loop does not return, and `mainloop` goes on with the next wait
from the same state. -/
theorem mainloop_timeout_waits_again {σ : Type} (env : Env) (cbs : callbacks_t σ)
    (timeout i : Nat) (w : World σ) (h : epoll_wait env timeout i w = Events.events []) :
    mainloop_events cbs [] w = some (false, w, []) ∧
    mainloop_loop env cbs timeout 1 i w = none ∧
    ∀ fuel, mainloop_loop env cbs timeout (fuel + 1) i w =
      mainloop_loop env cbs timeout fuel (i + 1) w := by
  have e : ∀ fuel, mainloop_loop env cbs timeout (fuel + 1) i w =
      mainloop_loop env cbs timeout fuel (i + 1) w := by
    intro fuel
    have e1 : mainloop_loop env cbs timeout (fuel + 1) i w =
        match epoll_wait env timeout i w with
        | Events.eintr => mainloop_loop env cbs timeout fuel (i + 1) w
        | Events.error => some (-1, w, [])
        | Events.events evs =>
          match mainloop_events cbs evs w with
          | none => none
          | some (true, w1, l) => some (0, w1, l)
          | some (false, w1, l) =>
            match mainloop_loop env cbs timeout fuel (i + 1) w1 with
            | none => none
            | some (r, w2, l2) => some (r, w2, l ++ l2) := rfl
    rw [e1, h]
    simp only [mainloop_events, List.nil_append]
    cases mainloop_loop env cbs timeout fuel (i + 1) w with
    | none => rfl
    | some q => rfl
  refine ⟨rfl, ?_, e⟩
  rw [e 0]
  rfl

theorem mainloop_timeout_waits_again_witness :
    epoll_wait env_idle 1000 0 world_two = Events.events [] ∧
    (mainloop env_idle cbs_demo 1000 2 world_two).map (fun x => (x.1, x.2.2)) =
      some (0, [⟨0, -1⟩, ⟨1, 1⟩]) ∧
    (mainloop_events cbs_demo [] world_two = some (false, world_two, []) ∧
      mainloop_loop env_idle cbs_demo 1000 1 0 world_two = none ∧
      ∀ fuel, mainloop_loop env_idle cbs_demo 1000 (fuel + 1) 0 world_two =
        mainloop_loop env_idle cbs_demo 1000 fuel (0 + 1) world_two) :=
  ⟨rfl, by decide, mainloop_timeout_waits_again env_idle cbs_demo 1000 0 world_two rfl⟩

/-- C15 (the code departs from the claim): after `mainloop_init()`,
`mainloop_add(65535, ..)` returns 0 and the descriptor 65535 is registered, but
`nrhandler`, an `unsigned short`, is 0 again; so `mainloop_del(65535)` returns -1
and leaves the state as it is: the descriptor stays registered. -/
theorem mainloop_del_fails_on_registered_fd :
    ∃ w1, mainloop_add env_two 65535 1 none world_init = some (0, w1) ∧
      w1.interest 65535 = some 0 ∧ w1.nrhandler = 0 ∧
      mainloop_del 65535 w1 = some (-1, w1) := by
  obtain ⟨w1, e1, e2, e3, _⟩ := mainloop_add_registers env_two 65535 1 none world_init
    (by decide) (by decide) rfl rfl (by decide) rfl rfl
  refine ⟨w1, e1, e2, e3, ?_⟩
  unfold mainloop_del
  rw [e3, if_pos (by decide)]

/-- C16: let the focused panel have `n` rows (`nrdata`) and the cursor `c`, a
row index (not negative), the rows being allocated.  If `n = 0`, arrow-down
(`display_next_line`) and arrow-up (`display_prev_line`) leave the state, so cursor
and scroll offset, as it is.  If `c < n`, arrow-down sets the cursor of the
focused panel to `min (c + 1) (n - 1)` and arrow-up sets it to
`max (c - 1) 0`; both return the new cursor. -/
theorem arrow_keys_move_cursor {σ : Type} (w : World σ) (wd : windata)
    (hwd : focused w = some wd) (hc : 0 ≤ wd.cursor)
    (hrows : wd.nrdata ≤ wd.rowdata.length) :
    (wd.nrdata = 0 →
      display_next_line w = some (wd.cursor, w) ∧ display_prev_line w = some (wd.cursor, w)) ∧
    (wd.cursor < wd.nrdata →
      (∃ w2 wd2, display_next_line w = some (min (wd.cursor + 1) (wd.nrdata - 1), w2) ∧
        focused w2 = some wd2 ∧ wd2.cursor = min (wd.cursor + 1) (wd.nrdata - 1) ∧
        wd2.nrdata = wd.nrdata) ∧
      (∃ w2 wd2, display_prev_line w = some (max (wd.cursor - 1) 0, w2) ∧
        focused w2 = some wd2 ∧ wd2.cursor = max (wd.cursor - 1) 0 ∧
        wd2.nrdata = wd.nrdata)) := by
  obtain ⟨n1, n2⟩ := display_next_line_spec w wd hwd hc hrows
  obtain ⟨p1, p2⟩ := display_prev_line_spec w wd hwd hc hrows
  constructor
  · intro h0
    exact ⟨n1 (by omega), p1 (by omega)⟩
  · intro hlt
    exact ⟨⟨_, _, n2 hlt, focused_set_current w wd _ hwd, rfl, rfl⟩,
      ⟨_, _, p2 hlt, focused_set_current w wd _ hwd, rfl, rfl⟩⟩

theorem arrow_keys_move_cursor_witness :
    focused (world_panel (panel_rows 3 1 0)) = some (panel_rows 3 1 0) ∧
    (0 : Int) ≤ (panel_rows 3 1 0).cursor ∧
    (panel_rows 3 1 0).nrdata ≤ (panel_rows 3 1 0).rowdata.length ∧
    (display_next_line (world_panel (panel_rows 3 1 0))).map (fun r => r.1) = some 2 ∧
    (display_prev_line (world_panel (panel_rows 3 1 0))).map (fun r => r.1) = some 0 ∧
    (((panel_rows 3 1 0).nrdata = 0 →
        display_next_line (world_panel (panel_rows 3 1 0)) =
          some ((panel_rows 3 1 0).cursor, world_panel (panel_rows 3 1 0)) ∧
        display_prev_line (world_panel (panel_rows 3 1 0)) =
          some ((panel_rows 3 1 0).cursor, world_panel (panel_rows 3 1 0))) ∧
      ((panel_rows 3 1 0).cursor < (panel_rows 3 1 0).nrdata →
        (∃ w2 wd2, display_next_line (world_panel (panel_rows 3 1 0)) =
            some (min ((panel_rows 3 1 0).cursor + 1) ((panel_rows 3 1 0).nrdata - 1), w2) ∧
          focused w2 = some wd2 ∧
          wd2.cursor = min ((panel_rows 3 1 0).cursor + 1) ((panel_rows 3 1 0).nrdata - 1) ∧
          wd2.nrdata = (panel_rows 3 1 0).nrdata) ∧
        (∃ w2 wd2, display_prev_line (world_panel (panel_rows 3 1 0)) =
            some (max ((panel_rows 3 1 0).cursor - 1) 0, w2) ∧
          focused w2 = some wd2 ∧ wd2.cursor = max ((panel_rows 3 1 0).cursor - 1) 0 ∧
          wd2.nrdata = (panel_rows 3 1 0).nrdata))) :=
  ⟨rfl, by decide, by decide, by decide, by decide,
    arrow_keys_move_cursor (world_panel (panel_rows 3 1 0)) (panel_rows 3 1 0) rfl (by decide)
      (by decide)⟩

/-- C17: on a terminal of height `maxy`, at least 4, let the focused panel
satisfy `0 ≤ scrolling ≤ cursor ≤ scrolling + (maxy - 4)`, the rows being
allocated.  After arrow-down (`display_next_line`) and after arrow-up
(`display_prev_line`) the focused panel satisfies it again, on the same height.
Arrow-down adds one to the scroll offset exactly when the cursor moved down
from the last row of the viewport, `scrolling + (maxy - 4)`, arrow-up takes
one off exactly when the cursor moved up from its first row, `scrolling`;
otherwise the scroll offset is unchanged. -/
theorem scrolling_keeps_cursor_in_view {σ : Type} (w : World σ) (wd : windata)
    (hwd : focused w = some wd) (hH : 4 ≤ w.maxy) (h1 : 0 ≤ wd.scrolling)
    (h2 : wd.scrolling ≤ wd.cursor) (h3 : wd.cursor ≤ wd.scrolling + (w.maxy - 4))
    (hrows : wd.nrdata ≤ wd.rowdata.length) :
    (∃ c2 w2 wd2, display_next_line w = some (c2, w2) ∧ focused w2 = some wd2 ∧
      w2.maxy = w.maxy ∧ 0 ≤ wd2.scrolling ∧ wd2.scrolling ≤ wd2.cursor ∧
      wd2.cursor ≤ wd2.scrolling + (w.maxy - 4) ∧
      ((wd2.scrolling = wd.scrolling + 1 ∧ wd.cursor = wd.scrolling + (w.maxy - 4) ∧
          wd2.cursor = wd.cursor + 1) ∨
        (wd2.scrolling = wd.scrolling ∧
          ¬ (wd.cursor = wd.scrolling + (w.maxy - 4) ∧ wd2.cursor = wd.cursor + 1)))) ∧
    (∃ c2 w2 wd2, display_prev_line w = some (c2, w2) ∧ focused w2 = some wd2 ∧
      w2.maxy = w.maxy ∧ 0 ≤ wd2.scrolling ∧ wd2.scrolling ≤ wd2.cursor ∧
      wd2.cursor ≤ wd2.scrolling + (w.maxy - 4) ∧
      ((wd2.scrolling = wd.scrolling - 1 ∧ wd.cursor = wd.scrolling ∧
          wd2.cursor = wd.cursor - 1) ∨
        (wd2.scrolling = wd.scrolling ∧
          ¬ (wd.cursor = wd.scrolling ∧ wd2.cursor = wd.cursor - 1)))) := by
  have hc : 0 ≤ wd.cursor := le_trans h1 h2
  obtain ⟨n1, n2⟩ := display_next_line_spec w wd hwd hc hrows
  obtain ⟨p1, p2⟩ := display_prev_line_spec w wd hwd hc hrows
  constructor
  · rcases le_or_lt wd.nrdata wd.cursor with h | h
    · exact ⟨_, w, wd, n1 h, hwd, rfl, h1, h2, h3, Or.inr ⟨rfl, by omega⟩⟩
    · refine ⟨_, _, _, n2 h, focused_set_current w wd _ hwd, rfl, ?_⟩
      simp only []
      split <;> omega
  · rcases le_or_lt wd.nrdata wd.cursor with h | h
    · exact ⟨_, w, wd, p1 h, hwd, rfl, h1, h2, h3, Or.inr ⟨rfl, by omega⟩⟩
    · refine ⟨_, _, _, p2 h, focused_set_current w wd _ hwd, rfl, ?_⟩
      simp only []
      split <;> omega

theorem scrolling_keeps_cursor_in_view_witness :
    focused (world_panel (panel_rows 30 20 0)) = some (panel_rows 30 20 0) ∧
    (4 : Int) ≤ (world_panel (panel_rows 30 20 0)).maxy ∧
    (display_next_line (world_panel (panel_rows 30 20 0))).bind
        (fun r => (focused r.2).map (fun p => (p.cursor, p.scrolling))) = some (21, 1) ∧
    (display_prev_line (world_panel (panel_rows 30 20 0))).bind
        (fun r => (focused r.2).map (fun p => (p.cursor, p.scrolling))) = some (19, 0) ∧
    ((∃ c2 w2 wd2, display_next_line (world_panel (panel_rows 30 20 0)) = some (c2, w2) ∧
        focused w2 = some wd2 ∧ w2.maxy = (world_panel (panel_rows 30 20 0)).maxy ∧
        0 ≤ wd2.scrolling ∧ wd2.scrolling ≤ wd2.cursor ∧
        wd2.cursor ≤ wd2.scrolling + ((world_panel (panel_rows 30 20 0)).maxy - 4) ∧
        ((wd2.scrolling = (panel_rows 30 20 0).scrolling + 1 ∧
            (panel_rows 30 20 0).cursor =
              (panel_rows 30 20 0).scrolling + ((world_panel (panel_rows 30 20 0)).maxy - 4) ∧
            wd2.cursor = (panel_rows 30 20 0).cursor + 1) ∨
          (wd2.scrolling = (panel_rows 30 20 0).scrolling ∧
            ¬ ((panel_rows 30 20 0).cursor =
                (panel_rows 30 20 0).scrolling + ((world_panel (panel_rows 30 20 0)).maxy - 4) ∧
              wd2.cursor = (panel_rows 30 20 0).cursor + 1)))) ∧
      (∃ c2 w2 wd2, display_prev_line (world_panel (panel_rows 30 20 0)) = some (c2, w2) ∧
        focused w2 = some wd2 ∧ w2.maxy = (world_panel (panel_rows 30 20 0)).maxy ∧
        0 ≤ wd2.scrolling ∧ wd2.scrolling ≤ wd2.cursor ∧
        wd2.cursor ≤ wd2.scrolling + ((world_panel (panel_rows 30 20 0)).maxy - 4) ∧
        ((wd2.scrolling = (panel_rows 30 20 0).scrolling - 1 ∧
            (panel_rows 30 20 0).cursor = (panel_rows 30 20 0).scrolling ∧
            wd2.cursor = (panel_rows 30 20 0).cursor - 1) ∨
          (wd2.scrolling = (panel_rows 30 20 0).scrolling ∧
            ¬ ((panel_rows 30 20 0).cursor = (panel_rows 30 20 0).scrolling ∧
              wd2.cursor = (panel_rows 30 20 0).cursor - 1))))) :=
  ⟨rfl, by decide, by decide, by decide,
    scrolling_keeps_cursor_in_view (world_panel (panel_rows 30 20 0)) (panel_rows 30 20 0) rfl
      (by decide) (by decide) (by decide) (by decide) (by decide)⟩

/-- C18: let the panel table have `P` entries (`array_size`, a number an `int`
holds) and the focused index `current_win` be in `[0, P)`.  Then
`display_next_panel` sets and returns `(current_win + 1) mod P`, `display_prev_panel`
sets and returns `(current_win - 1) mod P`, both in `[0, P)` and changing
nothing else; each undoes the other; and `P` applications of either give the
state they started from. -/
theorem panels_cycle {σ : Type} (w : World σ) (h0 : 0 ≤ w.current_win)
    (h1 : w.current_win < array_size w) (h2 : array_size w < 2 ^ 31) :
    display_next_panel w =
      ((w.current_win + 1) % (array_size w : Int),
        set_win w ((w.current_win + 1) % (array_size w : Int))) ∧
    display_prev_panel w =
      ((w.current_win - 1) % (array_size w : Int),
        set_win w ((w.current_win - 1) % (array_size w : Int))) ∧
    (0 ≤ (display_next_panel w).1 ∧ (display_next_panel w).1 < array_size w) ∧
    (0 ≤ (display_prev_panel w).1 ∧ (display_prev_panel w).1 < array_size w) ∧
    prev_panel (next_panel w) = w ∧ next_panel (prev_panel w) = w ∧
    next_panel^[array_size w] w = w ∧ prev_panel^[array_size w] w = w := by
  have hp : (0 : Int) < array_size w := by omega
  have en := display_next_panel_eq w h0 h1 h2
  have ep := display_prev_panel_eq w h0 h1
  have bn1 : 0 ≤ (w.current_win + 1) % (array_size w : Int) := Int.emod_nonneg _ (by omega)
  have bn2 : (w.current_win + 1) % (array_size w : Int) < array_size w :=
    Int.emod_lt_of_pos _ hp
  have bp1 : 0 ≤ (w.current_win - 1) % (array_size w : Int) := Int.emod_nonneg _ (by omega)
  have bp2 : (w.current_win - 1) % (array_size w : Int) < array_size w :=
    Int.emod_lt_of_pos _ hp
  have hw : set_win w (w.current_win % (array_size w : Int)) = w := by
    rw [Int.emod_eq_of_lt h0 h1]
    rfl
  have hn : next_panel w = set_win w ((w.current_win + 1) % (array_size w : Int)) := by
    unfold next_panel; rw [en]
  have hq : prev_panel w = set_win w ((w.current_win - 1) % (array_size w : Int)) := by
    unfold prev_panel; rw [ep]
  refine ⟨en, ep, by rw [en]; exact ⟨bn1, bn2⟩, by rw [ep]; exact ⟨bp1, bp2⟩, ?_, ?_, ?_, ?_⟩
  · rw [hn, prev_panel_set_win w _ bn1 bn2]
    have e2 : (w.current_win + 1) % (array_size w : Int) - 1 =
        (w.current_win + 1) % (array_size w : Int) + (-1) := by ring
    rw [e2, Int.emod_add_emod]
    have e3 : w.current_win + 1 + -1 = w.current_win := by ring
    rw [e3, hw]
  · rw [hq, next_panel_set_win w _ bp1 bp2 h2, Int.emod_add_emod]
    have e3 : w.current_win - 1 + 1 = w.current_win := by ring
    rw [e3, hw]
  · rw [next_panel_iterate w h0 h1 h2, Int.add_emod_self, hw]
  · rw [prev_panel_iterate w h0 h1]
    have e : w.current_win - (array_size w : Int) = w.current_win + (array_size w : Int) * (-1) := by
      ring
    rw [e, Int.add_mul_emod_self_left, hw]

theorem panels_cycle_witness :
    (0 : Int) ≤ (world0 ([] : List Int)).current_win ∧
    (world0 ([] : List Int)).current_win < array_size (world0 ([] : List Int)) ∧
    array_size (world0 ([] : List Int)) = 4 ∧
    (display_prev_panel (world0 ([] : List Int))).1 = 3 ∧
    (display_next_panel (world0 ([] : List Int)) =
        (((world0 ([] : List Int)).current_win + 1) % (array_size (world0 ([] : List Int)) : Int),
          set_win (world0 ([] : List Int)) (((world0 ([] : List Int)).current_win + 1) %
              (array_size (world0 ([] : List Int)) : Int))) ∧
      display_prev_panel (world0 ([] : List Int)) =
        (((world0 ([] : List Int)).current_win - 1) % (array_size (world0 ([] : List Int)) : Int),
          set_win (world0 ([] : List Int)) (((world0 ([] : List Int)).current_win - 1) %
              (array_size (world0 ([] : List Int)) : Int))) ∧
      (0 ≤ (display_next_panel (world0 ([] : List Int))).1 ∧
        (display_next_panel (world0 ([] : List Int))).1 < array_size (world0 ([] : List Int))) ∧
      (0 ≤ (display_prev_panel (world0 ([] : List Int))).1 ∧
        (display_prev_panel (world0 ([] : List Int))).1 < array_size (world0 ([] : List Int))) ∧
      prev_panel (next_panel (world0 ([] : List Int))) = world0 ([] : List Int) ∧
      next_panel (prev_panel (world0 ([] : List Int))) = world0 ([] : List Int) ∧
      next_panel^[array_size (world0 ([] : List Int))] (world0 ([] : List Int)) =
        world0 ([] : List Int) ∧
      prev_panel^[array_size (world0 ([] : List Int))] (world0 ([] : List Int)) =
        world0 ([] : List Int)) :=
  ⟨by decide, by decide, rfl, by decide,
    panels_cycle (world0 ([] : List Int)) (by decide) (by decide) (by decide)⟩

/-- C19 (the code departs from the claim): in Find mode, entered with `/`, the
keystroke `-` is not accepted: the query stays empty; the keystroke `|` is
accepted: the query becomes `|`.  For every single-byte keystroke `n`, the
keystroke is appended to the empty query exactly when it is an ASCII letter, a
digit, `_`, `|` or `.`. -/
theorem find_rejects_hyphen_accepts_bar :
    world_find.mdh 4 = some ⟨display_find_keystroke_addr, some 3, 0⟩ ∧
    world_find.interest 0 = some 4 ∧
    (world_find.findh 3).map (fun b => (b.len, b.reg.items)) =
      some (64, [('a', 'z'), ('|', '|'), ('0', '9'), ('|', '|'), ('_', '_'), ('|', '|'),
        ('.', '.')]) ∧
    query world_find 3 = some [] ∧
    query_after world_find 3 45 = some [] ∧
    query_after world_find 3 124 = some ['|'] ∧
    query_after world_find 3 97 = some ['a'] ∧
    ∀ n : Nat, n < 256 →
      (query_after world_find 3 n = some [Char.ofNat n] ↔
        is_letter n ∨ is_digit n ∨ n = 95 ∨ n = 124 ∨ n = 46) := by
  refine ⟨rfl, rfl, by decide, by decide, by decide, by decide, by decide, ?_⟩
  decide

/-- C20 (the code departs from the claim): in Find mode with an empty query,
the key codes of Shift-Tab (`KEY_BTAB`), End, Delete (`KEY_DC`), Page-Down and
Page-Up, none of them a letter, digit, `_`, `-`, `.` or Backspace, change the
query: `display_find_keystroke` matches and stores `(char)keystroke`, their low
eight bits, which are the letters `a`, `h`, `J`, `R` and `S`.  The codes of
arrow-left, arrow-right, Home and the function keys 1 to 12, whose low eight
bits are control characters, leave the query empty. -/
theorem find_appends_truncated_key_code :
    query world_find 3 = some [] ∧
    to_char KEY_BTAB = 'a' ∧
    query_after world_find 3 KEY_BTAB = some ['a'] ∧
    query_after world_find 3 KEY_END = some ['h'] ∧
    query_after world_find 3 KEY_DC = some ['J'] ∧
    query_after world_find 3 KEY_NPAGE = some ['R'] ∧
    query_after world_find 3 KEY_PPAGE = some ['S'] ∧
    query_after world_find 3 KEY_LEFT = some [] ∧
    query_after world_find 3 KEY_RIGHT = some [] ∧
    query_after world_find 3 KEY_HOME = some [] ∧
    ∀ n : Nat, 1 ≤ n → n ≤ 12 → query_after world_find 3 (KEY_F n) = some [] := by
  refine ⟨by decide, by decide, by decide, by decide, by decide, by decide, by decide,
    by decide, by decide, by decide, ?_⟩
  intro n h1 h2
  interval_cases n <;> decide

/-- C21: in a state of Find mode whose `find_data` block has `len` 64 and a buffer
that holds a query (as `display_find_init` leaves it, with the empty query), after
every sequence of keystrokes handled by `display_find_keystroke` a query that is still
there has at most 63 characters; and when the query has 63 characters, a
keystroke that goes to the default branch and is accepted by `regexec` leaves
the query as it is. -/
theorem query_stays_within_buffer {σ : Type} (env : Env) (code : Code σ) (fd : Int)
    (findd : Nat) (w : World σ) (block : find_data) (q : List Char)
    (hb : w.findh findd = some block) (hlen : block.len = 64)
    (hq : holds_query block.string q) :
    (∀ (n : Nat) (w2 : World σ) (q2 : List Char),
      find_steps env code fd findd n w = some w2 → query w2 findd = some q2 →
      q2.length ≤ 63) ∧
    (∀ (r : Int) (w2 : World σ), q.length = 63 → (getch w).1 ≠ 27 →
      (getch w).1 ≠ KEY_DOWN → (getch w).1 ≠ KEY_UP → (getch w).1 ≠ KEY_BACKSPACE →
      (getch w).1 ≠ 13 → regexec block.reg (c_str [to_char (getch w).1, NUL]) = 0 →
      display_find_keystroke env code fd (some findd) w = some (r, w2) →
      query w2 findd = some q) := by
  constructor
  · intro n w2 q2 hs hq2
    obtain ⟨_, h1 | ⟨string, q3, h1, h2⟩⟩ :=
      find_steps_inv env code fd findd n w w2 block q hb hlen hq hs
    · simp [query, h1] at hq2
    · simp only [query, h1, Option.map_some', Option.some.injEq] at hq2
      rw [holds_query_c_str _ _ h2] at hq2
      subst hq2
      exact h2.2.1
  · intro r w2 hl k1 k2 k3 k4 k5 ha hs
    obtain ⟨_, _, _, _, _, string, h1, h2⟩ :=
      find_keystroke_step env code fd findd w w2 block q r hb hlen hq k1 hs
    have e : query_step block.reg q (getch w).1 = q := by
      unfold query_step
      rw [if_neg k4, if_neg (by simp [k2, k3, k5]), if_neg (fun c => by omega)]
    rw [e] at h2
    simp only [query, h1, Option.map_some']
    rw [holds_query_c_str _ _ h2]

theorem query_stays_within_buffer_witness :
    (world_find_keys [98, 98, 263]).findh 3 = some block_empty ∧ block_empty.len = 64 ∧
    holds_query block_empty.string [] ∧
    (find_steps env_two code_idle 0 3 2 (world_find_keys [98, 98, 263])).bind
        (fun w => query w 3) = some ['b', 'b'] ∧
    ((∀ (n : Nat) (w2 : World (List Int)) (q2 : List Char),
        find_steps env_two code_idle 0 3 n (world_find_keys [98, 98, 263]) = some w2 →
        query w2 3 = some q2 → q2.length ≤ 63) ∧
      (∀ (r : Int) (w2 : World (List Int)), ([] : List Char).length = 63 →
        (getch (world_find_keys [98, 98, 263])).1 ≠ 27 →
        (getch (world_find_keys [98, 98, 263])).1 ≠ KEY_DOWN →
        (getch (world_find_keys [98, 98, 263])).1 ≠ KEY_UP →
        (getch (world_find_keys [98, 98, 263])).1 ≠ KEY_BACKSPACE →
        (getch (world_find_keys [98, 98, 263])).1 ≠ 13 →
        regexec block_empty.reg
          (c_str [to_char (getch (world_find_keys [98, 98, 263])).1, NUL]) = 0 →
        display_find_keystroke env_two code_idle 0 (some 3) (world_find_keys [98, 98, 263]) =
          some (r, w2) →
        query w2 3 = some [])) :=
  ⟨rfl, rfl, holds_query_init, by decide,
    query_stays_within_buffer env_two code_idle 0 3 (world_find_keys [98, 98, 263]) block_empty
      [] rfl rfl holds_query_init⟩

/-- C22: in Find mode, with a buffer of 64 bytes that holds the query `q` and a
focused panel `wd`, let the `find` operation of the adapter of `wd`, if there is
one, return for the query `q` without its last character and keep the cursors.
Then Backspace is handled with a result, the query is `q` without its last
character (the empty query when `q` is empty), and cursor and scroll offset of
the focused panel are 0. -/
theorem backspace_erases_last_character {σ : Type} (env : Env) (code : Code σ) (fd : Int)
    (findd : Nat) (w : World σ) (block : find_data) (q : List Char) (wd : windata)
    (hb : w.findh findd = some block) (hlen : block.len = 64)
    (hq : holds_query block.string q)
    (hk : (getch w).1 = KEY_BACKSPACE) (hwd : focused w = some wd)
    (hfind : ∀ f, wd.ops.bind (fun ops => ops.find) = some f →
      keeps_cursor (code.find f q.dropLast) ∧
      (code.find f q.dropLast
        ⟨w.windata.set w.current_win.toNat { wd with cursor := 0, scrolling := 0 },
          w.user⟩).isSome = true) :
    ∃ r w2, display_find_keystroke env code fd (some findd) w = some (r, w2) ∧
      query w2 findd = some q.dropLast ∧ (q = [] → query w2 findd = some []) ∧
      ∃ wd2, focused w2 = some wd2 ∧ wd2.cursor = 0 ∧ wd2.scrolling = 0 := by
  have k1 : (getch w).1 ≠ 27 := by rw [hk]; decide
  have k2 : (getch w).1 ≠ KEY_DOWN := by rw [hk]; decide
  have k3 : (getch w).1 ≠ KEY_UP := by rw [hk]; decide
  have k5 : (getch w).1 ≠ 13 := by rw [hk]; decide
  have hedit := find_keystroke_edit env code fd findd w block q wd hb hlen hq hwd k1 k2 k3 k5
  rw [if_neg (fun c => c.1 hk), hk] at hedit
  obtain ⟨f3, w3, u3, c3, string, hb3, hq3⟩ := edited_backspace w findd block q wd hb hq hwd
  have hs := holds_query_c_str _ _ hq3
  obtain ⟨r, w2, hshow, hcur⟩ := display_find_show_call code findd _ _ _ q.dropLast f3 hb3 hs
    (fun f hf => by rw [w3, u3]; exact hfind f hf)
  obtain ⟨s1, _⟩ := display_find_show_spec code findd _ w2 r hshow
  obtain ⟨wd2, f2, c2, d2⟩ := focused_cursors _ w2 _ hcur s1.2.2.2.1 f3
  have hquery : query w2 findd = some q.dropLast := by
    simp only [query, s1.1, hb3, Option.map_some']
    rw [hs]
  refine ⟨r, w2, by rw [hedit]; exact hshow, hquery, fun e0 => ?_, wd2, f2, c2, d2⟩
  rw [hquery, e0]
  rfl

theorem backspace_erases_last_character_witness :
    (world_clock_b.findh 3 = some block_b ∧ block_b.len = 64 ∧
      holds_query block_b.string ['b'] ∧ (getch world_clock_b).1 = KEY_BACKSPACE ∧
      focused world_clock_b = some panel_b ∧ panel_b.ops = some clock_ops) ∧
    (query world_clock_b 3 = some ['b'] ∧ rows panel_b = [some 2, some 3, some 4]) ∧
    ((display_find_keystroke env_two (clock_code sys_clock draw_ok 8) 0 (some 3)
        world_clock_b).bind (fun x => (query x.2 3).map (fun s => (x.1, s, clock_rows x.2)))) =
      some (0, [], some []) ∧
    ∃ r w2, display_find_keystroke env_two (clock_code sys_clock draw_ok 8) 0 (some 3)
        world_clock_b = some (r, w2) ∧
      query w2 3 = some ['b'].dropLast ∧ (['b'] = [] → query w2 3 = some []) ∧
      ∃ wd2, focused w2 = some wd2 ∧ wd2.cursor = 0 ∧ wd2.scrolling = 0 :=
  ⟨⟨rfl, rfl, ⟨by decide, by decide, by decide⟩, rfl, rfl, rfl⟩, ⟨by decide, by decide⟩,
    by decide,
    backspace_erases_last_character env_two (clock_code sys_clock draw_ok 8) 0 3 world_clock_b
      block_b ['b'] panel_b rfl rfl ⟨by decide, by decide, by decide⟩ rfl rfl
      (fun f hf => by
        have e : clock_find_addr = f := Option.some.inj hf
        subst e
        exact ⟨(clock_code_keeps_cursor sys_clock draw_ok 8).2.2.1 _ _, by decide⟩)⟩

/-- C23: let the focused panel have the cursor `c` and the scroll offset `s`
when `/` is handled in Normal mode with the result 0, and let the `display`
operations of the adapters keep the cursors.  Then the keyboard is registered
with `display_find_keystroke` and a `find_data` block, and after every sequence of
keystrokes handled by it (query edits, arrows, Enter), an Escape that is
handled leaves the focused panel with the cursor `c` and the scroll offset
`s`. -/
theorem escape_restores_cursor {σ : Type} (env : Env) (code : Code σ) (fd : Int)
    (data : Option Nat) (w0 w1 : World σ) (wd0 : windata)
    (hwd : focused w0 = some wd0) (hk : (getch w0).1 = 47)
    (h : display_keystroke env code fd data w0 = some (0, w1))
    (hdisp : ∀ f b, keeps_cursor (code.display f b)) :
    ∃ findd, handler w1 fd = some (display_find_keystroke_addr, some findd) ∧
      ∀ (n : Nat) (w2 : World σ) (r : Int) (w3 : World σ),
        find_steps env code fd findd n w1 = some w2 → (getch w2).1 = 27 →
        display_find_keystroke env code fd (some findd) w2 = some (r, w3) →
        ∃ wd3, focused w3 = some wd3 ∧ wd3.cursor = wd0.cursor ∧
          wd3.scrolling = wd0.scrolling := by
  rw [display_keystroke_slash env code fd data w0 hk] at h
  obtain ⟨findd, wd, f0, hh, hb, _, _, _, _⟩ := display_switch_to_find_spec env fd _ w1 h
  rw [focused_getch, hwd] at f0
  have e0 : wd = wd0 := (Option.some.inj f0).symm
  subst e0
  refine ⟨findd, hh, fun n w2 r w3 hs hk2 he => ?_⟩
  obtain ⟨_, h1 | ⟨string, q2, h1, _⟩⟩ :=
    find_steps_inv env code fd findd n w1 w2 _ [] hb rfl holds_query_init hs
  · rw [find_keystroke_freed env code fd findd w2 h1] at he
    simp at he
  · obtain ⟨_, _, e3, _, _, wd2, f2, e6⟩ :=
      find_keystroke_escape env code fd findd w2 w3 _ r h1 hk2 he
    have hc := e6 hdisp
    have hf := focused_set_current w2 wd2
      { wd2 with cursor := wd.cursor, scrolling := wd.scrolling } f2
    obtain ⟨wd3, f3, c3, s3⟩ := focused_cursors (set_current w2
      { wd2 with cursor := wd.cursor, scrolling := wd.scrolling }) w3
      { wd2 with cursor := wd.cursor, scrolling := wd.scrolling } hc e3 hf
    exact ⟨wd3, f3, c3, s3⟩

theorem escape_restores_cursor_witness :
    focused world_main_at = some (panel_rows 30 20 5) ∧ (getch world_main_at).1 = 47 ∧
    display_keystroke env_two code_idle 0 none world_main_at = some (0, world_find_at) ∧
    (focused world_find_at).map (fun p => (p.cursor, p.scrolling)) = some (0, 0) ∧
    ((find_steps env_two code_idle 0 3 2 world_find_at).bind
        (fun w => (focused w).map (fun p => (p.cursor, p.scrolling, query w 3)))) =
      some (1, 0, some ['b']) ∧
    (((find_steps env_two code_idle 0 3 2 world_find_at).bind
        (fun w => display_find_keystroke env_two code_idle 0 (some 3) w)).bind
        (fun r => (focused r.2).map (fun p => (p.cursor, p.scrolling)))) = some (20, 5) ∧
    ∃ findd, handler world_find_at 0 = some (display_find_keystroke_addr, some findd) ∧
      ∀ (n : Nat) (w2 : World (List Int)) (r : Int) (w3 : World (List Int)),
        find_steps env_two code_idle 0 findd n world_find_at = some w2 → (getch w2).1 = 27 →
        display_find_keystroke env_two code_idle 0 (some findd) w2 = some (r, w3) →
        ∃ wd3, focused w3 = some wd3 ∧ wd3.cursor = (panel_rows 30 20 5).cursor ∧
          wd3.scrolling = (panel_rows 30 20 5).scrolling :=
  ⟨rfl, rfl, rfl, by decide, by decide, by decide,
    escape_restores_cursor env_two code_idle 0 none world_main_at world_find_at
      (panel_rows 30 20 5) rfl rfl rfl code_idle_keeps.2⟩

/-- C24: let the clock tree be a loaded tree in which every node has a
`struct clock_info`, and let no allocation fail.  Then `clock_print_info` returns 0, and
the row list of the clock panel it leaves is the pre-order sequence of the
nodes other than the root in all of whose proper ancestors the flag `expanded` is set:
row `i` is bound to the `i`-th such node, the row count is their number, and a
node has a row exactly when it is one of them.  The cursor, the scroll offset
and the other panels stay as they are. -/
theorem clock_rows_are_the_visible_nodes (sys : Sys) (fuel0 : Nat) (h0 : Heap)
    (path : List Char) (filter : tree_filter_t) (follow : Bool) (root : Nat) (dr : Draw)
    (c : Clocks) (fuel : Nat) (ws : List windata) (wd : windata)
    (hload : tree_load sys fuel0 h0 path filter follow = some (c.heap, some root))
    (hfill : Filled c root) (hline : ∀ x, dr.line_ok x = true)
    (hrows : ∀ n, dr.rows_ok n = true) (hfuel : c.heap.size < fuel)
    (hwd : index ws CLOCK = some wd) :
    ∃ order ws2 wd2, pre_order c.heap fuel root = some order ∧
      clock_print_info dr c fuel (some root) ws = some (0, ws2) ∧
      index ws2 CLOCK = some wd2 ∧
      rows wd2 = (shown c root order).map some ∧
      wd2.nrdata = (shown c root order).length ∧
      (∀ t, some t ∈ rows wd2 ↔ t ∈ order ∧ t ≠ root ∧ all_expanded c t = true) ∧
      wd2.cursor = wd.cursor ∧ wd2.scrolling = wd.scrolling ∧
      ∀ i, i ≠ 0 → ws2.get? i = ws.get? i := by
  obtain ⟨_, _, f, hl⟩ := tree_load_spec sys fuel0 h0 c.heap path filter follow root hload
  obtain ⟨ws2, h1, h2⟩ := clock_print_info_spec sys fuel0 h0 path filter follow root dr c fuel
    hload hfill hline hrows hfuel ws wd hwd
  obtain ⟨wd2, hi, e, a5, a6, a7, wd0, hi0, _, _, a3, a4⟩ := Printed_index ws ws2 _ h2
  rw [hwd] at hi0
  have e0 : wd0 = wd := (Option.some.inj hi0).symm
  subst e0
  have hrow : rows wd2 =
      (shown c root (List.range' root (c.heap.size - root))).map some := by
    unfold rows
    rw [a5]
    simpa using a7
  refine ⟨List.range' root (c.heap.size - root), ws2, wd2,
    Loaded_pre_order sys filter follow path c.heap root f hl fuel (by omega), h1, hi, hrow, a5,
    fun t => ?_, a4, a3, fun i hne => ?_⟩
  · rw [hrow]
    simp [shown]
  · rw [e, List.get?_eq_getElem?, List.get?_eq_getElem?, List.getElem?_set_ne (Ne.symm hne)]

theorem clock_rows_are_the_visible_nodes_witness :
    (tree_load sys_clock 8 heap0 "/sys/kernel/debug/clock".toList none false =
      some (clocks_abc.heap, some 0) ∧ clocks_abc.heap.size < 8 ∧
      index windata0 CLOCK = some panel_clocks) ∧
    (clock_print_info draw_ok clocks_abc 8 (some 0) windata0).map
      (fun r => (r.1, (index r.2 CLOCK).map rows)) = some (0, some [some 1, some 3, some 4, some 5]) ∧
    ∃ order ws2 wd2, pre_order clocks_abc.heap 8 0 = some order ∧
      clock_print_info draw_ok clocks_abc 8 (some 0) windata0 = some (0, ws2) ∧
      index ws2 CLOCK = some wd2 ∧
      rows wd2 = (shown clocks_abc 0 order).map some ∧
      wd2.nrdata = (shown clocks_abc 0 order).length ∧
      (∀ t, some t ∈ rows wd2 ↔ t ∈ order ∧ t ≠ 0 ∧ all_expanded clocks_abc t = true) ∧
      wd2.cursor = panel_clocks.cursor ∧ wd2.scrolling = panel_clocks.scrolling ∧
      ∀ i, i ≠ 0 → ws2.get? i = windata0.get? i :=
  ⟨⟨clocks_abc_loaded, by decide, rfl⟩, by decide,
    clock_rows_are_the_visible_nodes sys_clock 8 heap0 "/sys/kernel/debug/clock".toList none
      false 0 draw_ok clocks_abc 8 windata0 panel_clocks clocks_abc_loaded clocks_abc_Filled
      (fun _ => rfl) (fun _ => rfl) (by decide) rfl⟩

/-- C25: let the clock tree be a loaded tree in which every node has a
`struct clock_info`, let no allocation fail, and let the clock panel show a render pass,
the rows `before ++ t :: after`, with the cursor on the row of `t`.
(1) `clock_select` returns 0 and inverts the flag `expanded` of `t`: the heap with the
nodes and their links, `nrchild` and `depth`, the panels, and the `struct clock_info` of
every other node stay as they are.
(2) A node `n` with a proper ancestor `a` whose flag is `false` has no row in a
render pass; when the other proper ancestors of `n` are expanded it has one
after the flag of `a` is inverted.
(3) Enter (`clock_select`, then `clock_display(false)`) returns 0 and leaves the rows up to the
row of `t` in place, so that a second Enter inverts the flag of `t` again: it
gives back the clocks and the row list.
(4) Enter in Normal mode on a panel registered with `clock_ops` is that call. -/
theorem clock_select_toggles_the_cursor_node (sys : Sys) (fuel0 : Nat) (h0 : Heap)
    (path : List Char) (filter : tree_filter_t) (follow : Bool) (root : Nat) (dr : Draw)
    (p : Panels Clocks) (fuel : Nat) (wd : windata) (before after : List Nat) (t : Nat)
    (hload : tree_load sys fuel0 h0 path filter follow = some (p.user.heap, some root))
    (htree : p.user.clock_tree = some root)
    (hfill : Filled p.user root) (hline : ∀ x, dr.line_ok x = true)
    (hrows : ∀ n, dr.rows_ok n = true) (hfuel : p.user.heap.size < fuel)
    (hwd : index p.windata CLOCK = some wd)
    (hrow : rows wd = (shown p.user root (List.range' root (p.user.heap.size - root))).map some)
    (hs : shown p.user root (List.range' root (p.user.heap.size - root)) = before ++ t :: after)
    (hc : wd.cursor = before.length) :
    (clock_select p = some (0, { p with user := p.user.toggle t }) ∧
      (p.user.toggle t).heap = p.user.heap ∧ (p.user.toggle t).clock_tree = p.user.clock_tree ∧
      (p.user.toggle t).priv = p.user.priv ∧
      (p.user.toggle t).flag t = !p.user.flag t ∧
      ∀ u, root ≤ u → u < p.user.heap.size → u ≠ t →
        (p.user.toggle t).info u = p.user.info u) ∧
    (∀ (n a : Nat) (anc : List Nat),
      ancestors p.user.heap (p.user.heap.size + 1) (p.user.heap.cell n).parent = some anc →
      a ∈ anc → p.user.flag a = false →
      n ∉ shown p.user root (List.range' root (p.user.heap.size - root)) ∧
      (root < n → n < p.user.heap.size → (∀ b ∈ anc, b ≠ a → p.user.flag b = true) →
        n ∈ shown (p.user.toggle a) root (List.range' root (p.user.heap.size - root)))) ∧
    (∃ p1 p2 wd1 after2, clock_enter dr fuel p = some (0, p1) ∧ p1.user = p.user.toggle t ∧
      index p1.windata CLOCK = some wd1 ∧ rows wd1 = (before ++ t :: after2).map some ∧
      wd1.cursor = wd.cursor ∧
      clock_enter dr fuel p1 = some (0, p2) ∧ p2.user = p.user ∧
      (index p2.windata CLOCK).map rows = some (rows wd) ∧
      (index p2.windata CLOCK).map (fun x => x.cursor) = some wd.cursor) ∧
    (∀ (env : Env) (sys2 : Sys) (fd : Int) (data : Option Nat) (w : World Clocks)
      (wd2 : windata), focused w = some wd2 → wd2.ops = some clock_ops → (getch w).1 = 13 →
      display_keystroke env (clock_code sys2 dr fuel) fd data w =
        (call_op (clock_enter dr fuel) (getch w).2).map (fun r => (0, r.2))) := by
  obtain ⟨⟨ht1, ht2⟩, _⟩ :=
    shown_toggle_split sys fuel0 h0 path filter follow root p.user hload hfill before after t hs
  obtain ⟨e1, e2, e3, _⟩ := toggle_frame p.user t
  refine ⟨⟨?_, e1, e2, e3, toggle_flag_eq p.user root t hfill ht1 ht2,
    fun u hu1 hu2 hne => toggle_info_ne p.user root t u hfill ht1 ht2 hu1 hu2 hne⟩,
    fun n a anc hanc ha hflag => ?_, ?_,
    fun env sys2 fd data w wd2 hf ho hk =>
      display_keystroke_enter_clock env sys2 dr fuel fd data w wd2 hf ho hk⟩
  · have hrow2 := hrow
    rw [hs] at hrow2
    exact clock_select_spec p root t hfill ht1 ht2
      (display_get_row_data_spec p.windata wd before after t hwd hrow2 hc)
  · obtain ⟨g1, g2⟩ := shown_hidden sys fuel0 h0 path filter follow root p.user hload hfill n a
      anc (List.range' root (p.user.heap.size - root)) hanc ha hflag
    refine ⟨g1, fun hn1 hn2 hall => g2 ?_ hn1 hn2 hall⟩
    rw [List.mem_range'_1]
    omega
  · obtain ⟨ws1, wd1, after2, k1, k2, k3, k4, k5, _, _, _⟩ :=
      clock_enter_spec sys fuel0 h0 path filter follow root dr p fuel wd before after t hload
        htree hfill hline hrows hfuel hwd hrow hs hc
    have hload1 : tree_load sys fuel0 h0 path filter follow =
        some ((p.user.toggle t).heap, some root) := by rw [e1]; exact hload
    have k3' := k3
    have k4' := k4
    rw [← e1] at k3' k4'
    obtain ⟨ws2, wd2, after3, m1, m2, _, m4, m5, _, _, _⟩ :=
      clock_enter_spec sys fuel0 h0 path filter follow root dr
        { windata := ws1, user := p.user.toggle t } fuel wd1 before after2 t hload1
        (by rw [e2]; exact htree) (Filled_toggle p.user root t hfill) hline hrows
        (by rw [e1]; exact hfuel) k2 k4' k3' (by rw [k5]; exact hc)
    have htt := toggle_toggle p.user root t hfill ht1 ht2
    simp only [htt, e1] at m1 m4
    refine ⟨_, _, wd1, after2, k1, rfl, k2, by rw [k4, k3], k5, m1, rfl, ?_, ?_⟩
    · simp only [m2, Option.map_some', m4, hrow]
    · simp only [m2, Option.map_some', m5, k5]

theorem clock_select_toggles_the_cursor_node_witness :
    (tree_load sys_clock 8 heap0 "/sys/kernel/debug/clock".toList none false =
        some (panels_abc.user.heap, some 0) ∧
      panels_abc.user.clock_tree = some 0 ∧ panels_abc.user.heap.size < 8 ∧
      index panels_abc.windata CLOCK = some panel_abc ∧
      rows panel_abc = [some 1, some 3, some 4, some 5] ∧
      shown panels_abc.user 0 (List.range' 0 (panels_abc.user.heap.size - 0)) =
        [] ++ 1 :: [3, 4, 5] ∧
      panel_abc.cursor = 0) ∧
    (clock_enter draw_ok 8 panels_abc).map (fun r => (r.1, (index r.2.windata CLOCK).map rows)) =
      some (0, some [some 1, some 2, some 3, some 4, some 5]) ∧
    ∃ p1 p2 wd1 after2, clock_enter draw_ok 8 panels_abc = some (0, p1) ∧
      p1.user = panels_abc.user.toggle 1 ∧
      index p1.windata CLOCK = some wd1 ∧ rows wd1 = ([] ++ 1 :: after2).map some ∧
      wd1.cursor = panel_abc.cursor ∧
      clock_enter draw_ok 8 p1 = some (0, p2) ∧ p2.user = panels_abc.user ∧
      (index p2.windata CLOCK).map rows = some (rows panel_abc) ∧
      (index p2.windata CLOCK).map (fun x => x.cursor) = some panel_abc.cursor :=
  ⟨⟨clocks_abc_loaded, rfl, by decide, rfl, by decide, by decide, rfl⟩, by decide,
    (clock_select_toggles_the_cursor_node sys_clock 8 heap0 "/sys/kernel/debug/clock".toList
      none false 0 draw_ok panels_abc 8 panel_abc [] [3, 4, 5] 1 clocks_abc_loaded rfl
      clocks_abc_Filled (fun _ => rfl) (fun _ => rfl) (by decide) rfl (by decide) (by decide)
      rfl).2.2.1⟩

/-- C26 (counterexample): the clock panel shows the rows of `a`, `b`, `bb` and
`c`, the node `bx` below the collapsed node `a` having none.  `clock_find("b")` renders
the rows of `bx`, `b` and `bb`, not those of `b` and `bb` only; and the empty
query renders no row at all.  The same for the keystrokes `/` and `b`. -/
theorem clock_find_shows_hidden_nodes :
    (index panels_abc.windata CLOCK).map rows = some [some 1, some 3, some 4, some 5] ∧
    [1, 2, 3, 4, 5].map (fun t => (panels_abc.user.heap.cell t).name) =
      ["a".toList, "bx".toList, "b".toList, "bb".toList, "c".toList] ∧
    (clock_find sys_clock draw_ok 8 "b".toList panels_abc).map
      (fun r => (r.1, (index r.2.windata CLOCK).map rows)) =
        some (0, some [some 2, some 3, some 4]) ∧
    (clock_find sys_clock draw_ok 8 [] panels_abc).map
      (fun r => (r.1, (index r.2.windata CLOCK).map rows)) = some (0, some []) ∧
    clock_rows (world_clock sys_clock [47, 98]) = some [some 1, some 3, some 4, some 5] ∧
    (after_keys sys_clock 2 (world_clock sys_clock [47, 98])).bind clock_rows =
      some [some 2, some 3, some 4] := by
  refine ⟨by decide, by decide, by decide, by decide, by decide, by decide⟩

/-- C26 (amended): let the clock tree be a loaded tree in which every node has
a `struct clock_info`, and let no allocation fail.  Then `clock_find(q)` returns 0, and the row
list it leaves is, for a query `q` that is not empty, the pre-order sequence
of all the nodes of the clock tree other than the root whose name begins with
`q`, whether they had a row before or not; for the empty query it is empty.
The clocks, the cursor and the scroll offset stay as they are. -/
theorem clock_find_renders_all_matches (sys : Sys) (fuel0 : Nat) (h0 : Heap)
    (path : List Char) (filter : tree_filter_t) (follow : Bool) (root : Nat) (sys2 : Sys)
    (dr : Draw) (p : Panels Clocks) (fuel : Nat) (q : List Char) (wd : windata)
    (hload : tree_load sys fuel0 h0 path filter follow = some (p.user.heap, some root))
    (htree : p.user.clock_tree = some root)
    (hfill : Filled p.user root) (hline : ∀ x, dr.line_ok x = true)
    (hrows : ∀ n, dr.rows_ok n = true) (harr : ∀ n, sys2.array_ok n = true)
    (hfuel : p.user.heap.size < fuel) (hwd : index p.windata CLOCK = some wd) :
    ∃ order ws2 wd2, pre_order p.user.heap fuel root = some order ∧
      clock_find sys2 dr fuel q p = some (0, { p with windata := ws2 }) ∧
      index ws2 CLOCK = some wd2 ∧
      rows wd2 = (found p.user root q order).map some ∧
      wd2.nrdata = (found p.user root q order).length ∧
      (∀ t, some t ∈ rows wd2 ↔
        q ≠ [] ∧ t ∈ order ∧ t ≠ root ∧ (p.user.heap.cell t).name.take q.length = q) ∧
      wd2.cursor = wd.cursor ∧ wd2.scrolling = wd.scrolling := by
  obtain ⟨_, _, f, hl⟩ := tree_load_spec sys fuel0 h0 p.user.heap path filter follow root hload
  obtain ⟨ws2, h1, h2⟩ := clock_find_spec sys fuel0 h0 path filter follow root sys2 dr p fuel q
    hload htree hfill hline hrows harr hfuel wd hwd
  obtain ⟨wd2, hi, hr, hn, c1, c2, _, _⟩ := Printed_rows p.windata ws2 _ wd hwd h2
  refine ⟨List.range' root (p.user.heap.size - root), ws2, wd2,
    Loaded_pre_order sys filter follow path p.user.heap root f hl fuel (by omega), h1, hi, hr,
    hn, fun t => ?_, c1, c2⟩
  rw [hr]
  unfold found
  by_cases hq : q = []
  · simp [hq]
  · simp [hq]

theorem clock_find_renders_all_matches_witness :
    (tree_load sys_clock 8 heap0 "/sys/kernel/debug/clock".toList none false =
        some (panels_abc.user.heap, some 0) ∧
      panels_abc.user.clock_tree = some 0 ∧ panels_abc.user.heap.size < 8 ∧
      index panels_abc.windata CLOCK = some panel_abc) ∧
    found panels_abc.user 0 "b".toList (List.range' 0 6) = [2, 3, 4] ∧
    ∃ order ws2 wd2, pre_order panels_abc.user.heap 8 0 = some order ∧
      clock_find sys_clock draw_ok 8 "b".toList panels_abc =
        some (0, { panels_abc with windata := ws2 }) ∧
      index ws2 CLOCK = some wd2 ∧
      rows wd2 = (found panels_abc.user 0 "b".toList order).map some ∧
      wd2.nrdata = (found panels_abc.user 0 "b".toList order).length ∧
      (∀ t, some t ∈ rows wd2 ↔
        "b".toList ≠ [] ∧ t ∈ order ∧ t ≠ 0 ∧
          (panels_abc.user.heap.cell t).name.take "b".toList.length = "b".toList) ∧
      wd2.cursor = panel_abc.cursor ∧ wd2.scrolling = panel_abc.scrolling :=
  ⟨⟨clocks_abc_loaded, rfl, by decide, rfl⟩, by decide,
    clock_find_renders_all_matches sys_clock 8 heap0 "/sys/kernel/debug/clock".toList none
      false 0 sys_clock draw_ok panels_abc 8 "b".toList panel_abc clocks_abc_loaded rfl
      clocks_abc_Filled (fun _ => rfl) (fun _ => rfl) (fun _ => rfl) (by decide) rfl⟩

/-- C27 (counterexample): Enter in Normal mode on a panel whose adapter has a
display operation and no `select`.  The state of the adapters is the empty list
and the code of the adapters is `code_mark`, whose display operation appends 7
to it.  The handler returns 0 and leaves the list `[7]`: the display
operation of the adapter has run. -/
theorem enter_runs_display_operation :
    focused (world_display [13]) = some panel_display ∧
    panel_display.ops.bind (fun ops => ops.select) = none ∧
    (world_display [13]).user = [] ∧
    (display_keystroke env_two code_mark 0 none (world_display [13])).map
      (fun x => (x.1, x.2.user)) = some (0, [7]) :=
  ⟨rfl, rfl, rfl, by decide⟩

/-- C27: three states with a focused panel each.  (a) In `wn` the adapter of the
panel is missing or has no `select`, and Enter is the next key: `display_select` returns
0 and leaves the state as it is, whatever the code of the adapters; the
handler of Normal mode returns 0, and it runs no code of the adapters but
the display operation of the panel, through the `display_refresh` that follows
`display_select`: without that operation the state is the state after `getch`, with
it the state is what the operation leaves (no result when the operation
has none).  (b) In `wf` the adapter is missing or has no `selectf`, and Enter is
the next key: the handler of Find mode returns 0 with the state after
`getch`, whatever the code of the adapters.  (c) In `we` the adapter is missing
or has no `find`, and the next key edits the query (Backspace or a
character, the buffer holding a query `q`): the handler of Find mode
returns 0 with a state that does not depend on the code of the
adapters. -/
theorem absent_operation_returns_0 {σ : Type} (env : Env) (fd : Int) (wn wf we : World σ)
    (wdn wdf wde : windata) (findd finde : Nat) (blockf blocke : find_data) (q : List Char)
    (hwdn : focused wn = some wdn) (hsn : wdn.ops.bind (fun ops => ops.select) = none)
    (hkn : (getch wn).1 = 13)
    (hwdf : focused wf = some wdf) (hsf : wdf.ops.bind (fun ops => ops.selectf) = none)
    (hkf : (getch wf).1 = 13) (hbf : wf.findh findd = some blockf)
    (hwde : focused we = some wde) (hse : wde.ops.bind (fun ops => ops.find) = none)
    (k1 : (getch we).1 ≠ 27) (k2 : (getch we).1 ≠ KEY_DOWN) (k3 : (getch we).1 ≠ KEY_UP)
    (k5 : (getch we).1 ≠ 13) (hbe : we.findh finde = some blocke) (hlen : blocke.len = 64)
    (hq : holds_query blocke.string q) :
    (∀ code : Code σ, display_select code wn = some (0, wn) ∧
      display_select code (getch wn).2 = some (0, (getch wn).2)) ∧
    (∀ (code : Code σ) (data : Option Nat),
      display_keystroke env code fd data wn =
        match wdn.ops.bind (fun ops => ops.display) with
        | none => some (0, (getch wn).2)
        | some f => (call_op (code.display f false) (getch wn).2).map (fun r => (0, r.2))) ∧
    (∀ code : Code σ,
      display_find_keystroke env code fd (some findd) wf = some (0, (getch wf).2)) ∧
    (∃ w2, ∀ code : Code σ,
      display_find_keystroke env code fd (some finde) we = some (0, w2)) := by
  have hwdn1 : focused (getch wn).2 = some wdn := by rw [focused_getch]; exact hwdn
  have hwdf1 : focused (getch wf).2 = some wdf := by rw [focused_getch]; exact hwdf
  have hwde1 : focused (getch we).2 = some wde := by rw [focused_getch]; exact hwde
  have hsel : ∀ (code : Code σ) (w1 : World σ), focused w1 = some wdn →
      display_select code w1 = some (0, w1) := by
    intro code w1 h1
    unfold focused at h1
    unfold display_select
    rw [h1]
    simp only []
    rw [hsn]
  refine ⟨fun code => ⟨hsel code wn hwdn, hsel code _ hwdn1⟩, fun code data => ?_,
    fun code => ?_, ?_⟩
  · rw [display_keystroke_enter env code fd data wn hkn, hsel code _ hwdn1]
    simp only []
    have h1 := hwdn1
    unfold focused at h1
    unfold display_refresh
    simp only [ne_eq, not_true_eq_false, if_false, h1]
    cases hd : wdn.ops.bind (fun ops => ops.display) with
    | none =>
      simp only []
      split <;> rfl
    | some f => rfl
  · have h1 := hwdf1
    unfold focused at h1
    generalize hg1 : (getch wf).1 = k at hkf
    generalize hg2 : (getch wf).2 = w1 at h1
    have hg : getch wf = (k, w1) := by rw [← hg1, ← hg2]
    unfold display_find_keystroke
    subst hkf
    simp only [hbf, hg]
    have e0 : (13 : Int) ≠ 27 := by decide
    have e3 : (13 : Int) ≠ KEY_DOWN := by decide
    have e4 : (13 : Int) ≠ KEY_UP := by decide
    have e5 : (13 : Int) ≠ KEY_BACKSPACE := by decide
    simp only [e0, e3, e4, e5, if_false, if_true, h1, hsf]
  · by_cases hr : (getch we).1 ≠ KEY_BACKSPACE ∧
        regexec blocke.reg (c_str [to_char (getch we).1, NUL]) ≠ 0
    · refine ⟨(getch we).2, fun code => ?_⟩
      rw [find_keystroke_edit env code fd finde we blocke q wde hbe hlen hq hwde k1 k2 k3 k5,
        if_pos hr]
    · refine ⟨edited (getch we).2 finde blocke q wde (getch we).1, fun code => ?_⟩
      rw [find_keystroke_edit env code fd finde we blocke q wde hbe hlen hq hwde k1 k2 k3 k5,
        if_neg hr]
      refine display_find_show_absent code finde _ { wde with cursor := 0, scrolling := 0 }
        (focused_edited _ finde blocke q wde _ hwde1) ?_
      exact hse

/-- C27 (witness): the panel `panel_display`, whose adapter has a display operation
alone, focused in Normal mode with Enter to come, in Find mode with Enter to
come, and in Find mode with the character `b` to come. -/
theorem absent_operation_returns_0_witness :
    (focused (world_display [13]) = some panel_display ∧
      panel_display.ops.bind (fun ops => ops.select) = none ∧
      panel_display.ops.bind (fun ops => ops.display) = some 1 ∧
      (getch (world_display [13])).1 = 13 ∧
      focused (world_display_find [13]) = some panel_display ∧
      panel_display.ops.bind (fun ops => ops.selectf) = none ∧
      (getch (world_display_find [13])).1 = 13 ∧
      (world_display_find [13]).findh 3 = some block_empty ∧
      focused (world_display_find [98]) = some panel_display ∧
      panel_display.ops.bind (fun ops => ops.find) = none ∧
      (getch (world_display_find [98])).1 = 98 ∧
      (world_display_find [98]).findh 3 = some block_empty ∧ block_empty.len = 64 ∧
      holds_query block_empty.string []) ∧
    ((∀ code : Code (List Int),
      display_select code (world_display [13]) = some (0, world_display [13]) ∧
      display_select code (getch (world_display [13])).2 =
        some (0, (getch (world_display [13])).2)) ∧
    (∀ (code : Code (List Int)) (data : Option Nat),
      display_keystroke env_two code 0 data (world_display [13]) =
        match panel_display.ops.bind (fun ops => ops.display) with
        | none => some (0, (getch (world_display [13])).2)
        | some f =>
          (call_op (code.display f false) (getch (world_display [13])).2).map
            (fun r => (0, r.2))) ∧
    (∀ code : Code (List Int),
      display_find_keystroke env_two code 0 (some 3) (world_display_find [13]) =
        some (0, (getch (world_display_find [13])).2)) ∧
    (∃ w2, ∀ code : Code (List Int),
      display_find_keystroke env_two code 0 (some 3) (world_display_find [98]) =
        some (0, w2))) :=
  ⟨⟨rfl, rfl, rfl, rfl, rfl, rfl, rfl, rfl, rfl, rfl, rfl, rfl, rfl,
      by decide, by decide, rfl⟩,
    absent_operation_returns_0 env_two 0 (world_display [13]) (world_display_find [13])
      (world_display_find [98]) panel_display panel_display panel_display 3 3 block_empty
      block_empty [] rfl rfl rfl rfl rfl rfl rfl rfl rfl (by decide) (by decide) (by decide)
      (by decide) rfl rfl ⟨by decide, by decide, rfl⟩⟩

/-- C29: the cursor is not always below the row count when the row under it
is read.  In Find mode on the clock panel the query `z` matches no node: the
render leaves the row count 0 and the cursor 0.  Enter then calls `clock_selectf`,
whose `display_get_row_data` reads the row 0, bound to the node `a` by the render pass
before Find mode, and the panel shows the row of `a`, which does not match the
query.  On a clock tree without clocks the panel has no row and no row array:
Enter in Normal mode reads `rowdata[0]` through the `NULL` pointer, and the handler
has no defined result, while arrow-down, which compares the cursor with the
row count first, returns. -/
theorem row_read_outside_the_row_count :
    ((after_keys sys_clock 2 (world_clock sys_clock [47, 122, 13])).bind
      (fun w => (focused w).map (fun p => (p.cursor, p.nrdata, rows p)))) =
        some (0, 0, []) ∧
    ((after_keys sys_clock 2 (world_clock sys_clock [47, 122, 13])).bind
      (fun w => (handler w 0).map (fun x => x.1))) = some display_find_keystroke_addr ∧
    ((after_keys sys_clock 2 (world_clock sys_clock [47, 122, 13])).bind
      (fun w => display_get_row_data CLOCK w.windata)) = some (some 1) ∧
    ((after_keys sys_clock 3 (world_clock sys_clock [47, 122, 13])).bind clock_rows) =
      some [some 1] ∧
    (clocks_abc.heap.cell 1).name = "a".toList ∧
    (focused (world_clock sys_empty [13])).map (fun p => (p.cursor, p.nrdata, p.rowdata.length)) =
      some (0, 0, 0) ∧
    display_get_row_data CLOCK (world_clock sys_empty [13]).windata = none ∧
    (after_keys sys_empty 1 (world_clock sys_empty [13])).isSome = false ∧
    (after_keys sys_empty 1 (world_clock sys_empty [258])).isSome = true := by
  refine ⟨by decide, by decide, by decide, by decide, by decide, by decide, by decide,
    by decide, by decide⟩

/-- C30: the traversal `tree_for_each_reverse` is not free of repetitions.  Let `n` be
the second child of the root `p` and `m` the first one.  With the callback
that logs the node and returns 0, `tree_for_each_reverse(n)` returns 0 after the
calls on `n`, `m`, `p` and `p` again: the walk over the siblings before `n`
climbs to the parent, and so does the walk from `n` itself. -/
theorem tree_for_each_reverse_repeats_the_parent (h : Heap) (n m p fuel : Nat)
    (hn : (h.cell n).prev = some m ∧ (h.cell n).parent = some p)
    (hm : (h.cell m).prev = none ∧ (h.cell m).parent = some p)
    (hp : (h.cell p).prev = none ∧ (h.cell p).parent = none) :
    tree_for_each_reverse h log_node (fuel + 4) (some n) [] = some (0, [n, m, p, p]) := by
  obtain ⟨hn1, hn2⟩ := hn
  obtain ⟨hm1, hm2⟩ := hm
  obtain ⟨hp1, hp2⟩ := hp
  -- the walk from the root `p`: one call, no sibling before it, no parent
  have hroot : ∀ (k : Nat) (log : List Nat),
      tree_for_each_reverse h log_node (k + 2) (some p) log = some (0, log ++ [p]) := by
    intro k log
    simp [tree_for_each_reverse, log_node, hp1, hp2]
  -- the walk from the first child `m` climbs to `p`
  have hfirst : tree_for_each_reverse h log_node (fuel + 3) (some m) [n] =
      some (0, [n, m, p]) := by
    have e := hroot fuel ([n] ++ [m])
    unfold tree_for_each_reverse
    simp only [log_node, hm1, hm2, ne_eq, not_true_eq_false, if_false]
    have e0 : tree_for_each_reverse h log_node (fuel + 2) none ([n] ++ [m]) =
        some (0, [n] ++ [m]) := by
      unfold tree_for_each_reverse
      rfl
    rw [e0]
    simp only [ne_eq, not_true_eq_false, if_false]
    rw [e]
    rfl
  -- the walk from `n` does that walk, and then climbs to `p` itself
  have hclimb := hroot (fuel + 1) [n, m, p]
  unfold tree_for_each_reverse
  simp only [log_node, hn1, hn2, ne_eq, not_true_eq_false, if_false, List.nil_append]
  rw [hfirst]
  simp only [ne_eq, not_true_eq_false, if_false]
  rw [hclimb]
  rfl

theorem tree_for_each_reverse_repeats_the_parent_witness :
    (((tree_abd.cell 3).prev = some 1 ∧ (tree_abd.cell 3).parent = some 0) ∧
      ((tree_abd.cell 1).prev = none ∧ (tree_abd.cell 1).parent = some 0) ∧
      ((tree_abd.cell 0).prev = none ∧ (tree_abd.cell 0).parent = none)) ∧
    tree_for_each tree_abd log_node 5 (some 0) [] = some (0, [0, 1, 2, 3]) ∧
    tree_for_each_reverse tree_abd log_node 4 (some 3) [] = some (0, [3, 1, 0, 0]) :=
  ⟨by decide, by decide,
    tree_for_each_reverse_repeats_the_parent tree_abd 3 1 0 0 (by decide) (by decide)
      (by decide)⟩

end PowerDebug
